import Mathlib

/-!
# Bone Lisp (`bone.c`): a verification development

A shallow embedding of the interpreter in `src/bone.c`, in three layers.

* The *word layer* (`Bone.Word`) models an `any` as the 64-bit machine word it is
  (a natural number below `2^64`).  Tagging, the number encoding, the hash table and
  the symbol table live here.
* The *value layer* (`Bone.Val`) models the pairs, strings, symbols and immediates
  that the reader, the printer, the compiler and the virtual machine handle as a
  tree.  A symbol is identified with its text there, which is what interning
  provides (see the `intern` theorems for when it does).
* The *memory layer* (`Bone.Region`) models memory as words at addresses, for the
  region stack and for `copy` on subs.

C `int` and `int32_t` arithmetic is modelled on `Int` with an explicit wrap to 32
bits (two's complement), `unsigned` arithmetic on `Nat` modulo `2^32`.
-/

namespace Bone

/-! ## Machine integers -/

/-- Two's-complement wrap of an integer to the `int32_t` range. -/
def wrap32 (n : Int) : Int := (n + 2147483648) % 4294967296 - 2147483648

/-- The `int32_t` range. -/
def isInt32 (n : Int) : Prop := -2147483648 ≤ n ∧ n ≤ 2147483647

instance (n : Int) : Decidable (isInt32 n) := by unfold isInt32; infer_instance

/-- Wrap of a natural number to the `unsigned` (32-bit) range. -/
def wrapU32 (n : Nat) : Nat := n % 4294967296

/-- Wrap of a natural number to the `uint64_t` range. -/
def wrap64 (n : Nat) : Nat := n % 18446744073709551616

/-- Ways in which the C program stops without returning: every error path of
`bone.c` ends in `abort()`; `diverge` stands for a loop or recursion that never
ends, `undefined` for an access outside what the model describes. -/
inductive Err
  | type_error
  | parse_error (text : String)
  | args_error
  | unbound_sym
  | abort
  | unknown_instruction
  | diverge
  | undefined
  deriving DecidableEq, Repr

instance instDecidableEqExcept {ε α : Type} [DecidableEq ε] [DecidableEq α] :
    DecidableEq (Except ε α)
  | .ok a, .ok b => if h : a = b then isTrue (by rw [h]) else isFalse (fun h2 => h (by cases h2; rfl))
  | .error a, .error b =>
    if h : a = b then isTrue (by rw [h]) else isFalse (fun h2 => h (by cases h2; rfl))
  | .ok _, .error _ => isFalse (fun h => by cases h)
  | .error _, .ok _ => isFalse (fun h => by cases h)

/-! ## Word layer: tags and numbers (`bone.c` lines 29-62) -/

namespace Word

def t_cons : Nat := 0
def t_sym : Nat := 1
def t_uniq : Nat := 2
def t_str : Nat := 3
def t_reg : Nat := 4
def t_sub : Nat := 5
def t_num : Nat := 6
def t_other : Nat := 7

/-- `#define UNIQ(n) (t_uniq | (010*(n)))`; `010` is octal eight, and the low three
bits of `8*n` are clear, so the bitwise or is a sum. -/
def UNIQ (n : Nat) : Nat := t_uniq ||| (8 * n)

def NIL : Nat := UNIQ 0
def BTRUE : Nat := UNIQ 1
def BFALSE : Nat := UNIQ 2
def ENDOFFILE : Nat := UNIQ 3
def HASH_SLOT_UNUSED : Nat := UNIQ 100
def HASH_SLOT_DELETED : Nat := UNIQ 101
def READER_LIST_END : Nat := UNIQ 102

/-- `tag_of(x)`: `x & 7`. -/
def tag_of (x : Nat) : Nat := x &&& 7

/-- `is_tagged(x, t)`. -/
def is_tagged (x t : Nat) : Bool := tag_of x == t

/-- `check(x, t)`: a type error unless the tag matches. -/
def check (x t : Nat) : Except Err Unit :=
  if is_tagged x t then .ok () else .error .type_error

/-- `tag(x, t)`: `x | t`. -/
def tag (x t : Nat) : Nat := x ||| t

/-- `untag(x)`: `x & ~7` on 64-bit words. -/
def untag (x : Nat) : Nat := x &&& (18446744073709551615 - 7)

/-- `int2any(n)`: the word `t_num` with its upper 32-bit half (index 1 of the word
seen as two `int32_t` on a little-endian host) overwritten by the bit pattern of
`n`. -/
def int2any (n : Int) : Nat := t_num + 4294967296 * (n % 4294967296).toNat

/-- `any2int(x)`: checks the tag and returns the upper 32-bit half as an `int32_t`. -/
def any2int (x : Nat) : Except Err Int :=
  match check x t_num with
  | .error e => .error e
  | .ok () => .ok (wrap32 ((x / 4294967296 % 4294967296 : Nat) : Int))

end Word

/-! ## Hash tables (`bone.c` lines 142-181)

Keys and values are words.  `keys` and `vals` are the two `malloc`ed arrays; a cell
of `vals` that was never written holds no definite value (`none`), and reading it is
`undefined`. -/

namespace Word

/-- `MAXLOAD`. -/
def MAXLOAD : Nat := 175

/-- The struct behind a `hash`, with the arrays `keys` and `vals` by content. -/
structure Hash where
  size : Nat
  taken_slots : Nat
  keys : List Nat
  vals : List (Option Nat)
  default_value : Nat
  deriving DecidableEq, Repr

/-- `hash_new(initsize, default_val)`. -/
def hash_new (initsize default_val : Nat) : Hash :=
  { size := initsize, taken_slots := 0, default_value := default_val,
    keys := List.replicate initsize HASH_SLOT_UNUSED,
    vals := List.replicate initsize none }

/-- The `while(1)` loop of `find_slot`, started at `pos` with `first_deleted` (`none`
for -1, so `first_deleted.getD pos` is `first_deleted` when set and `pos` otherwise).
`fuel` counts the probes still allowed. -/
def find_slot_loop (h : Hash) (key : Nat) : Nat → Nat → Option Nat → Except Err (Bool × Nat)
  | 0, _, _ => .error .diverge
  | fuel + 1, pos, first_deleted =>
    match h.keys[pos]? with
    | none => .error .undefined
    | some k =>
      if k = key then .ok (true, pos)
      else if k = HASH_SLOT_UNUSED then
        .ok (false, first_deleted.getD pos)
      else
        find_slot_loop h key fuel
          (if wrapU32 (pos + 1) = h.size then 0 else wrapU32 (pos + 1))
          (if k = HASH_SLOT_DELETED then some (first_deleted.getD pos) else first_deleted)

/-- `find_slot(h, key, &pos)`: the result and `*pos`.  The loop visits the slots in
cyclic order and leaves only at `key` or at an unused slot; after `size` probes it
has seen every slot, so if it has not left by then it never will. -/
def find_slot (h : Hash) (key : Nat) : Except Err (Bool × Nat) :=
  if h.size = 0 then .error .undefined
  else find_slot_loop h key h.size (key % h.size) none

/-- `slot_used(x)`. -/
def slot_used (x : Nat) : Bool := x != HASH_SLOT_UNUSED && x != HASH_SLOT_DELETED

/-- The `for` loop of `enlarge_table` over the slots of the old table (given as the
list of its key and value cells), with `set` for the call `hash_set(new, ..)`. -/
def enlarge_loop (set : Hash → Nat → Nat → Except Err Hash) :
    List (Nat × Option Nat) → Hash → Except Err Hash
  | [], new => .ok new
  | (k, v) :: rest, new =>
    if slot_used k then
      match v with
      | none => .error .undefined
      | some val =>
        match set new k val with
        | .error e => .error e
        | .ok new2 => enlarge_loop set rest new2
    else enlarge_loop set rest new

/-- `enlarge_table(h)` with `set` for the calls of `hash_set` on the new table.  Only
`size`, `keys` and `vals` are taken over from the new table. -/
def enlarge_table_with (set : Hash → Nat → Nat → Except Err Hash) (h : Hash) :
    Except Err Hash :=
  match enlarge_loop set ((h.keys.zip h.vals).take h.size)
      (hash_new (wrapU32 (h.size * 2 + 1)) NIL) with
  | .error e => .error e
  | .ok new => .ok { h with size := new.size, keys := new.keys, vals := new.vals }

/-- `hash_set(h, key, val)`.  `hash_set` and `enlarge_table` call each other; `fuel`
bounds the depth of that recursion. -/
def hash_set : Nat → Hash → Nat → Nat → Except Err Hash
  | 0, _, _, _ => .error .diverge
  | fuel + 1, h, key, val =>
    match find_slot h key with
    | .error e => .error e
    | .ok (true, pos) =>
      .ok { h with keys := h.keys.set pos key, vals := h.vals.set pos (some val) }
    | .ok (false, pos) =>
      if wrapU32 (wrapU32 (h.taken_slots + 1) * 256) / h.size > MAXLOAD then
        match enlarge_table_with (hash_set fuel)
            { h with taken_slots := wrapU32 (h.taken_slots + 1) } with
        | .error e => .error e
        | .ok h2 =>
          match find_slot h2 key with
          | .error e => .error e
          | .ok (_, pos2) =>
            .ok { h2 with keys := h2.keys.set pos2 key, vals := h2.vals.set pos2 (some val) }
      else
        .ok { h with taken_slots := wrapU32 (h.taken_slots + 1),
                     keys := h.keys.set pos key, vals := h.vals.set pos (some val) }

/-- `enlarge_table(h)`. -/
def enlarge_table (fuel : Nat) (h : Hash) : Except Err Hash :=
  enlarge_table_with (hash_set fuel) h

/-- `hash_get(h, key)`. -/
def hash_get (h : Hash) (key : Nat) : Except Err Nat :=
  match find_slot h key with
  | .error e => .error e
  | .ok (true, pos) =>
    match h.vals[pos]? with
    | some (some v) => .ok v
    | _ => .error .undefined
  | .ok (false, _) => .ok h.default_value

/-- `hash_rm(h, key)`. -/
def hash_rm (h : Hash) (key : Nat) : Except Err Hash :=
  match find_slot h key with
  | .error e => .error e
  | .ok (true, pos) =>
    .ok { h with keys := h.keys.set pos HASH_SLOT_DELETED,
                 taken_slots := wrapU32 (h.taken_slots + 4294967295) }
  | .ok (false, _) => .ok h

end Word

/-! ## Allocation in a region (`bone.c` lines 30, 66-101)

`reg_alloc(n)` bumps `allocp` by `n` words and returns when the new `allocp` lies in
the current block; otherwise it takes a fresh block, sets `allocp` one word past the
block start and tries again.  An object of `n` words is therefore handed out exactly
when `n + 1 < blockwords` (in the current block or in the first fresh one); for a
larger `n` the retry never ends.  `blockwords` (the page size of the host in words)
is a parameter.  The model takes `mmap` and `malloc` to succeed. -/

/-- `bytes2words(n)`: `(n-1)/sizeof(any) + 1` in `size_t` arithmetic. -/
def bytes2words (n : Nat) : Nat := wrap64 (n + 18446744073709551615) / 8 + 1

/-- Whether `reg_alloc(n)` returns, for blocks of `blockwords` words. -/
def reg_alloc_returns (blockwords n : Nat) : Bool := n + 1 < blockwords

/-- `reg_alloc(n)` as far as the value layer sees it: the call returns, or never
does. -/
def reg_alloc (blockwords n : Nat) : Except Err Unit :=
  if reg_alloc_returns blockwords n then .ok () else .error .diverge

/-! ## Value layer: the data model (`bone.c` lines 29-47, 109-138) -/

/-- The native primitives `CSUB_*` of the library section; a value of this type
stands for the address of the C function. -/
inductive CSub
  | simpleplus | fullplus | cons | print | apply | id | nilp | eqp | not | car | cdr
  | consp | symp | subp | nump | strp | str | unstr | len | assoq | intern | copy | say
  | unaryminus | simpleminus | fullminus
  | simple_num_eqp | simple_num_neqp | simple_num_gtp | simple_num_ltp
  | simple_num_geqp | simple_num_leqp | each
  deriving DecidableEq, Repr

/-- An `any` as the reader, printer, compiler and virtual machine see it.

* `cons a d`: a pointer (tag 0) to a pair; the pair is given by its contents.
* `sym name`: a pointer (tag 1) to the interned bytes `name`.
* `uniq n`: the sentinel `UNIQ(n)`.
* `str chrs`: a pointer (tag 3) to a one-word object holding `chrs`.
* `reg r`, `sub p`: a region handle, a pointer to a sub object (kept in a store).
* `num n`: a number; `n` is the `int32_t` payload.
* `raw w`: a word of a code vector that is not a tagged value (an opcode, a code
  pointer); `cptr f`: the address of a native primitive. -/
inductive Val
  | cons (a d : Val)
  | sym (name : List Nat)
  | uniq (n : Nat)
  | str (chrs : Val)
  | reg (r : Nat)
  | sub (p : Nat)
  | num (n : Int)
  | raw (w : Nat)
  | cptr (f : CSub)
  deriving DecidableEq, Repr

def NIL : Val := .uniq 0
def BTRUE : Val := .uniq 1
def BFALSE : Val := .uniq 2
def ENDOFFILE : Val := .uniq 3
def HASH_SLOT_UNUSED : Val := .uniq 100
def HASH_SLOT_DELETED : Val := .uniq 101
def READER_LIST_END : Val := .uniq 102
def BINDING_DEFINED : Val := .uniq 103
def BINDING_DECLARED : Val := .uniq 104
def IN_ARGS : Val := .uniq 105
def IN_ENV : Val := .uniq 106

/-- `is_nil(x)`: `x == NIL`. -/
def is_nil (x : Val) : Bool := x == NIL

/-- `is(x)`: `x != BFALSE`. -/
def is (x : Val) : Bool := x != BFALSE

/-- `to_bool(x)`. -/
def to_bool (x : Bool) : Val := if x then BTRUE else BFALSE

/-- `is_cons(x)`: the tag test `is_tagged(x, t_cons)`. -/
def is_cons : Val → Bool
  | .cons _ _ => true
  | _ => false

/-- `is_sym(x)`. -/
def is_sym : Val → Bool
  | .sym _ => true
  | _ => false

/-- `is_num(x)`. -/
def is_num : Val → Bool
  | .num _ => true
  | _ => false

/-- `far(x)`, the unchecked car; only ever applied to pairs. -/
def far : Val → Val
  | .cons a _ => a
  | x => x

/-- `fdr(x)`, the unchecked cdr; only ever applied to pairs. -/
def fdr : Val → Val
  | .cons _ d => d
  | x => x

/-- `is_single(x)`: `is_cons(x) && is_nil(fdr(x))`. -/
def is_single (x : Val) : Bool := is_cons x && is_nil (fdr x)

/-- `single(x)`: `cons(x, NIL)`. -/
def single (x : Val) : Val := .cons x NIL

/-- The proper list of the given items, as a chain of pairs ending in `NIL`. -/
def Val.list : List Val → Val
  | [] => NIL
  | x :: xs => .cons x (Val.list xs)

/-- `any2int(x)` on values: a type error unless `x` is a number. -/
def any2int : Val → Except Err Int
  | .num n => .ok n
  | _ => .error .type_error

/-- `int2any(n)` on values; the argument is converted to `int32_t`. -/
def int2any (n : Int) : Val := .num (wrap32 n)

/-- The list of number values of the given character codes (what `read_sym_chars`
and `charp2list` build cell by cell). -/
def chars (text : List Nat) : Val := Val.list (text.map fun (c : Nat) => int2any (c : Int))

/-- The byte codes of a string literal of this file. -/
def bytes (s : String) : List Nat := s.toList.map Char.toNat

/-! ## Number syntax (`bone.c` lines 325-339) and `printf("%d")` -/

/-- `digit2int(chr)`. -/
def digit2int (chr : Val) : Except Err Int :=
  match any2int chr with
  | .error e => .error e
  | .ok c =>
    let dig := wrap32 (c - 48)
    .ok (if dig ≥ 0 ∧ dig ≤ 9 then dig else -1)

/-- The `foreach` loop of `chars2num` and the final `return`, with the locals
`ires`, `pos`, `is_positive`, `is_num` as arguments; `int` arithmetic wraps. -/
def chars2num_loop : Val → Int → Int → Bool → Bool → Except Err Val
  | .cons chr rest, ires, pos, is_positive, is_num =>
    match digit2int chr with
    | .error e => .error e
    | .ok dig =>
      let pos1 := wrap32 (pos + 1)
      if dig = -1 then
        if pos1 ≠ 1 then .ok BFALSE
        else match any2int chr with
          | .error e => .error e
          | .ok c =>
            if c = 45 then chars2num_loop rest ires pos1 false is_num
            else if c = 43 then chars2num_loop rest ires pos1 is_positive is_num
            else .ok BFALSE
      else chars2num_loop rest (wrap32 (wrap32 (ires * 10) + dig)) pos1 is_positive true
  | _, ires, _, is_positive, is_num =>
    .ok (if !is_num then BFALSE else int2any (if is_positive then ires else wrap32 (-ires)))

/-- `chars2num(chrs)`. -/
def chars2num (chrs : Val) : Except Err Val := chars2num_loop chrs 0 0 true false

/-- The decimal digits of `k`, least significant first, as character codes;
`fuel` bounds the number of digits. -/
def dec_digits_rev : Nat → Nat → List Nat
  | 0, _ => []
  | fuel + 1, k => (48 + k % 10) :: (if k / 10 = 0 then [] else dec_digits_rev fuel (k / 10))

/-- The text `printf("%d", n)` of the C library writes: a minus sign for a negative
number, then the decimal digits without leading zeros. -/
def printf_d (n : Int) : List Nat :=
  (if n < 0 then [45] else []) ++ (dec_digits_rev (n.natAbs + 1) n.natAbs).reverse

/-- A decimal digit, as a character code. -/
def is_digit_char (c : Int) : Bool := decide (48 ≤ c) && decide (c ≤ 57)

/-- The update `ires *= 10; ires += dig` of `chars2num` for the digit character
`c`. -/
def chars2num_step (ires c : Int) : Int := wrap32 (wrap32 (ires * 10) + (c - 48))

/-- What `chars2num` computes on a list of characters, written by cases on the
first character. -/
def chars2num_value : List Int → Val
  | [] => BFALSE
  | c :: R =>
    if is_digit_char c then
      (if R.all is_digit_char then int2any (R.foldl chars2num_step (chars2num_step 0 c))
       else BFALSE)
    else if c = 45 then
      (if R.all is_digit_char && !R.isEmpty then
        int2any (wrap32 (-(R.foldl chars2num_step 0))) else BFALSE)
    else if c = 43 then
      (if R.all is_digit_char && !R.isEmpty then
        int2any (R.foldl chars2num_step 0) else BFALSE)
    else BFALSE

/-! ## Symbols from character lists (`bone.c` lines 134-138, 203-211, 340)

In the value layer `intern` is the map from a text to the symbol of that text; the
symbol table that implements it is modelled in the word layer. -/

/-- `list2charp(x)`: the bytes of the buffer before its terminating NUL; each
element is converted to `char`. -/
def list2charp : Val → Except Err (List Nat)
  | .cons c rest =>
    match any2int c with
    | .error e => .error e
    | .ok n =>
      match list2charp rest with
      | .error e => .error e
      | .ok t => .ok ((n % 256).toNat :: t)
  | _ => .ok []

/-- The C string that starts a byte buffer: the bytes before the first NUL. -/
def cstring (buf : List Nat) : List Nat := buf.takeWhile (fun b => b != 0)

/-- `intern(name)` in the value layer: the symbol of the text `name`.  A text that
is not in the table yet is copied into `bytes2words(len+1)` words of the permanent
region (`add_sym`), so `intern` returns only for a text that fits in a block. -/
def intern (blockwords : Nat) (name : List Nat) : Except Err Val :=
  match reg_alloc blockwords (bytes2words ((cstring name).length + 1)) with
  | .error e => .error e
  | .ok () => .ok (.sym (cstring name))

/-- `intern_from_chars(chrs)`. -/
def intern_from_chars (blockwords : Nat) (chrs : Val) : Except Err Val :=
  match list2charp chrs with
  | .error e => .error e
  | .ok s => intern blockwords s

/-- `chars_to_num_or_sym(cs)`. -/
def chars_to_num_or_sym (blockwords : Nat) (cs : Val) : Except Err Val :=
  match chars2num cs with
  | .error e => .error e
  | .ok num => if is num then .ok num else intern_from_chars blockwords cs

/-- The number syntax of the specification: an optional single `+` or `-` followed
by one or more decimal digits. -/
def is_number_text : List Int → Bool
  | [] => false
  | c :: rest =>
    if c = 43 ∨ c = 45 then !rest.isEmpty && rest.all is_digit_char
    else is_digit_char c && rest.all is_digit_char

/-! ## Symbols of the interpreter (`init_syms`, `bone.c` lines 213-217)

In the value layer a symbol is its text; the byte codes are written out. -/

/-- The symbol `quote`. -/
def s_quote : Val := .sym [113, 117, 111, 116, 101]
/-- The symbol `quasiquote`. -/
def s_quasiquote : Val := .sym [113, 117, 97, 115, 105, 113, 117, 111, 116, 101]
/-- The symbol `unquote`. -/
def s_unquote : Val := .sym [117, 110, 113, 117, 111, 116, 101]
/-- The symbol `unquote-splicing`. -/
def s_unquote_splicing : Val :=
  .sym [117, 110, 113, 117, 111, 116, 101, 45, 115, 112, 108, 105, 99, 105, 110, 103]
/-- The symbol `lambda`. -/
def s_lambda : Val := .sym [108, 97, 109, 98, 100, 97]
/-- The symbol `with`. -/
def s_with : Val := .sym [119, 105, 116, 104]
/-- The symbol `if`. -/
def s_if : Val := .sym [105, 102]
/-- The symbol `.`. -/
def s_dot : Val := .sym [46]

/-! ## Printer (`bone.c` lines 251-292)

`print` writes to standard output; here it returns the bytes written, or the way
the program stops.  The text is lost when the program stops half-way. -/

/-- The `foreach` loop of the `t_str` case of `print`: the escapes for `"`, `\`,
newline and tab, and `putchar` (which writes its argument as `unsigned char`). -/
def print_str_chars : Val → Except Err (List Nat)
  | .cons c rest =>
    match any2int c with
    | .error e => .error e
    | .ok n =>
      match print_str_chars rest with
      | .error e => .error e
      | .ok t =>
        .ok ((if n = 34 then [92, 34]
              else if n = 92 then [92, 92]
              else if n = 10 then [92, 110]
              else if n = 9 then [92, 116]
              else [(n % 256).toNat]) ++ t)
  | _ => .ok []

/-- The cases of `print` other than `t_cons`.  The text for a region or a sub
contains a machine address (`%p`), which this layer does not have: `undefined`. -/
def print_atom : Val → Except Err (List Nat)
  | .cons _ _ => .error .undefined
  | .sym name => .ok name
  | .num n => .ok (printf_d n)
  | .uniq n =>
    if n = 0 then .ok [40, 41]
    else if n = 1 then .ok [35, 116]
    else if n = 2 then .ok [35, 102]
    else if n = 3 then .ok [35, 123, 101, 111, 102, 125]
    else .error .abort
  | .str chrs =>
    match print_str_chars chrs with
    | .error e => .error e
    | .ok t => .ok ([34] ++ t ++ [34])
  | .reg _ => .error .undefined
  | .sub _ => .error .undefined
  | .raw _ => .error .undefined
  | .cptr _ => .error .undefined

/-- Sequencing of two printing steps: the second runs only if the first returns. -/
def print_seq (a b : Except Err (List Nat)) : Except Err (List Nat) :=
  match a with
  | .error e => .error e
  | .ok x =>
    match b with
    | .error e => .error e
    | .ok y => .ok (x ++ y)

mutual
/-- `print(x)`.  In the pair case the quote family and the lambda short form are
tried first (the tests `a == s_quote` etc. sit under `is_sym(far(x))`); the
generic list syntax follows. -/
def print : Val → Except Err (List Nat)
  | .cons a d =>
    if is_sym a && a == s_quote then print_seq (.ok [39]) (print d)
    else if is_sym a && a == s_quasiquote then print_seq (.ok [96]) (print d)
    else if is_sym a && a == s_unquote then print_seq (.ok [44]) (print d)
    else if is_sym a && a == s_unquote_splicing then print_seq (.ok [44, 64]) (print d)
    else if is_sym a && (a == s_lambda && is_cons d && is_single (fdr d)
        && is_cons (far (fdr d))) then
      print_seq (.ok [124, 32]) (print_seq (print_lambda_args d) (print_lambda_body d))
    else print_seq (.ok [40]) (print_seq (print a) (print_tail d))
  | x => print_atom x
/-- The rest of the `do ... while` loop of `print` after an element was printed:
`x` is the remaining tail; then the improper tail, if any, and the closing `)`. -/
def print_tail : Val → Except Err (List Nat)
  | .cons a d => print_seq (.ok [32]) (print_seq (print a) (print_tail d))
  | x => if x != NIL then print_seq (.ok [32, 46, 32]) (print_seq (print_atom x) (.ok [41]))
         else .ok [41]
/-- `print_args(x)`. -/
def print_args : Val → Except Err (List Nat)
  | .cons a d => print_seq (print a) (print_seq (.ok [32]) (print_args d))
  | x => if !is_nil x then print_seq (.ok [46, 32]) (print_seq (print_atom x) (.ok [32]))
         else .ok []
/-- `print_args(far(fdr(x)))` of the lambda case, as a function of `fdr(x)`. -/
def print_lambda_args : Val → Except Err (List Nat)
  | .cons args _ => print_args args
  | _ => .error .undefined
/-- `print(far(fdr(fdr(x))))` of the lambda case, as a function of `fdr(x)`. -/
def print_lambda_body : Val → Except Err (List Nat)
  | .cons _ dd => print_first dd
  | _ => .error .undefined
/-- `print(far(x))`. -/
def print_first : Val → Except Err (List Nat)
  | .cons b _ => print b
  | _ => .error .undefined
end

/-! ## Reader (`bone.c` lines 302-399)

Standard input is the list of the bytes still to be read; after the last one
`getchar` returns `EOF` (-1), again and again.  `reader`, `read_list` and
`lambda_parse` call each other without bound in C; here they take a `fuel` that
every call lowers by one, and running out of it is reported as `diverge`. -/

/-- `EOF` of `<stdio.h>`. -/
def EOF : Int := -1

/-- The table `allowed_chars`: 128 entries. -/
def allowed_chars : List Bool :=
  [false, false, false, false, false, false, false, false, false, false, false, false, false,
   false, false, false, false, false, false, false, false, false, false, false, false, false,
   false, false, false, false, false, false,
   false, true, false, false, true, true, true, false, false, false, true, true, false, true,
   true, true, true, true, true, true, true, true, true, true, true, true, true, false, true,
   true, true, true,
   false, true, true, true, true, true, true, true, true, true, true, true, true, true, true,
   true, true, true, true, true, true, true, true, true, true, true, true, false, true, false,
   true, true,
   false, true, true, true, true, true, true, true, true, true, true, true, true, true, true,
   true, true, true, true, true, true, true, true, true, true, true, true, false, false, false,
   true, false]

/-- `is_symchar(c)`: `(c >= 0 && c < 256) ? allowed_chars[c] : c!=EOF`.  The table
has 128 entries; an index from 128 to 255 reads past its end, which is `undefined`
here. -/
def is_symchar (c : Int) : Except Err Bool :=
  if 0 ≤ c ∧ c < 256 then
    match allowed_chars[c.toNat]? with
    | some b => .ok b
    | none => .error .undefined
  else .ok (c != EOF)

/-- `nextc()`, that is `getchar()`: the next byte and the remaining input. -/
def nextc : List Nat → Int × List Nat
  | [] => (EOF, [])
  | c :: rest => ((c : Int), rest)

/-- `look()`: the next byte, left in the input. -/
def look : List Nat → Int
  | [] => EOF
  | c :: _ => (c : Int)

/-- `skip_until(end)`: reads up to and including the first `end`, or to the end of
the input. -/
def skip_until (end_char : Int) : List Nat → List Nat
  | [] => []
  | c :: rest => if (c : Int) = end_char then rest else skip_until end_char rest

/-- The loop of `find_token`; every round reads at least one byte, so `fuel` above
the input length is never used up. -/
def find_token_loop : Nat → List Nat → Int × List Nat
  | 0, inp => (EOF, inp)
  | fuel + 1, inp =>
    match nextc inp with
    | (c, rest) =>
      if c = 59 then find_token_loop fuel (skip_until 10 rest)
      else if c = 32 ∨ c = 9 ∨ c = 10 ∨ c = 12 ∨ c = 13 then find_token_loop fuel rest
      else (c, rest)

/-- `find_token()`: skips white space and `;` comments, returns the next byte. -/
def find_token (inp : List Nat) : Int × List Nat := find_token_loop (inp.length + 1) inp

/-- The `while` loop of `read_sym_chars`: the cells for the bytes that satisfy
`is_symchar`, and the remaining input. -/
def read_sym_chars_loop : List Nat → Except Err (List Val × List Nat)
  | [] => .ok ([], [])
  | c :: rest =>
    match is_symchar (c : Int) with
    | .error e => .error e
    | .ok false => .ok ([], c :: rest)
    | .ok true =>
      match read_sym_chars_loop rest with
      | .error e => .error e
      | .ok (cs, rest2) => .ok (int2any (c : Int) :: cs, rest2)

/-- `read_sym_chars(start_char)`. -/
def read_sym_chars (start_char : Int) (inp : List Nat) : Except Err (Val × List Nat) :=
  match read_sym_chars_loop inp with
  | .error e => .error e
  | .ok (cs, rest) => .ok (Val.list (int2any start_char :: cs), rest)

/-- The loop of `read_str`: the cells of the string and the remaining input.  After
a backslash only `\`, `'`, `n` and `t` are accepted. -/
def read_str_loop : List Nat → Except Err (List Val × List Nat)
  | [] => .error (.parse_error "end of file inside of a str")
  | c :: rest =>
    if c = 34 then .ok ([], rest)
    else if c = 92 then
      match rest with
      | [] => .error (.parse_error "end of file after backslash in str")
      | c2 :: rest2 =>
        if c2 = 92 ∨ c2 = 39 then
          match read_str_loop rest2 with
          | .error e => .error e
          | .ok (cs, rest3) => .ok (int2any (c2 : Int) :: cs, rest3)
        else if c2 = 110 then
          match read_str_loop rest2 with
          | .error e => .error e
          | .ok (cs, rest3) => .ok (int2any 10 :: cs, rest3)
        else if c2 = 116 then
          match read_str_loop rest2 with
          | .error e => .error e
          | .ok (cs, rest3) => .ok (int2any 9 :: cs, rest3)
        else .error (.parse_error "invalid character after backslash in str")
    else
      match read_str_loop rest with
      | .error e => .error e
      | .ok (cs, rest2) => .ok (int2any (c : Int) :: cs, rest2)

/-- `read_str()`. -/
def read_str (inp : List Nat) : Except Err (Val × List Nat) :=
  match read_str_loop inp with
  | .error e => .error e
  | .ok (cs, rest) => .ok (.str (Val.list cs), rest)

mutual
/-- `reader()`. -/
def reader (blockwords : Nat) : Nat → List Nat → Except Err (Val × List Nat)
  | 0, _ => .error .diverge
  | fuel + 1, inp =>
    match find_token inp with
    | (c, rest) =>
      if c = 41 then .ok (READER_LIST_END, rest)
      else if c = 40 then read_list blockwords fuel rest
      else if c = 124 then read_lambda_short_form blockwords fuel rest
      else if c = 39 then
        match reader blockwords fuel rest with
        | .error e => .error e
        | .ok (x, rest2) => .ok (.cons s_quote x, rest2)
      else if c = 96 then
        match reader blockwords fuel rest with
        | .error e => .error e
        | .ok (x, rest2) => .ok (.cons s_quasiquote x, rest2)
      else if c = 44 then read_unquote blockwords fuel rest
      else if c = 34 then read_str rest
      else if c = 35 then
        match nextc rest with
        | (c2, rest2) =>
          if c2 = 102 then .ok (BFALSE, rest2)
          else if c2 = 116 then .ok (BTRUE, rest2)
          else if c2 = 33 then reader blockwords fuel (skip_until 10 rest2)
          else .error (.parse_error "invalid character after #")
      else if c = EOF then .ok (ENDOFFILE, rest)
      else
        match read_sym_chars c rest with
        | .error e => .error e
        | .ok (cs, rest2) =>
          match chars_to_num_or_sym blockwords cs with
          | .error e => .error e
          | .ok v => .ok (v, rest2)
/-- `read_list()`. -/
def read_list (blockwords : Nat) : Nat → List Nat → Except Err (Val × List Nat)
  | 0, _ => .error .diverge
  | fuel + 1, inp =>
    match reader blockwords fuel inp with
    | .error e => .error e
    | .ok (x, rest) =>
      if x = READER_LIST_END then .ok (NIL, rest)
      else if x = ENDOFFILE then .error (.parse_error "end of file in list")
      else if x = s_dot then
        match reader blockwords fuel rest with
        | .error e => .error e
        | .ok (x2, rest2) =>
          match reader blockwords fuel rest2 with
          | .error e => .error e
          | .ok (y, rest3) =>
            if y != READER_LIST_END then .error (.parse_error "invalid improper list")
            else .ok (x2, rest3)
      else
        match read_list blockwords fuel rest with
        | .error e => .error e
        | .ok (tail, rest2) => .ok (.cons x tail, rest2)
/-- `lambda_parser(&body)` (renamed): returns the parameter list and the body. -/
def lambda_parse (blockwords : Nat) : Nat → List Nat → Except Err ((Val × Val) × List Nat)
  | 0, _ => .error .diverge
  | fuel + 1, inp =>
    match reader blockwords fuel inp with
    | .error e => .error e
    | .ok (x, rest) =>
      if is_cons x then .ok ((NIL, x), rest)
      else if x = s_dot then
        match reader blockwords fuel rest with
        | .error e => .error e
        | .ok (params, rest2) =>
          match reader blockwords fuel rest2 with
          | .error e => .error e
          | .ok (body, rest3) => .ok ((params, body), rest3)
      else if is_nil x then
        .error (.parse_error "empty body expression not allowed in lambda short form")
      else
        match lambda_parse blockwords fuel rest with
        | .error e => .error e
        | .ok ((params, body), rest2) => .ok ((.cons x params, body), rest2)
/-- `read_lambda_short_form()`. -/
def read_lambda_short_form (blockwords : Nat) : Nat → List Nat → Except Err (Val × List Nat)
  | 0, _ => .error .diverge
  | fuel + 1, inp =>
    match lambda_parse blockwords fuel inp with
    | .error e => .error e
    | .ok ((params, body), rest) => .ok (.cons s_lambda (.cons params (single body)), rest)
/-- `read_unquote()`. -/
def read_unquote (blockwords : Nat) : Nat → List Nat → Except Err (Val × List Nat)
  | 0, _ => .error .diverge
  | fuel + 1, inp =>
    if look inp = 64 then
      match reader blockwords fuel (nextc inp).2 with
      | .error e => .error e
      | .ok (x, rest) => .ok (.cons s_unquote_splicing x, rest)
    else
      match reader blockwords fuel inp with
      | .error e => .error e
      | .ok (x, rest) => .ok (.cons s_unquote x, rest)
end

/-- `bone_read()`: one form from the input, or a parse error for a stray `)`.  The
fuel given is more than any run that ends can use: a byte is read between any
four nested calls (`reader`, `read_lambda_short_form`, `lambda_parser`, `reader`). -/
def bone_read (blockwords : Nat) (inp : List Nat) : Except Err (Val × List Nat) :=
  match reader blockwords (3 * inp.length + 3) inp with
  | .error e => .error e
  | .ok (x, rest) =>
    if x = READER_LIST_END then .error (.parse_error "unexpected closing parenthesis")
    else .ok (x, rest)

namespace Word

/-- The slot visited by the `d`-th probe for `key`. -/
def probe (h : Hash) (key d : Nat) : Nat := (key % h.size + d) % h.size

/-- Well-formed tables: the arrays have `size` cells, and every stored key is
reached by its probe sequence before that sequence meets the key elsewhere or an
unused slot. -/
structure WF (h : Hash) : Prop where
  size_pos : 0 < h.size
  size_lt : h.size < 4294967296
  keys_len : h.keys.length = h.size
  vals_len : h.vals.length = h.size
  chain : ∀ (i k : Nat), h.keys[i]? = some k → slot_used k = true →
    ∃ d, d < h.size ∧ probe h k d = i ∧
      ∀ e, e < d → h.keys[probe h k e]? ≠ some k ∧
        h.keys[probe h k e]? ≠ some HASH_SLOT_UNUSED
  vals_def : ∀ (i k : Nat), h.keys[i]? = some k → slot_used k = true →
    ∃ v : Nat, h.vals[i]? = some (some v)

/-- The table holds `v` under the key `k`. -/
def Has (h : Hash) (k v : Nat) : Prop :=
  ∃ i : Nat, h.keys[i]? = some k ∧ h.vals[i]? = some (some v)

/-- The key `k` is in no slot of the table. -/
def Absent (h : Hash) (k : Nat) : Prop := ∀ i : Nat, h.keys[i]? ≠ some k

/-- The state of the loop of `enlarge_table` after the first `j` slots of the old
table: the new table holds just the entries of those slots. -/
structure EnlargeInv (old new : Hash) (j : Nat) : Prop where
  wf : WF new
  size_eq : new.size = 2 * old.size + 1
  no_del : HASH_SLOT_DELETED ∉ new.keys
  unused : new.keys.count HASH_SLOT_UNUSED + new.taken_slots = 2 * old.size + 1
  taken : new.taken_slots + (old.keys.take j).count HASH_SLOT_UNUSED ≤ j
  content : ∀ k v, slot_used k = true →
    (Has new k v ↔ ∃ i : Nat, i < j ∧ old.keys[i]? = some k ∧ old.vals[i]? = some (some v))

/-- What `hash_set` does to a well-formed table. -/
structure SetResult (h : Hash) (key val : Nat) (h2 : Hash) : Prop where
  wf : WF h2
  has : Has h2 key val
  others : ∀ k2 v, k2 ≠ key → slot_used k2 = true → (Has h2 k2 v ↔ Has h k2 v)
  default_eq : h2.default_value = h.default_value
  shape :
    (h2.size = h.size ∧ h2.keys = h.keys ∧ h2.taken_slots = h.taken_slots ∧
      ¬ Absent h key) ∨
    (Absent h key ∧ h2.size = h.size ∧ h2.taken_slots = wrapU32 (h.taken_slots + 1) ∧
      ¬ (wrapU32 (wrapU32 (h.taken_slots + 1) * 256) / h.size > MAXLOAD) ∧
      ∃ p, p < h.keys.length ∧
        (h.keys[p]? = some HASH_SLOT_UNUSED ∨ h.keys[p]? = some HASH_SLOT_DELETED) ∧
        h2.keys = h.keys.set p key) ∨
    (Absent h key ∧ wrapU32 (wrapU32 (h.taken_slots + 1) * 256) / h.size > MAXLOAD ∧
      h2.size = 2 * h.size + 1 ∧ h2.taken_slots = wrapU32 (h.taken_slots + 1) ∧
      HASH_SLOT_DELETED ∉ h2.keys ∧
      h.size + h.keys.count HASH_SLOT_UNUSED ≤ h2.keys.count HASH_SLOT_UNUSED)

end Word

namespace Word

/-- A table of capacity 3 whose slots are all tombstones. -/
def tombstone_table : Hash :=
  { size := 3, taken_slots := 0,
    keys := [HASH_SLOT_DELETED, HASH_SLOT_DELETED, HASH_SLOT_DELETED],
    vals := [some 7, some 7, some 7], default_value := 0 }

end Word

namespace Word

/-- A byte as the `char` the C code reads it as (signed, as on x86-64). -/
def schar (b : Nat) : Int :=
  if b % 256 < 128 then ((b % 256 : Nat) : Int) else ((b % 256 : Nat) : Int) - 256

/-- The loop of `string_hash`: `hash = ((hash << 5) + hash) + *(s++)` on `int32_t`. -/
def string_hash_loop : List Nat → Int → Int
  | [], hash => hash
  | c :: s, hash =>
    string_hash_loop s (wrap32 (wrap32 (wrap32 (hash * 32) + hash) + schar c))

/-- `string_hash(s, &len)`, the djb2 hash as a number word; `*len` is the length
of `s`. -/
def string_hash (s : List Nat) : Nat := int2any (string_hash_loop s 5381)

/-- The symbol table: `sym_ht`, and the part of the permanent region that holds
symbol texts.  `names` lists the C strings stored so far, newest first, each with
the address of its first byte; `allocp` is the address the next text will get.
(Which block a text lands in is not modelled: the words handed out are numbered on
from `allocp`.)  The memory from `allocp` on is fresh from `mmap`, all zero, but
for the word at `allocp` itself, which holds `at_allocp`: that is the one word the
program writes without having allocated it (`args[argc] = NIL` in `apply`). -/
structure SymTab where
  sym_ht : Hash
  names : List (Nat × List Nat)
  allocp : Nat
  at_allocp : Nat
  deriving DecidableEq, Repr

/-- The eight bytes of a word in memory, lowest first (the host is little-endian,
as `int2any` assumes). -/
def word_bytes (w : Nat) : List Nat :=
  (List.range 8).map fun (i : Nat) => w / 256 ^ i % 256

/-- The C string at `new` after `memcpy(new, name, len)`, when the word at `new`
held `w` before and the words after it 0.  `add_sym` copies the `len` bytes of
`name` and writes no terminator: the string goes on with the bytes the memory held,
up to the first NUL. -/
def stored_text (name : List Nat) (w : Nat) : List Nat :=
  cstring (name ++ (word_bytes w).drop name.length)

/-- The write `args[argc] = NIL` at the end of `apply`, for a sub without rest
parameter and locals whose buffer is the last object allocated: `args + argc` is
`allocp`, so `NIL` goes to the word at `allocp`. -/
def apply_nil_write (st : SymTab) : SymTab := { st with at_allocp := NIL }

/-- `symtext(sym)`: the C string at the address `untag(sym)`. -/
def symtext (st : SymTab) (sym : Nat) : Except Err (List Nat) :=
  match st.names.lookup (untag sym) with
  | some s => .ok s
  | none => .error .undefined

/-- `as_sym(name)`. -/
def as_sym (name : Nat) : Nat := tag name t_sym

/-- `add_sym(name, len, id)`.  The text lies at the old `allocp`; what is stored
there is `stored_text`, not always `name`.  The new `allocp` is the address after
the words handed out, where the memory is fresh.  (Where `reg_alloc` takes a new
block the text lies on fresh memory whatever `at_allocp` is; the model, which does
not tell where a block ends, takes the word at `allocp` there too.) -/
def add_sym (blockwords fuel : Nat) (st : SymTab) (name : List Nat) (id : Nat) :
    Except Err (Nat × SymTab) :=
  match reg_alloc blockwords (bytes2words (name.length + 1)) with
  | .error e => .error e
  | .ok () =>
    match hash_set fuel st.sym_ht id st.allocp with
    | .error e => .error e
    | .ok ht =>
      .ok (as_sym st.allocp,
        { sym_ht := ht, names := (st.allocp, stored_text name st.at_allocp) :: st.names,
          allocp := st.allocp + 8 * bytes2words (name.length + 1), at_allocp := 0 })

/-- The `while(1)` loop of `intern`; `rounds` bounds the number of rounds. -/
def intern_loop (blockwords fuel : Nat) (name : List Nat) :
    Nat → SymTab → Nat → Except Err (Nat × SymTab)
  | 0, _, _ => .error .diverge
  | rounds + 1, st, id =>
    match hash_get st.sym_ht id with
    | .error e => .error e
    | .ok candidate =>
      if candidate = 0 then add_sym blockwords fuel st name id
      else
        match st.names.lookup candidate with
        | none => .error .undefined
        | some text =>
          if text = name then .ok (as_sym candidate, st)
          else intern_loop blockwords fuel name rounds st (wrap64 (id + 1))

/-- `intern(name)` on the C string `name`: the symbol and the new state.  `fuel`
bounds the rounds of the loop and the depth of `hash_set`. -/
def intern (blockwords fuel : Nat) (st : SymTab) (name : List Nat) :
    Except Err (Nat × SymTab) :=
  intern_loop blockwords fuel (cstring name) fuel st (string_hash (cstring name))

/-- The symbol table as `bone_init` leaves it before `init_syms`:
`hash_new(997, NULL)` and nothing stored; `base` is the first free address of the
permanent region, whose memory is fresh. -/
def sym_init (base : Nat) : SymTab :=
  { sym_ht := hash_new 997 0, names := [], allocp := base, at_allocp := 0 }

/-- What the program does to the symbol table and to the word at `allocp`: a call
`intern(name)`, or the write of `NIL` past the buffer of `apply`. -/
inductive SymOp
  | intern (name : List Nat)
  | nil_write
  deriving DecidableEq, Repr

/-- The operations `ops` one after the other. -/
def sym_run (blockwords fuel : Nat) : SymTab → List SymOp → Except Err SymTab
  | st, [] => .ok st
  | st, .intern n :: rest =>
    match intern blockwords fuel st n with
    | .error e => .error e
    | .ok (_, st2) => sym_run blockwords fuel st2 rest
  | st, .nil_write :: rest => sym_run blockwords fuel (apply_nil_write st) rest

/-- The names interned by a run of operations, in order. -/
def op_names : List SymOp → List (List Nat)
  | [] => []
  | .intern n :: rest => n :: op_names rest
  | .nil_write :: rest => op_names rest

/-- Whether a run of operations interns the empty name on fresh memory only:
`dirty` says whether a write of `NIL` past the buffer of `apply` has happened, and
after one the run interns no empty name. -/
def empty_on_fresh : Bool → List SymOp → Bool
  | _, [] => true
  | dirty, .intern n :: rest => (!dirty || !n.isEmpty) && empty_on_fresh dirty rest
  | _, .nil_write :: rest => empty_on_fresh true rest

/-- The number of stored names whose hash word is `id`. -/
def same_hash_count (names : List (Nat × List Nat)) (id : Nat) : Nat :=
  (names.filter (fun e => string_hash e.2 = id)).length

/-- The entries the symbol table holds for the stored names: each name sits under
its hash word plus the number of older names with the same hash word. -/
def table_of : List (Nat × List Nat) → List (Nat × Nat)
  | [] => []
  | e :: older =>
    (string_hash e.2 + same_hash_count older (string_hash e.2), e.1) :: table_of older

/-- The invariant of the symbol table. -/
structure SymInv (st : SymTab) : Prop where
  wf : WF st.sym_ht
  no_del : HASH_SLOT_DELETED ∉ st.sym_ht.keys
  default_eq : st.sym_ht.default_value = 0
  unused : st.sym_ht.size ≤ st.sym_ht.keys.count HASH_SLOT_UNUSED + st.sym_ht.taken_slots
  load : st.sym_ht.taken_slots * 256 / st.sym_ht.size ≤ 175
  taken : st.sym_ht.taken_slots = st.names.length
  size_le : st.sym_ht.size ≤ 997 + 3 * st.names.length
  content : ∀ k v, slot_used k = true → (Has st.sym_ht k v ↔ (k, v) ∈ table_of st.names)
  addr_ok : ∀ e ∈ st.names, e.1 ≠ 0 ∧ e.1 % 8 = 0 ∧ e.1 < st.allocp
  alloc_ok : st.allocp % 8 = 0 ∧ 0 < st.allocp
  addr_nodup : (st.names.map Prod.fst).Nodup
  text_nodup : (st.names.map Prod.snd).Nodup

/-- The size limits within which the symbol table works: fewer than `2^24 - 1`
names (so that `taken_slots << 8` does not overflow), fewer than 796 of them with
djb2 hash 0 (so that no key reaches the sentinel `HASH_SLOT_UNUSED`, which is
`int2any(0) + 796`). -/
def SymBounded (names : List (Nat × List Nat)) : Prop :=
  names.length < 16777215 ∧ same_hash_count names (int2any 0) < 796

end Word

/-! ## Values that print as text the reader reads back -/

/-- A byte that `allowed_chars` allows in a symbol. -/
def symchar_ok (c : Nat) : Bool := allowed_chars.getD c false

/-- A symbol text the reader returns as the symbol of that text: not empty, made
of allowed characters, not read as a number, not the lone dot, and short enough
for `add_sym` to store it in a block. -/
def sym_text_ok (blockwords : Nat) (name : List Nat) : Bool :=
  !name.isEmpty && name.all symchar_ok && decide (chars2num (chars name) = .ok BFALSE)
    && decide (name ≠ [46]) && reg_alloc_returns blockwords (bytes2words (name.length + 1))

/-- The character list of a string the reader can return and read back: a proper
list of byte codes other than the double quote. -/
def str_chars_ok : Val → Bool
  | .cons (.num n) rest => decide (0 ≤ n) && decide (n < 256) && decide (n ≠ 34) && str_chars_ok rest
  | .uniq n => n = 0
  | _ => false

/-- The values other than pairs and `()` that are read back: 32-bit numbers,
`#t`, `#f`, strings and symbols as above. -/
def atom_ok (blockwords : Nat) : Val → Bool
  | .num n => decide (isInt32 n)
  | .uniq n => decide (n = 1 ∨ n = 2)
  | .str chrs => str_chars_ok chrs
  | .sym name => sym_text_ok blockwords name
  | _ => false

/-- A parameter list of the lambda short form: atoms, ending in `()` or in an
atom (the rest parameter). -/
def params_ok (blockwords : Nat) : Val → Bool
  | .cons a d => atom_ok blockwords a && params_ok blockwords d
  | x => x == NIL || atom_ok blockwords x

mutual
/-- The values for which the text of `print` is read back as the same value. -/
def readable (blockwords : Nat) : Val → Bool
  | .cons a d =>
    if is_sym a && (a == s_quote || a == s_quasiquote || a == s_unquote
        || a == s_unquote_splicing) then readable blockwords d
    else if is_sym a && (a == s_lambda && is_cons d && is_single (fdr d)
        && is_cons (far (fdr d))) then lambda_ok blockwords d
    else readable blockwords a && tail_ok blockwords d
  | x => x == NIL || atom_ok blockwords x
/-- The rest of a list after its first element: readable elements, ending in `()`
or in an atom. -/
def tail_ok (blockwords : Nat) : Val → Bool
  | .cons a d => readable blockwords a && tail_ok blockwords d
  | x => x == NIL || atom_ok blockwords x
/-- The parameters and the body of a list printed in the lambda short form, as a
function of the list after the symbol `lambda`. -/
def lambda_ok (blockwords : Nat) : Val → Bool
  | .cons params dd => params_ok blockwords params && body_ok blockwords dd
  | _ => false
/-- The body of a list printed in the lambda short form. -/
def body_ok (blockwords : Nat) : Val → Bool
  | .cons b _ => readable blockwords b
  | _ => false
end

/-- The number of pairs and leaves of a value. -/
def Val.size : Val → Nat
  | .cons a d => a.size + d.size + 1
  | _ => 1

/-! ## Lists (`bone.c` lines 123-126) -/

/-- `len(x)`: the number of pairs before the first non-pair tail, as an `int`. -/
def len_loop : Val → Int → Int
  | .cons _ d, n => len_loop d (wrap32 (n + 1))
  | _, n => n

/-- `len(x)`. -/
def len (x : Val) : Int := len_loop x 0

/-- `car(x)`. -/
def car : Val → Except Err Val
  | .cons a _ => .ok a
  | _ => .error .type_error

/-- `cdr(x)`. -/
def cdr : Val → Except Err Val
  | .cons _ d => .ok d
  | _ => .error .type_error

/-- The comparison `x == y` of two words.  Two pairs or two strings are equal words
when they are the same object, which their contents do not tell: `undefined`. -/
def same_any : Val → Val → Except Err Bool
  | .cons _ _, .cons _ _ => .error .undefined
  | .str _, .str _ => .error .undefined
  | x, y => .ok (x == y)

/-- `assoq(obj, xs)`. -/
def assoq (obj : Val) : Val → Except Err Val
  | .cons x rest =>
    match car x with
    | .error e => .error e
    | .ok k =>
      match same_any k obj with
      | .error e => .error e
      | .ok true => .ok (fdr x)
      | .ok false => assoq obj rest
  | _ => .ok BFALSE

/-! ## Subs, bindings and the state of the interpreter (`bone.c` lines 219-246,
403-414, 479-483) -/

/-- A `struct sub_code`.  The `int` fields are never negative in a sub-code the
program makes (`compile2sub_code`, `register_csub`), and are naturals here. -/
structure SubCode where
  argc : Nat
  has_rest : Nat
  localc : Nat
  name : Val
  size_of_env : Nat
  code : List Val
  deriving DecidableEq, Repr

/-- A sub object: the pointer to its sub-code (an index into `VM.codes`) and its
environment. -/
structure SubObj where
  code : Nat
  env : List Val
  deriving DecidableEq, Repr

/-- A `struct call_stack_entry`. -/
structure CallEntry where
  subr : Option SubObj
  tail_calls : Int
  deriving DecidableEq, Repr

/-- A `struct upcoming_call`.  `to_be_called` is the pointer to the sub (an index
into `VM.subs`), `the_args` the argument buffer by content, `next_arg` the index
`next_arg - the_args`.  `rest_constructor` is only compared with `NIL`. -/
structure UpcomingCall where
  to_be_called : Option Nat
  nonrest_args_left : Nat
  rest_constructor : Val
  the_args : List Val
  next_arg : Nat
  deriving DecidableEq, Repr

/-- The global state of the interpreter that the evaluator works on.
* `codes`, `subs`: the sub-code and sub objects made so far; `Val.raw i` in a code
  vector after `OP_PREPARE_SUB` and `SubObj.code` point into `codes`, `Val.sub i`
  into `subs`.
* `call_stack`, `upcoming_calls`: the two arrays of 256 entries, with
  `call_stack_sp` and `next_call` as indices.
* `bindings`: the table `bindings` as an association list, newest first.
* `output`: the bytes written to standard output. -/
structure VM where
  blockwords : Nat
  last_value : Val
  codes : List SubCode
  subs : List SubObj
  call_stack : List CallEntry
  call_stack_sp : Nat
  upcoming_calls : List UpcomingCall
  next_call : Nat
  bindings : List (Val × Val)
  output : List Nat
  deriving DecidableEq, Repr

/-- `bind(name, subr)`: `hash_set(bindings, name, cons(BINDING_DEFINED, subr))`. -/
def bind (st : VM) (name subr : Val) : VM :=
  { st with bindings := (name, .cons BINDING_DEFINED subr) :: st.bindings }

/-- `get_binding(name)`: `hash_get(bindings, name)`, with the default `BFALSE`. -/
def get_binding (st : VM) (name : Val) : Val :=
  match st.bindings.lookup name with
  | some v => v
  | none => BFALSE

/-- `sub_code_header_size`: `bytes2words(sizeof(struct sub_code)) - 1`, with
`sizeof(struct sub_code)` = 40 on the 64-bit hosts the program supports. -/
def sub_code_header_size : Nat := bytes2words 40 - 1

/-- `make_sub_code(name, argc, has_rest, localc, size_of_env, code_size)` followed by
the filling in of the code: the object is allocated with `reg_alloc` and added to
`codes`; the result is its index. -/
def make_sub_code (st : VM) (name : Val) (argc has_rest localc size_of_env : Nat)
    (code_size : Int) (code : List Val) : Except Err (Nat × VM) :=
  if wrap32 ((sub_code_header_size : Int) + code_size) < 0 then .error .undefined
  else
    match reg_alloc st.blockwords
        (wrap32 ((sub_code_header_size : Int) + code_size)).toNat with
    | .error e => .error e
    | .ok () =>
      .ok (st.codes.length,
        { st with codes := st.codes ++ [{ argc := argc, has_rest := has_rest,
                                          localc := localc, name := name,
                                          size_of_env := size_of_env, code := code }] })

/-! ## Compiler (`bone.c` lines 487-509) -/

def OP_CONST : Val := .raw 1
def OP_GET_ENV : Val := .raw 2
def OP_GET_ARG : Val := .raw 3
def OP_SET_LOCAL : Val := .raw 4
def OP_WRAP : Val := .raw 5
def OP_PREPARE_CALL : Val := .raw 6
def OP_CALL : Val := .raw 7
def OP_TAILCALL : Val := .raw 8
def OP_ADD_ARG : Val := .raw 9
def OP_JMP_IF : Val := .raw 10
def OP_JMP : Val := .raw 11
def OP_RET : Val := .raw 12
def OP_PREPARE_SUB : Val := .raw 13
def OP_ADD_ENV : Val := .raw 14
def OP_MAKE_SUB : Val := .raw 15

/-- The code `compile_expr` emits for a symbol. -/
def compile_sym (st : VM) (e env : Val) : Except Err (List Val) :=
  match assoq e env with
  | .error err => .error err
  | .ok loc =>
    if is loc then
      .ok [if far loc = IN_ARGS then OP_GET_ARG else OP_GET_ENV, fdr loc]
    else if !is_cons (get_binding st e) then .error .unbound_sym
    else .ok [OP_CONST, fdr (get_binding st e)]

mutual
/-- `compile_expr(e, env, tail_context, dst)`: the words it appends at `dst`.  The
`switch` has no case for the tags `t_reg`, `t_sub` and `t_other`: nothing is
emitted for them. -/
def compile_expr (st : VM) (env : Val) : Val → Bool → Except Err (List Val)
  | .cons first rest, tail_context =>
    if first = s_quote then .ok [OP_CONST, rest]
    else
      match compile_expr st env first false with
      | .error e => .error e
      | .ok c1 =>
        match compile_args st env rest with
        | .error e => .error e
        | .ok c2 =>
          .ok (c1 ++ [OP_PREPARE_CALL] ++ c2 ++ [if tail_context then OP_TAILCALL else OP_CALL])
  | .num n, _ => .ok [OP_CONST, .num n]
  | .uniq n, _ => .ok [OP_CONST, .uniq n]
  | .str s, _ => .ok [OP_CONST, .str s]
  | .sym name, _ => compile_sym st (.sym name) env
  | .reg _, _ => .ok []
  | .sub _, _ => .ok []
  | .raw _, _ => .error .undefined
  | .cptr _, _ => .error .undefined
/-- The loop `foreach(arg, fdr(e))` of `compile_expr`. -/
def compile_args (st : VM) (env : Val) : Val → Except Err (List Val)
  | .cons arg rest =>
    match compile_expr st env arg false with
    | .error e => .error e
    | .ok c1 =>
      match compile_args st env rest with
      | .error e => .error e
      | .ok c2 => .ok (c1 ++ [OP_ADD_ARG] ++ c2)
  | _ => .ok []
end

/-- `compile2list(expr)`, as the list of its words. -/
def compile2list (st : VM) (expr : Val) : Except Err (List Val) :=
  match compile_expr st NIL expr true with
  | .error e => .error e
  | .ok c => .ok (c ++ [OP_RET])

/-- `compile2sub_code(e)`: the index of the new sub-code and the new state. -/
def compile2sub_code (st : VM) (e : Val) : Except Err (Nat × VM) :=
  match compile2list st e with
  | .error err => .error err
  | .ok raw => make_sub_code st BFALSE 0 0 0 0 (len (Val.list raw)) raw

/-! ## Evaluator (`bone.c` lines 403-477) and library (lines 513-592) -/

/-- The machine word of a code cell, where the evaluator looks for an opcode.  A
cell that holds a pointer (pair, symbol, string, region, sub, primitive) is an
address, never one of the opcodes 1..15: `none`. -/
def opcode_of : Val → Option Nat
  | .raw w => some w
  | .uniq n => some (Word.UNIQ n)
  | .num n => some (Word.int2any n)
  | _ => none

/-- An argument buffer fresh from `reg_alloc`: `n` words of a block that was never
used, which read as the word 0. -/
def fresh_args (n : Nat) : List Val := List.replicate n (.raw 0)

/-- The read `buf[i]` for an `int` index; outside the buffer it is `undefined`. -/
def slot_get (buf : List Val) (i : Int) : Except Err Val :=
  if i < 0 then .error .undefined
  else match buf[i.toNat]? with
    | some v => .ok v
    | none => .error .undefined

/-- The write `buf[i] = v` for an `int` index; outside the buffer it is
`undefined`. -/
def slot_set (buf : List Val) (i : Int) (v : Val) : Except Err (List Val) :=
  if i < 0 then .error .undefined
  else if i.toNat < buf.length then .ok (buf.set i.toNat v)
  else .error .undefined

/-- The sub object a sub value points to. -/
def any2sub (st : VM) : Val → Except Err SubObj
  | .sub p =>
    match st.subs[p]? with
    | some s => .ok s
    | none => .error .undefined
  | _ => .error .type_error

/-- The list `xs` with `v` in a new last cell (`set_fdr(rest_constructor, next)` on
the last cell of the rest list). -/
def snoc_cell : Val → Val → Val
  | .cons a d, v => .cons a (snoc_cell d v)
  | _, v => single v

/-- The case `OP_PREPARE_CALL` of `call`. -/
def prepare_call (st : VM) : Except Err VM :=
  match st.last_value with
  | .sub p =>
    match st.subs[p]? with
    | none => .error .undefined
    | some to_be_called =>
      match st.codes[to_be_called.code]? with
      | none => .error .undefined
      | some sc =>
        match st.upcoming_calls[st.next_call + 1]? with
        | none => .error .undefined
        | some old =>
          match reg_alloc st.blockwords (sc.argc + sc.has_rest + sc.localc) with
          | .error e => .error e
          | .ok () =>
            let frame : UpcomingCall :=
              { to_be_called := some p
                nonrest_args_left := sc.argc
                rest_constructor := if sc.has_rest ≠ 0 then NIL else old.rest_constructor
                the_args :=
                  if sc.has_rest ≠ 0 then
                    (fresh_args (sc.argc + sc.has_rest + sc.localc)).set sc.argc NIL
                  else fresh_args (sc.argc + sc.has_rest + sc.localc)
                next_arg := 0 }
            .ok { st with next_call := st.next_call + 1
                          upcoming_calls := st.upcoming_calls.set (st.next_call + 1) frame }
  | _ => .error .type_error

/-- The case `OP_ADD_ARG` of `call`: `add_nonrest_arg` or `add_rest_arg` on the
frame `next_call` points to.  With no prepared call (`next_call` at the bottom of
the array) the frame has a null `to_be_called`: `undefined`. -/
def add_arg (st : VM) : Except Err VM :=
  if st.next_call = 0 then .error .undefined
  else
    match st.upcoming_calls[st.next_call]? with
    | none => .error .undefined
    | some f =>
      if f.nonrest_args_left ≠ 0 then
        if f.next_arg < f.the_args.length then
          let frame : UpcomingCall :=
            { f with nonrest_args_left := f.nonrest_args_left - 1
                     the_args := f.the_args.set f.next_arg st.last_value
                     next_arg := f.next_arg + 1 }
          .ok { st with upcoming_calls := st.upcoming_calls.set st.next_call frame }
        else .error .undefined
      else
        match f.to_be_called.bind (fun p => st.subs[p]?) with
        | none => .error .undefined
        | some s =>
          match st.codes[s.code]? with
          | none => .error .undefined
          | some sc =>
            if sc.has_rest = 0 then .error .args_error
            else if sc.argc < f.the_args.length then
              if f.rest_constructor = NIL then
                let frame : UpcomingCall :=
                  { f with rest_constructor := single st.last_value
                           the_args := f.the_args.set sc.argc (single st.last_value) }
                .ok { st with upcoming_calls := st.upcoming_calls.set st.next_call frame }
              else
                let frame : UpcomingCall :=
                  { f with rest_constructor := single st.last_value
                           the_args := f.the_args.set sc.argc
                             (snoc_cell (f.the_args.getD sc.argc NIL) st.last_value) }
                .ok { st with upcoming_calls := st.upcoming_calls.set st.next_call frame }
            else .error .undefined

/-- The start of the cases `OP_CALL` and `OP_TAILCALL`: `the_call = next_call--`
and `verify_argc(the_call)`.  Returns the sub to call, its argument buffer and the
new state. -/
def pop_call (st : VM) : Except Err (SubObj × List Val × VM) :=
  if st.next_call = 0 then .error .undefined
  else
    match st.upcoming_calls[st.next_call]? with
    | none => .error .undefined
    | some f =>
      if f.nonrest_args_left ≠ 0 then .error .args_error
      else
        match f.to_be_called.bind (fun p => st.subs[p]?) with
        | none => .error .undefined
        | some s => .ok (s, f.the_args, { st with next_call := st.next_call - 1 })

/-- The statement `call_stack_sp->tail_calls++`. -/
def count_tail_call (st : VM) : Except Err VM :=
  match st.call_stack[st.call_stack_sp]? with
  | none => .error .undefined
  | some e =>
    let entry : CallEntry := { e with tail_calls := wrap32 (e.tail_calls + 1) }
    .ok { st with call_stack := st.call_stack.set st.call_stack_sp entry }

/-- The case `OP_PREPARE_SUB` of `call`: the new sub object and the new state. -/
def prepare_sub (st : VM) (operand : Val) : Except Err (Nat × VM) :=
  match operand with
  | .raw i =>
    match st.codes[i]? with
    | none => .error .undefined
    | some lc =>
      match reg_alloc st.blockwords (1 + lc.size_of_env) with
      | .error e => .error e
      | .ok () =>
        let lambda : SubObj := { code := i, env := fresh_args lc.size_of_env }
        .ok (st.subs.length, { st with subs := st.subs ++ [lambda] })
  | _ => .error .undefined

/-- The case `OP_ADD_ENV` of `call`: `*(lambda_envp++) = last_value`. -/
def add_env (st : VM) (lam : Option Nat) (envp : Nat) : Except Err VM :=
  match lam with
  | none => .error .undefined
  | some l =>
    match st.subs[l]? with
    | none => .error .undefined
    | some s =>
      if envp < s.env.length then
        let lambda : SubObj := { s with env := s.env.set envp st.last_value }
        .ok { st with subs := st.subs.set l lambda }
      else .error .undefined

/-- The `foreach` loop of `apply`, with the locals `pos` and `args`; the cell
`p` is the last cell of the list in `args[argc]`. -/
def apply_loop (sc : SubCode) : Val → Nat → List Val → Except Err (Nat × List Val)
  | .cons x rest, pos, args =>
    if pos < sc.argc then apply_loop sc rest (pos + 1) (args.set pos x)
    else if pos = sc.argc then
      if sc.has_rest ≠ 0 then apply_loop sc rest (pos + 1) (args.set pos (single x))
      else .error .args_error
    else apply_loop sc rest (pos + 1) (args.set sc.argc (snoc_cell (args.getD sc.argc NIL) x))
  | _, pos, args => .ok (pos, args)

/-- The argument buffer `apply(subr, xs)` passes to `call`.  The write
`args[argc] = NIL` for a sub without rest and locals goes to the word after the
buffer (`apply_writes` lists the writes) and leaves the buffer as it is. -/
def apply_args (blockwords : Nat) (sc : SubCode) (xs : Val) : Except Err (List Val) :=
  match reg_alloc blockwords (sc.argc + sc.has_rest + sc.localc) with
  | .error e => .error e
  | .ok () =>
    match apply_loop sc xs 0 (fresh_args (sc.argc + sc.has_rest + sc.localc)) with
    | .error e => .error e
    | .ok (pos, args) =>
      if pos < sc.argc then .error .args_error
      else if pos = sc.argc then .ok (args.set sc.argc NIL)
      else .ok args

/-- The loop of `CSUB_fullplus`; `ires += any2int(n)` wraps. -/
def fullplus_loop : Val → Int → Except Err Int
  | .cons n rest, ires =>
    match any2int n with
    | .error e => .error e
    | .ok v => fullplus_loop rest (wrap32 (ires + v))
  | _, ires => .ok ires

/-- The loop of `CSUB_fullminus`. -/
def fullminus_loop : Val → Int → Except Err Int
  | .cons n rest, res =>
    match any2int n with
    | .error e => .error e
    | .ok v => fullminus_loop rest (wrap32 (res - v))
  | _, res => .ok res

/-- `unstr(s)`. -/
def unstr : Val → Except Err Val
  | .str chrs => .ok chrs
  | _ => .error .type_error

/-- The loop `foreach(x, chr) putchar(any2int(x))`. -/
def say_chr_loop : Val → Except Err (List Nat)
  | .cons x rest =>
    match any2int x with
    | .error e => .error e
    | .ok n =>
      match say_chr_loop rest with
      | .error e => .error e
      | .ok t => .ok ((n % 256).toNat :: t)
  | _ => .ok []

/-- `say_chr(chr)`. -/
def say_chr (chr : Val) : Except Err (List Nat) :=
  match chr with
  | .num n => .ok [(n % 256).toNat]
  | _ => say_chr_loop chr

/-- The loop of `say_str`. -/
def say_str_loop : Val → Except Err (List Nat)
  | .cons chr rest => print_seq (say_chr chr) (say_str_loop rest)
  | _ => .ok []

mutual
/-- `say(x)`. -/
def say : Val → Except Err (List Nat)
  | .str chrs => say_str_loop chrs
  | .cons e rest => print_seq (say e) (say_each rest)
  | x => print_atom x
/-- The loop `foreach(e, x) say(e)`. -/
def say_each : Val → Except Err (List Nat)
  | .cons e rest => print_seq (say e) (say_each rest)
  | _ => .ok []
end

/-- `copy(x)` for values without subs.  For a sub the result of `copy_sub` is an
address that the values of this layer cannot name: `undefined`. -/
def copy : Val → Except Err Val
  | .cons a d =>
    match copy a with
    | .error e => .error e
    | .ok a2 =>
      match copy d with
      | .error e => .error e
      | .ok d2 => .ok (.cons a2 d2)
  | .str chrs =>
    match copy chrs with
    | .error e => .error e
    | .ok c2 => .ok (.str c2)
  | .sub _ => .error .undefined
  | x => .ok x

/-- The primitives that do not call back into the evaluator: the new
`last_value` and the bytes written. -/
def simple_csub (blockwords : Nat) (f : CSub) (args : List Val) : Except Err (Val × List Nat) :=
  let a0 := slot_get args 0
  let a1 := slot_get args 1
  match f with
  | .simpleplus => do
    let x ← (← a0) |> any2int
    let y ← (← a1) |> any2int
    pure (int2any (x + y), [])
  | .fullplus => do
    let r ← fullplus_loop (← a0) 0
    pure (int2any r, [])
  | .cons => do pure (.cons (← a0) (← a1), [])
  | .print => do
    let x ← a0
    let t ← print x
    pure (single x, t)
  | .id => do pure (← a0, [])
  | .nilp => do pure (to_bool ((← a0) == NIL), [])
  | .eqp => do pure (to_bool (← same_any (← a0) (← a1)), [])
  | .not => do pure (to_bool ((← a0) == BFALSE), [])
  | .car => do pure (← car (← a0), [])
  | .cdr => do pure (← cdr (← a0), [])
  | .consp => do pure (to_bool (is_cons (← a0)), [])
  | .symp => do pure (to_bool (is_sym (← a0)), [])
  | .subp => do
    let x ← a0
    pure (to_bool (match x with | .sub _ => true | _ => false), [])
  | .nump => do pure (to_bool (is_num (← a0)), [])
  | .strp => do
    let x ← a0
    pure (to_bool (match x with | .str _ => true | _ => false), [])
  | .str => do pure (.str (← a0), [])
  | .unstr => do pure (← unstr (← a0), [])
  | .len => do pure (int2any (len (← a0)), [])
  | .assoq => do pure (← assoq (← a0) (← a1), [])
  | .intern => do pure (← intern_from_chars blockwords (← unstr (← a0)), [])
  | .copy => do pure (← copy (← a0), [])
  | .say => do
    let x ← a0
    let t ← say_each x
    pure (x, t)
  | .unaryminus => do pure (int2any (-(← any2int (← a0))), [])
  | .simpleminus => do
    let x ← (← a0) |> any2int
    let y ← (← a1) |> any2int
    pure (int2any (x - y), [])
  | .fullminus => do
    let x ← (← a0) |> any2int
    let r ← fullminus_loop (← a1) x
    pure (int2any r, [])
  | .simple_num_eqp => do
    let x ← (← a0) |> any2int
    let y ← (← a1) |> any2int
    pure (to_bool (x == y), [])
  | .simple_num_neqp => do
    let x ← (← a0) |> any2int
    let y ← (← a1) |> any2int
    pure (to_bool (x != y), [])
  | .simple_num_gtp => do
    let x ← (← a0) |> any2int
    let y ← (← a1) |> any2int
    pure (to_bool (decide (x > y)), [])
  | .simple_num_ltp => do
    let x ← (← a0) |> any2int
    let y ← (← a1) |> any2int
    pure (to_bool (decide (x < y)), [])
  | .simple_num_geqp => do
    let x ← (← a0) |> any2int
    let y ← (← a1) |> any2int
    pure (to_bool (decide (x ≥ y)), [])
  | .simple_num_leqp => do
    let x ← (← a0) |> any2int
    let y ← (← a1) |> any2int
    pure (to_bool (decide (x ≤ y)), [])
  | .apply => .error .undefined
  | .each => .error .undefined

mutual
/-- `call(subr, args)`: the state when it returns.  `fuel` bounds the number of
instructions and calls; running out of it is `diverge`. -/
def call : Nat → VM → SubObj → List Val → Except Err VM
  | 0, _, _, _ => .error .diverge
  | fuel + 1, st, subr, args =>
    if st.call_stack_sp + 1 < st.call_stack.length then
      let entry : CallEntry := { subr := some subr, tail_calls := 0 }
      exec fuel
        { st with call_stack_sp := st.call_stack_sp + 1
                  call_stack := st.call_stack.set (st.call_stack_sp + 1) entry }
        subr args none 0 0
    else .error .undefined
/-- The dispatch loop of `call`, one instruction per round: `subr`, `args`, the
locals `lambda` and `lambda_envp` (as the index `lambda_envp - lambda->env`), and
`ip` as an index into the code vector of `subr`. -/
def exec : Nat → VM → SubObj → List Val → Option Nat → Nat → Nat → Except Err VM
  | 0, _, _, _, _, _, _ => .error .diverge
  | fuel + 1, st, subr, args, lam, envp, ip =>
    match st.codes[subr.code]? with
    | none => .error .undefined
    | some sc =>
      match sc.code[ip]? with
      | none => .error .undefined
      | some instr =>
        match opcode_of instr with
        | some 1 =>
          match sc.code[ip + 1]? with
          | none => .error .undefined
          | some v => exec fuel { st with last_value := v } subr args lam envp (ip + 2)
        | some 2 =>
          match sc.code[ip + 1]? with
          | none => .error .undefined
          | some v =>
            match (any2int v).bind (slot_get subr.env) with
            | .error e => .error e
            | .ok x => exec fuel { st with last_value := x } subr args lam envp (ip + 2)
        | some 3 =>
          match sc.code[ip + 1]? with
          | none => .error .undefined
          | some v =>
            match (any2int v).bind (slot_get args) with
            | .error e => .error e
            | .ok x => exec fuel { st with last_value := x } subr args lam envp (ip + 2)
        | some 4 =>
          match sc.code[ip + 1]? with
          | none => .error .undefined
          | some v =>
            match (any2int v).bind (fun i => slot_set args i st.last_value) with
            | .error e => .error e
            | .ok args2 => exec fuel st subr args2 lam envp (ip + 2)
        | some 5 =>
          match sc.code[ip + 1]? with
          | some (.cptr f) => run_csub fuel st f args
          | _ => .error .undefined
        | some 6 =>
          match prepare_call st with
          | .error e => .error e
          | .ok st2 => exec fuel st2 subr args lam envp (ip + 1)
        | some 7 =>
          match pop_call st with
          | .error e => .error e
          | .ok (s, the_args, st2) =>
            match call fuel st2 s the_args with
            | .error e => .error e
            | .ok st3 => exec fuel st3 subr args lam envp (ip + 1)
        | some 8 =>
          match pop_call st with
          | .error e => .error e
          | .ok (s, the_args, st2) =>
            match count_tail_call st2 with
            | .error e => .error e
            | .ok st3 => exec fuel st3 s the_args lam envp 0
        | some 9 =>
          match add_arg st with
          | .error e => .error e
          | .ok st2 => exec fuel st2 subr args lam envp (ip + 1)
        | some 10 =>
          if !is st.last_value then exec fuel st subr args lam envp (ip + 2)
          else
            match sc.code[ip + 1]? with
            | none => .error .undefined
            | some v =>
              match any2int v with
              | .error e => .error e
              | .ok off =>
                if 0 ≤ (ip : Int) + 1 + off then
                  exec fuel st subr args lam envp ((ip : Int) + 1 + off).toNat
                else .error .undefined
        | some 11 =>
          match sc.code[ip + 1]? with
          | none => .error .undefined
          | some v =>
            match any2int v with
            | .error e => .error e
            | .ok off =>
              if 0 ≤ (ip : Int) + 1 + off then
                exec fuel st subr args lam envp ((ip : Int) + 1 + off).toNat
              else .error .undefined
        | some 12 => .ok st
        | some 13 =>
          match sc.code[ip + 1]? with
          | none => .error .undefined
          | some v =>
            match prepare_sub st v with
            | .error e => .error e
            | .ok (l, st2) => exec fuel st2 subr args (some l) 0 (ip + 2)
        | some 14 =>
          match add_env st lam envp with
          | .error e => .error e
          | .ok st2 => exec fuel st2 subr args lam (envp + 1) (ip + 1)
        | some 15 =>
          match lam with
          | none => .error .undefined
          | some l => exec fuel { st with last_value := .sub l } subr args lam envp (ip + 1)
        | _ => .error .unknown_instruction
/-- `apply(subr, xs)`. -/
def apply : Nat → VM → SubObj → Val → Except Err VM
  | 0, _, _, _ => .error .diverge
  | fuel + 1, st, subr, xs =>
    match st.codes[subr.code]? with
    | none => .error .undefined
    | some sc =>
      match apply_args st.blockwords sc xs with
      | .error e => .error e
      | .ok args => call fuel st subr args
/-- The loop of `CSUB_each`. -/
def each_loop : Nat → VM → SubObj → Val → Except Err VM
  | 0, _, _, _ => .error .diverge
  | fuel + 1, st, subr, xs =>
    match xs with
    | .cons x rest =>
      match apply fuel st subr (single x) with
      | .error e => .error e
      | .ok st2 => each_loop fuel st2 subr rest
    | _ => .ok st
/-- The primitive `f` run on the argument buffer `args`. -/
def run_csub : Nat → VM → CSub → List Val → Except Err VM
  | 0, _, _, _ => .error .diverge
  | fuel + 1, st, f, args =>
    match f with
    | .apply =>
      match (slot_get args 0).bind (any2sub st) with
      | .error e => .error e
      | .ok s =>
        match slot_get args 1 with
        | .error e => .error e
        | .ok xs => apply fuel st s xs
    | .each =>
      match (slot_get args 1).bind (any2sub st) with
      | .error e => .error e
      | .ok s =>
        match slot_get args 0 with
        | .error e => .error e
        | .ok xs => each_loop fuel st s xs
    | g =>
      match simple_csub st.blockwords g args with
      | .error e => .error e
      | .ok (v, out) => .ok { st with last_value := v, output := st.output ++ out }
end

/-! ## Start-up (`bone.c` lines 551-617) -/

/-- `register_csub(cptr, name, argc, has_rest)`. -/
def register_csub (st : VM) (f : CSub) (name : List Nat) (argc has_rest : Nat) :
    Except Err VM :=
  match intern st.blockwords name with
  | .error e => .error e
  | .ok name_sym =>
    match make_sub_code st name_sym argc has_rest 0 0 2 [OP_WRAP, .cptr f] with
    | .error e => .error e
    | .ok (ci, st1) =>
      match reg_alloc st.blockwords 1 with
      | .error e => .error e
      | .ok () =>
        .ok (bind { st1 with subs := st1.subs ++ [{ code := ci, env := [] }] }
          name_sym (.sub st1.subs.length))

/-- The calls of `init_csubs`, in order: primitive, name, `argc`, `has_rest`. -/
def csub_table : List (CSub × String × Nat × Nat) :=
  [(.simpleplus, "simple+", 2, 0), (.fullplus, "full+", 0, 1), (.fullplus, "+", 0, 1),
   (.cons, "cons", 2, 0), (.print, "print", 1, 0), (.apply, "apply", 2, 0),
   (.id, "id", 1, 0), (.id, "list", 0, 1), (.nilp, "nil?", 1, 0), (.eqp, "eq?", 2, 0),
   (.not, "not", 1, 0), (.car, "car", 1, 0), (.cdr, "cdr", 1, 0), (.consp, "cons?", 1, 0),
   (.symp, "sym?", 1, 0), (.subp, "sub?", 1, 0), (.nump, "num?", 1, 0), (.strp, "str?", 1, 0),
   (.str, "str", 1, 0), (.unstr, "unstr", 1, 0), (.len, "len", 1, 0), (.assoq, "assoq", 2, 0),
   (.intern, "intern", 1, 0), (.intern, "str->sym", 1, 0), (.copy, "copy", 1, 0),
   (.say, "say", 0, 1), (.unaryminus, "unary-", 1, 0), (.simpleminus, "simple-", 2, 0),
   (.fullminus, "full-", 1, 1), (.fullminus, "-", 1, 1),
   (.simple_num_eqp, "simple=?", 2, 0), (.simple_num_eqp, "=?", 2, 0),
   (.simple_num_neqp, "simple<>?", 2, 0), (.simple_num_neqp, "<>?", 2, 0),
   (.simple_num_gtp, "simple>?", 2, 0), (.simple_num_gtp, ">?", 2, 0),
   (.simple_num_ltp, "simple<?", 2, 0), (.simple_num_ltp, "<?", 2, 0),
   (.simple_num_geqp, "simple>=?", 2, 0), (.simple_num_geqp, ">=?", 2, 0),
   (.simple_num_leqp, "simple<=?", 2, 0), (.simple_num_leqp, "<=?", 2, 0),
   (.each, "each", 2, 0)]

/-- `init_csubs()`, as a loop over `csub_table`. -/
def init_csubs_loop : List (CSub × String × Nat × Nat) → VM → Except Err VM
  | [], st => .ok st
  | (f, name, argc, has_rest) :: rest, st =>
    match register_csub st f (bytes name) argc has_rest with
    | .error e => .error e
    | .ok st2 => init_csubs_loop rest st2

/-- The statics of the evaluator before `bone_init()`: zeroed memory, no sub-code
and no sub yet, for a page of `blockwords` words. -/
def vm_zero (blockwords : Nat) : VM :=
  { blockwords := blockwords
    last_value := .raw 0
    codes := []
    subs := []
    call_stack := List.replicate 256 { subr := none, tail_calls := 0 }
    call_stack_sp := 0
    upcoming_calls := List.replicate 256
      { to_be_called := none, nonrest_args_left := 0, rest_constructor := .raw 0,
        the_args := [], next_arg := 0 }
    next_call := 0
    bindings := []
    output := [] }

/-- The state after `bone_init()`: `init_csubs()` on the zeroed statics;
`bone_init_thread()` sets the two stack pointers to the bottom of their arrays,
where they are. -/
def bone_init (blockwords : Nat) : Except Err VM :=
  init_csubs_loop csub_table (vm_zero blockwords)

/-! ## Texts and states used in the statements -/

/-- The text of a list: `(`, the texts of the elements separated by single spaces,
`)`. -/
def list_text : List (List Nat) → List Nat
  | [] => [40, 41]
  | t :: ts => [40] ++ t ++ (ts.flatMap fun (u : List Nat) => 32 :: u) ++ [41]

/-- The text of a number or of a symbol. -/
def item_text : Val → List Nat
  | .num n => printf_d n
  | .sym name => name
  | _ => []

/-- A 32-bit number or a symbol that the reader reads back. -/
def list_item_ok (blockwords : Nat) : Val → Bool
  | .num n => decide (isInt32 n)
  | .sym name => sym_text_ok blockwords name
  | _ => false

/-- One of the four symbols that `print` writes as a prefix character. -/
def quote_family (a : Val) : Bool :=
  a == s_quote || a == s_quasiquote || a == s_unquote || a == s_unquote_splicing

/-- The sum `CSUB_fullplus` computes: every addition wraps. -/
def fullplus_sum (ns : List Int) : Int := ns.foldl (fun (a n : Int) => wrap32 (a + n)) 0

/-- What `register_csub` does to the state when its three allocations return. -/
def register_csub_done (st : VM) (f : CSub) (name : List Nat) (argc has_rest : Nat) : VM :=
  bind { st with
         codes := st.codes ++ [{ argc := argc, has_rest := has_rest, localc := 0,
                                 name := .sym name, size_of_env := 0,
                                 code := [OP_WRAP, .cptr f] }]
         subs := st.subs ++ [{ code := st.codes.length, env := [] }] }
    (.sym name) (.sub st.subs.length)

/-- The state `init_csubs` builds from `st` when all allocations return. -/
def init_csubs_done (table : List (CSub × String × Nat × Nat)) (st : VM) : VM :=
  table.foldl (fun (s : VM) (e : CSub × String × Nat × Nat) =>
    register_csub_done s e.1 (bytes e.2.1) e.2.2.1 e.2.2.2) st

/-- The code `compile_expr` emits for the arguments `ns` of a call: each number
is loaded and added to the call under preparation. -/
def args_code (ns : List Int) : List Val :=
  ns.flatMap fun (n : Int) => [OP_CONST, .num n, OP_ADD_ARG]

/-- The call under preparation on top of `upcoming_calls` is a call of the sub `p`
without required arguments, with the rest arguments `done` added so far. -/
def rest_frame (st : VM) (p : Nat) (done : List Val) : Prop :=
  st.next_call ≠ 0 ∧
  ∃ frame, st.upcoming_calls[st.next_call]? = some frame ∧ frame.to_be_called = some p ∧
    frame.nonrest_args_left = 0 ∧ frame.the_args = [Val.list done] ∧
    (frame.rest_constructor = NIL ↔ done = [])

/-- Values built from pairs, strings, symbols, numbers and sentinels only. -/
def plain : Val → Bool
  | .cons a d => plain a && plain d
  | .str chrs => plain chrs
  | .sym _ => true
  | .num _ => true
  | .uniq _ => true
  | _ => false

/-- The code `compile_expr` emits for the arguments of a call, given the code of
each argument: every argument is followed by `OP_ADD_ARG`. -/
def add_arg_code (cs : List (List Val)) : List Val :=
  cs.flatMap fun (c : List Val) => c ++ [OP_ADD_ARG]

/-- The text `(each '(1 2 3) |x (print x))`. -/
def each_text : List Nat :=
  [40, 101, 97, 99, 104, 32, 39, 40, 49, 32, 50, 32, 51, 41, 32, 124, 120, 32,
   40, 112, 114, 105, 110, 116, 32, 120, 41, 41]

/-- The value of `(each '(1 2 3) |x (print x))`: the list of the symbol `each`,
`(quote 1 2 3)` and `(lambda (x) (print x))`. -/
def each_form : Val :=
  Val.list [.sym [101, 97, 99, 104], .cons s_quote (Val.list [.num 1, .num 2, .num 3]),
    Val.list [s_lambda, Val.list [.sym [120]],
      Val.list [.sym [112, 114, 105, 110, 116], .sym [120]]]]

/-- The instructions `OP_ADD_ARG` of a call, one for each of the values `vals`, each
run with `last_value` set to that value (what the code of the argument leaves
there). -/
def add_args : VM → List Val → Except Err VM
  | st, [] => .ok st
  | st, v :: vs =>
    match add_arg { st with last_value := v } with
    | .error e => .error e
    | .ok st2 => add_args st2 vs

/-- A call assembled with `OP_PREPARE_CALL` for the callee in `last_value`, one
`OP_ADD_ARG` for each of the values `vals`, and the start of `OP_CALL` or
`OP_TAILCALL`: the sub to enter, its argument buffer and the new state. -/
def assemble_call (st : VM) (vals : List Val) : Except Err (SubObj × List Val × VM) :=
  match prepare_call st with
  | .error e => .error e
  | .ok st1 =>
    match add_args st1 vals with
    | .error e => .error e
    | .ok st2 => pop_call st2

/-- The state `st` with the frame `f` in place of the call under preparation. -/
def with_frame (st : VM) (f : UpcomingCall) : VM :=
  { st with upcoming_calls := st.upcoming_calls.set st.next_call f }

namespace Word

/-- An operation on a table: `hash_set(h, key, val)` or `hash_rm(h, key)`. -/
inductive HashOp
  | set (key val : Nat)
  | rm (key : Nat)
  deriving DecidableEq, Repr

/-- The key of an operation. -/
def HashOp.key : HashOp → Nat
  | .set k _ => k
  | .rm k => k

/-- The operations `ops` run on a table one after the other. -/
def hash_run (fuel : Nat) : Hash → List HashOp → Except Err Hash
  | h, [] => .ok h
  | h, .set k v :: ops =>
    match hash_set fuel h k v with
    | .error e => .error e
    | .ok h2 => hash_run fuel h2 ops
  | h, .rm k :: ops =>
    match hash_rm h k with
    | .error e => .error e
    | .ok h2 => hash_run fuel h2 ops

/-- The number of slots of a key array that hold a key. -/
def used_slots (keys : List Nat) : Nat := keys.countP slot_used

/-- What the load test of `hash_set` keeps true of a table: `taken_slots` is at
least the number of slots in use, and `taken_slots * 256` is below `176 * size`. -/
structure LoadInv (h : Hash) : Prop where
  size_pos : 0 < h.size
  size_lt : h.size < 4294967296
  used_le : used_slots h.keys ≤ h.taken_slots
  load : h.taken_slots * 256 < 176 * h.size

end Word

/-! ## Regions and `copy` on machine words (`bone.c` lines 73-107, 238-246, 596-603)

The words of the heap are kept by address.  Which block an object lands in is not
modelled: `reg_alloc` hands out consecutive words from `allocp` on, and as in the
value layer it returns exactly for an object that fits in a block. -/

namespace Region

/-- The memory the regions live in, and the statics of the region allocator.
* `cells`: the words the program has a pointer to, as pairs of an address (a
  multiple of 8) and the word stored there, the newest write first; an address
  that is not listed is not part of any object or region header.
* `reg_stack`, `reg_sp`: the array `reg_stack[64]` and the index of the entry
  `reg_sp` points to (the top of the stack).
* `allocp`, `current_block`: the cached state of the region in use. -/
structure Mem where
  cells : List (Nat × Nat)
  reg_stack : List Nat
  reg_sp : Nat
  allocp : Nat
  current_block : Nat
  deriving DecidableEq, Repr

/-- The read of the word at the address `a`. -/
def load (m : Mem) (a : Nat) : Except Err Nat :=
  if a % 8 ≠ 0 then .error .undefined
  else
    match m.cells.lookup a with
    | some w => .ok w
    | none => .error .undefined

/-- The write of `w` to the word at the address `a`. -/
def store (m : Mem) (a w : Nat) : Except Err Mem :=
  if a % 8 ≠ 0 then .error .undefined
  else
    match m.cells.lookup a with
    | some _ => .ok { m with cells := (a, w) :: m.cells }
    | none => .error .undefined

/-- `load_reg(r)`: `allocp = r->allocp; current_block = r->current_block`.  In the
struct behind a `reg` the field `current_block` comes first, `allocp` second. -/
def load_reg (m : Mem) (r : Nat) : Except Err Mem :=
  match load m (r + 8) with
  | .error e => .error e
  | .ok a =>
    match load m r with
    | .error e => .error e
    | .ok b => .ok { m with allocp := a, current_block := b }

/-- `store_reg(r)`: `r->allocp = allocp; r->current_block = current_block`. -/
def store_reg (m : Mem) (r : Nat) : Except Err Mem :=
  match store m (r + 8) m.allocp with
  | .error e => .error e
  | .ok m1 => store m1 r m.current_block

/-- `reg_push(r)`: `store_reg(*reg_sp); reg_sp++; *reg_sp = r; load_reg(*reg_sp)`. -/
def reg_push (m : Mem) (r : Nat) : Except Err Mem :=
  match m.reg_stack[m.reg_sp]? with
  | none => .error .undefined
  | some tos =>
    match store_reg m tos with
    | .error e => .error e
    | .ok m1 =>
      if m1.reg_sp + 1 < m1.reg_stack.length then
        load_reg { m1 with reg_sp := m1.reg_sp + 1
                           reg_stack := m1.reg_stack.set (m1.reg_sp + 1) r } r
      else .error .undefined

/-- `reg_pop()`: `store_reg(*reg_sp); reg r = *reg_sp; reg_sp--; load_reg(*reg_sp);
return r`. -/
def reg_pop (m : Mem) : Except Err (Nat × Mem) :=
  match m.reg_stack[m.reg_sp]? with
  | none => .error .undefined
  | some r =>
    match store_reg m r with
    | .error e => .error e
    | .ok m1 =>
      if m1.reg_sp = 0 then .error .undefined
      else
        match m1.reg_stack[m1.reg_sp - 1]? with
        | none => .error .undefined
        | some below =>
          match load_reg { m1 with reg_sp := m1.reg_sp - 1 } below with
          | .error e => .error e
          | .ok m2 => .ok (r, m2)

/-- A pointer to a region: the two words of the struct behind it are in memory. -/
def is_reg (m : Mem) (r : Nat) : Bool :=
  match load m r, load m (r + 8) with
  | .ok _, .ok _ => true
  | _, _ => false

/-- `reg_alloc(n)` for a count `n` that is not negative, with the address it
returns; the words handed out are fresh from `mmap` and hold 0. -/
def reg_alloc (blockwords : Nat) (m : Mem) (n : Nat) : Except Err (Nat × Mem) :=
  if n + 1 < blockwords then
    .ok (m.allocp,
      { m with allocp := m.allocp + 8 * n
               cells := (List.range n).map (fun (i : Nat) => (m.allocp + 8 * i, 0)) ++ m.cells })
  else .error .diverge

/-- The read `code->size_of_env` for the sub-code at the address `code`: the `int`
in the low half of the word at offset 24 (after `argc`, `has_rest`, `localc`,
padding and `name`).  A sub-code the program makes has no negative size, and none
so large that `1 + envsize` wraps: `undefined` otherwise. -/
def size_of_env (m : Mem) (code : Nat) : Except Err Nat :=
  match load m (code + 24) with
  | .error e => .error e
  | .ok w =>
    if wrap32 ((w % 4294967296 : Nat) : Int) < 0 then .error .undefined
    else if wrap32 ((w % 4294967296 : Nat) : Int) = 2147483647 then .error .undefined
    else .ok (wrap32 ((w % 4294967296 : Nat) : Int)).toNat

/-- `cons(a, d)`. -/
def cons (blockwords : Nat) (m : Mem) (a d : Nat) : Except Err (Nat × Mem) :=
  match reg_alloc blockwords m 2 with
  | .error e => .error e
  | .ok (p, m1) =>
    match store m1 p a with
    | .error e => .error e
    | .ok m2 =>
      match store m2 (p + 8) d with
      | .error e => .error e
      | .ok m3 => .ok (p, m3)

/-- `str(chrs)`. -/
def str (blockwords : Nat) (m : Mem) (chrs : Nat) : Except Err (Nat × Mem) :=
  match reg_alloc blockwords m 1 with
  | .error e => .error e
  | .ok (p, m1) =>
    match store m1 p chrs with
    | .error e => .error e
    | .ok m2 => .ok (Word.tag p Word.t_str, m2)

/-- `unstr(s)`. -/
def unstr (m : Mem) (s : Nat) : Except Err Nat :=
  match Word.check s Word.t_str with
  | .error e => .error e
  | .ok () => load m (Word.untag s)

mutual
/-- `copy(x)`.  C leaves open which of the two calls in
`cons(copy(far(x)), copy(fdr(x)))` runs first; here the car is copied first. -/
def copy (blockwords : Nat) : Nat → Mem → Nat → Except Err (Nat × Mem)
  | 0, _, _ => .error .diverge
  | fuel + 1, m, x =>
    if Word.tag_of x = Word.t_cons then
      match load m x with
      | .error e => .error e
      | .ok a =>
        match copy blockwords fuel m a with
        | .error e => .error e
        | .ok (a2, m1) =>
          match load m1 (x + 8) with
          | .error e => .error e
          | .ok d =>
            match copy blockwords fuel m1 d with
            | .error e => .error e
            | .ok (d2, m2) => cons blockwords m2 a2 d2
    else if Word.tag_of x = Word.t_str then
      match unstr m x with
      | .error e => .error e
      | .ok chrs =>
        match copy blockwords fuel m chrs with
        | .error e => .error e
        | .ok (c2, m1) => str blockwords m1 c2
    else if Word.tag_of x = Word.t_sub then copy_sub blockwords fuel m x
    else .ok (x, m)
termination_by structural fuel => fuel
/-- `copy_sub(x)`.  `p` is advanced past the code pointer and past every slot,
and the value returned is `tag((any) p, t_sub)`. -/
def copy_sub (blockwords : Nat) : Nat → Mem → Nat → Except Err (Nat × Mem)
  | 0, _, _ => .error .diverge
  | fuel + 1, m, x =>
    match Word.check x Word.t_sub with
    | .error e => .error e
    | .ok () =>
      match load m (Word.untag x) with
      | .error e => .error e
      | .ok code =>
        match size_of_env m code with
        | .error e => .error e
        | .ok envsize =>
          match reg_alloc blockwords m (1 + envsize) with
          | .error e => .error e
          | .ok (p, m1) =>
            match store m1 p code with
            | .error e => .error e
            | .ok m2 =>
              match copy_env blockwords fuel m2 (Word.untag x) (p + 8) 0 envsize with
              | .error e => .error e
              | .ok (p2, m3) => .ok (Word.tag p2 Word.t_sub, m3)
termination_by structural fuel => fuel
/-- The loop `for(int i = 0; i != envsize; i++) *p++ = copy(s->env[i])` of
`copy_sub`; returns the final `p`. -/
def copy_env (blockwords : Nat) : Nat → Mem → Nat → Nat → Nat → Nat → Except Err (Nat × Mem)
  | 0, _, _, _, _, _ => .error .diverge
  | fuel + 1, m, s, p, i, envsize =>
    if i = envsize then .ok (p, m)
    else
      match load m (s + 8 + 8 * i) with
      | .error e => .error e
      | .ok v =>
        match copy blockwords fuel m v with
        | .error e => .error e
        | .ok (v2, m1) =>
          match store m1 p v2 with
          | .error e => .error e
          | .ok m2 => copy_env blockwords fuel m2 s (p + 8) (i + 1) envsize
termination_by structural fuel => fuel
end

/-- A heap with the permanent region on the region stack (its first block at 4096,
its struct at 4104) and a second region (block at 8192, struct at 8200).  In the
block at 4096 lie the sub-code of a primitive at 4120 (`argc` 1, no rest, no locals,
a symbol as name, environment size 0, the code `OP_WRAP` and a function pointer)
and a sub of that code at 4168. -/
def heap_example : Mem :=
  { cells := [(4096, 0), (4104, 4096), (4112, 4176), (8192, 0), (8200, 8192), (8208, 8216),
              (4120, 1), (4128, 0), (4136, 5001), (4144, 0), (4152, 5), (4160, 4198400),
              (4168, 4120)]
    reg_stack := 4104 :: List.replicate 63 0
    reg_sp := 0
    allocp := 4176
    current_block := 4096 }

/-- A heap like `heap_example` with a sub-code at 4120 of environment size 2 (its
code is `OP_GET_ENV 0`, `OP_RET`) and a sub of it at 4176 whose two environment
slots hold the numbers 1 and 2. -/
def heap_example_env : Mem :=
  { cells := [(4096, 0), (4104, 4096), (4112, 4200),
              (4120, 0), (4128, 0), (4136, 18), (4144, 2), (4152, 2), (4160, 6), (4168, 12),
              (4176, 4120), (4184, Word.int2any 1), (4192, Word.int2any 2)]
    reg_stack := 4104 :: List.replicate 63 0
    reg_sp := 0
    allocp := 4200
    current_block := 4096 }

end Region

/-- The code `compile2sub_code` makes of the form `(id 7)` after `bone_init`: the
sub bound to `id` is the sub 6. -/
def tailcall_code : SubCode :=
  { argc := 0, has_rest := 0, localc := 0, name := BFALSE, size_of_env := 0,
    code := [OP_CONST, .sub 6, OP_PREPARE_CALL, OP_CONST, .num 7, OP_ADD_ARG,
             OP_TAILCALL, OP_RET] }

/-- The state of the run of `(id 7)`, typed after `bone_init` on a host with pages
of 512 words, in front of its `OP_TAILCALL`: the code of the form is the sub-code
43, `call` has entered it on the call-stack entry 1, and the call of `id` (the sub
6, one required argument) is prepared on top of `upcoming_calls` with its argument
filled in. -/
def tailcall_example : VM :=
  { init_csubs_done csub_table (vm_zero 512) with
    last_value := .num 7
    codes := (init_csubs_done csub_table (vm_zero 512)).codes ++ [tailcall_code]
    call_stack_sp := 1
    call_stack := (init_csubs_done csub_table (vm_zero 512)).call_stack.set 1
      { subr := some { code := 43, env := [] }, tail_calls := 0 }
    next_call := 1
    upcoming_calls := (init_csubs_done csub_table (vm_zero 512)).upcoming_calls.set 1
      { to_be_called := some 6, nonrest_args_left := 0, rest_constructor := .raw 0,
        the_args := [.num 7], next_arg := 1 } }

namespace Word

/-- A table of capacity 3 that holds the keys `int2any(0)` and `int2any(1)` (in their
home slots 0 and 1) with the values 7 and 8: `hash_new(3, 0)` after two `hash_set`. -/
def table_example : Hash :=
  { size := 3, taken_slots := 2,
    keys := [int2any 0, int2any 1, HASH_SLOT_UNUSED],
    vals := [some 7, some 8, none], default_value := 0 }

end Word

/-- The symbol characters as the specification words them: the printable ASCII
characters `0x21`..`0x7E` other than the double quote, `#`, the quote, `(`, `)`,
`,`, `@`, `;`, `[`, `]`, the backquote, `{`, `}` and `|`. -/
def symchar_spec (c : Nat) : Bool :=
  decide (33 ≤ c) && decide (c ≤ 126) &&
    !([34, 35, 39, 40, 41, 44, 64, 59, 91, 93, 96, 123, 125, 124].contains c)

/-- The `foreach` loop of `apply`, followed for the writes to the argument buffer
alone: `ws` lists the indices `i` of the writes `args[i] = ...` so far, in order.
A non-rest argument and the first rest argument are written to `args[pos]`; a
later rest argument goes into the cell `p` and leaves `args` alone. -/
def apply_writes_loop (sc : SubCode) : Val → Nat → List Nat → Except Err (Nat × List Nat)
  | .cons _ rest, pos, ws =>
    if pos < sc.argc then apply_writes_loop sc rest (pos + 1) (ws ++ [pos])
    else if pos = sc.argc then
      if sc.has_rest ≠ 0 then apply_writes_loop sc rest (pos + 1) (ws ++ [pos])
      else .error .args_error
    else apply_writes_loop sc rest (pos + 1) ws
  | _, pos, ws => .ok (pos, ws)

/-- The indices at which `apply(subr, xs)` writes its argument buffer `args`
(`reg_alloc(argc + has_rest + localc)` words), in order, up to the call of `call`:
the writes of the loop and, when the loop ends with `pos == argc`, the write
`args[argc] = NIL`. -/
def apply_writes (blockwords : Nat) (sc : SubCode) (xs : Val) : Except Err (List Nat) :=
  match reg_alloc blockwords (sc.argc + sc.has_rest + sc.localc) with
  | .error e => .error e
  | .ok () =>
    match apply_writes_loop sc xs 0 [] with
    | .error e => .error e
    | .ok (pos, ws) =>
      if pos < sc.argc then .error .args_error
      else if pos = sc.argc then .ok (ws ++ [sc.argc])
      else .ok ws

/-- Whether the marker `READER_LIST_END` occurs in a value: as the value itself, or
as a car or cdr reachable from it. -/
def has_list_end : Val → Bool
  | .cons a d => has_list_end a || has_list_end d
  | x => x == READER_LIST_END

/-! # Theorems -/

/-- Claim C7: for every 32-bit signed integer `N`, `any2int(int2any(N)) == N`,
and `int2any(N)` carries the `num` tag. -/
theorem int2any_roundtrip (N : Int) (hN : isInt32 N) :
    Word.any2int (Word.int2any N) = .ok N ∧
      Word.is_tagged (Word.int2any N) Word.t_num = true := by
  have htag : Word.is_tagged (Word.int2any N) Word.t_num = true := by
    simp only [Word.is_tagged, Word.tag_of, Word.int2any, Word.t_num, beq_iff_eq]
    have : (7 : Nat) = 2 ^ 3 - 1 := by norm_num
    rw [this, Nat.and_pow_two_sub_one_eq_mod]
    omega
  refine ⟨?_, htag⟩
  obtain ⟨h1, h2⟩ := hN
  have hnn : 0 ≤ N % 4294967296 := Int.emod_nonneg _ (by norm_num)
  have hlt : N % 4294967296 < 4294967296 := Int.emod_lt_of_pos _ (by norm_num)
  have hdiv : Word.int2any N / 4294967296 % 4294967296 = (N % 4294967296).toNat := by
    unfold Word.int2any Word.t_num
    omega
  have hw : wrap32 ((Word.int2any N / 4294967296 % 4294967296 : Nat) : Int) = N := by
    rw [hdiv]
    unfold wrap32
    omega
  unfold Word.any2int Word.check
  rw [htag, if_pos rfl]
  show Except.ok (wrap32 ((Word.int2any N / 4294967296 % 4294967296 : Nat) : Int)) = Except.ok N
  rw [hw]

/-- Witness for C7 at the smallest 32-bit integer. -/
theorem int2any_roundtrip_witness :
    isInt32 (-2147483648) ∧
      (Word.any2int (Word.int2any (-2147483648)) = .ok (-2147483648) ∧
        Word.is_tagged (Word.int2any (-2147483648)) Word.t_num = true) :=
  ⟨by decide, int2any_roundtrip (-2147483648) (by decide)⟩

/-! ## Number syntax -/

theorem wrap32_of_isInt32 {n : Int} (h : isInt32 n) : wrap32 n = n := by
  unfold isInt32 at h
  unfold wrap32
  omega

theorem digit2int_num (c : Int) (hc : isInt32 c) :
    digit2int (.num c) = .ok (if is_digit_char c then c - 48 else -1) := by
  unfold isInt32 at hc
  simp only [digit2int, any2int, is_digit_char, Bool.and_eq_true, decide_eq_true_eq]
  congr 1
  unfold wrap32
  split_ifs <;> omega

/-- The loop of `chars2num` from a position `p ≥ 1` on: a non-digit ends it with
`#f`, as long as the position counter cannot wrap around to 1. -/
theorem chars2num_loop_tail (R : List Int) :
    ∀ (p : Nat) (ires : Int) (ip isnum : Bool), 1 ≤ p → p + R.length ≤ 4294967296 →
      (∀ c ∈ R, isInt32 c) →
      chars2num_loop (Val.list (R.map Val.num)) ires (wrap32 p) ip isnum
        = .ok (if R.all is_digit_char && (isnum || !R.isEmpty) then
            int2any (if ip then R.foldl chars2num_step ires
              else wrap32 (-(R.foldl chars2num_step ires)))
          else BFALSE) := by
  induction R with
  | nil =>
    intro p ires ip isnum _ _ _
    cases isnum <;> simp [Val.list, NIL, chars2num_loop]
  | cons c R ih =>
    intro p ires ip isnum hp hlen hR
    have hc : isInt32 c := hR c (List.mem_cons_self _ _)
    have hR2 : ∀ x ∈ R, isInt32 x := fun x hx => hR x (List.mem_cons_of_mem _ hx)
    simp only [List.length_cons] at hlen
    have hpos : wrap32 (wrap32 (p : Int) + 1) = wrap32 ((p + 1 : Nat) : Int) := by
      unfold wrap32; push_cast; omega
    simp only [List.map_cons, Val.list, chars2num_loop, digit2int_num c hc, hpos]
    by_cases hd : is_digit_char c = true
    · have hne : c - 48 ≠ -1 := by
        simp only [is_digit_char, Bool.and_eq_true, decide_eq_true_eq] at hd; omega
      simp only [hd, if_true, hne, if_false]
      rw [ih (p + 1) _ ip true (by omega) (by omega) hR2]
      simp [List.all_cons, hd, List.foldl_cons, chars2num_step]
    · have hp1 : wrap32 ((p + 1 : Nat) : Int) ≠ 1 := by
        unfold wrap32; push_cast; omega
      simp only [Bool.not_eq_true] at hd
      simp only [hd, Bool.false_eq_true, if_false, if_true, ne_eq, hp1, not_false_eq_true,
        List.all_cons, Bool.false_and]

/-- The whole of `chars2num` on a list of at most `2^32` characters. -/
theorem chars2num_eq (cs : List Int) (hcs : ∀ c ∈ cs, isInt32 c)
    (hlen : cs.length ≤ 4294967296) :
    chars2num (Val.list (cs.map Val.num)) = .ok (chars2num_value cs) := by
  cases cs with
  | nil => simp [chars2num, Val.list, NIL, chars2num_loop, chars2num_value]
  | cons c R =>
    have hc : isInt32 c := hcs c (List.mem_cons_self _ _)
    have hR2 : ∀ x ∈ R, isInt32 x := fun x hx => hcs x (List.mem_cons_of_mem _ hx)
    simp only [List.length_cons] at hlen
    have h1b : wrap32 ((1 : Nat) : Int) = 1 := by unfold wrap32; norm_num
    have ht : ∀ (ires : Int) (ip isnum : Bool),
        chars2num_loop (Val.list (R.map Val.num)) ires 1 ip isnum
          = .ok (if R.all is_digit_char && (isnum || !R.isEmpty) then
              int2any (if ip then R.foldl chars2num_step ires
                else wrap32 (-(R.foldl chars2num_step ires)))
            else BFALSE) := by
      intro ires ip isnum
      have h := chars2num_loop_tail R 1 ires ip isnum (le_refl 1) (by omega) hR2
      rwa [h1b] at h
    have h1 : wrap32 (0 + 1) = 1 := by unfold wrap32; norm_num
    simp only [chars2num, List.map_cons, Val.list, chars2num_loop, digit2int_num c hc, h1,
      chars2num_value]
    by_cases hd : is_digit_char c = true
    · have hne : c - 48 ≠ -1 := by
        simp only [is_digit_char, Bool.and_eq_true, decide_eq_true_eq] at hd; omega
      simp only [hd, if_true, hne, if_false]
      rw [ht]
      simp [chars2num_step]
    · simp only [Bool.not_eq_true] at hd
      simp only [hd, Bool.false_eq_true, if_false, if_true, ne_eq, not_true_eq_false,
        any2int]
      by_cases h45 : c = 45
      · rw [if_pos h45, if_pos h45, ht]
        simp
      · rw [if_neg h45, if_neg h45]
        by_cases h43 : c = 43
        · rw [if_pos h43, if_pos h43, ht]
          simp
        · rw [if_neg h43, if_neg h43]

theorem chars2num_digits (cs : List Int) (hd : cs.all is_digit_char = true) (hne : cs ≠ [])
    (hlen : cs.length ≤ 4294967296) :
    chars2num (Val.list (cs.map Val.num)) = .ok (int2any (cs.foldl chars2num_step 0)) := by
  have hcs : ∀ c ∈ cs, isInt32 c := by
    intro c hc
    have := List.all_eq_true.mp hd c hc
    simp only [is_digit_char, Bool.and_eq_true, decide_eq_true_eq] at this
    unfold isInt32; omega
  rw [chars2num_eq cs hcs hlen]
  cases cs with
  | nil => exact absurd rfl hne
  | cons c R =>
    simp only [List.all_cons, Bool.and_eq_true] at hd
    simp [chars2num_value, hd.1, hd.2]

theorem chars2num_minus_digits (R : List Int) (hd : R.all is_digit_char = true) (hne : R ≠ [])
    (hlen : R.length < 4294967296) :
    chars2num (Val.list ((45 :: R).map Val.num))
      = .ok (int2any (wrap32 (-(R.foldl chars2num_step 0)))) := by
  have hcs : ∀ c ∈ (45 :: R), isInt32 c := by
    intro c hc
    rcases List.mem_cons.mp hc with h | h
    · rw [h]; decide
    · have := List.all_eq_true.mp hd c h
      simp only [is_digit_char, Bool.and_eq_true, decide_eq_true_eq] at this
      unfold isInt32; omega
  rw [chars2num_eq (45 :: R) hcs (by simp only [List.length_cons]; omega)]
  have h45 : is_digit_char 45 = false := by decide
  have hne2 : R.isEmpty = false := by cases R with
    | nil => exact absurd rfl hne
    | cons _ _ => rfl
  simp [chars2num_value, h45, hd, hne2]

theorem chars2num_step_digit (k : Nat) (_hk : k < 10) :
    chars2num_step 0 ((48 + k : Nat) : Int) = wrap32 (k : Int) := by
  unfold chars2num_step wrap32; push_cast; omega

theorem chars2num_step_wrap (k : Nat) :
    chars2num_step (wrap32 ((k / 10 : Nat) : Int)) ((48 + k % 10 : Nat) : Int)
      = wrap32 (k : Int) := by
  unfold chars2num_step wrap32; push_cast; omega

/-- The digits `dec_digits_rev` produces, read back most significant first with the
wrapping accumulation of `chars2num`, give `k` (wrapped to 32 bits). -/
theorem dec_digits_rev_spec : ∀ (fuel k : Nat), k < fuel →
    (∀ c ∈ dec_digits_rev fuel k, 48 ≤ c ∧ c ≤ 57) ∧ dec_digits_rev fuel k ≠ [] ∧
    (dec_digits_rev fuel k).length ≤ fuel ∧
    ((dec_digits_rev fuel k).map (fun c : Nat => (c : Int))).foldr (fun c a => chars2num_step a c) 0
      = wrap32 k := by
  intro fuel
  induction fuel with
  | zero => intro k hk; omega
  | succ fuel ih =>
    intro k hk
    by_cases h0 : k / 10 = 0
    · have hk10 : k < 10 := by omega
      have hmod : k % 10 = k := Nat.mod_eq_of_lt hk10
      simp only [dec_digits_rev, h0, if_true, hmod]
      refine ⟨?_, by simp, by simp, ?_⟩
      · intro c hc
        simp only [List.mem_singleton] at hc
        omega
      · simp only [List.map_cons, List.map_nil, List.foldr_cons, List.foldr_nil]
        exact chars2num_step_digit k hk10
    · obtain ⟨hdig, hne, hlen, hval⟩ := ih (k / 10) (by omega)
      simp only [dec_digits_rev, h0, if_false]
      refine ⟨?_, by simp, by simp only [List.length_cons]; omega, ?_⟩
      · intro c hc
        rcases List.mem_cons.mp hc with h | h
        · omega
        · exact hdig c h
      · simp only [List.map_cons, List.foldr_cons, hval]
        exact chars2num_step_wrap k

theorem chars_eq_list_num (text : List Nat) (h : ∀ c ∈ text, c ≤ 2147483647) :
    chars text = Val.list ((text.map (fun c : Nat => (c : Int))).map Val.num) := by
  unfold chars
  congr 1
  rw [List.map_map]
  apply List.map_congr_left
  intro c hc
  have := h c hc
  simp only [int2any, Function.comp_apply, Val.num.injEq]
  unfold wrap32; omega

theorem dec_digits_value (k : Nat) :
    (((dec_digits_rev (k + 1) k).reverse).map (fun c : Nat => (c : Int))).foldl chars2num_step 0
      = wrap32 (k : Int) := by
  rw [List.map_reverse, List.foldl_reverse]
  exact (dec_digits_rev_spec (k + 1) k (Nat.lt_succ_self k)).2.2.2

theorem dec_digits_all_digit (k : Nat) :
    (((dec_digits_rev (k + 1) k).reverse).map (fun c : Nat => (c : Int))).all is_digit_char
      = true := by
  rw [List.all_eq_true]
  intro c hc
  simp only [List.mem_map, List.mem_reverse] at hc
  obtain ⟨d, hd, rfl⟩ := hc
  have := (dec_digits_rev_spec (k + 1) k (Nat.lt_succ_self k)).1 d hd
  simp only [is_digit_char, Bool.and_eq_true, decide_eq_true_eq]
  omega

/-- The decimal text of a 32-bit number reads back as that number. -/
theorem chars2num_printf_d (n : Int) (hn : isInt32 n) :
    chars2num (chars (printf_d n)) = .ok (.num n) := by
  unfold isInt32 at hn
  obtain ⟨hdig, hne, hlen, -⟩ := dec_digits_rev_spec (n.natAbs + 1) n.natAbs (Nat.lt_succ_self _)
  have hsmall : ∀ c ∈ printf_d n, c ≤ 2147483647 := by
    intro c hc
    simp only [printf_d, List.mem_append, List.mem_reverse] at hc
    rcases hc with h | h
    · split_ifs at h
      · simp only [List.mem_singleton] at h; omega
      · simp at h
    · have := hdig c h; omega
  rw [chars_eq_list_num _ hsmall]
  have hne2 : ((dec_digits_rev (n.natAbs + 1) n.natAbs).reverse.map
      (fun c : Nat => (c : Int))) ≠ [] := by
    simpa using hne
  have hlen2 : ((dec_digits_rev (n.natAbs + 1) n.natAbs).reverse.map
      (fun c : Nat => (c : Int))).length < 4294967296 := by
    simp only [List.length_map, List.length_reverse]; omega
  have hval := dec_digits_value n.natAbs
  by_cases hneg : n < 0
  · have htext : (printf_d n).map (fun c : Nat => (c : Int))
        = 45 :: (dec_digits_rev (n.natAbs + 1) n.natAbs).reverse.map
            (fun c : Nat => (c : Int)) := by
      simp [printf_d, hneg]
    rw [htext, chars2num_minus_digits _ (dec_digits_all_digit _) hne2 hlen2, hval]
    have : wrap32 (wrap32 (-(wrap32 (n.natAbs : Int)))) = n := by
      unfold wrap32; omega
    rw [int2any, this]
  · have htext : (printf_d n).map (fun c : Nat => (c : Int))
        = (dec_digits_rev (n.natAbs + 1) n.natAbs).reverse.map
            (fun c : Nat => (c : Int)) := by
      simp [printf_d, hneg]
    rw [htext, chars2num_digits _ (dec_digits_all_digit _) hne2 (le_of_lt hlen2), hval]
    have : wrap32 (wrap32 (n.natAbs : Int)) = n := by
      unfold wrap32; omega
    rw [int2any, this]

/-- Claim C8: for every 32-bit signed integer `n`, `print` emits the decimal text
`printf("%d")` gives for `n`, and `chars2num` applied to the character list of that
text returns the number `n`; the smallest and the largest value included. -/
theorem chars2num_print_num (n : Int) (hn : isInt32 n) :
    print (.num n) = .ok (printf_d n) ∧ chars2num (chars (printf_d n)) = .ok (.num n) :=
  ⟨by simp [print, print_atom], chars2num_printf_d n hn⟩

/-- Witness for C8 at the smallest 32-bit integer. -/
theorem chars2num_print_num_witness :
    isInt32 (-2147483648) ∧ (print (.num (-2147483648)) = .ok (printf_d (-2147483648)) ∧
      chars2num (chars (printf_d (-2147483648))) = .ok (.num (-2147483648))) :=
  ⟨by decide, chars2num_print_num (-2147483648) (by decide)⟩

/-- Zeros leave `ires = 0` and only advance the (wrapping) position counter. -/
theorem chars2num_loop_zeros (n : Nat) : ∀ (T : List Int) (q : Int) (ip isnum : Bool),
    chars2num_loop (Val.list ((List.replicate n (48 : Int) ++ T).map Val.num)) 0 (wrap32 q)
        ip isnum
      = chars2num_loop (Val.list (T.map Val.num)) 0 (wrap32 (q + n)) ip
          (isnum || decide (0 < n)) := by
  induction n with
  | zero => intro T q ip isnum; simp
  | succ n ih =>
    intro T q ip isnum
    have hpos : wrap32 (wrap32 q + 1) = wrap32 (q + 1) := by unfold wrap32; omega
    have hstep : wrap32 (wrap32 (0 * 10) + 0) = 0 := by decide
    have hd : digit2int (.num 48) = .ok 0 := by decide
    rw [List.replicate_succ, List.cons_append, List.map_cons, Val.list, chars2num_loop, hd]
    simp only [hpos, hstep]
    rw [if_neg (by decide), ih T (q + 1) ip true]
    have e1 : (q + 1 + (n : Int)) = q + ((n + 1 : Nat) : Int) := by push_cast; ring
    have e2 : (true || decide (0 < n)) = (isnum || decide (0 < n + 1)) := by simp
    rw [e1, e2]

theorem number_text_zeros_minus (n : Nat) :
    is_number_text (List.replicate (n + 1) (48 : Int) ++ [45]) = false := by
  rw [List.replicate_succ, List.cons_append, is_number_text]
  simp [is_digit_char]

theorem chars2num_zeros_minus (n : Nat) (hn : wrap32 (n : Int) = 0) :
    chars2num (Val.list ((List.replicate n (48 : Int) ++ [45]).map Val.num))
      = .ok (if 0 < n then .num 0 else BFALSE) := by
  have h0 : wrap32 0 = 0 := by decide
  have hz := chars2num_loop_zeros n [45] 0 true false
  rw [h0, zero_add, hn] at hz
  unfold chars2num
  rw [hz]
  by_cases h : 0 < n
  · rw [if_pos h, decide_eq_true h]
    decide
  · rw [if_neg h, decide_eq_false h]
    decide

/-- Counterexample to C9 as stated: after `2^32` digits the `int` position counter
has wrapped around, and a `-` is taken for a leading sign: the text of `2^32` zeros
followed by `-` is not in the number syntax, yet `chars2num` returns the number 0. -/
theorem chars2num_position_wraps :
    is_number_text (List.replicate (4294967295 + 1) (48 : Int) ++ [45]) = false ∧
      chars2num (Val.list ((List.replicate (4294967295 + 1) (48 : Int) ++ [45]).map Val.num))
        = .ok (.num 0) :=
  ⟨number_text_zeros_minus 4294967295,
    (chars2num_zeros_minus (4294967295 + 1) (by decide)).trans
      (congrArg Except.ok (if_pos (by decide)))⟩

/-- Claim C9, amended: for every list `cs` of at most `2^32` characters,
`chars2num(cs)` returns a number exactly when `cs` is an optional single `+` or `-`
followed by one or more decimal digits, and returns `#f` otherwise; the empty text,
`+` and `-` are not numbers, and `chars_to_num_or_sym` interns them as symbols. -/
theorem chars2num_number_text (blockwords : Nat) (hbw : 4 ≤ blockwords) (cs : List Int)
    (hcs : ∀ c ∈ cs, isInt32 c) (hlen : cs.length ≤ 4294967296) :
    (is_number_text cs = true → ∃ n, chars2num (Val.list (cs.map Val.num)) = .ok (.num n)) ∧
    (is_number_text cs = false → chars2num (Val.list (cs.map Val.num)) = .ok BFALSE) ∧
    chars_to_num_or_sym blockwords (chars []) = .ok (.sym []) ∧
    chars_to_num_or_sym blockwords (chars [43]) = .ok (.sym [43]) ∧
    chars_to_num_or_sym blockwords (chars [45]) = .ok (.sym [45]) := by
  have hfit : reg_alloc_returns blockwords 1 = true := by
    simp only [reg_alloc_returns, decide_eq_true_eq]; omega
  refine ⟨?_, ?_, ?_, ?_, ?_⟩
  · intro hs
    rw [chars2num_eq cs hcs hlen]
    cases cs with
    | nil => simp [is_number_text] at hs
    | cons c R =>
      simp only [is_number_text] at hs
      simp only [chars2num_value]
      by_cases hd : is_digit_char c = true
      · have hc : ¬ (c = 43 ∨ c = 45) := by
          simp only [is_digit_char, Bool.and_eq_true, decide_eq_true_eq] at hd; omega
        rw [if_neg hc] at hs
        simp only [hd, Bool.true_and] at hs
        exact ⟨_, by simp only [hd, if_true, hs]; rfl⟩
      · by_cases h45 : c = 45
        · rw [if_pos (Or.inr h45)] at hs
          rw [Bool.and_comm] at hs
          simp only [Bool.not_eq_true] at hd
          exact ⟨_, by rw [hd, if_neg (by decide), if_pos h45, hs, if_pos rfl]; rfl⟩
        · by_cases h43 : c = 43
          · rw [if_pos (Or.inl h43)] at hs
            rw [Bool.and_comm] at hs
            simp only [Bool.not_eq_true] at hd
            exact ⟨_, by rw [hd, if_neg (by decide), if_neg h45, if_pos h43, hs, if_pos rfl]; rfl⟩
          · rw [if_neg (by omega)] at hs
            simp only [Bool.and_eq_true] at hs
            exact absurd hs.1 hd
  · intro hs
    rw [chars2num_eq cs hcs hlen]
    cases cs with
    | nil => rfl
    | cons c R =>
      simp only [is_number_text] at hs
      simp only [chars2num_value]
      by_cases hd : is_digit_char c = true
      · have hc : ¬ (c = 43 ∨ c = 45) := by
          simp only [is_digit_char, Bool.and_eq_true, decide_eq_true_eq] at hd; omega
        rw [if_neg hc] at hs
        simp only [hd, Bool.true_and] at hs
        simp only [hd, if_true, hs, Bool.false_eq_true, if_false]
      · simp only [Bool.not_eq_true] at hd
        by_cases h45 : c = 45
        · rw [if_pos (Or.inr h45)] at hs
          rw [Bool.and_comm] at hs
          rw [hd, if_neg (by decide), if_pos h45, hs, if_neg (by decide)]
        · by_cases h43 : c = 43
          · rw [if_pos (Or.inl h43)] at hs
            rw [Bool.and_comm] at hs
            rw [hd, if_neg (by decide), if_neg h45, if_pos h43, hs, if_neg (by decide)]
          · rw [hd, if_neg (by decide), if_neg h45, if_neg h43]
  · simp [chars_to_num_or_sym, chars, Val.list, chars2num, chars2num_loop, NIL, BFALSE, is,
      intern_from_chars, list2charp, intern, reg_alloc, cstring, bytes2words, wrap64, hfit]
  · have h : chars2num (chars [43]) = .ok BFALSE := by decide
    have h2 : list2charp (chars [43]) = .ok [43] := by decide
    simp [chars_to_num_or_sym, h, h2, BFALSE, is, intern_from_chars, intern, reg_alloc,
      cstring, bytes2words, wrap64, hfit]
  · have h : chars2num (chars [45]) = .ok BFALSE := by decide
    have h2 : list2charp (chars [45]) = .ok [45] := by decide
    simp [chars_to_num_or_sym, h, h2, BFALSE, is, intern_from_chars, intern, reg_alloc,
      cstring, bytes2words, wrap64, hfit]

/-- Witness for C9 at the text `-12` and blocks of 512 words. -/
theorem chars2num_number_text_witness :
    (is_number_text [45, 49, 50] = true →
        ∃ n, chars2num (Val.list ([45, 49, 50].map Val.num)) = .ok (.num n)) ∧
    (is_number_text [45, 49, 50] = false →
        chars2num (Val.list ([45, 49, 50].map Val.num)) = .ok BFALSE) ∧
    chars_to_num_or_sym 512 (chars []) = .ok (.sym []) ∧
    chars_to_num_or_sym 512 (chars [43]) = .ok (.sym [43]) ∧
    chars_to_num_or_sym 512 (chars [45]) = .ok (.sym [45]) :=
  chars2num_number_text 512 (by decide) [45, 49, 50] (by decide) (by decide)

/-! ## Strings -/

/-- Claim C10 fails at the string whose only character is `"`: `print` emits the
four bytes `"\""`, and the reader stops on them with a parse error, because
`read_str` accepts `\\`, `\'`, `\n` and `\t` after a backslash but not `\"`. -/
theorem print_str_quote_unreadable (blockwords fuel : Nat) :
    print (.str (chars [34])) = .ok [34, 92, 34, 34] ∧
      reader blockwords (fuel + 1) [34, 92, 34, 34]
        = .error (.parse_error "invalid character after backslash in str") ∧
      bone_read blockwords [34, 92, 34, 34]
        = .error (.parse_error "invalid character after backslash in str") := by
  refine ⟨by decide, ?_, ?_⟩
  · simp [reader, find_token, find_token_loop, nextc, read_str, read_str_loop]
  · simp [bone_read, reader, find_token, find_token_loop, nextc, read_str, read_str_loop]

/-! ## Hash tables -/

namespace Word

theorem probe_lt (h : Hash) (key d : Nat) (hs : 0 < h.size) : probe h key d < h.size :=
  Nat.mod_lt _ hs

theorem probe_zero (h : Hash) (key : Nat) : probe h key 0 = key % h.size := by
  simp [probe, Nat.mod_mod]

theorem probe_succ (h : Hash) (key d : Nat) (hs : 0 < h.size) (h32 : h.size < 4294967296) :
    (if wrapU32 (probe h key d + 1) = h.size then 0 else wrapU32 (probe h key d + 1))
      = probe h key (d + 1) := by
  have hlt := probe_lt h key d hs
  have hw : wrapU32 (probe h key d + 1) = probe h key d + 1 := by
    unfold wrapU32; omega
  rw [hw]
  have hstep : probe h key (d + 1) = (probe h key d + 1) % h.size := by
    unfold probe
    rw [Nat.mod_add_mod (key % h.size + d) h.size 1, Nat.add_assoc]
  rw [hstep]
  split_ifs with heq
  · rw [heq, Nat.mod_self]
  · rw [Nat.mod_eq_of_lt (by omega)]

/-- Distinct probe numbers below the size visit distinct slots. -/
theorem probe_inj (h : Hash) (key d e : Nat) (hd : d < h.size) (he : e < h.size)
    (heq : probe h key d = probe h key e) : d = e := by
  unfold probe at heq
  have hs : 0 < h.size := by omega
  have hk := Nat.mod_lt key hs
  generalize key % h.size = a at heq hk
  by_cases h1 : a + d < h.size
  · rw [Nat.mod_eq_of_lt h1] at heq
    by_cases h2 : a + e < h.size
    · rw [Nat.mod_eq_of_lt h2] at heq; omega
    · have : (a + e) % h.size = a + e - h.size := by
        rw [Nat.mod_eq_sub_mod (by omega), Nat.mod_eq_of_lt (by omega)]
      omega
  · have h1b : (a + d) % h.size = a + d - h.size := by
      rw [Nat.mod_eq_sub_mod (by omega), Nat.mod_eq_of_lt (by omega)]
    by_cases h2 : a + e < h.size
    · rw [Nat.mod_eq_of_lt h2] at heq; omega
    · have : (a + e) % h.size = a + e - h.size := by
        rw [Nat.mod_eq_sub_mod (by omega), Nat.mod_eq_of_lt (by omega)]
      omega

/-- Every slot is visited by some probe number below the size. -/
theorem probe_surj (h : Hash) (key i : Nat) (hi : i < h.size) :
    ∃ d, d < h.size ∧ probe h key d = i := by
  have hs : 0 < h.size := by omega
  have hk := Nat.mod_lt key hs
  unfold probe
  generalize key % h.size = a at hk
  by_cases hle : a ≤ i
  · exact ⟨i - a, by omega, by rw [Nat.mod_eq_of_lt (by omega)]; omega⟩
  · refine ⟨i + h.size - a, by omega, ?_⟩
    rw [Nat.mod_eq_sub_mod (by omega), Nat.mod_eq_of_lt (by omega)]
    omega

/-- What the probe loop returns when probe number `u` is the first to hit `key` or
an unused slot. -/
theorem find_slot_loop_spec (h : Hash) (key : Nat) (hs : 0 < h.size)
    (h32 : h.size < 4294967296) (hlen : h.keys.length = h.size) (u : Nat)
    (hstop : h.keys[probe h key u]? = some key ∨
      h.keys[probe h key u]? = some HASH_SLOT_UNUSED)
    (hbefore : ∀ e, e < u → h.keys[probe h key e]? ≠ some key ∧
      h.keys[probe h key e]? ≠ some HASH_SLOT_UNUSED) :
    ∀ (n d fuel : Nat) (fd : Option Nat), u = d + n → n < fuel →
      (∀ p, fd = some p → ∃ e, e < d ∧ p = probe h key e ∧
        h.keys[p]? = some HASH_SLOT_DELETED) →
      ∃ r, find_slot_loop h key fuel (probe h key d) fd = .ok r ∧
        ((h.keys[probe h key u]? = some key ∧ r = (true, probe h key u)) ∨
         (h.keys[probe h key u]? ≠ some key ∧ r.1 = false ∧
            ∃ e, e ≤ u ∧ r.2 = probe h key e ∧
              (h.keys[r.2]? = some HASH_SLOT_UNUSED ∨
                h.keys[r.2]? = some HASH_SLOT_DELETED))) := by
  intro n
  induction n with
  | zero =>
    intro d fuel fd hud hfuel hfd
    obtain ⟨fuel, rfl⟩ : ∃ f, fuel = f + 1 := ⟨fuel - 1, by omega⟩
    have hd : d = u := by omega
    subst hd
    rcases hstop with hk | hk
    · refine ⟨(true, probe h key d), ?_, Or.inl ⟨hk, rfl⟩⟩
      simp [find_slot_loop, hk]
    · by_cases hkey : HASH_SLOT_UNUSED = key
      · refine ⟨(true, probe h key d), ?_, Or.inl ⟨by rw [hk, hkey], rfl⟩⟩
        simp [find_slot_loop, hk, hkey]
      · have hne : h.keys[probe h key d]? ≠ some key := by
          rw [hk]; intro hc; exact hkey (Option.some.inj hc)
        cases fd with
        | none =>
          refine ⟨(false, probe h key d), ?_, Or.inr ⟨hne, rfl, d, le_refl d, rfl, Or.inl hk⟩⟩
          simp [find_slot_loop, hk, hkey]
        | some p =>
          obtain ⟨e, he, hpe, hdel⟩ := hfd p rfl
          refine ⟨(false, p), ?_, Or.inr ⟨hne, rfl, e, by omega, hpe, Or.inr hdel⟩⟩
          simp [find_slot_loop, hk, hkey]
  | succ n ih =>
    intro d fuel fd hud hfuel hfd
    obtain ⟨fuel, rfl⟩ : ∃ f, fuel = f + 1 := ⟨fuel - 1, by omega⟩
    have hdu : d < u := by omega
    obtain ⟨hnk, hnu⟩ := hbefore d hdu
    have hlt : probe h key d < h.keys.length := by rw [hlen]; exact probe_lt h key d hs
    obtain ⟨k, hk⟩ : ∃ k, h.keys[probe h key d]? = some k :=
      ⟨h.keys[probe h key d], List.getElem?_eq_getElem hlt⟩
    have hk1 : k ≠ key := fun hc => hnk (by rw [hk, hc])
    have hk2 : k ≠ HASH_SLOT_UNUSED := fun hc => hnu (by rw [hk, hc])
    have hstep : find_slot_loop h key (fuel + 1) (probe h key d) fd
        = find_slot_loop h key fuel (probe h key (d + 1))
            (if k = HASH_SLOT_DELETED then some (fd.getD (probe h key d)) else fd) := by
      simp only [find_slot_loop, hk, hk1, hk2, if_false, probe_succ h key d hs h32]
    rw [hstep]
    apply ih (d + 1) fuel _ (by omega) (by omega)
    intro p hp
    by_cases hdel : k = HASH_SLOT_DELETED
    · rw [if_pos hdel] at hp
      cases fd with
      | none =>
        simp only [Option.getD_none, Option.some.injEq] at hp
        exact ⟨d, by omega, hp.symm, by rw [← hp, hk, hdel]⟩
      | some q =>
        simp only [Option.getD_some, Option.some.injEq] at hp
        obtain ⟨e, he, hpe, hdl⟩ := hfd q rfl
        exact ⟨e, by omega, by rw [← hp]; exact hpe, by rw [← hp]; exact hdl⟩
    · rw [if_neg hdel] at hp
      obtain ⟨e, he, hpe, hdl⟩ := hfd p hp
      exact ⟨e, by omega, hpe, hdl⟩

theorem slot_used_iff (k : Nat) :
    slot_used k = true ↔ k ≠ HASH_SLOT_UNUSED ∧ k ≠ HASH_SLOT_DELETED := by
  simp [slot_used]

theorem find_slot_found (h : Hash) (hwf : WF h) (key i : Nat)
    (hi : h.keys[i]? = some key) (hused : slot_used key = true) :
    find_slot h key = .ok (true, i) := by
  obtain ⟨d, hd, hpi, hbef⟩ := hwf.chain i key hi hused
  have hstop : h.keys[probe h key d]? = some key := by rw [hpi]; exact hi
  obtain ⟨r, hr, hcase⟩ := find_slot_loop_spec h key hwf.size_pos
    hwf.size_lt hwf.keys_len d (Or.inl hstop) hbef d 0 h.size none
    (by omega) hd (by intro p hp; cases hp)
  rw [probe_zero] at hr
  unfold find_slot
  rw [if_neg (by have := hwf.size_pos; omega), hr]
  rcases hcase with ⟨_, h2⟩ | ⟨h1, _⟩
  · rw [h2, hpi]
  · exact absurd hstop h1

theorem find_slot_absent (h : Hash) (hs : 0 < h.size) (h32 : h.size < 4294967296)
    (hlen : h.keys.length = h.size) (key : Nat)
    (habs : ∀ i : Nat, h.keys[i]? ≠ some key) (hun : HASH_SLOT_UNUSED ∈ h.keys) :
    ∃ p e0, find_slot h key = .ok (false, p) ∧ e0 < h.size ∧ p = probe h key e0 ∧
      (h.keys[p]? = some HASH_SLOT_UNUSED ∨ h.keys[p]? = some HASH_SLOT_DELETED) ∧
      ∀ e, e < e0 → h.keys[probe h key e]? ≠ some key ∧
        h.keys[probe h key e]? ≠ some HASH_SLOT_UNUSED := by
  have hex : ∃ e, e < h.size ∧ h.keys[probe h key e]? = some HASH_SLOT_UNUSED := by
    obtain ⟨i, hi, hget⟩ := List.mem_iff_getElem.mp hun
    obtain ⟨d, hd, hp⟩ := probe_surj h key i (by omega)
    exact ⟨d, hd, by rw [hp, List.getElem?_eq_getElem hi, hget]⟩
  classical
  let u := Nat.find hex
  have hu : u < h.size ∧ h.keys[probe h key u]? = some HASH_SLOT_UNUSED := Nat.find_spec hex
  have hbef : ∀ e, e < u → h.keys[probe h key e]? ≠ some key ∧
      h.keys[probe h key e]? ≠ some HASH_SLOT_UNUSED := by
    intro e he
    refine ⟨habs _, fun hc => ?_⟩
    exact Nat.find_min hex he ⟨by omega, hc⟩
  obtain ⟨r, hr, hcase⟩ := find_slot_loop_spec h key hs h32 hlen u (Or.inr hu.2) hbef u 0
    h.size none (by omega) hu.1 (by intro p hp; cases hp)
  rw [probe_zero] at hr
  rcases hcase with ⟨h1, _⟩ | ⟨_, hfalse, e, he, hre, hslot⟩
  · exact absurd h1 (habs _)
  · refine ⟨r.2, e, ?_, by omega, hre, hslot, fun e2 he2 => hbef e2 (by omega)⟩
    unfold find_slot
    rw [if_neg (by omega), hr]
    congr 1
    exact Prod.ext hfalse rfl

/-- Writing an absent key into the slot `find_slot` proposes keeps the table
well-formed, adds the key and changes no other entry. -/
theorem WF.set_at {h : Hash} (hwf : WF h) (key val t p e0 : Nat)
    (hused : slot_used key = true) (habs : Absent h key) (he0 : e0 < h.size)
    (hp : p = probe h key e0)
    (hslot : h.keys[p]? = some HASH_SLOT_UNUSED ∨ h.keys[p]? = some HASH_SLOT_DELETED)
    (hbef : ∀ e, e < e0 → h.keys[probe h key e]? ≠ some key ∧
      h.keys[probe h key e]? ≠ some HASH_SLOT_UNUSED) :
    WF { h with taken_slots := t, keys := h.keys.set p key,
                vals := h.vals.set p (some val) } ∧
    Has { h with taken_slots := t, keys := h.keys.set p key,
                 vals := h.vals.set p (some val) } key val ∧
    (∀ k2 v, k2 ≠ key → slot_used k2 = true →
      (Has { h with taken_slots := t, keys := h.keys.set p key,
                    vals := h.vals.set p (some val) } k2 v ↔ Has h k2 v)) := by
  have hplt : p < h.size := by rw [hp]; exact probe_lt h key e0 hwf.size_pos
  have hkeyU := (slot_used_iff key).mp hused
  have hpk : p < h.keys.length := by rw [hwf.keys_len]; exact hplt
  have hpv : p < h.vals.length := by rw [hwf.vals_len]; exact hplt
  refine ⟨⟨hwf.size_pos, hwf.size_lt, ?_, ?_, ?_, ?_⟩, ?_, ?_⟩
  · simp only [List.length_set]; exact hwf.keys_len
  · simp only [List.length_set]; exact hwf.vals_len
  · intro i k hi hk
    simp only [List.getElem?_set] at hi
    by_cases hpi : p = i
    · rw [if_pos hpi, if_pos hpk] at hi
      have hkk : key = k := Option.some.inj hi
      subst hkk
      refine ⟨e0, he0, by rw [← hpi, hp]; rfl, ?_⟩
      intro e he
      have hne : p ≠ probe h key e := by
        rw [hp]; intro hc
        have := probe_inj h key e0 e he0 (by omega) hc
        omega
      show (h.keys.set p key)[probe h key e]? ≠ some key ∧
        (h.keys.set p key)[probe h key e]? ≠ some HASH_SLOT_UNUSED
      rw [List.getElem?_set_ne hne]
      exact hbef e he
    · rw [if_neg hpi] at hi
      obtain ⟨d, hd, hpd, hb⟩ := hwf.chain i k hi hk
      have hkne : key ≠ k := fun hc => habs i (by rw [hc]; exact hi)
      refine ⟨d, hd, hpd, ?_⟩
      intro e he
      show (h.keys.set p key)[probe h k e]? ≠ some k ∧
        (h.keys.set p key)[probe h k e]? ≠ some HASH_SLOT_UNUSED
      by_cases hpe : p = probe h k e
      · rw [← hpe, List.getElem?_set_self hpk]
        exact ⟨fun hc => hkne (Option.some.inj hc), fun hc => hkeyU.1 (Option.some.inj hc)⟩
      · rw [List.getElem?_set_ne hpe]
        exact hb e he
  · intro i k hi hk
    simp only [List.getElem?_set] at hi
    by_cases hpi : p = i
    · subst hpi
      exact ⟨val, by simp only [List.getElem?_set_self hpv]⟩
    · rw [if_neg hpi] at hi
      obtain ⟨v, hv⟩ := hwf.vals_def i k hi hk
      exact ⟨v, by simp only [List.getElem?_set_ne hpi]; exact hv⟩
  · exact ⟨p, by simp only [List.getElem?_set_self hpk], by simp only [List.getElem?_set_self hpv]⟩
  · intro k2 v hk2 hu2
    have hk2U := (slot_used_iff k2).mp hu2
    constructor
    · rintro ⟨i, hi1, hi2⟩
      simp only [List.getElem?_set] at hi1 hi2
      by_cases hpi : p = i
      · rw [if_pos hpi, if_pos hpk] at hi1
        exact absurd (Option.some.inj hi1).symm hk2
      · rw [if_neg hpi] at hi1 hi2
        exact ⟨i, hi1, hi2⟩
    · rintro ⟨i, hi1, hi2⟩
      have hpi : p ≠ i := by
        intro hc
        rw [hc, hi1] at hslot
        rcases hslot with hc2 | hc2
        · exact hk2U.1 (Option.some.inj hc2)
        · exact hk2U.2 (Option.some.inj hc2)
      exact ⟨i, by simp only [List.getElem?_set_ne hpi]; exact hi1,
        by simp only [List.getElem?_set_ne hpi]; exact hi2⟩

theorem WF.index_unique {h : Hash} (hwf : WF h) (k i j : Nat) (hu : slot_used k = true)
    (hi : h.keys[i]? = some k) (hj : h.keys[j]? = some k) : i = j := by
  have h1 := find_slot_found h hwf k i hi hu
  have h2 := find_slot_found h hwf k j hj hu
  rw [h1] at h2
  simpa using h2

theorem WF.has_unique {h : Hash} (hwf : WF h) (k v w : Nat) (hu : slot_used k = true)
    (hv : Has h k v) (hw : Has h k w) : v = w := by
  obtain ⟨i, hi1, hi2⟩ := hv
  obtain ⟨j, hj1, hj2⟩ := hw
  have := hwf.index_unique k i j hu hi1 hj1
  subst this
  rw [hi2] at hj2
  simpa using hj2

theorem WF.has_or_absent {h : Hash} (hwf : WF h) (k : Nat) (hu : slot_used k = true) :
    (∃ v, Has h k v) ∨ Absent h k := by
  by_cases hex : ∃ i : Nat, h.keys[i]? = some k
  · obtain ⟨i, hi⟩ := hex
    obtain ⟨v, hv⟩ := hwf.vals_def i k hi hu
    exact Or.inl ⟨v, i, hi, hv⟩
  · exact Or.inr (fun i hi => hex ⟨i, hi⟩)

/-- WF, `Has` and `Absent` only look at `size`, `keys` and `vals`. -/
theorem WF.congr_arrays {h g : Hash} (hwf : WF h) (hs : g.size = h.size) (hk : g.keys = h.keys)
    (hv : g.vals = h.vals) : WF g := by
  have hp : ∀ k d, probe g k d = probe h k d := by intro k d; unfold probe; rw [hs]
  refine ⟨by rw [hs]; exact hwf.size_pos, by rw [hs]; exact hwf.size_lt,
    by rw [hs, hk]; exact hwf.keys_len, by rw [hs, hv]; exact hwf.vals_len, ?_, ?_⟩
  · intro i k hi hu
    rw [hk] at hi
    obtain ⟨d, hd, hpd, hb⟩ := hwf.chain i k hi hu
    refine ⟨d, by rw [hs]; exact hd, by rw [hp]; exact hpd, ?_⟩
    intro e he
    rw [hp, hk]
    exact hb e he
  · intro i k hi hu
    rw [hk] at hi
    rw [hv]
    exact hwf.vals_def i k hi hu

theorem Has.congr_cells {h g : Hash} (hk : g.keys = h.keys) (hv : g.vals = h.vals) (k v : Nat) :
    Has g k v ↔ Has h k v := by
  unfold Has; rw [hk, hv]

theorem find_slot_congr {h g : Hash} (hs : g.size = h.size) (hk : g.keys = h.keys)
    (key : Nat) : find_slot g key = find_slot h key := by
  have hl : ∀ fuel pos fd, find_slot_loop g key fuel pos fd = find_slot_loop h key fuel pos fd := by
    intro fuel
    induction fuel with
    | zero => intro pos fd; rfl
    | succ fuel ih =>
      intro pos fd
      simp only [find_slot_loop, hk, hs, ih]
  unfold find_slot
  rw [hs, hl]

/-- `hash_get` of a stored key. -/
theorem hash_get_has {h : Hash} (hwf : WF h) (k v : Nat) (hu : slot_used k = true)
    (hv : Has h k v) : hash_get h k = .ok v := by
  obtain ⟨i, hi1, hi2⟩ := hv
  unfold hash_get
  rw [find_slot_found h hwf k i hi1 hu]
  simp only [hi2]

/-- `hash_get` of a key that is not stored, in a table with an unused slot. -/
theorem hash_get_absent {h : Hash} (hwf : WF h) (k : Nat) (habs : Absent h k)
    (hun : HASH_SLOT_UNUSED ∈ h.keys) : hash_get h k = .ok h.default_value := by
  obtain ⟨p, e0, hfs, -⟩ := find_slot_absent h hwf.size_pos
    hwf.size_lt hwf.keys_len k habs hun
  unfold hash_get
  rw [hfs]

/-- Overwriting the value of a stored key. -/
theorem WF.set_found {h : Hash} (hwf : WF h) (key val i : Nat)
    (_hused : slot_used key = true) (hi : h.keys[i]? = some key) :
    WF { h with keys := h.keys.set i key, vals := h.vals.set i (some val) } ∧
    Has { h with keys := h.keys.set i key, vals := h.vals.set i (some val) } key val ∧
    (∀ k2 v, k2 ≠ key → slot_used k2 = true →
      (Has { h with keys := h.keys.set i key, vals := h.vals.set i (some val) } k2 v
        ↔ Has h k2 v)) ∧
    h.keys.set i key = h.keys := by
  have hkeys : h.keys.set i key = h.keys := by
    apply List.ext_getElem?
    intro j
    rw [List.getElem?_set]
    by_cases hij : i = j
    · subst hij
      rw [if_pos rfl, hi]
      have : i < h.keys.length := (List.getElem?_eq_some.mp hi).1
      rw [if_pos this]
    · rw [if_neg hij]
  have hik : i < h.keys.length := (List.getElem?_eq_some.mp hi).1
  have hiv : i < h.vals.length := by rw [hwf.vals_len, ← hwf.keys_len]; exact hik
  refine ⟨⟨hwf.size_pos, hwf.size_lt, ?_, ?_, ?_, ?_⟩, ?_, ?_, hkeys⟩
  · show (h.keys.set i key).length = h.size
    rw [hkeys]; exact hwf.keys_len
  · show (h.vals.set i (some val)).length = h.size
    rw [List.length_set]; exact hwf.vals_len
  · intro j k hj hk
    have hj2 : h.keys[j]? = some k := by
      have : (h.keys.set i key)[j]? = some k := hj
      rwa [hkeys] at this
    obtain ⟨d, hd, hpd, hb⟩ := hwf.chain j k hj2 hk
    refine ⟨d, hd, hpd, ?_⟩
    intro e he
    show (h.keys.set i key)[probe h k e]? ≠ some k ∧
      (h.keys.set i key)[probe h k e]? ≠ some HASH_SLOT_UNUSED
    rw [hkeys]
    exact hb e he
  · intro j k hj hk
    have hj2 : h.keys[j]? = some k := by
      have : (h.keys.set i key)[j]? = some k := hj
      rwa [hkeys] at this
    show ∃ v : Nat, (h.vals.set i (some val))[j]? = some (some v)
    by_cases hij : i = j
    · subst hij
      exact ⟨val, List.getElem?_set_self hiv⟩
    · rw [List.getElem?_set_ne hij]
      exact hwf.vals_def j k hj2 hk
  · refine ⟨i, ?_, ?_⟩
    · show (h.keys.set i key)[i]? = some key
      rw [hkeys]; exact hi
    · show (h.vals.set i (some val))[i]? = some (some val)
      exact List.getElem?_set_self hiv
  · intro k2 v hk2 hu2
    constructor
    · rintro ⟨j, hj1, hj2⟩
      have hj1b : h.keys[j]? = some k2 := by
        have : (h.keys.set i key)[j]? = some k2 := hj1
        rwa [hkeys] at this
      have hij : i ≠ j := by
        intro hc; subst hc
        rw [hi] at hj1b
        exact hk2 (Option.some.inj hj1b).symm
      have hj2b : (h.vals.set i (some val))[j]? = some (some v) := hj2
      rw [List.getElem?_set_ne hij] at hj2b
      exact ⟨j, hj1b, hj2b⟩
    · rintro ⟨j, hj1, hj2⟩
      have hij : i ≠ j := by
        intro hc; subst hc
        rw [hi] at hj1
        exact hk2 (Option.some.inj hj1).symm
      refine ⟨j, ?_, ?_⟩
      · show (h.keys.set i key)[j]? = some k2
        rw [hkeys]; exact hj1
      · show (h.vals.set i (some val))[j]? = some (some v)
        rw [List.getElem?_set_ne hij]; exact hj2

theorem hash_set_insert (fuel : Nat) (h : Hash) (key val p : Nat)
    (hfs : find_slot h key = .ok (false, p))
    (hload : ¬ (wrapU32 (wrapU32 (h.taken_slots + 1) * 256) / h.size > MAXLOAD)) :
    hash_set (fuel + 1) h key val
      = .ok { h with taken_slots := wrapU32 (h.taken_slots + 1),
                     keys := h.keys.set p key, vals := h.vals.set p (some val) } := by
  simp only [hash_set, hfs, hload, if_false]

theorem hash_set_overwrite (fuel : Nat) (h : Hash) (key val p : Nat)
    (hfs : find_slot h key = .ok (true, p)) :
    hash_set (fuel + 1) h key val
      = .ok { h with keys := h.keys.set p key, vals := h.vals.set p (some val) } := by
  simp only [hash_set, hfs]

theorem hash_set_enlarge (fuel : Nat) (h h2 : Hash) (key val p p2 : Nat) (b : Bool)
    (hfs : find_slot h key = .ok (false, p))
    (hload : wrapU32 (wrapU32 (h.taken_slots + 1) * 256) / h.size > MAXLOAD)
    (hen : enlarge_table_with (hash_set fuel)
      { h with taken_slots := wrapU32 (h.taken_slots + 1) } = .ok h2)
    (hfs2 : find_slot h2 key = .ok (b, p2)) :
    hash_set (fuel + 1) h key val
      = .ok { h2 with keys := h2.keys.set p2 key, vals := h2.vals.set p2 (some val) } := by
  simp only [hash_set, hfs, hload, if_true, hen, hfs2]

theorem WF_hash_new (n d : Nat) (hn : 0 < n) (h32 : n < 4294967296) : WF (hash_new n d) := by
  have hget : ∀ (i k : Nat), (hash_new n d).keys[i]? = some k → k = HASH_SLOT_UNUSED := by
    intro i k hi
    simp only [hash_new, List.getElem?_replicate] at hi
    split_ifs at hi
    exact (Option.some.inj hi).symm
  refine ⟨hn, h32, by simp [hash_new], by simp [hash_new], ?_, ?_⟩
  · intro i k hi hu
    have := hget i k hi
    rw [this] at hu
    exact absurd hu (by decide)
  · intro i k hi hu
    have := hget i k hi
    rw [this] at hu
    exact absurd hu (by decide)

theorem take_succ_count (l : List Nat) (j k : Nat) (hk : l[j]? = some k) :
    (l.take (j + 1)).count HASH_SLOT_UNUSED
      = (l.take j).count HASH_SLOT_UNUSED + (if k = HASH_SLOT_UNUSED then 1 else 0) := by
  rw [List.take_succ, hk, List.count_append]
  by_cases h : k = HASH_SLOT_UNUSED
  · rw [if_pos h, h]; simp
  · rw [if_neg h]
    have hb : (k == HASH_SLOT_UNUSED) = false := by
      simp only [beq_eq_false_iff_ne, ne_eq]; exact h
    simp [List.count_cons, hb]

theorem enlarge_loop_spec (old : Hash) (hwf : WF old) (hsz : old.size < 2147483648)
    (fuel : Nat) :
    ∀ (rest : List (Nat × Option Nat)) (j : Nat) (new : Hash),
      (old.keys.zip old.vals).drop j = rest → j ≤ old.size → EnlargeInv old new j →
      ∃ new2, enlarge_loop (hash_set (fuel + 1)) rest new = .ok new2 ∧
        EnlargeInv old new2 old.size ∧ new2.default_value = new.default_value := by
  have hziplen : (old.keys.zip old.vals).length = old.size := by
    rw [List.length_zip, hwf.keys_len, hwf.vals_len, Nat.min_self]
  intro rest
  induction rest with
  | nil =>
    intro j new hdrop hj hinv
    have : j = old.size := by
      have := List.drop_eq_nil_iff.mp hdrop
      omega
    subst this
    exact ⟨new, rfl, hinv, rfl⟩
  | cons kv rest ih =>
    intro j new hdrop hj hinv
    obtain ⟨k, v⟩ := kv
    have hjlt : j < (old.keys.zip old.vals).length := by
      by_contra hc
      rw [List.drop_eq_nil_iff.mpr (by omega)] at hdrop
      cases hdrop
    rw [List.drop_eq_getElem_cons hjlt] at hdrop
    have hhead : (old.keys.zip old.vals)[j] = (k, v) := (List.cons.inj hdrop).1
    have htail : (old.keys.zip old.vals).drop (j + 1) = rest := (List.cons.inj hdrop).2
    have hzj : (old.keys.zip old.vals)[j]? = some (k, v) := by
      rw [List.getElem?_eq_getElem hjlt, hhead]
    obtain ⟨hkj, hvj⟩ := List.getElem?_zip_eq_some.mp hzj
    simp only at hkj hvj
    have hj2 : j < old.size := by omega
    by_cases hu : slot_used k = true
    · obtain ⟨val, hval⟩ := hwf.vals_def j k hkj hu
      rw [hvj] at hval
      have hv : v = some val := Option.some.inj hval
      subst hv
      have hkU := (slot_used_iff k).mp hu
      -- the key is not yet in the new table
      have habs : Absent new k := by
        rcases hinv.wf.has_or_absent k hu with ⟨w, hw⟩ | ha
        · obtain ⟨i, hi, hik, _⟩ := (hinv.content k w hu).mp hw
          have := hwf.index_unique k i j hu hik hkj
          omega
        · exact ha
      have hcount : 0 < new.keys.count HASH_SLOT_UNUSED := by
        have := hinv.unused; have := hinv.taken; omega
      have hun : HASH_SLOT_UNUSED ∈ new.keys := List.count_pos_iff.mp hcount
      obtain ⟨p, e0, hfs, he0, hp, hslot, hbef⟩ := find_slot_absent new hinv.wf.size_pos
        hinv.wf.size_lt hinv.wf.keys_len k habs hun
      have hslotU : new.keys[p]? = some HASH_SLOT_UNUSED := by
        rcases hslot with h1 | h1
        · exact h1
        · exact absurd (List.mem_iff_getElem?.mpr ⟨p, h1⟩) hinv.no_del
      have hload : ¬ (wrapU32 (wrapU32 (new.taken_slots + 1) * 256) / new.size > MAXLOAD) := by
        have ht : new.taken_slots ≤ j := by have := hinv.taken; omega
        have h1 : wrapU32 (new.taken_slots + 1) = new.taken_slots + 1 := by
          unfold wrapU32; omega
        have h2 : wrapU32 ((new.taken_slots + 1) * 256) ≤ (new.taken_slots + 1) * 256 :=
          Nat.mod_le _ _
        rw [h1, hinv.size_eq]
        have h3 : wrapU32 ((new.taken_slots + 1) * 256) / (2 * old.size + 1) < 176 := by
          apply Nat.div_lt_of_lt_mul
          omega
        unfold MAXLOAD
        omega
      obtain ⟨hwf2, hhas2, hoth2⟩ := hinv.wf.set_at k val (wrapU32 (new.taken_slots + 1)) p e0
        hu habs he0 hp (Or.inl hslotU) hbef
      have htk1 : wrapU32 (new.taken_slots + 1) = new.taken_slots + 1 := by
        have := hinv.taken
        unfold wrapU32; omega
      have hplt : p < new.keys.length := (List.getElem?_eq_some.mp hslotU).1
      have hpget : new.keys[p] = HASH_SLOT_UNUSED := (List.getElem?_eq_some.mp hslotU).2
      have hinv2 : EnlargeInv old
          { new with taken_slots := wrapU32 (new.taken_slots + 1),
                     keys := new.keys.set p k, vals := new.vals.set p (some val) }
          (j + 1) := by
        refine ⟨hwf2, hinv.size_eq, ?_, ?_, ?_, ?_⟩
        · intro hmem
          rcases List.mem_or_eq_of_mem_set hmem with h1 | h1
          · exact hinv.no_del h1
          · exact hkU.2 h1.symm
        · show (new.keys.set p k).count HASH_SLOT_UNUSED + wrapU32 (new.taken_slots + 1)
            = 2 * old.size + 1
          rw [List.count_set _ _ _ _ hplt, hpget, htk1]
          have := hinv.unused
          have hkb : (k == HASH_SLOT_UNUSED) = false := by
            simp only [beq_eq_false_iff_ne, ne_eq]; exact hkU.1
          simp only [beq_self_eq_true, if_true, hkb, Bool.false_eq_true, if_false]
          omega
        · show wrapU32 (new.taken_slots + 1) + (old.keys.take (j + 1)).count HASH_SLOT_UNUSED
            ≤ j + 1
          rw [htk1, take_succ_count old.keys j k hkj, if_neg hkU.1]
          have := hinv.taken
          omega
        · intro k2 v2 hu2
          by_cases hk2 : k2 = k
          · subst hk2
            constructor
            · intro hh
              have := hwf2.has_unique k2 v2 val hu2 hh hhas2
              subst this
              exact ⟨j, by omega, hkj, hvj⟩
            · rintro ⟨i, hi, hik, hiv⟩
              have hij : i = j := hwf.index_unique k2 i j hu hik hkj
              subst hij
              rw [hvj] at hiv
              have : val = v2 := by simpa using hiv
              subst this
              exact hhas2
          · rw [hoth2 k2 v2 hk2 hu2, hinv.content k2 v2 hu2]
            constructor
            · rintro ⟨i, hi, hik, hiv⟩
              exact ⟨i, by omega, hik, hiv⟩
            · rintro ⟨i, hi, hik, hiv⟩
              have hij : i ≠ j := by
                intro hc; subst hc
                rw [hkj] at hik
                exact hk2 (Option.some.inj hik).symm
              exact ⟨i, by omega, hik, hiv⟩
      obtain ⟨new3, hloop, hinv3, hdef3⟩ := ih (j + 1) _ htail (by omega) hinv2
      refine ⟨new3, ?_, hinv3, hdef3⟩
      simp only [enlarge_loop, hu, if_true, hash_set_insert fuel new k val p hfs hload, hloop]
    · have hinv2 : EnlargeInv old new (j + 1) := by
        refine ⟨hinv.wf, hinv.size_eq, hinv.no_del, hinv.unused, ?_, ?_⟩
        · rw [take_succ_count old.keys j k hkj]
          have := hinv.taken
          split_ifs <;> omega
        intro k2 v2 hu2
        rw [hinv.content k2 v2 hu2]
        constructor
        · rintro ⟨i, hi, hik, hiv⟩
          exact ⟨i, by omega, hik, hiv⟩
        · rintro ⟨i, hi, hik, hiv⟩
          have hij : i ≠ j := by
            intro hc; subst hc
            rw [hkj] at hik
            have : k = k2 := Option.some.inj hik
            subst this
            exact hu hu2
          exact ⟨i, by omega, hik, hiv⟩
      obtain ⟨new3, hloop, hinv3, hdef3⟩ := ih (j + 1) new htail (by omega) hinv2
      refine ⟨new3, ?_, hinv3, hdef3⟩
      simp only [enlarge_loop, hu, hloop]
      rfl

theorem enlarge_table_spec (h : Hash) (hwf : WF h) (hsz : h.size < 2147483648) (fuel : Nat) :
    ∃ h2, enlarge_table_with (hash_set (fuel + 1)) h = .ok h2 ∧ WF h2 ∧
      h2.size = 2 * h.size + 1 ∧ HASH_SLOT_DELETED ∉ h2.keys ∧
      h.size + 1 + h.keys.count HASH_SLOT_UNUSED ≤ h2.keys.count HASH_SLOT_UNUSED ∧
      h2.taken_slots = h.taken_slots ∧ h2.default_value = h.default_value ∧
      ∀ k v, slot_used k = true → (Has h2 k v ↔ Has h k v) := by
  have hw : wrapU32 (h.size * 2 + 1) = 2 * h.size + 1 := by unfold wrapU32; omega
  have hinv0 : EnlargeInv h (hash_new (2 * h.size + 1) NIL) 0 := by
    have hwf0 := WF_hash_new (2 * h.size + 1) NIL (by omega) (by omega)
    refine ⟨hwf0, rfl, ?_, ?_, by simp [hash_new], ?_⟩
    · simp only [hash_new]
      intro hmem
      have := List.eq_of_mem_replicate hmem
      exact absurd this (by decide)
    · simp only [hash_new, List.count_replicate_self]
    · intro k v hu
      constructor
      · rintro ⟨i, hi, _⟩
        simp only [hash_new, List.getElem?_replicate] at hi
        split_ifs at hi
        have := Option.some.inj hi
        rw [← this] at hu
        exact absurd hu (by decide)
      · rintro ⟨i, hi, _⟩
        omega
  have htake : (h.keys.zip h.vals).take h.size = (h.keys.zip h.vals).drop 0 := by
    rw [List.drop_zero]
    apply List.take_of_length_le
    rw [List.length_zip, hwf.keys_len, hwf.vals_len, Nat.min_self]
  obtain ⟨new2, hloop, hinv, _⟩ := enlarge_loop_spec h hwf hsz fuel _ 0 _ rfl (by omega) hinv0
  have hres : enlarge_table_with (hash_set (fuel + 1)) h
      = .ok { h with size := new2.size, keys := new2.keys, vals := new2.vals } := by
    unfold enlarge_table_with
    rw [hw, htake, hloop]
  refine ⟨_, hres, hinv.wf.congr_arrays rfl rfl rfl, hinv.size_eq, hinv.no_del, ?_, rfl, rfl, ?_⟩
  · have h1 := hinv.unused
    have h2 := hinv.taken
    rw [List.take_of_length_le (by rw [hwf.keys_len])] at h2
    show h.size + 1 + h.keys.count HASH_SLOT_UNUSED ≤ new2.keys.count HASH_SLOT_UNUSED
    omega
  · intro k v hu
    refine Iff.trans (Has.congr_cells (h := new2) rfl rfl k v) ?_
    rw [hinv.content k v hu]
    constructor
    · rintro ⟨i, _, hik, hiv⟩
      exact ⟨i, hik, hiv⟩
    · rintro ⟨i, hik, hiv⟩
      refine ⟨i, ?_, hik, hiv⟩
      have := (List.getElem?_eq_some.mp hik).1
      rw [hwf.keys_len] at this
      exact this

theorem hash_set_spec (h : Hash) (hwf : WF h) (hsz : h.size < 2147483648) (key val : Nat)
    (hused : slot_used key = true) (hun : HASH_SLOT_UNUSED ∈ h.keys) (fuel : Nat) :
    ∃ h2, hash_set (fuel + 2) h key val = .ok h2 ∧ SetResult h key val h2 := by
  have hkU := (slot_used_iff key).mp hused
  rcases hwf.has_or_absent key hused with ⟨w, i, hi, _⟩ | habs
  · have hfs := find_slot_found h hwf key i hi hused
    obtain ⟨hwf2, hhas, hoth, hkeys⟩ := hwf.set_found key val i hused hi
    exact ⟨_, hash_set_overwrite (fuel + 1) h key val i hfs,
      ⟨hwf2, hhas, hoth, rfl, Or.inl ⟨rfl, hkeys, rfl, fun ha => ha i hi⟩⟩⟩
  · obtain ⟨p, e0, hfs, he0, hp, hslot, hbef⟩ := find_slot_absent h hwf.size_pos
      hwf.size_lt hwf.keys_len key habs hun
    have hplt : p < h.keys.length := by
      rcases hslot with h1 | h1 <;> exact (List.getElem?_eq_some.mp h1).1
    by_cases hload : wrapU32 (wrapU32 (h.taken_slots + 1) * 256) / h.size > MAXLOAD
    · -- the table is enlarged first
      have hwf1 : WF { h with taken_slots := wrapU32 (h.taken_slots + 1) } :=
        hwf.congr_arrays rfl rfl rfl
      obtain ⟨h2, hen, hwf2, hsize2, hnodel2, hcount2, htaken2, hdef2, hcont2⟩ :=
        enlarge_table_spec _ hwf1 hsz fuel
      have hsize2 : h2.size = 2 * h.size + 1 := hsize2
      have hcount2 : h.size + 1 + h.keys.count HASH_SLOT_UNUSED
          ≤ h2.keys.count HASH_SLOT_UNUSED := hcount2
      have htaken2 : h2.taken_slots = wrapU32 (h.taken_slots + 1) := htaken2
      have hdef2 : h2.default_value = h.default_value := hdef2
      have habs2 : Absent h2 key := by
        rcases hwf2.has_or_absent key hused with ⟨w, hw⟩ | ha
        · have hw1 := (hcont2 key w hused).mp hw
          obtain ⟨i, hi, _⟩ := hw1
          exact absurd hi (habs i)
        · exact ha
      have hun2 : HASH_SLOT_UNUSED ∈ h2.keys :=
        List.count_pos_iff.mp (by omega)
      obtain ⟨p2, e2, hfs2, he2, hp2, hslot2, hbef2⟩ := find_slot_absent h2 hwf2.size_pos
        hwf2.size_lt hwf2.keys_len key habs2 hun2
      have hslotU : h2.keys[p2]? = some HASH_SLOT_UNUSED := by
        rcases hslot2 with h1 | h1
        · exact h1
        · exact absurd (List.mem_iff_getElem?.mpr ⟨p2, h1⟩) hnodel2
      obtain ⟨hwf3, hhas3, hoth3⟩ := hwf2.set_at key val h2.taken_slots p2 e2 hused habs2 he2
        hp2 (Or.inl hslotU) hbef2
      have hp2lt : p2 < h2.keys.length := (List.getElem?_eq_some.mp hslotU).1
      have hp2get : h2.keys[p2] = HASH_SLOT_UNUSED := (List.getElem?_eq_some.mp hslotU).2
      refine ⟨{ h2 with keys := h2.keys.set p2 key, vals := h2.vals.set p2 (some val) }, ?_,
        ⟨hwf3, hhas3, ?_, hdef2, Or.inr (Or.inr ⟨habs, hload, hsize2, htaken2, ?_, ?_⟩)⟩⟩
      · exact hash_set_enlarge (fuel + 1) h h2 key val p p2 false hfs hload hen hfs2
      · intro k2 v hk2 hu2
        rw [hoth3 k2 v hk2 hu2, hcont2 k2 v hu2]
        exact Has.congr_cells rfl rfl k2 v
      · intro hmem
        rcases List.mem_or_eq_of_mem_set hmem with h1 | h1
        · exact hnodel2 h1
        · exact hkU.2 h1.symm
      · show h.size + h.keys.count HASH_SLOT_UNUSED
          ≤ (h2.keys.set p2 key).count HASH_SLOT_UNUSED
        rw [List.count_set _ _ _ _ hp2lt, hp2get]
        simp only [beq_self_eq_true, if_true]
        omega
    · obtain ⟨hwf2, hhas2, hoth2⟩ := hwf.set_at key val (wrapU32 (h.taken_slots + 1)) p e0
        hused habs he0 hp hslot hbef
      exact ⟨_, hash_set_insert (fuel + 1) h key val p hfs hload,
        ⟨hwf2, hhas2, hoth2, rfl, Or.inr (Or.inl ⟨habs, rfl, rfl, hload, p, hplt, hslot, rfl⟩)⟩⟩

end Word

namespace Word

theorem probe_congr {g h : Hash} (hs : g.size = h.size) (k d : Nat) :
    probe g k d = probe h k d := by
  unfold probe; rw [hs]

theorem deleted_ne_unused : HASH_SLOT_DELETED ≠ HASH_SLOT_UNUSED := by decide

/-- Removing a stored key leaves a tombstone and keeps the other entries. -/
theorem hash_rm_spec (h : Hash) (hwf : WF h) (key : Nat) (hused : slot_used key = true)
    (hun : HASH_SLOT_UNUSED ∈ h.keys) :
    ∃ h2, hash_rm h key = .ok h2 ∧ WF h2 ∧ Absent h2 key ∧
      HASH_SLOT_UNUSED ∈ h2.keys ∧ h2.default_value = h.default_value ∧
      h2.size = h.size ∧
      (∀ k2 v, k2 ≠ key → slot_used k2 = true → (Has h2 k2 v ↔ Has h k2 v)) := by
  have hkU := (slot_used_iff key).mp hused
  rcases hwf.has_or_absent key hused with ⟨w, i, hi, _⟩ | habs
  · have hfs := find_slot_found h hwf key i hi hused
    have hik : i < h.keys.length := (List.getElem?_eq_some.mp hi).1
    obtain ⟨t, ht⟩ : ∃ t, t = wrapU32 (h.taken_slots + 4294967295) := ⟨_, rfl⟩
    have hres : hash_rm h key
        = .ok { h with keys := h.keys.set i HASH_SLOT_DELETED, taken_slots := t } := by
      simp only [hash_rm, hfs, ht]
    have hget : ∀ j : Nat, (h.keys.set i HASH_SLOT_DELETED)[j]?
        = if i = j then some HASH_SLOT_DELETED else h.keys[j]? := by
      intro j
      rw [List.getElem?_set]
      by_cases hij : i = j
      · rw [if_pos hij, if_pos hij, if_pos hik]
      · rw [if_neg hij, if_neg hij]
    refine ⟨_, hres, ⟨hwf.size_pos, hwf.size_lt, ?_, hwf.vals_len, ?_, ?_⟩, ?_, ?_, rfl, rfl, ?_⟩
    · show (h.keys.set i HASH_SLOT_DELETED).length = h.size
      rw [List.length_set]; exact hwf.keys_len
    · intro j k hj hk
      have hj2 : (h.keys.set i HASH_SLOT_DELETED)[j]? = some k := hj
      have hkU2 := (slot_used_iff k).mp hk
      rw [hget] at hj2
      by_cases hij : i = j
      · rw [if_pos hij] at hj2
        exact absurd (Option.some.inj hj2).symm hkU2.2
      · rw [if_neg hij] at hj2
        obtain ⟨d, hd, hpd, hb⟩ := hwf.chain j k hj2 hk
        refine ⟨d, hd, hpd, ?_⟩
        intro e he
        show (h.keys.set i HASH_SLOT_DELETED)[probe h k e]? ≠ some k ∧
          (h.keys.set i HASH_SLOT_DELETED)[probe h k e]? ≠ some HASH_SLOT_UNUSED
        rw [hget]
        by_cases hie : i = probe h k e
        · rw [if_pos hie]
          constructor
          · intro hc
            have h1 : HASH_SLOT_DELETED = k := Option.some.inj hc
            exact hkU2.2 h1.symm
          · intro hc
            have h1 : HASH_SLOT_DELETED = HASH_SLOT_UNUSED := Option.some.inj hc
            exact deleted_ne_unused h1
        · rw [if_neg hie]
          exact hb e he
    · intro j k hj hk
      have hj2 : (h.keys.set i HASH_SLOT_DELETED)[j]? = some k := hj
      have hkU2 := (slot_used_iff k).mp hk
      rw [hget] at hj2
      by_cases hij : i = j
      · rw [if_pos hij] at hj2
        exact absurd (Option.some.inj hj2).symm hkU2.2
      · rw [if_neg hij] at hj2
        exact hwf.vals_def j k hj2 hk
    · intro j hj
      have hj2 : (h.keys.set i HASH_SLOT_DELETED)[j]? = some key := hj
      rw [hget] at hj2
      by_cases hij : i = j
      · rw [if_pos hij] at hj2
        exact hkU.2 (Option.some.inj hj2).symm
      · rw [if_neg hij] at hj2
        exact hij (hwf.index_unique key i j hused hi hj2)
    · obtain ⟨j, hj⟩ := List.mem_iff_getElem?.mp hun
      refine List.mem_iff_getElem?.mpr ⟨j, ?_⟩
      show (h.keys.set i HASH_SLOT_DELETED)[j]? = some HASH_SLOT_UNUSED
      rw [hget]
      have hij : i ≠ j := by
        intro hc; subst hc
        rw [hi] at hj
        exact hkU.1 (Option.some.inj hj)
      rw [if_neg hij]; exact hj
    · intro k2 v hk2 hu2
      have hkU2 := (slot_used_iff k2).mp hu2
      constructor
      · rintro ⟨j, hj1, hj2⟩
        have hj1b : (h.keys.set i HASH_SLOT_DELETED)[j]? = some k2 := hj1
        rw [hget] at hj1b
        by_cases hij : i = j
        · rw [if_pos hij] at hj1b
          exact absurd (Option.some.inj hj1b).symm hkU2.2
        · rw [if_neg hij] at hj1b
          exact ⟨j, hj1b, hj2⟩
      · rintro ⟨j, hj1, hj2⟩
        have hij : i ≠ j := by
          intro hc; subst hc
          rw [hi] at hj1
          exact hk2 (Option.some.inj hj1).symm
        refine ⟨j, ?_, hj2⟩
        show (h.keys.set i HASH_SLOT_DELETED)[j]? = some k2
        rw [hget, if_neg hij]; exact hj1
  · obtain ⟨p, e0, hfs, -⟩ := find_slot_absent h hwf.size_pos hwf.size_lt hwf.keys_len key
      habs hun
    have hres : hash_rm h key = .ok h := by simp only [hash_rm, hfs]
    exact ⟨h, hres, hwf, habs, hun, rfl, rfl, fun _ _ _ _ => Iff.rfl⟩

/-- `hash_get` in terms of the stored entries. -/
theorem hash_get_congr {h g : Hash} (hwf : WF h) (hwg : WF g) (k : Nat)
    (hu : slot_used k = true) (hunh : HASH_SLOT_UNUSED ∈ h.keys)
    (hung : HASH_SLOT_UNUSED ∈ g.keys) (hdef : g.default_value = h.default_value)
    (hsame : ∀ v, Has g k v ↔ Has h k v) : hash_get g k = hash_get h k := by
  rcases hwf.has_or_absent k hu with ⟨v, hv⟩ | habs
  · rw [hash_get_has hwf k v hu hv, hash_get_has hwg k v hu ((hsame v).mpr hv)]
  · have habsg : Absent g k := by
      rcases hwg.has_or_absent k hu with ⟨v, hv⟩ | ha
      · obtain ⟨i, hi, _⟩ := (hsame v).mp hv
        exact absurd hi (habs i)
      · exact ha
    rw [hash_get_absent hwf k habs hunh, hash_get_absent hwg k habsg hung, hdef]

/-- The failing run for claim C6: three keys are set and removed again in a table
of capacity 3 (no set reaches the load bound, so nothing is rehashed).  All three
slots are then tombstones, none is unused, and the probe loop of `find_slot` never
ends: `hash_get` of a key that was never set does not return the default value, and
`hash_set` of a new key does not return either. -/
theorem hash_tombstones_diverge :
    ((((((hash_set 2 (hash_new 3 0) (int2any 0) 7).bind
      (fun h => hash_rm h (int2any 0))).bind
      (fun h => hash_set 2 h (int2any 1) 7)).bind
      (fun h => hash_rm h (int2any 1))).bind
      (fun h => hash_set 2 h (int2any 2) 7)).bind
      (fun h => hash_rm h (int2any 2))) = .ok tombstone_table ∧
    hash_get tombstone_table (int2any 3) = .error .diverge ∧
    (∀ fuel, hash_set fuel tombstone_table (int2any 3) 7 = .error .diverge) := by
  refine ⟨by decide, by decide, ?_⟩
  intro fuel
  cases fuel with
  | zero => rfl
  | succ fuel =>
    have hfs : find_slot tombstone_table (int2any 3) = .error .diverge := by decide
    simp only [hash_set, hfs]

end Word

/-! ## Symbol table -/

namespace Word

theorem string_hash_form (s : List Nat) :
    ∃ m, m < 4294967296 ∧ string_hash s = 6 + 4294967296 * m := by
  refine ⟨(string_hash_loop s 5381 % 4294967296).toNat, ?_, rfl⟩
  have h1 : 0 ≤ string_hash_loop s 5381 % 4294967296 := Int.emod_nonneg _ (by norm_num)
  have h2 : string_hash_loop s 5381 % 4294967296 < 4294967296 :=
    Int.emod_lt_of_pos _ (by norm_num)
  omega

theorem int2any_zero : int2any 0 = 6 := by decide

theorem unused_eq : HASH_SLOT_UNUSED = 802 := by decide

theorem deleted_eq : HASH_SLOT_DELETED = 810 := by decide

/-- A hash word plus a small offset is not a slot sentinel, unless the hash is 0
and the offset reaches 796. -/
theorem key_used (s : List Nat) (j : Nat) (hj : j < 16777216)
    (h0 : string_hash s = int2any 0 → j < 796) : slot_used (string_hash s + j) = true := by
  obtain ⟨m, hm, hs⟩ := string_hash_form s
  rw [slot_used_iff, unused_eq, deleted_eq]
  rw [int2any_zero] at h0
  by_cases hz : m = 0
  · have := h0 (by rw [hs, hz])
    omega
  · omega

theorem key_inj (s t : List Nat) (i j : Nat) (hi : i < 16777216) (hj : j < 16777216)
    (h : string_hash s + i = string_hash t + j) : string_hash s = string_hash t ∧ i = j := by
  obtain ⟨m, hm, hs⟩ := string_hash_form s
  obtain ⟨n, hn, ht⟩ := string_hash_form t
  omega

theorem same_hash_count_le (names : List (Nat × List Nat)) (id : Nat) :
    same_hash_count names id ≤ names.length :=
  List.length_filter_le _ _

theorem same_hash_count_cons (e : Nat × List Nat) (names : List (Nat × List Nat)) (id : Nat) :
    same_hash_count (e :: names) id
      = same_hash_count names id + (if string_hash e.2 = id then 1 else 0) := by
  unfold same_hash_count
  rw [List.filter_cons]
  by_cases h : string_hash e.2 = id
  · simp [h]
  · simp [h]

/-- Every entry of `table_of` belongs to a stored name and lies in its chain. -/
theorem table_of_mem (names : List (Nat × List Nat)) (k v : Nat)
    (h : (k, v) ∈ table_of names) :
    ∃ s, (v, s) ∈ names ∧ ∃ j, j < same_hash_count names (string_hash s) ∧
      k = string_hash s + j := by
  induction names with
  | nil => simp [table_of] at h
  | cons e older ih =>
    simp only [table_of, List.mem_cons, Prod.mk.injEq] at h
    rcases h with ⟨hk, hv⟩ | h
    · refine ⟨e.2, ?_, same_hash_count older (string_hash e.2), ?_, hk⟩
      · rw [hv]; exact List.mem_cons_self _ _
      · rw [same_hash_count_cons, if_pos rfl]; omega
    · obtain ⟨s, hs, j, hj, hkj⟩ := ih h
      refine ⟨s, List.mem_cons_of_mem _ hs, j, ?_, hkj⟩
      rw [same_hash_count_cons]; omega

/-- Every position of a chain is taken by a stored name with that hash word. -/
theorem table_of_chain (names : List (Nat × List Nat)) (id j : Nat)
    (hj : j < same_hash_count names id) :
    ∃ v s, (id + j, v) ∈ table_of names ∧ (v, s) ∈ names ∧ string_hash s = id := by
  induction names with
  | nil => simp [same_hash_count] at hj
  | cons e older ih =>
    rw [same_hash_count_cons] at hj
    by_cases hlt : j < same_hash_count older id
    · obtain ⟨v, s, h1, h2, h3⟩ := ih hlt
      exact ⟨v, s, List.mem_cons_of_mem _ h1, List.mem_cons_of_mem _ h2, h3⟩
    · by_cases he : string_hash e.2 = id
      · rw [if_pos he] at hj
        have hjc : j = same_hash_count older id := by omega
        refine ⟨e.1, e.2, ?_, List.mem_cons_self _ _, he⟩
        rw [table_of, he, hjc]
        exact List.mem_cons_self _ _
      · rw [if_neg he] at hj
        omega

/-- Every stored name has its entry. -/
theorem table_of_name (names : List (Nat × List Nat)) (a : Nat) (s : List Nat)
    (h : (a, s) ∈ names) :
    ∃ j, j < same_hash_count names (string_hash s) ∧
      (string_hash s + j, a) ∈ table_of names := by
  induction names with
  | nil => simp at h
  | cons e older ih =>
    rcases List.mem_cons.mp h with he | ho
    · subst he
      refine ⟨same_hash_count older (string_hash s), ?_, ?_⟩
      · rw [same_hash_count_cons, if_pos rfl]; omega
      · rw [table_of]
        exact List.mem_cons_self _ _
    · obtain ⟨j, hj, hm⟩ := ih ho
      refine ⟨j, ?_, List.mem_cons_of_mem _ hm⟩
      rw [same_hash_count_cons]; omega

/-- The values of `table_of` are the addresses of the names, each once. -/
theorem table_of_value_inj (names : List (Nat × List Nat))
    (hnd : (names.map Prod.fst).Nodup) (k k2 a : Nat)
    (h1 : (k, a) ∈ table_of names) (h2 : (k2, a) ∈ table_of names) : k = k2 := by
  induction names with
  | nil => simp [table_of] at h1
  | cons e older ih =>
    simp only [List.map_cons, List.nodup_cons] at hnd
    have hnot : ∀ k3, (k3, e.1) ∉ table_of older := by
      intro k3 hc
      obtain ⟨s, hs, _⟩ := table_of_mem older k3 e.1 hc
      exact hnd.1 (List.mem_map.mpr ⟨(e.1, s), hs, rfl⟩)
    simp only [table_of, List.mem_cons, Prod.mk.injEq] at h1 h2
    rcases h1 with ⟨hk1, ha1⟩ | h1
    · rcases h2 with ⟨hk2, _⟩ | h2
      · rw [hk1, hk2]
      · rw [ha1] at h2; exact absurd h2 (hnot k2)
    · rcases h2 with ⟨_, ha2⟩ | h2
      · rw [ha2] at h1; exact absurd h1 (hnot k)
      · exact ih hnd.2 h1 h2

theorem lookup_of_mem (names : List (Nat × List Nat)) (hnd : (names.map Prod.fst).Nodup)
    (a : Nat) (s : List Nat) (h : (a, s) ∈ names) : names.lookup a = some s := by
  induction names with
  | nil => simp at h
  | cons e older ih =>
    simp only [List.map_cons, List.nodup_cons] at hnd
    obtain ⟨b, t⟩ := e
    rcases List.mem_cons.mp h with he | ho
    · have h1 : a = b := (Prod.mk.inj he).1
      have h2 : s = t := (Prod.mk.inj he).2
      subst h1; subst h2
      simp [List.lookup]
    · have hne : a ≠ b := by
        intro hc
        subst hc
        exact hnd.1 (List.mem_map.mpr ⟨(a, s), ho, rfl⟩)
      have hb : (a == b) = false := by simp [hne]
      simp only [List.lookup, hb]
      exact ih hnd.2 ho

theorem text_unique (names : List (Nat × List Nat)) (hnd : (names.map Prod.snd).Nodup)
    (a b : Nat) (s : List Nat) (h1 : (a, s) ∈ names) (h2 : (b, s) ∈ names) : a = b := by
  induction names with
  | nil => simp at h1
  | cons e older ih =>
    simp only [List.map_cons, List.nodup_cons] at hnd
    rcases List.mem_cons.mp h1 with he1 | ho1
    · rcases List.mem_cons.mp h2 with he2 | ho2
      · rw [← he2] at he1; exact (Prod.mk.inj he1).1
      · exfalso; apply hnd.1
        rw [← he1]
        exact List.mem_map.mpr ⟨(b, s), ho2, rfl⟩
    · rcases List.mem_cons.mp h2 with he2 | ho2
      · exfalso; apply hnd.1
        rw [← he2]
        exact List.mem_map.mpr ⟨(a, s), ho1, rfl⟩
      · exact ih hnd.2 ho1 ho2

theorem SymInv.taken_lt_size {st : SymTab} (hinv : SymInv st) :
    st.sym_ht.taken_slots < st.sym_ht.size := by
  have h1 := hinv.load
  have h2 := hinv.wf.size_pos
  have h3 : st.sym_ht.taken_slots * 256 / st.sym_ht.size < 176 := by omega
  have h4 := (Nat.div_lt_iff_lt_mul h2).mp h3
  omega

theorem SymInv.has_unused {st : SymTab} (hinv : SymInv st) :
    HASH_SLOT_UNUSED ∈ st.sym_ht.keys := by
  apply List.count_pos_iff.mp
  have := hinv.unused
  have := hinv.taken_lt_size
  omega

theorem round_key_used {st : SymTab} (hb : SymBounded st.names)
    (name : List Nat) (i : Nat) (hi : i ≤ same_hash_count st.names (string_hash name)) :
    slot_used (string_hash name + i) = true := by
  have h1 := same_hash_count_le st.names (string_hash name)
  apply key_used name i (by have := hb.1; omega)
  intro h0
  rw [h0] at hi
  have := hb.2
  omega

/-- A round of the loop of `intern` at a key that holds another text goes on to the
next key. -/
theorem intern_round_next {st : SymTab} (hinv : SymInv st) (hb : SymBounded st.names)
    (blockwords fuel rounds : Nat) (name : List Nat) (i : Nat)
    (hi : i < same_hash_count st.names (string_hash name))
    (hdiff : ∀ v, (string_hash name + i, v) ∈ table_of st.names → (v, name) ∉ st.names) :
    intern_loop blockwords fuel name (rounds + 1) st (string_hash name + i)
      = intern_loop blockwords fuel name rounds st (string_hash name + (i + 1)) := by
  obtain ⟨v, s, hmem, hvs, _⟩ := table_of_chain st.names (string_hash name) i hi
  have hu := round_key_used hb name i (by omega)
  have hget := hash_get_has hinv.wf _ v hu ((hinv.content _ v hu).mpr hmem)
  have hv0 : v ≠ 0 := (hinv.addr_ok (v, s) hvs).1
  have hlook := lookup_of_mem st.names hinv.addr_nodup v s hvs
  have hsn : s ≠ name := by
    intro hc
    rw [hc] at hvs
    exact hdiff v hmem hvs
  have hw : wrap64 (string_hash name + i + 1) = string_hash name + (i + 1) := by
    obtain ⟨m, hm, hs⟩ := string_hash_form name
    have := same_hash_count_le st.names (string_hash name)
    have := hb.1
    unfold wrap64
    omega
  simp only [intern_loop, hget, hv0, if_false, hlook, hsn, hw]

/-- A round of the loop of `intern` at the key that holds the text returns its
symbol. -/
theorem intern_round_hit {st : SymTab} (hinv : SymInv st) (hb : SymBounded st.names)
    (blockwords fuel rounds : Nat) (name : List Nat) (i a : Nat)
    (hi : i < same_hash_count st.names (string_hash name))
    (hmem : (string_hash name + i, a) ∈ table_of st.names) (ha : (a, name) ∈ st.names) :
    intern_loop blockwords fuel name (rounds + 1) st (string_hash name + i)
      = .ok (as_sym a, st) := by
  have hu := round_key_used hb name i (by omega)
  have hget := hash_get_has hinv.wf _ a hu ((hinv.content _ a hu).mpr hmem)
  have hv0 : a ≠ 0 := (hinv.addr_ok (a, name) ha).1
  have hlook := lookup_of_mem st.names hinv.addr_nodup a name ha
  simp only [intern_loop, hget, hv0, if_false, hlook, if_true]

/-- The first key after the chain is free. -/
theorem chain_end_absent {st : SymTab} (hinv : SymInv st) (hb : SymBounded st.names)
    (name : List Nat) :
    Absent st.sym_ht (string_hash name + same_hash_count st.names (string_hash name)) ∧
    ∀ v, (string_hash name + same_hash_count st.names (string_hash name), v)
      ∉ table_of st.names := by
  have hu := round_key_used hb name _ (le_refl _)
  have hnot : ∀ v, (string_hash name + same_hash_count st.names (string_hash name), v)
      ∉ table_of st.names := by
    intro v hc
    obtain ⟨s, _, j, hj, hk⟩ := table_of_mem st.names _ v hc
    have h1 := same_hash_count_le st.names (string_hash name)
    have h2 := same_hash_count_le st.names (string_hash s)
    have := hb.1
    obtain ⟨he, hij⟩ := key_inj name s _ j (by omega) (by omega) hk
    rw [← he] at hj
    omega
  refine ⟨?_, hnot⟩
  rcases hinv.wf.has_or_absent _ hu with ⟨v, hv⟩ | ha
  · exact absurd ((hinv.content _ v hu).mp hv) (hnot v)
  · exact ha

/-- A round of the loop of `intern` at the end of the chain adds the text. -/
theorem intern_round_miss {st : SymTab} (hinv : SymInv st) (hb : SymBounded st.names)
    (blockwords fuel rounds : Nat) (name : List Nat) :
    intern_loop blockwords fuel name (rounds + 1) st
        (string_hash name + same_hash_count st.names (string_hash name))
      = add_sym blockwords fuel st name
          (string_hash name + same_hash_count st.names (string_hash name)) := by
  have hget := hash_get_absent hinv.wf _ (chain_end_absent hinv hb name).1 hinv.has_unused
  rw [hinv.default_eq] at hget
  simp only [intern_loop, hget, if_true]

/-- The loop of `intern` for a text that is not stored yet. -/
theorem intern_loop_new {st : SymTab} (hinv : SymInv st) (hb : SymBounded st.names)
    (blockwords fuel : Nat) (name : List Nat)
    (hnew : ∀ a, (a, name) ∉ st.names) :
    ∀ (d i rounds : Nat), i + d = same_hash_count st.names (string_hash name) → d < rounds →
      intern_loop blockwords fuel name rounds st (string_hash name + i)
        = add_sym blockwords fuel st name
            (string_hash name + same_hash_count st.names (string_hash name)) := by
  intro d
  induction d with
  | zero =>
    intro i rounds hi hr
    obtain ⟨r, rfl⟩ : ∃ r, rounds = r + 1 := ⟨rounds - 1, by omega⟩
    have : i = same_hash_count st.names (string_hash name) := by omega
    rw [this]
    exact intern_round_miss hinv hb blockwords fuel r name
  | succ d ih =>
    intro i rounds hi hr
    obtain ⟨r, rfl⟩ : ∃ r, rounds = r + 1 := ⟨rounds - 1, by omega⟩
    rw [intern_round_next hinv hb blockwords fuel r name i (by omega)
      (fun v _ => hnew v)]
    exact ih (i + 1) r (by omega) (by omega)

/-- The loop of `intern` for a text that is stored. -/
theorem intern_loop_known {st : SymTab} (hinv : SymInv st) (hb : SymBounded st.names)
    (blockwords fuel : Nat) (name : List Nat) (a j : Nat) (ha : (a, name) ∈ st.names)
    (hj : j < same_hash_count st.names (string_hash name))
    (hmem : (string_hash name + j, a) ∈ table_of st.names) :
    ∀ (d i rounds : Nat), i + d = j → d < rounds →
      intern_loop blockwords fuel name rounds st (string_hash name + i)
        = .ok (as_sym a, st) := by
  intro d
  induction d with
  | zero =>
    intro i rounds hi hr
    obtain ⟨r, rfl⟩ : ∃ r, rounds = r + 1 := ⟨rounds - 1, by omega⟩
    have : i = j := by omega
    rw [this]
    exact intern_round_hit hinv hb blockwords fuel r name j a hj hmem ha
  | succ d ih =>
    intro i rounds hi hr
    obtain ⟨r, rfl⟩ : ∃ r, rounds = r + 1 := ⟨rounds - 1, by omega⟩
    rw [intern_round_next hinv hb blockwords fuel r name i (by omega)]
    · exact ih (i + 1) r (by omega) (by omega)
    · intro v hv hvn
      have hva : v = a := text_unique st.names hinv.text_nodup v a name hvn ha
      rw [hva] at hv
      have := table_of_value_inj st.names hinv.addr_nodup _ _ a hv hmem
      omega

theorem SymBounded.tail {e : Nat × List Nat} {names : List (Nat × List Nat)}
    (hb : SymBounded (e :: names)) : SymBounded names := by
  obtain ⟨h1, h2⟩ := hb
  rw [same_hash_count_cons] at h2
  simp only [List.length_cons] at h1
  exact ⟨by omega, by omega⟩

theorem bytes2words_pos (n : Nat) : 1 ≤ bytes2words n := by
  unfold bytes2words; omega

theorem cstring_append_zeros (name : List Nat) (h : (0 : Nat) ∉ name) (m : Nat) :
    cstring (name ++ List.replicate m 0) = name := by
  unfold cstring
  induction name with
  | nil =>
    cases m with
    | zero => rfl
    | succ m => simp [List.replicate_succ, List.takeWhile_cons]
  | cons c rest ih =>
    have hc : c ≠ 0 := fun e => h (by rw [e]; exact List.mem_cons_self _ _)
    have hr : (0 : Nat) ∉ rest := fun e => h (List.mem_cons_of_mem _ e)
    simp only [List.cons_append, List.takeWhile_cons, bne_iff_ne, ne_eq, hc,
      not_false_eq_true, if_true]
    rw [ih hr]

/-- On fresh memory the bytes `add_sym` copies are followed by a NUL: what is stored
is the name. -/
theorem stored_text_fresh (name : List Nat) (h : (0 : Nat) ∉ name) :
    stored_text name 0 = name := by
  unfold stored_text
  have hw : word_bytes 0 = List.replicate 8 0 := by decide
  rw [hw, List.drop_replicate]
  exact cstring_append_zeros name h _

/-- A name of one byte or more overwrites the low byte of the word at `allocp`, the
only byte of `NIL` that is not 0: after the write of `apply` it is stored as itself
too. -/
theorem stored_text_nil (name : List Nat) (h : (0 : Nat) ∉ name) (hne : name ≠ []) :
    stored_text name NIL = name := by
  obtain ⟨c, rest, rfl⟩ := List.exists_cons_of_ne_nil hne
  unfold stored_text
  have hw : word_bytes NIL = 2 :: List.replicate 7 0 := by decide
  rw [hw, List.length_cons, List.drop_succ_cons, List.drop_replicate]
  exact cstring_append_zeros _ h _

/-- The empty name after the write of `apply`: `add_sym` copies no byte, and the
string at `new` is the byte 2 of `NIL`. -/
theorem stored_text_empty_nil : stored_text [] NIL = [2] := by decide

/-- `add_sym` at the end of the chain of a new text, when the memory at `allocp`
gives the text its terminator: the text is stored at `allocp` and entered in the
table, and the invariant holds again. -/
theorem add_sym_spec {st : SymTab} (hinv : SymInv st) (blockwords fuel : Nat)
    (name : List Nat) (hnew : ∀ a, (a, name) ∉ st.names)
    (hb : SymBounded ((st.allocp, name) :: st.names))
    (hfit : reg_alloc_returns blockwords (bytes2words (name.length + 1)) = true)
    (hterm : stored_text name st.at_allocp = name) :
    ∃ ht, add_sym blockwords (fuel + 2) st name
        (string_hash name + same_hash_count st.names (string_hash name))
      = .ok (as_sym st.allocp,
          { sym_ht := ht, names := (st.allocp, name) :: st.names,
            allocp := st.allocp + 8 * bytes2words (name.length + 1), at_allocp := 0 }) ∧
      SymInv { sym_ht := ht, names := (st.allocp, name) :: st.names,
               allocp := st.allocp + 8 * bytes2words (name.length + 1), at_allocp := 0 } := by
  have hb0 : SymBounded st.names := hb.tail
  have hlen : st.names.length < 16777214 := by
    have := hb.1; simp only [List.length_cons] at this; omega
  have hu := round_key_used hb0 name _ (le_refl _)
  have hkU := (slot_used_iff _).mp hu
  obtain ⟨habs, hnot⟩ := chain_end_absent hinv hb0 name
  have hsz : st.sym_ht.size < 2147483648 := by
    have := hinv.size_le; omega
  obtain ⟨ht, hset, sr⟩ := hash_set_spec st.sym_ht hinv.wf hsz _ st.allocp hu
    hinv.has_unused fuel
  have ht1 : wrapU32 (st.sym_ht.taken_slots + 1) = st.sym_ht.taken_slots + 1 := by
    have := hinv.taken
    unfold wrapU32; omega
  have ht2 : wrapU32 ((st.sym_ht.taken_slots + 1) * 256) = (st.sym_ht.taken_slots + 1) * 256 := by
    have := hinv.taken
    unfold wrapU32; omega
  have hcpos : 0 < st.sym_ht.keys.count HASH_SLOT_UNUSED :=
    List.count_pos_iff.mpr hinv.has_unused
  have hw := bytes2words_pos (name.length + 1)
  refine ⟨ht, ?_, ?_⟩
  · unfold add_sym reg_alloc
    rw [hfit, if_pos rfl, hterm]
    simp only [hset]
  · have hshape : (ht.size = st.sym_ht.size ∧ ht.taken_slots = st.sym_ht.taken_slots + 1 ∧
          (st.sym_ht.taken_slots + 1) * 256 / st.sym_ht.size ≤ 175 ∧
          HASH_SLOT_DELETED ∉ ht.keys ∧
          ht.keys.count HASH_SLOT_UNUSED + 1 = st.sym_ht.keys.count HASH_SLOT_UNUSED) ∨
        (176 * st.sym_ht.size ≤ (st.sym_ht.taken_slots + 1) * 256 ∧
          ht.size = 2 * st.sym_ht.size + 1 ∧ ht.taken_slots = st.sym_ht.taken_slots + 1 ∧
          HASH_SLOT_DELETED ∉ ht.keys ∧
          st.sym_ht.size + st.sym_ht.keys.count HASH_SLOT_UNUSED
            ≤ ht.keys.count HASH_SLOT_UNUSED) := by
      rcases sr.shape with ⟨_, _, _, hna⟩ | ⟨_, hs, htk, hld, p, hp, hslot, hkeys⟩ |
          ⟨_, hld, hs, htk, hnd, hcnt⟩
      · exact absurd habs hna
      · left
        rw [ht1] at htk
        rw [ht1, ht2] at hld
        have hslotU : st.sym_ht.keys[p]? = some HASH_SLOT_UNUSED := by
          rcases hslot with h1 | h1
          · exact h1
          · exact absurd (List.mem_iff_getElem?.mpr ⟨p, h1⟩) hinv.no_del
        have hpget : st.sym_ht.keys[p] = HASH_SLOT_UNUSED :=
          (List.getElem?_eq_some.mp hslotU).2
        refine ⟨hs, htk, by unfold MAXLOAD at hld; omega, ?_, ?_⟩
        · rw [hkeys]
          intro hmem
          rcases List.mem_or_eq_of_mem_set hmem with h1 | h1
          · exact hinv.no_del h1
          · exact hkU.2 h1.symm
        · rw [hkeys, List.count_set _ _ _ _ hp, hpget]
          have hkb : ((string_hash name + same_hash_count st.names (string_hash name))
              == HASH_SLOT_UNUSED) = false := by
            simp only [beq_eq_false_iff_ne, ne_eq]; exact hkU.1
          simp only [beq_self_eq_true, if_true, hkb, Bool.false_eq_true, if_false]
          omega
      · right
        rw [ht1] at htk
        rw [ht1, ht2] at hld
        refine ⟨?_, hs, htk, hnd, hcnt⟩
        have : 176 ≤ (st.sym_ht.taken_slots + 1) * 256 / st.sym_ht.size := by
          unfold MAXLOAD at hld; omega
        have := (Nat.le_div_iff_mul_le hinv.wf.size_pos).mp this
        omega
    have htl := hinv.taken_lt_size
    have hload0 : st.sym_ht.taken_slots * 256 < 176 * st.sym_ht.size := by
      have h1 := hinv.load
      have h3 : st.sym_ht.taken_slots * 256 / st.sym_ht.size < 176 := by omega
      have h4 := (Nat.div_lt_iff_lt_mul hinv.wf.size_pos).mp h3
      omega
    have hun := hinv.unused
    have htk := hinv.taken
    have hsl := hinv.size_le
    have hsp := hinv.wf.size_pos
    refine ⟨sr.wf, ?_, ?_, ?_, ?_, ?_, ?_, ?_, ?_, ?_, ?_, ?_⟩
    · rcases hshape with ⟨_, _, _, hnd, _⟩ | ⟨_, _, _, hnd, _⟩ <;> exact hnd
    · show ht.default_value = 0
      rw [sr.default_eq]; exact hinv.default_eq
    · show ht.size ≤ ht.keys.count HASH_SLOT_UNUSED + ht.taken_slots
      rcases hshape with ⟨hs, ht3, _, _, hc⟩ | ⟨_, hs, ht3, _, hc⟩ <;> omega
    · show ht.taken_slots * 256 / ht.size ≤ 175
      rcases hshape with ⟨hs, ht3, hl, _, _⟩ | ⟨_, hs, ht3, _, _⟩
      · rw [hs, ht3]; exact hl
      · rw [hs, ht3]
        have : (st.sym_ht.taken_slots + 1) * 256 / (2 * st.sym_ht.size + 1) < 176 := by
          apply Nat.div_lt_of_lt_mul
          omega
        omega
    · show ht.taken_slots = ((st.allocp, name) :: st.names).length
      simp only [List.length_cons]
      rcases hshape with ⟨_, ht3, _, _, _⟩ | ⟨_, _, ht3, _, _⟩ <;> omega
    · show ht.size ≤ 997 + 3 * ((st.allocp, name) :: st.names).length
      simp only [List.length_cons]
      rcases hshape with ⟨hs, _, _, _, _⟩ | ⟨hl, hs, _, _, _⟩ <;> omega
    · intro k v hk
      show Has ht k v ↔ (k, v) ∈ table_of ((st.allocp, name) :: st.names)
      rw [table_of, List.mem_cons]
      by_cases hkk : k = string_hash name + same_hash_count st.names (string_hash name)
      · subst hkk
        constructor
        · intro hh
          left
          rw [sr.wf.has_unique _ v st.allocp hk hh sr.has]
        · rintro (hh | hh)
          · rw [(Prod.mk.inj hh).2]; exact sr.has
          · exact absurd hh (hnot v)
      · rw [sr.others k v hkk hk, hinv.content k v hk]
        constructor
        · intro hh; exact Or.inr hh
        · rintro (hh | hh)
          · exact absurd (Prod.mk.inj hh).1 hkk
          · exact hh
    · intro e he
      show e.1 ≠ 0 ∧ e.1 % 8 = 0 ∧ e.1 < st.allocp + 8 * bytes2words (name.length + 1)
      rcases List.mem_cons.mp he with h1 | h1
      · rw [h1]
        have := hinv.alloc_ok
        exact ⟨by show st.allocp ≠ 0; omega, this.1, by show st.allocp < _; omega⟩
      · have := hinv.addr_ok e h1
        exact ⟨this.1, this.2.1, by omega⟩
    · show (st.allocp + 8 * bytes2words (name.length + 1)) % 8 = 0 ∧
        0 < st.allocp + 8 * bytes2words (name.length + 1)
      have := hinv.alloc_ok
      omega
    · show (((st.allocp, name) :: st.names).map Prod.fst).Nodup
      rw [List.map_cons, List.nodup_cons]
      refine ⟨?_, hinv.addr_nodup⟩
      intro hmem
      obtain ⟨e, he, hea⟩ := List.mem_map.mp hmem
      have := (hinv.addr_ok e he).2.2
      simp only at hea
      omega
    · show (((st.allocp, name) :: st.names).map Prod.snd).Nodup
      rw [List.map_cons, List.nodup_cons]
      refine ⟨?_, hinv.text_nodup⟩
      intro hmem
      obtain ⟨e, he, hea⟩ := List.mem_map.mp hmem
      simp only at hea
      exact hnew e.1 (by rw [← hea]; exact he)

theorem untag_tag (a t : Nat) (ha : a % 8 = 0) (ha64 : a < 18446744073709551616)
    (ht : t < 8) : untag (tag a t) = a := by
  unfold untag tag
  apply Nat.eq_of_testBit_eq
  intro i
  have h8 : (18446744073709551615 - 7 : Nat) = (2 ^ 61 - 1) <<< 3 := by
    simp [Nat.shiftLeft_eq]
  rw [h8]
  simp only [Nat.testBit_and, Nat.testBit_or, Nat.testBit_shiftLeft,
    Nat.testBit_two_pow_sub_one]
  by_cases hi : i < 3
  · have h1 : a.testBit i = false := by
      have h3 : a % 2 ^ 3 = 0 := by norm_num; exact ha
      have h2 := Nat.testBit_mod_two_pow a 3 i
      rw [h3] at h2
      simp [hi] at h2
      exact h2
    simp [hi, h1]
  · have h1 : t.testBit i = false := by
      apply Nat.testBit_lt_two_pow
      calc t < 8 := ht
        _ = 2 ^ 3 := by norm_num
        _ ≤ 2 ^ i := Nat.pow_le_pow_right (by norm_num) (by omega)
    by_cases hi2 : i < 64
    · simp [h1]
      intro _
      omega
    · have h2 : a.testBit i = false := by
        apply Nat.testBit_lt_two_pow
        calc a < 2 ^ 64 := by norm_num; exact ha64
          _ ≤ 2 ^ i := Nat.pow_le_pow_right (by norm_num) (by omega)
      simp [h1, h2]

theorem cstring_of_nul_free (name : List Nat) (h : (0 : Nat) ∉ name) : cstring name = name := by
  unfold cstring
  rw [List.takeWhile_eq_self_iff]
  intro x hx
  simp only [bne_iff_ne, ne_eq]
  intro hc
  rw [hc] at hx
  exact h hx

theorem sym_init_inv (base : Nat) (hbase : base % 8 = 0 ∧ 0 < base) : SymInv (sym_init base) := by
  have hnot : ∀ k v, slot_used k = true → ¬ Has (hash_new 997 0) k v := by
    rintro k v hk ⟨i, hi, _⟩
    simp only [hash_new, List.getElem?_replicate] at hi
    split_ifs at hi
    have := Option.some.inj hi
    rw [← this] at hk
    exact absurd hk (by decide)
  refine ⟨WF_hash_new 997 0 (by norm_num) (by norm_num), ?_, rfl, ?_, ?_, rfl, ?_, ?_, ?_,
    hbase, ?_, ?_⟩
  · simp only [sym_init, hash_new]
    intro hmem
    exact absurd (List.eq_of_mem_replicate hmem) (by decide)
  · simp only [sym_init, hash_new, List.count_replicate_self]
    omega
  · show 0 * 256 / 997 ≤ 175
    norm_num
  · show 997 ≤ 997 + 3 * 0
    norm_num
  · intro k v hk
    constructor
    · intro hh; exact absurd hh (hnot k v hk)
    · intro hh; simp [sym_init, table_of] at hh
  · intro e he; simp [sym_init] at he
  · simp [sym_init]
  · simp [sym_init]

/-- One call of `intern` on a state that satisfies the invariant. -/
theorem intern_spec {st : SymTab} (hinv : SymInv st) (blockwords fuel : Nat)
    (name : List Nat) (hnul : (0 : Nat) ∉ name)
    (hfit : reg_alloc_returns blockwords (bytes2words (name.length + 1)) = true)
    (hcount : st.names.length + 1 < 16777215)
    (hzero : same_hash_count st.names (int2any 0)
      + (if string_hash name = int2any 0 then 1 else 0) < 796)
    (hfuel : st.names.length + 2 ≤ fuel)
    (hterm : stored_text name st.at_allocp = name) :
    ∃ a st2, intern blockwords fuel st name = .ok (as_sym a, st2) ∧ SymInv st2 ∧
      (a, name) ∈ st2.names ∧
      ((st2 = st ∧ (a, name) ∈ st.names) ∨
        ((∀ b, (b, name) ∉ st.names) ∧ a = st.allocp ∧
          st2.names = (st.allocp, name) :: st.names ∧
          st2.allocp = st.allocp + 8 * bytes2words (name.length + 1) ∧
          st2.at_allocp = 0)) := by
  have hb0 : SymBounded st.names := ⟨by omega, by omega⟩
  have hc := same_hash_count_le st.names (string_hash name)
  unfold intern
  rw [cstring_of_nul_free name hnul]
  by_cases hk : ∃ a, (a, name) ∈ st.names
  · obtain ⟨a, ha⟩ := hk
    obtain ⟨j, hj, hmem⟩ := table_of_name st.names a name ha
    have h := intern_loop_known hinv hb0 blockwords fuel name a j ha hj hmem j 0 fuel
      (by omega) (by omega)
    rw [Nat.add_zero] at h
    exact ⟨a, st, h, hinv, ha, Or.inl ⟨rfl, ha⟩⟩
  · have hnew : ∀ a, (a, name) ∉ st.names := fun a ha => hk ⟨a, ha⟩
    have h := intern_loop_new hinv hb0 blockwords fuel name hnew
      (same_hash_count st.names (string_hash name)) 0 fuel (by omega) (by omega)
    rw [Nat.add_zero] at h
    obtain ⟨f, rfl⟩ : ∃ f, fuel = f + 2 := ⟨fuel - 2, by omega⟩
    have hb1 : SymBounded ((st.allocp, name) :: st.names) := by
      refine ⟨by simp only [List.length_cons]; omega, ?_⟩
      rw [same_hash_count_cons]
      exact hzero
    obtain ⟨ht, hadd, hinv2⟩ := add_sym_spec hinv blockwords f name hnew hb1 hfit hterm
    rw [hadd] at h
    exact ⟨st.allocp, _, h, hinv2, List.mem_cons_self _ _,
      Or.inr ⟨hnew, rfl, rfl, rfl, rfl⟩⟩

theorem tag_of_tag (a t : Nat) (ha : a % 8 = 0) (ht : t < 8) : tag_of (tag a t) = t := by
  unfold tag_of tag
  apply Nat.eq_of_testBit_eq
  intro i
  have h7 : (7 : Nat) = 2 ^ 3 - 1 := by norm_num
  rw [h7]
  simp only [Nat.testBit_and, Nat.testBit_or, Nat.testBit_two_pow_sub_one]
  by_cases hi : i < 3
  · have h1 : a.testBit i = false := by
      have h3 : a % 2 ^ 3 = 0 := by norm_num; exact ha
      have h2 := Nat.testBit_mod_two_pow a 3 i
      rw [h3] at h2
      simp [hi] at h2
      exact h2
    simp [hi, h1]
  · have h1 : t.testBit i = false := by
      apply Nat.testBit_lt_two_pow
      calc t < 8 := ht
        _ = 2 ^ 3 := by norm_num
        _ ≤ 2 ^ i := Nat.pow_le_pow_right (by norm_num) (by omega)
    simp [hi, h1]

theorem reg_alloc_le (blockwords n : Nat) (h : reg_alloc_returns blockwords n = true) :
    n ≤ blockwords := by
  simp only [reg_alloc_returns, decide_eq_true_eq] at h
  omega

theorem filter_hash_append (xs ys : List (List Nat)) :
    ((xs ++ ys).filter (fun n => string_hash n = int2any 0)).length
      = (xs.filter (fun n => string_hash n = int2any 0)).length
        + (ys.filter (fun n => string_hash n = int2any 0)).length := by
  rw [List.filter_append, List.length_append]

theorem filter_hash_cons (x : List Nat) (ys : List (List Nat)) :
    ((x :: ys).filter (fun n => string_hash n = int2any 0)).length
      = (ys.filter (fun n => string_hash n = int2any 0)).length
        + (if string_hash x = int2any 0 then 1 else 0) := by
  rw [List.filter_cons]
  by_cases h : string_hash x = int2any 0
  · simp [h]
  · simp [h]

/-- The word at `allocp` gives a name its terminator when the memory is fresh, and
after the write of `apply` when the name is not empty. -/
theorem stored_text_of_flag (name : List Nat) (hnul : (0 : Nat) ∉ name) (w : Nat)
    (dirty : Bool) (hw : w = 0 ∨ (w = NIL ∧ dirty = true))
    (hok : (!dirty || !name.isEmpty) = true) : stored_text name w = name := by
  rcases hw with h | ⟨h, hd⟩
  · rw [h]
    exact stored_text_fresh name hnul
  · rw [h]
    apply stored_text_nil name hnul
    intro e
    rw [hd, e] at hok
    exact absurd hok (by decide)

theorem op_names_append (xs ys : List SymOp) :
    op_names (xs ++ ys) = op_names xs ++ op_names ys := by
  induction xs with
  | nil => rfl
  | cons o rest ih =>
    cases o with
    | intern n =>
      show n :: op_names (rest ++ ys) = n :: (op_names rest ++ op_names ys)
      rw [ih]
    | nil_write => exact ih

/-- The write of `apply` touches neither the table nor the stored texts. -/
theorem apply_nil_write_inv {st : SymTab} (hinv : SymInv st) : SymInv (apply_nil_write st) :=
  ⟨hinv.wf, hinv.no_del, hinv.default_eq, hinv.unused, hinv.load, hinv.taken, hinv.size_le,
    hinv.content, hinv.addr_ok, hinv.alloc_ok, hinv.addr_nodup, hinv.text_nodup⟩

/-- A run of operations from a state that satisfies the invariant.  `dirty` says
whether the word at `allocp` may hold `NIL`; the run is the first part of
`ops ++ more`, which interns the empty name on fresh memory only. -/
theorem sym_run_spec (blockwords fuel : Nat) :
    ∀ (ops more : List SymOp) (st : SymTab) (dirty : Bool), SymInv st →
      (st.at_allocp = 0 ∨ (st.at_allocp = NIL ∧ dirty = true)) →
      empty_on_fresh dirty (ops ++ more) = true →
      (∀ n ∈ op_names ops, (0 : Nat) ∉ n ∧
        reg_alloc_returns blockwords (bytes2words (n.length + 1)) = true) →
      st.names.length + (op_names ops).length < 16777215 →
      same_hash_count st.names (int2any 0)
        + ((op_names ops).filter (fun n => string_hash n = int2any 0)).length < 796 →
      st.names.length + (op_names ops).length + 1 ≤ fuel →
      ∃ st2 dirty2, sym_run blockwords fuel st ops = .ok st2 ∧ SymInv st2 ∧
        st2.names.length ≤ st.names.length + (op_names ops).length ∧
        same_hash_count st2.names (int2any 0) ≤ same_hash_count st.names (int2any 0)
          + ((op_names ops).filter (fun n => string_hash n = int2any 0)).length ∧
        (∀ e ∈ st.names, e ∈ st2.names) ∧
        st2.allocp ≤ st.allocp + 8 * blockwords * (op_names ops).length ∧
        (st2.at_allocp = 0 ∨ (st2.at_allocp = NIL ∧ dirty2 = true)) ∧
        empty_on_fresh dirty2 more = true := by
  intro ops
  induction ops with
  | nil =>
    intro more st dirty hinv hmem hfresh _ _ _ _
    exact ⟨st, dirty, rfl, hinv, by simp [op_names], by simp [op_names], fun e he => he,
      by simp [op_names], hmem, hfresh⟩
  | cons o rest ih =>
    intro more st dirty hinv hmem hfresh hns hcount hzero hfuel
    cases o with
    | nil_write =>
      have hfresh2 : empty_on_fresh true (rest ++ more) = true := hfresh
      have hnames2 : op_names (SymOp.nil_write :: rest) = op_names rest := rfl
      rw [hnames2] at hns hcount hzero hfuel
      obtain ⟨st2, dirty2, hall, hinv2, hlen2, hz2, hsub2, hal2, hmem2, hfr2⟩ :=
        ih more (apply_nil_write st) true (apply_nil_write_inv hinv) (Or.inr ⟨rfl, rfl⟩)
          hfresh2 hns hcount hzero hfuel
      rw [hnames2]
      exact ⟨st2, dirty2, hall, hinv2, hlen2, hz2, hsub2, hal2, hmem2, hfr2⟩
    | intern n =>
      have hnames2 : op_names (SymOp.intern n :: rest) = n :: op_names rest := rfl
      rw [hnames2] at hns hcount hzero hfuel
      rw [hnames2]
      have hfresh1 : ((!dirty || !n.isEmpty) && empty_on_fresh dirty (rest ++ more)) = true :=
        hfresh
      rw [Bool.and_eq_true] at hfresh1
      simp only [List.length_cons] at hcount hfuel
      have hn := hns n (List.mem_cons_self _ _)
      rw [filter_hash_cons] at hzero
      obtain ⟨a, st1, hint, hinv1, hmem1, hcase⟩ := intern_spec hinv blockwords fuel n hn.1 hn.2
        (by omega) (by omega) (by omega)
        (stored_text_of_flag n hn.1 st.at_allocp dirty hmem hfresh1.1)
      have hlen1 : st1.names.length ≤ st.names.length + 1 := by
        rcases hcase with ⟨h1, _⟩ | ⟨_, _, h1, _⟩
        · rw [h1]; omega
        · rw [h1]; simp
      have hz1 : same_hash_count st1.names (int2any 0) ≤ same_hash_count st.names (int2any 0)
          + (if string_hash n = int2any 0 then 1 else 0) := by
        rcases hcase with ⟨h1, _⟩ | ⟨_, _, h1, _⟩
        · rw [h1]; omega
        · rw [h1, same_hash_count_cons]
      have hsub1 : ∀ e ∈ st.names, e ∈ st1.names := by
        intro e he
        rcases hcase with ⟨h1, _⟩ | ⟨_, _, h1, _⟩
        · rw [h1]; exact he
        · rw [h1]; exact List.mem_cons_of_mem _ he
      have hal1 : st1.allocp ≤ st.allocp + 8 * blockwords := by
        rcases hcase with ⟨h1, _⟩ | ⟨_, _, _, h1, _⟩
        · rw [h1]; omega
        · rw [h1]
          have := reg_alloc_le _ _ hn.2
          omega
      have hmemw1 : st1.at_allocp = 0 ∨ (st1.at_allocp = NIL ∧ dirty = true) := by
        rcases hcase with ⟨h1, _⟩ | ⟨_, _, _, _, h1⟩
        · rw [h1]; exact hmem
        · exact Or.inl h1
      obtain ⟨st2, dirty2, hall, hinv2, hlen2, hz2, hsub2, hal2, hmem2, hfr2⟩ :=
        ih more st1 dirty hinv1 hmemw1 hfresh1.2
          (fun m hm => hns m (List.mem_cons_of_mem _ hm)) (by omega) (by omega) (by omega)
      refine ⟨st2, dirty2, ?_, hinv2, by simp only [List.length_cons]; omega, ?_,
        fun e he => hsub2 e (hsub1 e he), ?_, hmem2, hfr2⟩
      · simp only [sym_run, hint, hall]
      · rw [filter_hash_cons]; omega
      · simp only [List.length_cons]
        have : 8 * blockwords * ((op_names rest).length + 1)
            = 8 * blockwords * (op_names rest).length + 8 * blockwords := by
          ring
        omega

/-- The symbol stored for a text is returned by `intern` and names the text. -/
theorem intern_stored {st : SymTab} (hinv : SymInv st) (blockwords fuel : Nat)
    (name : List Nat) (a : Nat) (hnul : (0 : Nat) ∉ name) (ha : (a, name) ∈ st.names)
    (hcount : st.names.length < 16777215)
    (hzero : same_hash_count st.names (int2any 0) < 796)
    (hfuel : st.names.length + 1 ≤ fuel) (h64 : st.allocp < 18446744073709551616) :
    intern blockwords fuel st name = .ok (as_sym a, st) ∧ symtext st (as_sym a) = .ok name ∧
      is_tagged (as_sym a) t_sym = true := by
  have hb0 : SymBounded st.names := ⟨hcount, hzero⟩
  have hc := same_hash_count_le st.names (string_hash name)
  obtain ⟨j, hj, hmem⟩ := table_of_name st.names a name ha
  have h := intern_loop_known hinv hb0 blockwords fuel name a j ha hj hmem j 0 fuel
    (by omega) (by omega)
  rw [Nat.add_zero] at h
  have haddr := hinv.addr_ok (a, name) ha
  refine ⟨?_, ?_, ?_⟩
  · unfold intern
    rw [cstring_of_nul_free name hnul]
    exact h
  · unfold symtext as_sym
    rw [untag_tag a t_sym haddr.2.1 (by have := haddr.2.2; simp only at this; omega)
      (by decide), lookup_of_mem st.names hinv.addr_nodup a name ha]
  · unfold is_tagged as_sym
    rw [tag_of_tag a t_sym haddr.2.1 (by decide)]
    rfl

/-- The run behind claims C4 and C5: the operations `before` are done, then `S` is
interned, then the operations `between` are done; the state reached satisfies the
invariant and still holds `S` at the address its symbol was made from. -/
theorem intern_run (blockwords base fuel : Nat) (before between more : List SymOp)
    (S : List Nat) (extra extraz : Nat) (hbase : base % 8 = 0 ∧ 0 < base)
    (hfresh : empty_on_fresh false (before ++ SymOp.intern S :: (between ++ more)) = true)
    (hnames : ∀ n ∈ op_names before ++ S :: op_names between, (0 : Nat) ∉ n ∧
      reg_alloc_returns blockwords (bytes2words (n.length + 1)) = true)
    (hcount : (op_names before ++ S :: op_names between).length + extra < 16777215)
    (hzero : ((op_names before ++ S :: op_names between).filter
      (fun n => string_hash n = int2any 0)).length + extraz < 796)
    (hfuel : (op_names before ++ S :: op_names between).length + extra + 2 ≤ fuel) :
    ∃ st0 a st1 st2 dirty2,
      sym_run blockwords fuel (sym_init base) before = .ok st0 ∧
      intern blockwords fuel st0 S = .ok (as_sym a, st1) ∧
      sym_run blockwords fuel st1 between = .ok st2 ∧
      SymInv st2 ∧ (a, S) ∈ st2.names ∧
      st2.names.length + extra < 16777215 ∧
      same_hash_count st2.names (int2any 0) + extraz < 796 ∧
      st2.names.length + extra + 2 ≤ fuel ∧
      st2.allocp ≤ base
        + 8 * blockwords * ((op_names before).length + (op_names between).length + 1) ∧
      (st2.at_allocp = 0 ∨ (st2.at_allocp = NIL ∧ dirty2 = true)) ∧
      empty_on_fresh dirty2 more = true := by
  simp only [List.length_append, List.length_cons] at hcount hfuel
  rw [filter_hash_append, filter_hash_cons] at hzero
  have hS := hnames S (List.mem_append_right _ (List.mem_cons_self _ _))
  obtain ⟨st0, dirty0, hall0, hinv0, hlen0, hz0, -, hal0, hmem0, hfr0⟩ :=
    sym_run_spec blockwords fuel before (SymOp.intern S :: (between ++ more))
      (sym_init base) false (sym_init_inv base hbase) (Or.inl rfl) hfresh
      (fun n hn => hnames n (List.mem_append_left _ hn))
      (by show 0 + (op_names before).length < 16777215; omega)
      (by show 0 + _ < 796; omega)
      (by show 0 + (op_names before).length + 1 ≤ fuel; omega)
  have hlen0 : st0.names.length ≤ (op_names before).length := by
    have : (sym_init base).names.length = 0 := rfl
    omega
  have hz0 : same_hash_count st0.names (int2any 0)
      ≤ ((op_names before).filter (fun n => string_hash n = int2any 0)).length := by
    have : same_hash_count (sym_init base).names (int2any 0) = 0 := rfl
    omega
  have hal0 : st0.allocp ≤ base + 8 * blockwords * (op_names before).length := hal0
  have hfr1 : ((!dirty0 || !S.isEmpty) && empty_on_fresh dirty0 (between ++ more)) = true :=
    hfr0
  rw [Bool.and_eq_true] at hfr1
  obtain ⟨a, st1, hint, hinv1, hmem1, hcase⟩ := intern_spec hinv0 blockwords fuel S hS.1 hS.2
    (by omega) (by omega) (by omega)
    (stored_text_of_flag S hS.1 st0.at_allocp dirty0 hmem0 hfr1.1)
  have hlen1 : st1.names.length ≤ st0.names.length + 1 := by
    rcases hcase with ⟨h1, _⟩ | ⟨_, _, h1, _⟩
    · rw [h1]; omega
    · rw [h1]; simp
  have hz1 : same_hash_count st1.names (int2any 0) ≤ same_hash_count st0.names (int2any 0)
      + (if string_hash S = int2any 0 then 1 else 0) := by
    rcases hcase with ⟨h1, _⟩ | ⟨_, _, h1, _⟩
    · rw [h1]; omega
    · rw [h1, same_hash_count_cons]
  have hal1 : st1.allocp ≤ st0.allocp + 8 * blockwords := by
    rcases hcase with ⟨h1, _⟩ | ⟨_, _, _, h1, _⟩
    · rw [h1]; omega
    · rw [h1]
      have := reg_alloc_le _ _ hS.2
      omega
  have hmemw1 : st1.at_allocp = 0 ∨ (st1.at_allocp = NIL ∧ dirty0 = true) := by
    rcases hcase with ⟨h1, _⟩ | ⟨_, _, _, _, h1⟩
    · rw [h1]; exact hmem0
    · exact Or.inl h1
  obtain ⟨st2, dirty2, hall2, hinv2, hlen2, hz2, hsub2, hal2, hmem2, hfr2⟩ :=
    sym_run_spec blockwords fuel between more st1 dirty0 hinv1 hmemw1 hfr1.2
      (fun n hn => hnames n (List.mem_append_right _ (List.mem_cons_of_mem _ hn)))
      (by omega) (by omega) (by omega)
  refine ⟨st0, a, st1, st2, dirty2, hall0, hint, hall2, hinv2, hsub2 _ hmem1, by omega,
    by omega, by omega, ?_, hmem2, hfr2⟩
  have : 8 * blockwords * ((op_names before).length + (op_names between).length + 1)
      = 8 * blockwords * (op_names before).length + 8 * blockwords
        + 8 * blockwords * (op_names between).length := by
    ring
  omega

/-- Claim C4, amended: in every state reached from the initial symbol table by
interning NUL-free names that fit in a block, fewer than `2^24 - 1` in all and
fewer than 796 of them with djb2 hash 0, with writes of `NIL` past the buffer of
`apply` anywhere between the calls but none before a call `intern("")`, the two
calls `intern(S)`, one before and one after the operations `between` (which may
intern names that collide with `S`), return the same symbol `s`; `s` carries the
sym tag, `symtext(s)` is `S`, and `intern(symtext(s)) == s`. -/
theorem intern_same_symbol (blockwords base fuel : Nat) (before between : List SymOp)
    (S : List Nat) (hbase : base % 8 = 0 ∧ 0 < base)
    (hfresh : empty_on_fresh false (before ++ SymOp.intern S :: between) = true)
    (hspace : base + 8 * blockwords * (op_names (before ++ SymOp.intern S :: between)).length
      < 18446744073709551616)
    (hnames : ∀ n ∈ op_names (before ++ SymOp.intern S :: between), (0 : Nat) ∉ n ∧
      reg_alloc_returns blockwords (bytes2words (n.length + 1)) = true)
    (hcount : (op_names (before ++ SymOp.intern S :: between)).length < 16777215)
    (hzero : ((op_names (before ++ SymOp.intern S :: between)).filter
      (fun n => string_hash n = int2any 0)).length < 796)
    (hfuel : (op_names (before ++ SymOp.intern S :: between)).length + 2 ≤ fuel) :
    ∃ st0 s st1 st2,
      sym_run blockwords fuel (sym_init base) before = .ok st0 ∧
      intern blockwords fuel st0 S = .ok (s, st1) ∧
      sym_run blockwords fuel st1 between = .ok st2 ∧
      intern blockwords fuel st2 S = .ok (s, st2) ∧
      is_tagged s t_sym = true ∧
      symtext st2 s = .ok S ∧
      (symtext st2 s).bind (fun text => intern blockwords fuel st2 text) = .ok (s, st2) := by
  have hops : op_names (before ++ SymOp.intern S :: between)
      = op_names before ++ S :: op_names between := by
    rw [op_names_append]
    rfl
  rw [hops] at hspace hnames hcount hzero hfuel
  have hfresh2 : empty_on_fresh false (before ++ SymOp.intern S :: (between ++ [])) = true := by
    rw [List.append_nil]
    exact hfresh
  obtain ⟨st0, a, st1, st2, dirty2, h0, h1, h2, hinv2, hmem, hc, hz, hf, hal, -, -⟩ :=
    intern_run blockwords base fuel before between [] S 0 0 hbase hfresh2 hnames (by omega)
      (by omega) (by omega)
  simp only [List.length_append, List.length_cons] at hspace
  have hS := hnames S (List.mem_append_right _ (List.mem_cons_self _ _))
  obtain ⟨h3, h4, h5⟩ := intern_stored hinv2 blockwords fuel S a hS.1 hmem (by omega)
    (by omega) (by omega)
    (by
      have : (op_names before).length + ((op_names between).length + 1)
          = (op_names before).length + (op_names between).length + 1 := by omega
      rw [this] at hspace
      omega)
  refine ⟨st0, as_sym a, st1, st2, h0, h1, h2, h3, h5, h4, ?_⟩
  rw [h4]
  exact h3

/-- Witness for C4: `ab` is interned, `apply` writes `NIL` past its buffer, then
`bA` (same djb2 hash as `ab`) is interned, then `c`, then `bA` again. -/
theorem intern_same_symbol_witness :
    (∀ n ∈ op_names ([SymOp.intern [97, 98], SymOp.nil_write] ++
        SymOp.intern [98, 65] :: [SymOp.intern [99]]), (0 : Nat) ∉ n ∧
      reg_alloc_returns 512 (bytes2words (n.length + 1)) = true) ∧
    string_hash [97, 98] = string_hash [98, 65] ∧
    ∃ st0 s st1 st2,
      sym_run 512 10 (sym_init 4120) [SymOp.intern [97, 98], SymOp.nil_write] = .ok st0 ∧
      intern 512 10 st0 [98, 65] = .ok (s, st1) ∧
      sym_run 512 10 st1 [SymOp.intern [99]] = .ok st2 ∧
      intern 512 10 st2 [98, 65] = .ok (s, st2) ∧
      is_tagged s t_sym = true ∧
      symtext st2 s = .ok [98, 65] ∧
      (symtext st2 s).bind (fun text => intern 512 10 st2 text) = .ok (s, st2) :=
  ⟨by decide, by decide,
    intern_same_symbol 512 4120 10 [SymOp.intern [97, 98], SymOp.nil_write]
      [SymOp.intern [99]] [98, 65] (by decide) (by decide) (by decide) (by decide)
      (by decide) (by decide) (by decide)⟩

/-- A text that does not fit in a block is never interned: `add_sym` asks
`reg_alloc` for more words than a block holds, and `reg_alloc` takes fresh blocks
for ever. -/
theorem intern_too_long {st : SymTab} (hinv : SymInv st) (hb : SymBounded st.names)
    (blockwords fuel : Nat) (name : List Nat) (hnul : (0 : Nat) ∉ name)
    (hnew : ∀ a, (a, name) ∉ st.names)
    (hfit : reg_alloc_returns blockwords (bytes2words (name.length + 1)) = false) :
    intern blockwords fuel st name = .error .diverge := by
  unfold intern
  rw [cstring_of_nul_free name hnul]
  by_cases hf : same_hash_count st.names (string_hash name) < fuel
  · have h := intern_loop_new hinv hb blockwords fuel name hnew _ 0 fuel (by omega) hf
    rw [Nat.add_zero] at h
    rw [h]
    unfold add_sym reg_alloc
    rw [hfit]
    rfl
  · -- the fuel runs out before the end of the chain
    have hgen : ∀ (r i : Nat), i + r ≤ same_hash_count st.names (string_hash name) →
        intern_loop blockwords fuel name r st (string_hash name + i) = .error .diverge := by
      intro r
      induction r with
      | zero => intro i _; rfl
      | succ r ih =>
        intro i hi
        rw [intern_round_next hinv hb blockwords fuel r name i (by omega) (fun v _ => hnew v)]
        exact ih (i + 1) (by omega)
    have := hgen fuel 0 (by omega)
    rwa [Nat.add_zero] at this

/-- Counterexample to C4 as stated: with blocks of 512 words (pages of 4096 bytes)
the NUL-free name of 4096 letters `a` cannot be interned in the initial state: no
call `intern(S)` returns a symbol, whatever the fuel. -/
theorem intern_long_name_diverges :
    (0 : Nat) ∉ List.replicate 4096 97 ∧
      ∀ fuel, intern 512 fuel (sym_init 4120) (List.replicate 4096 97) = .error .diverge := by
  have hnul : (0 : Nat) ∉ List.replicate 4096 97 := by
    intro h
    exact absurd (List.eq_of_mem_replicate h) (by decide)
  refine ⟨hnul, fun fuel => ?_⟩
  apply intern_too_long (sym_init_inv 4120 (by decide)) ⟨by decide, by decide⟩ 512 fuel _ hnul
  · intro a ha
    exact List.not_mem_nil _ ha
  · rw [List.length_replicate]
    decide

/-- Claim C5, amended: for any two different NUL-free names `S` and `T` that fit in
a block, interned in a run of fewer than `2^24 - 1` names that fit in a block, fewer
than 796 of them with djb2 hash 0, with writes of `NIL` past the buffer of `apply`
anywhere between the calls but none before a call `intern("")`, `intern(S)` and
`intern(T)` are different symbol values, each naming its text; both texts are
entered in the symbol table under their hash word plus an offset, and the two
offsets differ when the hash words are equal. -/
theorem intern_distinct_symbols (blockwords base fuel : Nat)
    (before between : List SymOp) (S T : List Nat) (hST : S ≠ T)
    (hbase : base % 8 = 0 ∧ 0 < base)
    (hfresh : empty_on_fresh false
      (before ++ SymOp.intern S :: (between ++ [SymOp.intern T])) = true)
    (hspace : base + 8 * blockwords
      * (op_names (before ++ SymOp.intern S :: (between ++ [SymOp.intern T]))).length
      < 18446744073709551616)
    (hnames : ∀ n ∈ op_names (before ++ SymOp.intern S :: (between ++ [SymOp.intern T])),
      (0 : Nat) ∉ n ∧ reg_alloc_returns blockwords (bytes2words (n.length + 1)) = true)
    (hcount : (op_names (before ++ SymOp.intern S :: (between ++ [SymOp.intern T]))).length
      < 16777215)
    (hzero : ((op_names (before ++ SymOp.intern S :: (between ++ [SymOp.intern T]))).filter
      (fun n => string_hash n = int2any 0)).length < 796)
    (hfuel : (op_names (before ++ SymOp.intern S :: (between ++ [SymOp.intern T]))).length + 2
      ≤ fuel) :
    ∃ st0 s st1 st2 t st3,
      sym_run blockwords fuel (sym_init base) before = .ok st0 ∧
      intern blockwords fuel st0 S = .ok (s, st1) ∧
      sym_run blockwords fuel st1 between = .ok st2 ∧
      intern blockwords fuel st2 T = .ok (t, st3) ∧
      s ≠ t ∧ symtext st3 s = .ok S ∧ symtext st3 t = .ok T ∧
      ∃ i j, hash_get st3.sym_ht (string_hash S + i) = .ok (untag s) ∧
        hash_get st3.sym_ht (string_hash T + j) = .ok (untag t) ∧
        (string_hash S = string_hash T → i ≠ j) := by
  have hops : op_names (before ++ SymOp.intern S :: (between ++ [SymOp.intern T]))
      = op_names before ++ S :: (op_names between ++ [T]) := by
    rw [op_names_append]
    show op_names before ++ S :: op_names (between ++ [SymOp.intern T]) = _
    rw [op_names_append]
    rfl
  rw [hops] at hspace hnames hcount hzero hfuel
  simp only [List.length_append, List.length_cons, List.length_nil] at hcount hfuel hspace
  rw [filter_hash_append, filter_hash_cons, filter_hash_append, filter_hash_cons] at hzero
  have hzT : ((([] : List (List Nat))).filter (fun n => string_hash n = int2any 0)).length = 0 :=
    rfl
  rw [hzT] at hzero
  have hT := hnames T (List.mem_append_right _
    (List.mem_cons_of_mem _ (List.mem_append_right _ (List.mem_cons_self _ _))))
  have hS := hnames S (List.mem_append_right _ (List.mem_cons_self _ _))
  have hnames2 : ∀ n ∈ op_names before ++ S :: op_names between, (0 : Nat) ∉ n ∧
      reg_alloc_returns blockwords (bytes2words (n.length + 1)) = true := by
    intro n hn
    apply hnames n
    rcases List.mem_append.mp hn with h | h
    · exact List.mem_append_left _ h
    · rcases List.mem_cons.mp h with h | h
      · rw [h]; exact List.mem_append_right _ (List.mem_cons_self _ _)
      · exact List.mem_append_right _ (List.mem_cons_of_mem _ (List.mem_append_left _ h))
  obtain ⟨st0, a, st1, st2, dirty2, h0, h1, h2, hinv2, hmemS, hc, hz, hf, hal, hmem2, hfr2⟩ :=
    intern_run blockwords base fuel before between [SymOp.intern T] S 1
      (if string_hash T = int2any 0 then 1 else 0) hbase hfresh hnames2
      (by simp only [List.length_append, List.length_cons]; omega)
      (by rw [filter_hash_append, filter_hash_cons]; omega)
      (by simp only [List.length_append, List.length_cons]; omega)
  have hfr3 : ((!dirty2 || !T.isEmpty) && empty_on_fresh dirty2 []) = true := hfr2
  rw [Bool.and_eq_true] at hfr3
  obtain ⟨b, st3, h3, hinv3, hmemT, hcase⟩ := intern_spec hinv2 blockwords fuel T hT.1 hT.2
    (by omega) hz (by omega) (stored_text_of_flag T hT.1 st2.at_allocp dirty2 hmem2 hfr3.1)
  have hlen3 : st3.names.length ≤ st2.names.length + 1 := by
    rcases hcase with ⟨h4, _⟩ | ⟨_, _, h4, _⟩
    · rw [h4]; omega
    · rw [h4]; simp
  have hz3 : same_hash_count st3.names (int2any 0) < 796 := by
    rcases hcase with ⟨h4, _⟩ | ⟨_, _, h4, _⟩
    · rw [h4]; omega
    · rw [h4, same_hash_count_cons]; exact hz
  have hmemS3 : (a, S) ∈ st3.names := by
    rcases hcase with ⟨h4, _⟩ | ⟨_, _, h4, _⟩
    · rw [h4]; exact hmemS
    · rw [h4]; exact List.mem_cons_of_mem _ hmemS
  have hal3 : st3.allocp < 18446744073709551616 := by
    have h5 : st3.allocp ≤ st2.allocp + 8 * blockwords := by
      rcases hcase with ⟨h4, _⟩ | ⟨_, _, _, h4, _⟩
      · rw [h4]; omega
      · rw [h4]
        have := reg_alloc_le _ _ hT.2
        omega
    have : 8 * blockwords * ((op_names before).length + ((op_names between).length + (0 + 1) + 1))
        = 8 * blockwords * ((op_names before).length + (op_names between).length + 1)
          + 8 * blockwords := by ring
    omega
  have hb3 : SymBounded st3.names := ⟨by omega, hz3⟩
  obtain ⟨-, hsS, -⟩ := intern_stored hinv3 blockwords fuel S a hS.1 hmemS3 (by omega) hz3
    (by omega) hal3
  obtain ⟨-, hsT, -⟩ := intern_stored hinv3 blockwords fuel T b hT.1 hmemT (by omega) hz3
    (by omega) hal3
  have haS := hinv3.addr_ok (a, S) hmemS3
  have haT := hinv3.addr_ok (b, T) hmemT
  simp only at haS haT
  have huS : untag (as_sym a) = a := untag_tag a t_sym haS.2.1 (by omega) (by decide)
  have huT : untag (as_sym b) = b := untag_tag b t_sym haT.2.1 (by omega) (by decide)
  have hab : a ≠ b := by
    intro hc2
    rw [hc2] at hmemS3
    have e1 := lookup_of_mem st3.names hinv3.addr_nodup b S hmemS3
    have e2 := lookup_of_mem st3.names hinv3.addr_nodup b T hmemT
    rw [e1] at e2
    exact hST (Option.some.inj e2)
  obtain ⟨i, hi, hiS⟩ := table_of_name st3.names a S hmemS3
  obtain ⟨j, hj, hjT⟩ := table_of_name st3.names b T hmemT
  have hui := round_key_used hb3 S i (by omega)
  have huj := round_key_used hb3 T j (by omega)
  have hHasS := (hinv3.content _ a hui).mpr hiS
  have hHasT := (hinv3.content _ b huj).mpr hjT
  refine ⟨st0, as_sym a, st1, st2, as_sym b, st3, h0, h1, h2, h3, ?_, hsS, hsT, i, j, ?_, ?_, ?_⟩
  · intro hc2
    apply hab
    rw [← huS, ← huT, hc2]
  · rw [huS]; exact hash_get_has hinv3.wf _ a hui hHasS
  · rw [huT]; exact hash_get_has hinv3.wf _ b huj hHasT
  · intro hh hij
    rw [hh, hij] at hHasS
    exact hab (hinv3.wf.has_unique _ a b huj hHasS hHasT)

/-- Witness for C5: `ab` and `bA` have the same djb2 hash; `c` is interned first,
and between the two `apply` writes `NIL` past its buffer and `d` is interned. -/
theorem intern_distinct_symbols_witness :
    ([97, 98] : List Nat) ≠ [98, 65] ∧ string_hash [97, 98] = string_hash [98, 65] ∧
    ∃ st0 s st1 st2 t st3,
      sym_run 512 10 (sym_init 4120) [SymOp.intern [99]] = .ok st0 ∧
      intern 512 10 st0 [97, 98] = .ok (s, st1) ∧
      sym_run 512 10 st1 [SymOp.nil_write, SymOp.intern [100]] = .ok st2 ∧
      intern 512 10 st2 [98, 65] = .ok (t, st3) ∧
      s ≠ t ∧ symtext st3 s = .ok [97, 98] ∧ symtext st3 t = .ok [98, 65] ∧
      ∃ i j, hash_get st3.sym_ht (string_hash [97, 98] + i) = .ok (untag s) ∧
        hash_get st3.sym_ht (string_hash [98, 65] + j) = .ok (untag t) ∧
        (string_hash [97, 98] = string_hash [98, 65] → i ≠ j) :=
  ⟨by decide, by decide,
    intern_distinct_symbols 512 4120 10 [SymOp.intern [99]]
      [SymOp.nil_write, SymOp.intern [100]] [97, 98] [98, 65] (by decide)
      (by decide) (by decide) (by decide) (by decide) (by decide) (by decide) (by decide)⟩

/-- Counterexample to C5 as stated: `b` and the name of 4096 letters `a` are two
different NUL-free names; with blocks of 512 words `intern` returns a symbol for
the first, and never returns for the second, so there are no two different symbol
values. -/
theorem intern_long_name_no_symbol :
    ([98] : List Nat) ≠ List.replicate 4096 97 ∧ (0 : Nat) ∉ List.replicate 4096 97 ∧
    ∃ t st1, intern 512 3 (sym_init 4120) [98] = .ok (t, st1) ∧
      ∀ fuel, intern 512 fuel st1 (List.replicate 4096 97) = .error .diverge := by
  have hnul : (0 : Nat) ∉ List.replicate 4096 97 := by
    intro h
    exact absurd (List.eq_of_mem_replicate h) (by decide)
  have hne : ([98] : List Nat) ≠ List.replicate 4096 97 := by
    intro h
    have := congrArg List.length h
    rw [List.length_replicate] at this
    exact absurd this (by decide)
  obtain ⟨a, st1, hint, hinv1, hmem, hcase⟩ := intern_spec (sym_init_inv 4120 (by decide))
    512 3 [98] (by decide) (by decide) (by decide) (by decide) (by decide)
    (stored_text_fresh [98] (by decide))
  have hnames : st1.names = [(4120, [98])] := by
    rcases hcase with ⟨_, h⟩ | ⟨_, _, h, _⟩
    · exact absurd h (List.not_mem_nil _)
    · exact h
  refine ⟨hne, hnul, as_sym a, st1, hint, fun fuel => ?_⟩
  apply intern_too_long hinv1 _ 512 fuel _ hnul
  · intro b hb
    rw [hnames] at hb
    rcases List.mem_cons.mp hb with h | h
    · exact hne (Prod.mk.inj h).2.symm
    · exact List.not_mem_nil _ h
  · rw [List.length_replicate]
    decide
  · rw [hnames]
    exact ⟨by decide, by decide⟩

set_option maxRecDepth 100000 in
/-- What the condition on the empty name leaves out.  After the write of `apply`,
`intern("")` gets the word that holds `NIL` and copies no byte into it: the text of
the new symbol is the one byte 2, and the next `intern("")`, which finds no stored
text equal to its name, makes another symbol. -/
theorem intern_empty_after_nil_write :
    (intern 512 3 (apply_nil_write (sym_init 4120)) []).map Prod.fst = .ok (as_sym 4120) ∧
    ((intern 512 3 (apply_nil_write (sym_init 4120)) []).bind
      fun r => symtext r.2 r.1) = .ok [2] ∧
    ((intern 512 3 (apply_nil_write (sym_init 4120)) []).bind
      fun r => (intern 512 3 r.2 []).map Prod.fst) = .ok (as_sym 4128) := by
  decide

end Word

/-! ## Reading back what print wrote -/

theorem find_token_start (c : Nat) (rest : List Nat)
    (h : c ≠ 59 ∧ c ≠ 32 ∧ c ≠ 9 ∧ c ≠ 10 ∧ c ≠ 12 ∧ c ≠ 13) :
    find_token (c :: rest) = ((c : Int), rest) := by
  obtain ⟨h1, h2, h3, h4, h5, h6⟩ := h
  simp only [find_token, List.length_cons, find_token_loop, nextc]
  rw [if_neg (by omega), if_neg (by omega)]

theorem find_token_space (inp : List Nat) : find_token (32 :: inp) = find_token inp := by
  simp only [find_token, List.length_cons, find_token_loop, nextc]
  rw [if_neg (by decide), if_pos (by decide)]

theorem reader_space (bw fuel : Nat) (inp : List Nat) :
    reader bw fuel (32 :: inp) = reader bw fuel inp := by
  cases fuel with
  | zero => simp [reader]
  | succ f => rw [reader, reader, find_token_space]

theorem symchar_ok_lt {c : Nat} (h : symchar_ok c = true) : c < 128 := by
  unfold symchar_ok at h
  by_contra hc
  rw [List.getD_eq_default _ _ (by simp [allowed_chars]; omega)] at h
  exact Bool.false_ne_true h

theorem is_symchar_of_ok {c : Nat} (h : symchar_ok c = true) : is_symchar (c : Int) = .ok true := by
  have hlt := symchar_ok_lt h
  unfold symchar_ok at h
  unfold is_symchar
  rw [if_pos (by omega)]
  have : ((c : Int)).toNat = c := by omega
  rw [this]
  rw [List.getD_eq_getElem?_getD] at h
  cases hg : allowed_chars[c]? with
  | none => rw [hg] at h; simp at h
  | some b => rw [hg] at h; simp at h; simp [h]

theorem delim_nil : is_symchar (look []) = .ok false := by decide

set_option maxRecDepth 4000 in
theorem delim_space (r : List Nat) : is_symchar (look (32 :: r)) = .ok false := by
  show is_symchar 32 = .ok false
  decide

set_option maxRecDepth 4000 in
theorem delim_close (r : List Nat) : is_symchar (look (41 :: r)) = .ok false := by
  show is_symchar 41 = .ok false
  decide

theorem symchar_ok_ne {c : Nat} (h : symchar_ok c = true) :
    c ≠ 41 ∧ c ≠ 40 ∧ c ≠ 124 ∧ c ≠ 39 ∧ c ≠ 96 ∧ c ≠ 44 ∧ c ≠ 34 ∧ c ≠ 35 ∧
    c ≠ 59 ∧ c ≠ 32 ∧ c ≠ 9 ∧ c ≠ 10 ∧ c ≠ 12 ∧ c ≠ 13 ∧ c ≠ 0 ∧ c ≠ 64 := by
  refine ⟨?_, ?_, ?_, ?_, ?_, ?_, ?_, ?_, ?_, ?_, ?_, ?_, ?_, ?_, ?_, ?_⟩ <;>
    (rintro rfl; exact absurd h (by decide))

section

attribute [local irreducible] is_symchar chars_to_num_or_sym

/-- What stops `read_sym_chars`: the end of the input or a byte that is not a
symbol character. -/
theorem read_sym_chars_loop_ok (cs rest : List Nat) (hcs : ∀ c ∈ cs, symchar_ok c = true)
    (hrest : is_symchar (look rest) = .ok false) :
    read_sym_chars_loop (cs ++ rest)
      = .ok (cs.map (fun (c : Nat) => int2any (c : Int)), rest) := by
  induction cs with
  | nil =>
    cases rest with
    | nil => rfl
    | cons c r =>
      simp only [look] at hrest
      rw [List.nil_append, read_sym_chars_loop, hrest]
      rfl
  | cons c cs ih =>
    have hc := is_symchar_of_ok (hcs c (List.mem_cons_self _ _))
    have ih2 := ih (fun x hx => hcs x (List.mem_cons_of_mem _ hx))
    rw [List.cons_append, read_sym_chars_loop, hc]
    simp only [ih2, List.map_cons]

theorem read_sym_chars_ok (c : Nat) (cs rest : List Nat)
    (hcs : ∀ x ∈ cs, symchar_ok x = true) (hrest : is_symchar (look rest) = .ok false) :
    read_sym_chars (c : Int) (cs ++ rest) = .ok (chars (c :: cs), rest) := by
  rw [read_sym_chars, read_sym_chars_loop_ok cs rest hcs hrest]
  rfl

/-- The default case of `reader`: a token that starts with a byte that is neither
white space nor one of the special characters. -/
theorem reader_default (bw fuel c : Nat) (inp : List Nat) (X v : Val) (rest : List Nat)
    (hc : c ≠ 41 ∧ c ≠ 40 ∧ c ≠ 124 ∧ c ≠ 39 ∧ c ≠ 96 ∧ c ≠ 44 ∧ c ≠ 34 ∧ c ≠ 35 ∧
      c ≠ 59 ∧ c ≠ 32 ∧ c ≠ 9 ∧ c ≠ 10 ∧ c ≠ 12 ∧ c ≠ 13)
    (h1 : read_sym_chars (c : Int) inp = .ok (X, rest))
    (h2 : chars_to_num_or_sym bw X = .ok v) :
    reader bw (fuel + 1) (c :: inp) = .ok (v, rest) := by
  obtain ⟨h41, h40, h124, h39, h96, h44, h34, h35, h59, h32, h9, h10, h12, h13⟩ := hc
  have n41 : ¬ ((c : Int) = 41) := by omega
  have n40 : ¬ ((c : Int) = 40) := by omega
  have n124 : ¬ ((c : Int) = 124) := by omega
  have n39 : ¬ ((c : Int) = 39) := by omega
  have n96 : ¬ ((c : Int) = 96) := by omega
  have n44 : ¬ ((c : Int) = 44) := by omega
  have n34 : ¬ ((c : Int) = 34) := by omega
  have n35 : ¬ ((c : Int) = 35) := by omega
  have neof : ¬ ((c : Int) = EOF) := by unfold EOF; omega
  rw [reader, find_token_start c _ ⟨h59, h32, h9, h10, h12, h13⟩]
  simp only
  rw [if_neg n41, if_neg n40, if_neg n124, if_neg n39, if_neg n96, if_neg n44, if_neg n34,
    if_neg n35, if_neg neof, h1]
  simp only [h2]

theorem symchar_ok_start {c : Nat} (h : symchar_ok c = true) :
    c ≠ 41 ∧ c ≠ 40 ∧ c ≠ 124 ∧ c ≠ 39 ∧ c ≠ 96 ∧ c ≠ 44 ∧ c ≠ 34 ∧ c ≠ 35 ∧
      c ≠ 59 ∧ c ≠ 32 ∧ c ≠ 9 ∧ c ≠ 10 ∧ c ≠ 12 ∧ c ≠ 13 := by
  obtain ⟨h1, h2, h3, h4, h5, h6, h7, h8, h9, h10, h11, h12, h13, h14, -, -⟩ := symchar_ok_ne h
  exact ⟨h1, h2, h3, h4, h5, h6, h7, h8, h9, h10, h11, h12, h13, h14⟩

theorem list2charp_chars (name : List Nat) (h : ∀ c ∈ name, c < 256) :
    list2charp (chars name) = .ok name := by
  induction name with
  | nil => rfl
  | cons c cs ih =>
    have hc := h c (List.mem_cons_self _ _)
    have ih2 := ih (fun x hx => h x (List.mem_cons_of_mem _ hx))
    have hw : wrap32 (c : Int) = c := by unfold wrap32; omega
    have hm : ((c : Int) % 256).toNat = c := by omega
    have hch : chars (c :: cs) = .cons (.num (wrap32 (c : Int))) (chars cs) := rfl
    rw [hch, hw, list2charp, any2int, ih2]
    simp only [hm]

theorem chars_to_sym_of (bw : Nat) (name : List Nat) (hall : ∀ x ∈ name, symchar_ok x = true)
    (hnum : chars2num (chars name) = .ok BFALSE)
    (hfit : reg_alloc_returns bw (bytes2words (name.length + 1)) = true) :
    chars_to_num_or_sym bw (chars name) = .ok (.sym name) := by
  have hlt : ∀ x ∈ name, x < 256 := fun x hx => by
    have := symchar_ok_lt (hall x hx); omega
  have hnul : (0 : Nat) ∉ name := fun h0 =>
    (symchar_ok_ne (hall 0 h0)).2.2.2.2.2.2.2.2.2.2.2.2.2.2.1 rfl
  have hfit2 : reg_alloc bw (bytes2words (name.length + 1)) = .ok () := by
    unfold reg_alloc; rw [if_pos hfit]
  have his : is BFALSE = false := by decide
  rw [chars_to_num_or_sym, hnum]
  simp only [his]
  rw [intern_from_chars, list2charp_chars _ hlt]
  simp only [intern, Word.cstring_of_nul_free _ hnul, hfit2]
  rfl

theorem chars_to_sym (bw : Nat) (name : List Nat) (h : sym_text_ok bw name = true) :
    chars_to_num_or_sym bw (chars name) = .ok (.sym name) := by
  simp only [sym_text_ok, Bool.and_eq_true, Bool.not_eq_true', List.all_eq_true,
    decide_eq_true_eq] at h
  obtain ⟨⟨⟨⟨-, hall⟩, hnum⟩, -⟩, hfit⟩ := h
  exact chars_to_sym_of bw name hall hnum hfit

theorem reader_sym (bw fuel : Nat) (name rest : List Nat) (h : sym_text_ok bw name = true)
    (hrest : is_symchar (look rest) = .ok false) :
    reader bw (fuel + 1) (name ++ rest) = .ok (.sym name, rest) := by
  have h2 := chars_to_sym bw name h
  simp only [sym_text_ok, Bool.and_eq_true, Bool.not_eq_true', List.all_eq_true,
    decide_eq_true_eq] at h
  obtain ⟨⟨⟨⟨hne, hall⟩, -⟩, -⟩, -⟩ := h
  cases name with
  | nil => simp at hne
  | cons c cs =>
    exact reader_default bw fuel c (cs ++ rest) _ _ rest
      (symchar_ok_start (hall c (List.mem_cons_self _ _)))
      (read_sym_chars_ok c cs rest (fun x hx => hall x (List.mem_cons_of_mem _ hx)) hrest) h2

theorem printf_d_chars (n : Int) :
    (∀ c ∈ printf_d n, symchar_ok c = true) ∧ printf_d n ≠ [] := by
  obtain ⟨hdig, hne, -, -⟩ := dec_digits_rev_spec (n.natAbs + 1) n.natAbs (Nat.lt_succ_self _)
  constructor
  · intro c hc
    simp only [printf_d, List.mem_append, List.mem_reverse] at hc
    rcases hc with h | h
    · split_ifs at h
      · simp only [List.mem_singleton] at h; subst h; decide
      · simp at h
    · have := hdig c h
      have hc : c = 48 ∨ c = 49 ∨ c = 50 ∨ c = 51 ∨ c = 52 ∨ c = 53 ∨ c = 54 ∨ c = 55 ∨ c = 56
          ∨ c = 57 := by omega
      rcases hc with h | h | h | h | h | h | h | h | h | h <;> (subst h; decide)
  · simp [printf_d, hne]

theorem reader_num (bw fuel : Nat) (n : Int) (rest : List Nat) (hn : isInt32 n)
    (hrest : is_symchar (look rest) = .ok false) :
    reader bw (fuel + 1) (printf_d n ++ rest) = .ok (.num n, rest) := by
  obtain ⟨hall, hne⟩ := printf_d_chars n
  have hnum := chars2num_printf_d n hn
  generalize printf_d n = text at hall hne hnum
  cases text with
  | nil => exact absurd rfl hne
  | cons c cs =>
    have his : is (.num n) = true := by simp [is, BFALSE]
    have h2 : chars_to_num_or_sym bw (chars (c :: cs)) = .ok (.num n) := by
      rw [chars_to_num_or_sym, hnum]
      simp only [his, if_true]
    exact reader_default bw fuel c (cs ++ rest) _ _ rest
      (symchar_ok_start (hall c (List.mem_cons_self _ _)))
      (read_sym_chars_ok c cs rest (fun x hx => hall x (List.mem_cons_of_mem _ hx)) hrest) h2

theorem reader_nil (bw fuel : Nat) (rest : List Nat) :
    reader bw (fuel + 3) (40 :: 41 :: rest) = .ok (NIL, rest) := by
  rw [reader, find_token_start 40 _ (by decide)]
  simp only
  rw [if_neg (by decide), if_pos (by decide), read_list, reader,
    find_token_start 41 _ (by decide)]
  simp only
  rw [if_pos (by decide)]
  simp only [if_true]

theorem reader_true (bw fuel : Nat) (rest : List Nat) :
    reader bw (fuel + 1) (35 :: 116 :: rest) = .ok (BTRUE, rest) := by
  rw [reader, find_token_start 35 _ (by decide)]
  simp only
  rw [if_neg (by decide), if_neg (by decide), if_neg (by decide), if_neg (by decide),
    if_neg (by decide), if_neg (by decide), if_neg (by decide), if_pos (by decide)]
  simp only [nextc]
  rw [if_neg (by decide), if_pos (by decide)]

theorem reader_false (bw fuel : Nat) (rest : List Nat) :
    reader bw (fuel + 1) (35 :: 102 :: rest) = .ok (BFALSE, rest) := by
  rw [reader, find_token_start 35 _ (by decide)]
  simp only
  rw [if_neg (by decide), if_neg (by decide), if_neg (by decide), if_neg (by decide),
    if_neg (by decide), if_neg (by decide), if_neg (by decide), if_pos (by decide)]
  simp only [nextc]
  rw [if_pos (by decide)]

theorem read_str_plain (c : Nat) (inp : List Nat) (cells : List Val) (rest : List Nat)
    (hc : c ≠ 34 ∧ c ≠ 92) (h : read_str_loop inp = .ok (cells, rest)) :
    read_str_loop (c :: inp) = .ok (int2any (c : Int) :: cells, rest) := by
  cases inp with
  | nil => simp [read_str_loop] at h
  | cons c2 r =>
    rw [read_str_loop, if_neg hc.1, if_neg hc.2, h]

theorem read_str_backslash (inp : List Nat) (cells : List Val) (rest : List Nat)
    (h : read_str_loop inp = .ok (cells, rest)) :
    read_str_loop (92 :: 92 :: inp) = .ok (.num 92 :: cells, rest) := by
  rw [read_str_loop, if_neg (by decide), if_pos rfl]
  simp only [true_or, if_true, h]
  rfl

theorem read_str_newline (inp : List Nat) (cells : List Val) (rest : List Nat)
    (h : read_str_loop inp = .ok (cells, rest)) :
    read_str_loop (92 :: 110 :: inp) = .ok (.num 10 :: cells, rest) := by
  rw [read_str_loop, if_neg (by decide), if_pos rfl]
  simp only [if_true, h]
  rw [if_neg (by decide)]
  rfl

theorem read_str_tab (inp : List Nat) (cells : List Val) (rest : List Nat)
    (h : read_str_loop inp = .ok (cells, rest)) :
    read_str_loop (92 :: 116 :: inp) = .ok (.num 9 :: cells, rest) := by
  rw [read_str_loop, if_neg (by decide), if_pos rfl]
  simp only [if_true, h]
  rw [if_neg (by decide), if_neg (by decide)]
  rfl

/-- The text of a string without double quotes is read back by `read_str`. -/
theorem read_str_loop_ok : ∀ (chrs : Val), str_chars_ok chrs = true →
    ∃ text, print_str_chars chrs = .ok text ∧
      ∃ cells, Val.list cells = chrs ∧
        ∀ rest, read_str_loop (text ++ 34 :: rest) = .ok (cells, rest) := by
  intro chrs
  induction chrs with
  | cons a d _ ihd =>
    intro h
    cases a with
    | num n =>
      simp only [str_chars_ok, Bool.and_eq_true, decide_eq_true_eq] at h
      obtain ⟨⟨⟨h0, h256⟩, h34⟩, hd⟩ := h
      obtain ⟨t, ht, cells, hcells, hread⟩ := ihd hd
      have hw : int2any n = .num n := by
        unfold int2any; congr 1; unfold wrap32; omega
      by_cases h92 : n = 92
      · subst h92
        refine ⟨[92, 92] ++ t, ?_, .num 92 :: cells, ?_, ?_⟩
        · rw [print_str_chars, any2int, ht]; rfl
        · rw [Val.list, hcells]
        · intro rest
          exact read_str_backslash _ _ _ (hread rest)
      by_cases h10 : n = 10
      · subst h10
        refine ⟨[92, 110] ++ t, ?_, .num 10 :: cells, ?_, ?_⟩
        · rw [print_str_chars, any2int, ht]; rfl
        · rw [Val.list, hcells]
        · intro rest
          exact read_str_newline _ _ _ (hread rest)
      by_cases h9 : n = 9
      · subst h9
        refine ⟨[92, 116] ++ t, ?_, .num 9 :: cells, ?_, ?_⟩
        · rw [print_str_chars, any2int, ht]; rfl
        · rw [Val.list, hcells]
        · intro rest
          exact read_str_tab _ _ _ (hread rest)
      · refine ⟨[(n % 256).toNat] ++ t, ?_, .num n :: cells, ?_, ?_⟩
        · rw [print_str_chars, any2int, ht]
          simp only [if_neg h34, if_neg h92, if_neg h10, if_neg h9]
        · rw [Val.list, hcells]
        · intro rest
          have hc : (((n % 256).toNat : Nat) : Int) = n := by omega
          have := read_str_plain (n % 256).toNat _ _ _ ⟨by omega, by omega⟩ (hread rest)
          rw [hc, hw] at this
          exact this
    | _ => simp [str_chars_ok] at h
  | uniq n =>
    intro h
    simp only [str_chars_ok, decide_eq_true_eq] at h
    subst h
    exact ⟨[], rfl, [], rfl, fun rest => by
      cases rest <;> simp [read_str_loop]⟩
  | _ => intro h; simp [str_chars_ok] at h

theorem reader_str (bw fuel : Nat) (text : List Nat) (cells : List Val) (rest : List Nat)
    (h : read_str_loop (text ++ 34 :: rest) = .ok (cells, rest)) :
    reader bw (fuel + 1) (34 :: text ++ 34 :: rest) = .ok (.str (Val.list cells), rest) := by
  rw [List.cons_append, reader, find_token_start 34 _ (by decide)]
  simp only
  rw [if_neg (by decide), if_neg (by decide), if_neg (by decide), if_neg (by decide),
    if_neg (by decide), if_neg (by decide), if_pos (by decide), read_str, h]

theorem reader_dot (bw fuel : Nat) (hbw : 3 ≤ bw) (rest : List Nat)
    (hrest : is_symchar (look rest) = .ok false) :
    reader bw (fuel + 1) (46 :: rest) = .ok (s_dot, rest) := by
  have hfit : reg_alloc_returns bw (bytes2words (([46] : List Nat).length + 1)) = true := by
    have : bytes2words (([46] : List Nat).length + 1) = 1 := by decide
    rw [this]
    simp only [reg_alloc_returns, decide_eq_true_eq]
    omega
  have h2 := chars_to_sym_of bw [46] (by decide) (by decide) hfit
  exact reader_default bw fuel 46 rest _ _ rest (by decide)
    (read_sym_chars_ok 46 [] rest (by simp) hrest) h2

theorem print_of_not_cons (x : Val) (h : is_cons x = false) : print x = print_atom x := by
  cases x with
  | cons a d => simp [is_cons] at h
  | sym name => rw [print]; intro a d hd; cases hd
  | uniq n => rw [print]; intro a d hd; cases hd
  | str chrs => rw [print]; intro a d hd; cases hd
  | num n => rw [print]; intro a d hd; cases hd
  | reg r => rw [print]; intro a d hd; cases hd
  | sub p => rw [print]; intro a d hd; cases hd
  | raw w => rw [print]; intro a d hd; cases hd
  | cptr f => rw [print]; intro a d hd; cases hd

theorem atom_ok_facts (bw : Nat) (x : Val) (h : atom_ok bw x = true) :
    is_cons x = false ∧ is_nil x = false ∧ x ≠ NIL ∧ x ≠ s_dot ∧ x ≠ READER_LIST_END
      ∧ x ≠ ENDOFFILE := by
  cases x with
  | cons a d => simp [atom_ok] at h
  | sym name =>
    simp only [atom_ok, sym_text_ok, Bool.and_eq_true, decide_eq_true_eq] at h
    refine ⟨rfl, ?_, ?_, ?_, ?_, ?_⟩
    · simp [is_nil, NIL]
    · simp [NIL]
    · intro hd
      exact h.1.2 (by injection hd)
    · simp [READER_LIST_END]
    · simp [ENDOFFILE]
  | uniq n =>
    simp only [atom_ok, decide_eq_true_eq] at h
    rcases h with h | h <;> subst h <;>
      exact ⟨rfl, by decide, by decide, by decide, by decide, by decide⟩
  | str chrs =>
    refine ⟨rfl, ?_, ?_, ?_, ?_, ?_⟩ <;> simp [is_nil, NIL, s_dot, READER_LIST_END, ENDOFFILE]
  | num n =>
    refine ⟨rfl, ?_, ?_, ?_, ?_, ?_⟩ <;> simp [is_nil, NIL, s_dot, READER_LIST_END, ENDOFFILE]
  | reg r => simp [atom_ok] at h
  | sub p => simp [atom_ok] at h
  | raw w => simp [atom_ok] at h
  | cptr f => simp [atom_ok] at h

/-- An atom prints as a token, a string literal or `#t`/`#f`, which `reader` reads
back when what follows cannot continue a token. -/
theorem reader_atom (bw : Nat) (x : Val) (h : atom_ok bw x = true) :
    ∃ c t, print_atom x = .ok (c :: t) ∧ c ≠ 64 ∧
      ∀ fuel rest, is_symchar (look rest) = .ok false →
        reader bw (fuel + 1) (c :: t ++ rest) = .ok (x, rest) := by
  cases x with
  | cons a d => simp [atom_ok] at h
  | sym name =>
    have h0 := h
    simp only [atom_ok, sym_text_ok, Bool.and_eq_true, Bool.not_eq_true', List.all_eq_true,
      decide_eq_true_eq] at h
    obtain ⟨⟨⟨⟨hne, hall⟩, -⟩, -⟩, -⟩ := h
    cases name with
    | nil => simp at hne
    | cons c cs =>
      refine ⟨c, cs, rfl, (symchar_ok_ne (hall c (List.mem_cons_self _ _))).2.2.2.2.2.2.2.2.2.2.2.2.2.2.2,
        fun fuel rest hrest => ?_⟩
      exact reader_sym bw fuel (c :: cs) rest h0 hrest
  | uniq n =>
    simp only [atom_ok, decide_eq_true_eq] at h
    rcases h with h | h <;> subst h
    · exact ⟨35, [116], rfl, by decide, fun fuel rest _ => reader_true bw fuel rest⟩
    · exact ⟨35, [102], rfl, by decide, fun fuel rest _ => reader_false bw fuel rest⟩
  | str chrs =>
    simp only [atom_ok] at h
    obtain ⟨t, ht, cells, hcells, hread⟩ := read_str_loop_ok chrs h
    refine ⟨34, t ++ [34], ?_, by decide, fun fuel rest _ => ?_⟩
    · rw [print_atom, ht]; rfl
    · have := reader_str bw fuel t cells rest (hread rest)
      rw [hcells] at this
      rw [← this]
      simp
  | num n =>
    simp only [atom_ok, decide_eq_true_eq] at h
    obtain ⟨hall, hne⟩ := printf_d_chars n
    have hr := fun fuel rest hrest => reader_num bw fuel n rest h hrest
    have hp : print_atom (.num n) = .ok (printf_d n) := rfl
    generalize printf_d n = text at hall hne hr hp
    cases text with
    | nil => exact absurd rfl hne
    | cons c cs =>
      exact ⟨c, cs, hp, (symchar_ok_ne (hall c (List.mem_cons_self _ _))).2.2.2.2.2.2.2.2.2.2.2.2.2.2.2,
        fun fuel rest hrest => hr fuel rest hrest⟩
  | reg r => simp [atom_ok] at h
  | sub p => simp [atom_ok] at h
  | raw w => simp [atom_ok] at h
  | cptr f => simp [atom_ok] at h

/-! ### One step of each reader function -/

theorem reader_close (bw fuel : Nat) (rest : List Nat) :
    reader bw (fuel + 1) (41 :: rest) = .ok (READER_LIST_END, rest) := by
  rw [reader, find_token_start 41 _ (by decide)]
  simp only
  rw [if_pos (by decide)]

theorem reader_open (bw fuel : Nat) (rest : List Nat) :
    reader bw (fuel + 1) (40 :: rest) = read_list bw fuel rest := by
  rw [reader, find_token_start 40 _ (by decide)]
  simp only
  rw [if_neg (by decide), if_pos (by decide)]

theorem reader_quote (bw fuel : Nat) (inp : List Nat) (x : Val) (r : List Nat)
    (h : reader bw fuel inp = .ok (x, r)) :
    reader bw (fuel + 1) (39 :: inp) = .ok (.cons s_quote x, r) := by
  rw [reader, find_token_start 39 _ (by decide)]
  simp only
  rw [if_neg (by decide), if_neg (by decide), if_neg (by decide), if_pos (by decide), h]

theorem reader_quasiquote (bw fuel : Nat) (inp : List Nat) (x : Val) (r : List Nat)
    (h : reader bw fuel inp = .ok (x, r)) :
    reader bw (fuel + 1) (96 :: inp) = .ok (.cons s_quasiquote x, r) := by
  rw [reader, find_token_start 96 _ (by decide)]
  simp only
  rw [if_neg (by decide), if_neg (by decide), if_neg (by decide), if_neg (by decide),
    if_pos (by decide), h]

theorem reader_comma (bw fuel : Nat) (inp : List Nat) :
    reader bw (fuel + 1) (44 :: inp) = read_unquote bw fuel inp := by
  rw [reader, find_token_start 44 _ (by decide)]
  simp only
  rw [if_neg (by decide), if_neg (by decide), if_neg (by decide), if_neg (by decide),
    if_neg (by decide), if_pos (by decide)]

theorem reader_unquote (bw fuel : Nat) (c : Nat) (inp : List Nat) (x : Val) (r : List Nat)
    (hc : c ≠ 64) (h : reader bw fuel (c :: inp) = .ok (x, r)) :
    reader bw (fuel + 2) (44 :: c :: inp) = .ok (.cons s_unquote x, r) := by
  rw [reader_comma, read_unquote]
  simp only [look]
  rw [if_neg (by omega), h]

theorem reader_unquote_splicing (bw fuel : Nat) (inp : List Nat) (x : Val) (r : List Nat)
    (h : reader bw fuel inp = .ok (x, r)) :
    reader bw (fuel + 2) (44 :: 64 :: inp) = .ok (.cons s_unquote_splicing x, r) := by
  rw [reader_comma, read_unquote]
  simp only [look, nextc]
  rw [if_pos (by decide), h]

theorem reader_bar (bw fuel : Nat) (inp : List Nat) (params body : Val) (r : List Nat)
    (h : lambda_parse bw fuel inp = .ok ((params, body), r)) :
    reader bw (fuel + 2) (124 :: inp)
      = .ok (.cons s_lambda (.cons params (single body)), r) := by
  rw [reader, find_token_start 124 _ (by decide)]
  simp only
  rw [if_neg (by decide), if_neg (by decide), if_pos (by decide), read_lambda_short_form, h]

theorem read_list_end (bw fuel : Nat) (inp rest : List Nat)
    (h : reader bw fuel inp = .ok (READER_LIST_END, rest)) :
    read_list bw (fuel + 1) inp = .ok (NIL, rest) := by
  rw [read_list, h]
  simp only [if_true]

theorem read_list_cons (bw fuel : Nat) (inp r1 r2 : List Nat) (x tail : Val)
    (h1 : reader bw fuel inp = .ok (x, r1))
    (hx : x ≠ READER_LIST_END ∧ x ≠ ENDOFFILE ∧ x ≠ s_dot)
    (h2 : read_list bw fuel r1 = .ok (tail, r2)) :
    read_list bw (fuel + 1) inp = .ok (.cons x tail, r2) := by
  rw [read_list, h1]
  simp only [if_neg hx.1, if_neg hx.2.1, if_neg hx.2.2, h2]

theorem read_list_dot (bw fuel : Nat) (inp r1 r2 r3 : List Nat) (x : Val)
    (h1 : reader bw fuel inp = .ok (s_dot, r1))
    (h2 : reader bw fuel r1 = .ok (x, r2))
    (h3 : reader bw fuel r2 = .ok (READER_LIST_END, r3)) :
    read_list bw (fuel + 1) inp = .ok (x, r3) := by
  rw [read_list, h1]
  simp only
  rw [if_neg (by decide), if_neg (by decide)]
  simp only [if_true, h2, h3]
  rfl

theorem read_list_space (bw fuel : Nat) (inp : List Nat) :
    read_list bw fuel (32 :: inp) = read_list bw fuel inp := by
  cases fuel with
  | zero => simp [read_list]
  | succ f => rw [read_list, read_list, reader_space]

theorem lambda_parse_space (bw fuel : Nat) (inp : List Nat) :
    lambda_parse bw fuel (32 :: inp) = lambda_parse bw fuel inp := by
  cases fuel with
  | zero => simp [lambda_parse]
  | succ f => rw [lambda_parse, lambda_parse, reader_space]

theorem lambda_parse_body (bw fuel : Nat) (inp r : List Nat) (x : Val)
    (h : reader bw fuel inp = .ok (x, r)) (hx : is_cons x = true) :
    lambda_parse bw (fuel + 1) inp = .ok ((NIL, x), r) := by
  rw [lambda_parse, h]
  simp only [hx, if_true]

theorem lambda_parse_dot (bw fuel : Nat) (inp r1 r2 r3 : List Nat) (p b : Val)
    (h1 : reader bw fuel inp = .ok (s_dot, r1))
    (h2 : reader bw fuel r1 = .ok (p, r2))
    (h3 : reader bw fuel r2 = .ok (b, r3)) :
    lambda_parse bw (fuel + 1) inp = .ok ((p, b), r3) := by
  rw [lambda_parse, h1]
  simp only
  rw [if_neg (by decide)]
  simp only [if_true, h2, h3]

theorem lambda_parse_param (bw fuel : Nat) (inp r1 r2 : List Nat) (x ps b : Val)
    (h1 : reader bw fuel inp = .ok (x, r1))
    (hx : is_cons x = false ∧ x ≠ s_dot ∧ is_nil x = false)
    (h2 : lambda_parse bw fuel r1 = .ok ((ps, b), r2)) :
    lambda_parse bw (fuel + 1) inp = .ok ((.cons x ps, b), r2) := by
  rw [lambda_parse, h1]
  simp only [hx.1, hx.2.2, if_neg hx.2.1, h2]
  simp

/-! ### The printer and the class of readable values on values that are not pairs -/

theorem Val.size_pos (V : Val) : 1 ≤ V.size := by
  cases V <;> simp [Val.size]

theorem params_ok_not_cons (bw : Nat) (x : Val) (h : is_cons x = false) :
    params_ok bw x = (x == NIL || atom_ok bw x) := by
  cases x <;> first | rfl | simp [is_cons] at h

theorem tail_ok_not_cons (bw : Nat) (x : Val) (h : is_cons x = false) :
    tail_ok bw x = (x == NIL || atom_ok bw x) := by
  cases x <;> first | (rw [tail_ok]; intro a d hd; cases hd) | simp [is_cons] at h

theorem readable_not_cons (bw : Nat) (x : Val) (h : is_cons x = false) :
    readable bw x = (x == NIL || atom_ok bw x) := by
  cases x <;> first | (rw [readable]; intro a d hd; cases hd) | simp [is_cons] at h

theorem print_args_not_cons (x : Val) (h : is_cons x = false) :
    print_args x = if !is_nil x then print_seq (.ok [46, 32]) (print_seq (print_atom x) (.ok [32]))
      else .ok [] := by
  cases x <;> first | (rw [print_args]; intro a d hd; cases hd) | simp [is_cons] at h

theorem print_tail_not_cons (x : Val) (h : is_cons x = false) :
    print_tail x = if x != NIL then print_seq (.ok [32, 46, 32]) (print_seq (print_atom x) (.ok [41]))
      else .ok [41] := by
  cases x <;> first | (rw [print_tail]; intro a d hd; cases hd) | simp [is_cons] at h

theorem readable_facts (bw : Nat) (a : Val) (h : readable bw a = true) :
    a ≠ READER_LIST_END ∧ a ≠ ENDOFFILE ∧ a ≠ s_dot := by
  cases hc : is_cons a with
  | true =>
    cases a with
    | cons x y => exact ⟨by simp [READER_LIST_END], by simp [ENDOFFILE], by simp [s_dot]⟩
    | _ => simp [is_cons] at hc
  | false =>
    rw [readable_not_cons bw a hc, Bool.or_eq_true] at h
    rcases h with h | h
    · have : a = NIL := by simpa using h
      subst this
      exact ⟨by decide, by decide, by decide⟩
    · obtain ⟨-, -, -, h1, h2, h3⟩ := atom_ok_facts bw a h
      exact ⟨h2, h3, h1⟩

/-- The parameters of the lambda short form are read back by `lambda_parser`, up
to the body. -/
theorem lambda_params_ok (bw : Nat) (hbw : 3 ≤ bw) : ∀ params : Val,
    params_ok bw params = true →
    ∃ targs, print_args params = .ok targs ∧ params.size ≤ 3 * targs.length + 1 ∧
      ∀ (F fuel : Nat) (inp rest : List Nat) (body : Val), 1 ≤ F → params.size + F ≤ fuel →
        is_cons body = true → (∀ f, F ≤ f → reader bw f inp = .ok (body, rest)) →
        lambda_parse bw fuel (targs ++ inp) = .ok ((params, body), rest) := by
  have hatoms : ∀ x : Val, is_cons x = false → params_ok bw x = true →
      ∃ targs, print_args x = .ok targs ∧ x.size ≤ 3 * targs.length + 1 ∧
        ∀ (F fuel : Nat) (inp rest : List Nat) (body : Val), 1 ≤ F → x.size + F ≤ fuel →
          is_cons body = true → (∀ f, F ≤ f → reader bw f inp = .ok (body, rest)) →
          lambda_parse bw fuel (targs ++ inp) = .ok ((x, body), rest) := by
    intro x hx h
    have hsize := Val.size_pos x
    rw [params_ok_not_cons bw x hx, Bool.or_eq_true] at h
    rcases h with h | h
    · have : x = NIL := by simpa using h
      subst this
      refine ⟨[], rfl, by decide, fun F fuel inp rest body hF hfuel hb hread => ?_⟩
      obtain ⟨f, rfl⟩ : ∃ f, fuel = f + 1 := ⟨fuel - 1, by omega⟩
      exact lambda_parse_body bw f _ _ _ (hread f (by omega)) hb
    · obtain ⟨c, t, hp, -, hr⟩ := reader_atom bw x h
      obtain ⟨-, hnil, -, -, -, -⟩ := atom_ok_facts bw x h
      have hx1 : x.size = 1 := by
        cases x <;> first | rfl | simp [is_cons] at hx
      refine ⟨46 :: 32 :: (c :: t ++ [32]), ?_, ?_,
        fun F fuel inp rest body hF hfuel hb hread => ?_⟩
      · rw [print_args_not_cons x hx, hnil, hp]; rfl
      · rw [hx1]; simp only [List.length_cons]; omega
      · obtain ⟨f, rfl⟩ : ∃ f, fuel = f + 2 := ⟨fuel - 2, by omega⟩
        have e : 46 :: 32 :: (c :: t ++ [32]) ++ inp = 46 :: (32 :: (c :: t ++ (32 :: inp))) := by
          simp
        rw [e]
        refine lambda_parse_dot bw (f + 1) _ (32 :: (c :: t ++ (32 :: inp))) (32 :: inp) rest x body
          (reader_dot bw f hbw _ (delim_space _)) ?_ ?_
        · rw [reader_space]; exact hr f _ (delim_space _)
        · rw [reader_space]; exact hread _ (by omega)
  intro params
  induction params with
  | cons a d _ ihd =>
    intro h
    simp only [params_ok, Bool.and_eq_true] at h
    obtain ⟨c, t, hp, -, hr⟩ := reader_atom bw a h.1
    obtain ⟨hcons, hnil, -, hdot, -, -⟩ := atom_ok_facts bw a h.1
    obtain ⟨targs, hpd, hsz, hlp⟩ := ihd h.2
    have ha1 : a.size = 1 := by
      cases a <;> first | rfl | simp [is_cons] at hcons
    refine ⟨c :: t ++ (32 :: targs), ?_, ?_, fun F fuel inp rest body hF hfuel hb hread => ?_⟩
    · rw [print_args, print_of_not_cons a hcons, hp, hpd]; rfl
    · simp only [Val.size, ha1, List.length_cons, List.length_append]; omega
    · have hsa := Val.size_pos a
      have hsd := Val.size_pos d
      simp only [Val.size] at hfuel
      obtain ⟨f, rfl⟩ : ∃ f, fuel = f + 2 := ⟨fuel - 2, by omega⟩
      have e : c :: t ++ (32 :: targs) ++ inp = c :: t ++ (32 :: (targs ++ inp)) := by simp
      rw [e]
      refine lambda_parse_param bw (f + 1) _ _ _ _ _ _ (hr f _ (delim_space _))
        ⟨hcons, hdot, hnil⟩ ?_
      rw [lambda_parse_space]
      exact hlp F (f + 1) inp rest body hF (by omega) hb hread
  | sym name => exact hatoms _ rfl
  | uniq n => exact hatoms _ rfl
  | str chrs => exact hatoms _ rfl
  | reg r => exact hatoms _ rfl
  | sub p => exact hatoms _ rfl
  | num n => exact hatoms _ rfl
  | raw w => exact hatoms _ rfl
  | cptr f => exact hatoms _ rfl

/-! ### The printer on pairs -/

theorem print_quote (d : Val) : print (.cons s_quote d) = print_seq (.ok [39]) (print d) := by
  rw [print, if_pos (by decide)]

theorem print_quasiquote (d : Val) :
    print (.cons s_quasiquote d) = print_seq (.ok [96]) (print d) := by
  rw [print, if_neg (by decide), if_pos (by decide)]

theorem print_unquote (d : Val) : print (.cons s_unquote d) = print_seq (.ok [44]) (print d) := by
  rw [print, if_neg (by decide), if_neg (by decide), if_pos (by decide)]

theorem print_unquote_splicing (d : Val) :
    print (.cons s_unquote_splicing d) = print_seq (.ok [44, 64]) (print d) := by
  rw [print, if_neg (by decide), if_neg (by decide), if_neg (by decide), if_pos (by decide)]

theorem print_lambda (params body : Val) (hb : is_cons body = true) :
    print (.cons s_lambda (.cons params (.cons body NIL)))
      = print_seq (.ok [124, 32]) (print_seq (print_args params) (print body)) := by
  have hc : (is_sym s_lambda && (s_lambda == s_lambda && is_cons (.cons params (.cons body NIL))
      && is_single (fdr (.cons params (.cons body NIL)))
      && is_cons (far (fdr (.cons params (.cons body NIL)))))) = true := by
    have e1 : is_cons (.cons params (.cons body NIL)) = true := rfl
    have e2 : is_single (fdr (.cons params (.cons body NIL))) = true := rfl
    have e3 : far (fdr (.cons params (.cons body NIL))) = body := rfl
    have e4 : is_sym s_lambda = true := rfl
    have e5 : (s_lambda == s_lambda) = true := by decide
    rw [e1, e2, e3, e4, e5, hb]
    rfl
  rw [print, if_neg (by decide), if_neg (by decide), if_neg (by decide), if_neg (by decide),
    if_pos hc, print_lambda_args, print_lambda_body, print_first]

theorem print_list (a d : Val)
    (hq : a ≠ s_quote ∧ a ≠ s_quasiquote ∧ a ≠ s_unquote ∧ a ≠ s_unquote_splicing)
    (hl : (is_sym a && (a == s_lambda && is_cons d && is_single (fdr d)
        && is_cons (far (fdr d)))) = false) :
    print (.cons a d) = print_seq (.ok [40]) (print_seq (print a) (print_tail d)) := by
  have h1 : ¬ ((is_sym a && a == s_quote) = true) := by simp [hq.1]
  have h2 : ¬ ((is_sym a && a == s_quasiquote) = true) := by simp [hq.2.1]
  have h3 : ¬ ((is_sym a && a == s_unquote) = true) := by simp [hq.2.2.1]
  have h4 : ¬ ((is_sym a && a == s_unquote_splicing) = true) := by simp [hq.2.2.2]
  rw [print, if_neg h1, if_neg h2, if_neg h3, if_neg h4, if_neg (by rw [hl]; decide)]

/-- The shape test of the lambda case of `print`, spelled out. -/
theorem lambda_shape (a d : Val)
    (h : (is_sym a && (a == s_lambda && is_cons d && is_single (fdr d)
        && is_cons (far (fdr d)))) = true) :
    ∃ params body, a = s_lambda ∧ d = .cons params (.cons body NIL) ∧ is_cons body = true := by
  simp only [Bool.and_eq_true, beq_iff_eq] at h
  obtain ⟨-, ⟨⟨ha, hd⟩, hs⟩, hb⟩ := h
  cases d with
  | cons params dd =>
    simp only [fdr, is_single, Bool.and_eq_true] at hs hb
    cases dd with
    | cons body e =>
      simp only [fdr, far, is_nil, beq_iff_eq] at hs hb
      exact ⟨params, body, ha, by rw [hs.2], hb⟩
    | _ => simp [is_cons] at hs
  | _ => simp [is_cons] at hd

end

section

attribute [local irreducible] is_symchar chars_to_num_or_sym

/-- The text `print` emits for a readable value is read back as that value, by
`reader` at the start of the text and by `read_list` for the rest of a list; any
fuel above the size of the value is enough. -/
theorem read_print_aux (bw : Nat) (hbw : 3 ≤ bw) : ∀ (n : Nat) (V : Val), V.size ≤ n →
    (readable bw V = true →
      ∃ c t, print V = .ok (c :: t) ∧ c ≠ 64 ∧ V.size + 1 ≤ 3 * (c :: t).length ∧
        ∀ fuel rest, V.size + 2 ≤ fuel → is_symchar (look rest) = .ok false →
          reader bw fuel (c :: t ++ rest) = .ok (V, rest)) ∧
    (tail_ok bw V = true →
      ∃ c t, print_tail V = .ok (c :: t) ∧ (c = 32 ∨ c = 41) ∧ V.size ≤ 3 * (c :: t).length ∧
        ∀ fuel rest, V.size + 2 ≤ fuel →
          read_list bw fuel (c :: t ++ rest) = .ok (V, rest)) := by
  have hdelim : ∀ (c : Nat) (r : List Nat), c = 32 ∨ c = 41 →
      is_symchar (look (c :: r)) = .ok false := by
    intro c r hc
    rcases hc with rfl | rfl
    · exact delim_space r
    · exact delim_close r
  -- values that are not pairs
  have hatoms : ∀ x : Val, is_cons x = false →
      (readable bw x = true →
        ∃ c t, print x = .ok (c :: t) ∧ c ≠ 64 ∧ x.size + 1 ≤ 3 * (c :: t).length ∧
          ∀ fuel rest, x.size + 2 ≤ fuel → is_symchar (look rest) = .ok false →
            reader bw fuel (c :: t ++ rest) = .ok (x, rest)) ∧
      (tail_ok bw x = true →
        ∃ c t, print_tail x = .ok (c :: t) ∧ (c = 32 ∨ c = 41) ∧ x.size ≤ 3 * (c :: t).length ∧
          ∀ fuel rest, x.size + 2 ≤ fuel →
            read_list bw fuel (c :: t ++ rest) = .ok (x, rest)) := by
    intro x hx
    have hsize := Val.size_pos x
    have hx1 : x.size = 1 := by
      cases x <;> first | rfl | simp [is_cons] at hx
    have hlen : ∀ (c : Nat) (t : List Nat), x.size + 1 ≤ 3 * (c :: t).length := by
      intro c t; rw [hx1]; simp only [List.length_cons]; omega
    have hlen2 : ∀ (c : Nat) (t : List Nat), x.size ≤ 3 * (c :: t).length := by
      intro c t; rw [hx1]; simp only [List.length_cons]; omega
    constructor
    · intro h
      rw [readable_not_cons bw x hx, Bool.or_eq_true] at h
      rcases h with h | h
      · have : x = NIL := by simpa using h
        subst this
        refine ⟨40, [41], rfl, by decide, hlen _ _, fun fuel rest hfuel _ => ?_⟩
        obtain ⟨f, rfl⟩ : ∃ f, fuel = f + 3 := ⟨fuel - 3, by omega⟩
        exact reader_nil bw f rest
      · obtain ⟨c, t, hp, hc, hr⟩ := reader_atom bw x h
        refine ⟨c, t, by rw [print_of_not_cons x hx, hp], hc, hlen _ _,
          fun fuel rest hfuel hrest => ?_⟩
        obtain ⟨f, rfl⟩ : ∃ f, fuel = f + 1 := ⟨fuel - 1, by omega⟩
        exact hr f rest hrest
    · intro h
      rw [tail_ok_not_cons bw x hx, Bool.or_eq_true] at h
      rcases h with h | h
      · have : x = NIL := by simpa using h
        subst this
        refine ⟨41, [], rfl, Or.inr rfl, hlen2 _ _, fun fuel rest hfuel => ?_⟩
        obtain ⟨f, rfl⟩ : ∃ f, fuel = f + 2 := ⟨fuel - 2, by omega⟩
        exact read_list_end bw (f + 1) _ _ (reader_close bw f rest)
      · obtain ⟨c, t, hp, -, hr⟩ := reader_atom bw x h
        obtain ⟨-, -, hnil, -, -, -⟩ := atom_ok_facts bw x h
        have hne : (x != NIL) = true := by simpa using hnil
        refine ⟨32, 46 :: 32 :: (c :: t ++ [41]), ?_, Or.inl rfl, hlen2 _ _,
          fun fuel rest hfuel => ?_⟩
        · rw [print_tail_not_cons x hx, hne, hp]; rfl
        · obtain ⟨f, rfl⟩ : ∃ f, fuel = f + 2 := ⟨fuel - 2, by omega⟩
          have e : 32 :: 46 :: 32 :: (c :: t ++ [41]) ++ rest
              = 32 :: (46 :: (32 :: (c :: t ++ (41 :: rest)))) := by simp
          rw [e, read_list_space]
          refine read_list_dot bw (f + 1) _ (32 :: (c :: t ++ (41 :: rest))) (41 :: rest) rest x
            (reader_dot bw f hbw _ (delim_space _)) ?_ (reader_close bw f rest)
          rw [reader_space]
          exact hr f _ (delim_close _)
  intro n
  induction n with
  | zero =>
    intro V hV
    have := Val.size_pos V
    omega
  | succ n ih =>
    intro V hV
    cases V with
    | cons a d =>
      have hsa := Val.size_pos a
      have hsd := Val.size_pos d
      simp only [Val.size] at hV
      have iha := ih a (by omega)
      have ihd := ih d (by omega)
      constructor
      · intro h
        rw [readable] at h
        by_cases h1 : a = s_quote
        · subst h1
          rw [if_pos (by decide)] at h
          obtain ⟨c, t, hp, hc, hsz, hr⟩ := ihd.1 h
          refine ⟨39, c :: t, by rw [print_quote, hp]; rfl, by decide, ?_,
            fun fuel rest hfuel hrest => ?_⟩
          · simp only [Val.size, List.length_cons] at hsz ⊢
            have : s_quote.size = 1 := rfl
            omega
          simp only [Val.size] at hfuel
          obtain ⟨f, rfl⟩ : ∃ f, fuel = f + 1 := ⟨fuel - 1, by omega⟩
          exact reader_quote bw f _ _ _ (hr f rest (by omega) hrest)
        by_cases h2 : a = s_quasiquote
        · subst h2
          rw [if_pos (by decide)] at h
          obtain ⟨c, t, hp, hc, hsz, hr⟩ := ihd.1 h
          refine ⟨96, c :: t, by rw [print_quasiquote, hp]; rfl, by decide, ?_,
            fun fuel rest hfuel hrest => ?_⟩
          · simp only [Val.size, List.length_cons] at hsz ⊢
            have : s_quasiquote.size = 1 := rfl
            omega
          simp only [Val.size] at hfuel
          obtain ⟨f, rfl⟩ : ∃ f, fuel = f + 1 := ⟨fuel - 1, by omega⟩
          exact reader_quasiquote bw f _ _ _ (hr f rest (by omega) hrest)
        by_cases h3 : a = s_unquote
        · subst h3
          rw [if_pos (by decide)] at h
          obtain ⟨c, t, hp, hc, hsz, hr⟩ := ihd.1 h
          refine ⟨44, c :: t, by rw [print_unquote, hp]; rfl, by decide, ?_,
            fun fuel rest hfuel hrest => ?_⟩
          · simp only [Val.size, List.length_cons] at hsz ⊢
            have : s_unquote.size = 1 := rfl
            omega
          simp only [Val.size] at hfuel
          obtain ⟨f, rfl⟩ : ∃ f, fuel = f + 2 := ⟨fuel - 2, by omega⟩
          exact reader_unquote bw f c _ _ _ hc (hr f rest (by omega) hrest)
        by_cases h4 : a = s_unquote_splicing
        · subst h4
          rw [if_pos (by decide)] at h
          obtain ⟨c, t, hp, hc, hsz, hr⟩ := ihd.1 h
          refine ⟨44, 64 :: c :: t, by rw [print_unquote_splicing, hp]; rfl, by decide, ?_,
            fun fuel rest hfuel hrest => ?_⟩
          · simp only [Val.size, List.length_cons] at hsz ⊢
            have : s_unquote_splicing.size = 1 := rfl
            omega
          simp only [Val.size] at hfuel
          obtain ⟨f, rfl⟩ : ∃ f, fuel = f + 2 := ⟨fuel - 2, by omega⟩
          exact reader_unquote_splicing bw f _ _ _ (hr f rest (by omega) hrest)
        have hq : ¬ ((is_sym a && (a == s_quote || a == s_quasiquote || a == s_unquote
            || a == s_unquote_splicing)) = true) := by
          simp [h1, h2, h3, h4]
        rw [if_neg hq] at h
        cases hl : (is_sym a && (a == s_lambda && is_cons d && is_single (fdr d)
            && is_cons (far (fdr d)))) with
        | true =>
          rw [hl, if_pos rfl] at h
          obtain ⟨params, body, rfl, rfl, hb⟩ := lambda_shape a d hl
          simp only [lambda_ok, body_ok, Bool.and_eq_true] at h
          simp only [Val.size] at hV
          have hsp := Val.size_pos params
          have hsb := Val.size_pos body
          obtain ⟨c, t, hp, -, hszb, hr⟩ := (ih body (by omega)).1 h.2
          obtain ⟨targs, hpa, hszp, hlp⟩ := lambda_params_ok bw hbw params h.1
          refine ⟨124, 32 :: (targs ++ (c :: t)), by rw [print_lambda _ _ hb, hpa, hp]; rfl,
            by decide, ?_, fun fuel rest hfuel hrest => ?_⟩
          · simp only [Val.size, List.length_cons, List.length_append] at hszb hszp ⊢
            have : s_lambda.size = 1 := rfl
            have : NIL.size = 1 := rfl
            omega
          simp only [Val.size] at hfuel
          obtain ⟨f, rfl⟩ : ∃ f, fuel = f + 2 := ⟨fuel - 2, by omega⟩
          have e : 124 :: 32 :: (targs ++ (c :: t)) ++ rest
              = 124 :: (32 :: (targs ++ (c :: t ++ rest))) := by simp
          rw [e]
          refine reader_bar bw f _ params body rest ?_
          rw [lambda_parse_space]
          exact hlp (body.size + 2) f _ rest body (by omega) (by omega) hb
            (fun f2 hf2 => hr f2 rest hf2 hrest)
        | false =>
          rw [hl, if_neg (by decide), Bool.and_eq_true] at h
          obtain ⟨ca, ta, hpa, -, hsza, hra⟩ := iha.1 h.1
          obtain ⟨ct, tt, hpt, hct, hszt, hrt⟩ := ihd.2 h.2
          have hq2 : a ≠ s_quote ∧ a ≠ s_quasiquote ∧ a ≠ s_unquote ∧ a ≠ s_unquote_splicing :=
            ⟨h1, h2, h3, h4⟩
          refine ⟨40, ca :: ta ++ (ct :: tt), by rw [print_list a d hq2 hl, hpa, hpt]; rfl,
            by decide, ?_, fun fuel rest hfuel hrest => ?_⟩
          · simp only [Val.size, List.length_cons, List.length_append] at hsza hszt ⊢
            omega
          simp only [Val.size] at hfuel
          obtain ⟨f, rfl⟩ : ∃ f, fuel = f + 2 := ⟨fuel - 2, by omega⟩
          have e : 40 :: (ca :: ta ++ (ct :: tt)) ++ rest
              = 40 :: (ca :: ta ++ (ct :: tt ++ rest)) := by simp
          rw [e, reader_open]
          exact read_list_cons bw f _ (ct :: tt ++ rest) rest a d
            (hra f _ (by omega) (hdelim ct _ hct)) (readable_facts bw a h.1)
            (hrt f rest (by omega))
      · intro h
        rw [tail_ok, Bool.and_eq_true] at h
        obtain ⟨ca, ta, hpa, -, hsza, hra⟩ := iha.1 h.1
        obtain ⟨ct, tt, hpt, hct, hszt, hrt⟩ := ihd.2 h.2
        refine ⟨32, ca :: ta ++ (ct :: tt), by rw [print_tail, hpa, hpt]; rfl, Or.inl rfl, ?_,
          fun fuel rest hfuel => ?_⟩
        · simp only [Val.size, List.length_cons, List.length_append] at hsza hszt ⊢
          omega
        simp only [Val.size] at hfuel
        obtain ⟨f, rfl⟩ : ∃ f, fuel = f + 1 := ⟨fuel - 1, by omega⟩
        have e : 32 :: (ca :: ta ++ (ct :: tt)) ++ rest
            = 32 :: (ca :: ta ++ (ct :: tt ++ rest)) := by simp
        rw [e, read_list_space]
        exact read_list_cons bw f _ (ct :: tt ++ rest) rest a d
          (hra f _ (by omega) (hdelim ct _ hct)) (readable_facts bw a h.1)
          (hrt f rest (by omega))
    | sym name => exact hatoms _ rfl
    | uniq n => exact hatoms _ rfl
    | str chrs => exact hatoms _ rfl
    | reg r => exact hatoms _ rfl
    | sub p => exact hatoms _ rfl
    | num n => exact hatoms _ rfl
    | raw w => exact hatoms _ rfl
    | cptr f => exact hatoms _ rfl

/-- Reading back what `print` wrote: for a readable value, `print` returns a text
and `reader`, given that text and any fuel above the size of the value, returns the
value and leaves what follows the text, when that cannot continue a token. -/
theorem read_print (bw : Nat) (hbw : 3 ≤ bw) (V : Val) (h : readable bw V = true) :
    ∃ text, print V = .ok text ∧ V.size + 1 ≤ 3 * text.length ∧
      ∀ fuel rest, V.size + 2 ≤ fuel → is_symchar (look rest) = .ok false →
        reader bw fuel (text ++ rest) = .ok (V, rest) := by
  obtain ⟨c, t, hp, -, hsz, hr⟩ := (read_print_aux bw hbw V.size V (le_refl _)).1 h
  exact ⟨c :: t, hp, hsz, hr⟩

end

/-- Reading back what `print` wrote, with `bone_read`: the text of a readable value,
followed by the end of the input or by a byte that cannot continue a token, is
read as the value, and what follows is left in the input. -/
theorem bone_read_print (blockwords : Nat) (hbw : 4 ≤ blockwords) (V : Val)
    (hV : readable blockwords V = true) (rest : List Nat)
    (hrest : is_symchar (look rest) = .ok false) :
    ∃ text, print V = .ok text ∧ bone_read blockwords (text ++ rest) = .ok (V, rest) ∧
      ∀ fuel, V.size + 2 ≤ fuel → reader blockwords fuel (text ++ rest) = .ok (V, rest) := by
  obtain ⟨text, hp, hsz, hr⟩ := read_print blockwords (by omega) V hV
  refine ⟨text, hp, ?_, fun fuel hfuel => hr fuel rest hfuel hrest⟩
  have h1 := hr (3 * (text ++ rest).length + 3) rest
    (by simp only [List.length_append]; omega) hrest
  rw [bone_read, h1]
  simp only [if_neg (readable_facts blockwords V hV).1]

/-- Claim C1 (amended): for every readable value `V` (numbers, `#t`, `#f`, `()`,
strings without a double quote, symbols of allowed characters, and the pairs built
from them whose printed form is not ambiguous), `print` returns a text, and
`bone_read` on that text, followed by the end of the input or by a byte that cannot
continue a token, returns `V` and leaves what follows; `reader` does so for any
fuel above the size of `V`. -/
theorem read_print_readable (blockwords : Nat) (hbw : 4 ≤ blockwords) (V : Val)
    (hV : readable blockwords V = true) (rest : List Nat)
    (hrest : is_symchar (look rest) = .ok false) :
    ∃ text, print V = .ok text ∧ bone_read blockwords (text ++ rest) = .ok (V, rest) ∧
      ∀ fuel, V.size + 2 ≤ fuel → reader blockwords fuel (text ++ rest) = .ok (V, rest) :=
  bone_read_print blockwords hbw V hV rest hrest

set_option maxRecDepth 100000 in
/-- Witness for C1: the value of `(a "b\n" (1 . -2) '#t | x . r (f x))`. -/
theorem read_print_readable_witness :
    4 ≤ 512 ∧
    readable 512 (Val.list [.sym [97], .str (chars [98, 10]), .cons (.num 1) (.num (-2)),
      .cons s_quote BTRUE,
      Val.list [s_lambda, .cons (.sym [120]) (.sym [114]),
        Val.list [.sym [102], .sym [120]]]]) = true ∧
    is_symchar (look []) = .ok false ∧
    ∃ text, print (Val.list [.sym [97], .str (chars [98, 10]), .cons (.num 1) (.num (-2)),
      .cons s_quote BTRUE,
      Val.list [s_lambda, .cons (.sym [120]) (.sym [114]),
        Val.list [.sym [102], .sym [120]]]]) = .ok text ∧
      bone_read 512 (text ++ []) = .ok (Val.list [.sym [97], .str (chars [98, 10]),
        .cons (.num 1) (.num (-2)), .cons s_quote BTRUE,
        Val.list [s_lambda, .cons (.sym [120]) (.sym [114]),
          Val.list [.sym [102], .sym [120]]]], []) ∧
      ∀ fuel, (Val.list [.sym [97], .str (chars [98, 10]), .cons (.num 1) (.num (-2)),
        .cons s_quote BTRUE,
        Val.list [s_lambda, .cons (.sym [120]) (.sym [114]),
          Val.list [.sym [102], .sym [120]]]]).size + 2 ≤ fuel →
        reader 512 fuel (text ++ []) = .ok (Val.list [.sym [97], .str (chars [98, 10]),
          .cons (.num 1) (.num (-2)), .cons s_quote BTRUE,
          Val.list [s_lambda, .cons (.sym [120]) (.sym [114]),
            Val.list [.sym [102], .sym [120]]]], []) :=
  ⟨by decide, by decide, by decide,
    read_print_readable 512 (by decide) _ (by decide) [] (by decide)⟩

set_option maxRecDepth 100000 in
/-- Counterexample for C1 as stated: three values the reader returns whose printed
text does not read back as the value.  `, @x` reads as `(unquote . @x)`, which
prints as `,@x` and reads back as `(unquote-splicing . x)`; `(lambda (()) (f))`
prints as `| () (f)`, which the reader rejects; the end-of-file marker returned on
an empty input prints as a text the reader rejects. -/
theorem print_not_read_back :
    (bone_read 512 [44, 32, 64, 120] = .ok (.cons s_unquote (.sym [64, 120]), []) ∧
      print (.cons s_unquote (.sym [64, 120])) = .ok [44, 64, 120] ∧
      bone_read 512 [44, 64, 120] = .ok (.cons s_unquote_splicing (.sym [120]), [])) ∧
    (bone_read 512 [40, 108, 97, 109, 98, 100, 97, 32, 40, 40, 41, 41, 32, 40, 102, 41, 41]
        = .ok (Val.list [s_lambda, Val.list [NIL], Val.list [.sym [102]]], []) ∧
      print (Val.list [s_lambda, Val.list [NIL], Val.list [.sym [102]]])
        = .ok [124, 32, 40, 41, 32, 40, 102, 41] ∧
      bone_read 512 [124, 32, 40, 41, 32, 40, 102, 41]
        = .error (.parse_error "empty body expression not allowed in lambda short form")) ∧
    (bone_read 512 [] = .ok (ENDOFFILE, []) ∧
      print ENDOFFILE = .ok [35, 123, 101, 111, 102, 125] ∧
      bone_read 512 [35, 123, 101, 111, 102, 125]
        = .error (.parse_error "invalid character after #")) := by
  refine ⟨⟨?_, ?_, ?_⟩, ⟨?_, ?_, ?_⟩, ⟨?_, ?_, ?_⟩⟩ <;> decide

/-! ## Compiler and evaluator -/

/-! ### One instruction of the evaluator -/

theorem exec_const (fuel : Nat) (st : VM) (subr : SubObj) (args : List Val) (lam : Option Nat)
    (envp ip : Nat) (sc : SubCode) (v : Val)
    (hc : st.codes[subr.code]? = some sc) (hi : sc.code[ip]? = some OP_CONST)
    (hv : sc.code[ip + 1]? = some v) :
    exec (fuel + 1) st subr args lam envp ip
      = exec fuel { st with last_value := v } subr args lam envp (ip + 2) := by
  cases lam <;> (rw [exec]; simp only [hc, hi, OP_CONST, opcode_of, hv])

theorem exec_ret (fuel : Nat) (st : VM) (subr : SubObj) (args : List Val) (lam : Option Nat)
    (envp ip : Nat) (sc : SubCode)
    (hc : st.codes[subr.code]? = some sc) (hi : sc.code[ip]? = some OP_RET) :
    exec (fuel + 1) st subr args lam envp ip = .ok st := by
  cases lam <;> (rw [exec]; simp only [hc, hi, OP_RET, opcode_of])

theorem exec_prepare_call (fuel : Nat) (st st2 : VM) (subr : SubObj) (args : List Val)
    (lam : Option Nat) (envp ip : Nat) (sc : SubCode)
    (hc : st.codes[subr.code]? = some sc) (hi : sc.code[ip]? = some OP_PREPARE_CALL)
    (hp : prepare_call st = .ok st2) :
    exec (fuel + 1) st subr args lam envp ip = exec fuel st2 subr args lam envp (ip + 1) := by
  cases lam <;> (rw [exec]; simp only [hc, hi, OP_PREPARE_CALL, opcode_of, hp])

theorem exec_add_arg (fuel : Nat) (st st2 : VM) (subr : SubObj) (args : List Val)
    (lam : Option Nat) (envp ip : Nat) (sc : SubCode)
    (hc : st.codes[subr.code]? = some sc) (hi : sc.code[ip]? = some OP_ADD_ARG)
    (hp : add_arg st = .ok st2) :
    exec (fuel + 1) st subr args lam envp ip = exec fuel st2 subr args lam envp (ip + 1) := by
  cases lam <;> (rw [exec]; simp only [hc, hi, OP_ADD_ARG, opcode_of, hp])

theorem exec_tailcall (fuel : Nat) (st st2 st3 : VM) (subr s : SubObj) (args the_args : List Val)
    (lam : Option Nat) (envp ip : Nat) (sc : SubCode)
    (hc : st.codes[subr.code]? = some sc) (hi : sc.code[ip]? = some OP_TAILCALL)
    (hp : pop_call st = .ok (s, the_args, st2)) (ht : count_tail_call st2 = .ok st3) :
    exec (fuel + 1) st subr args lam envp ip = exec fuel st3 s the_args lam envp 0 := by
  cases lam <;> (rw [exec]; simp only [hc, hi, OP_TAILCALL, opcode_of, hp, ht])

theorem exec_call (fuel : Nat) (st st2 st3 : VM) (subr s : SubObj) (args the_args : List Val)
    (lam : Option Nat) (envp ip : Nat) (sc : SubCode)
    (hc : st.codes[subr.code]? = some sc) (hi : sc.code[ip]? = some OP_CALL)
    (hp : pop_call st = .ok (s, the_args, st2)) (ht : call fuel st2 s the_args = .ok st3) :
    exec (fuel + 1) st subr args lam envp ip = exec fuel st3 subr args lam envp (ip + 1) := by
  cases lam <;> (rw [exec]; simp only [hc, hi, OP_CALL, opcode_of, hp, ht])

theorem exec_wrap (fuel : Nat) (st : VM) (subr : SubObj) (args : List Val) (lam : Option Nat)
    (envp ip : Nat) (sc : SubCode) (f : CSub)
    (hc : st.codes[subr.code]? = some sc) (hi : sc.code[ip]? = some OP_WRAP)
    (hv : sc.code[ip + 1]? = some (.cptr f)) :
    exec (fuel + 1) st subr args lam envp ip = run_csub fuel st f args := by
  cases lam <;> (rw [exec]; simp only [hc, hi, OP_WRAP, opcode_of, hv])

theorem call_enter (fuel : Nat) (st : VM) (subr : SubObj) (args : List Val)
    (h : st.call_stack_sp + 1 < st.call_stack.length) :
    call (fuel + 1) st subr args
      = exec fuel
          { st with call_stack_sp := st.call_stack_sp + 1
                    call_stack := st.call_stack.set (st.call_stack_sp + 1)
                      { subr := some subr, tail_calls := 0 } }
          subr args none 0 0 := by
  rw [call, if_pos h]

/-! ### The state after `bone_init` -/

theorem bytes2words_small (n : Nat) (h1 : 1 ≤ n) (h2 : n ≤ 16) : bytes2words n ≤ 2 := by
  unfold bytes2words wrap64
  omega

theorem intern_ok (bw : Nat) (name : List Nat) (hnul : (0 : Nat) ∉ name)
    (hfit : reg_alloc_returns bw (bytes2words (name.length + 1)) = true) :
    intern bw name = .ok (.sym name) := by
  rw [intern, Word.cstring_of_nul_free name hnul, reg_alloc, if_pos hfit]

theorem register_csub_ok (st : VM) (f : CSub) (name : List Nat) (argc has_rest : Nat)
    (hbw : 8 ≤ st.blockwords) (hlen : name.length ≤ 15) (hnul : (0 : Nat) ∉ name) :
    register_csub st f name argc has_rest = .ok (register_csub_done st f name argc has_rest) := by
  have hfit : reg_alloc_returns st.blockwords (bytes2words (name.length + 1)) = true := by
    have := bytes2words_small (name.length + 1) (by omega) (by omega)
    simp only [reg_alloc_returns, decide_eq_true_eq]
    omega
  have h6 : wrap32 ((sub_code_header_size : Int) + 2) = 6 := by decide
  have ha6 : reg_alloc st.blockwords 6 = .ok () := by
    rw [reg_alloc, if_pos (by simp only [reg_alloc_returns, decide_eq_true_eq]; omega)]
  have ha1 : reg_alloc st.blockwords 1 = .ok () := by
    rw [reg_alloc, if_pos (by simp only [reg_alloc_returns, decide_eq_true_eq]; omega)]
  rw [register_csub, intern_ok _ _ hnul hfit]
  simp only [make_sub_code, h6]
  rw [if_neg (by decide)]
  have h6n : (6 : Int).toNat = 6 := rfl
  simp only [h6n, ha6, ha1]
  rfl

theorem register_csub_done_blockwords (st : VM) (f : CSub) (name : List Nat)
    (argc has_rest : Nat) :
    (register_csub_done st f name argc has_rest).blockwords = st.blockwords := rfl

theorem init_csubs_loop_ok : ∀ (table : List (CSub × String × Nat × Nat)) (st : VM),
    8 ≤ st.blockwords →
    (∀ e ∈ table, (bytes e.2.1).length ≤ 15 ∧ (0 : Nat) ∉ bytes e.2.1) →
    init_csubs_loop table st = .ok (init_csubs_done table st) := by
  intro table
  induction table with
  | nil => intro st _ _; rfl
  | cons e rest ih =>
    intro st hbw h
    obtain ⟨f, name, argc, has_rest⟩ := e
    have he := h (f, name, argc, has_rest) (List.mem_cons_self _ _)
    rw [init_csubs_loop, register_csub_ok st f (bytes name) argc has_rest hbw he.1 he.2]
    simp only
    rw [ih _ (by rw [register_csub_done_blockwords]; exact hbw)
      (fun e2 he2 => h e2 (List.mem_cons_of_mem _ he2))]
    rfl

set_option maxRecDepth 100000 in
theorem csub_table_names :
    ∀ e ∈ csub_table, (bytes e.2.1).length ≤ 15 ∧ (0 : Nat) ∉ bytes e.2.1 := by
  decide

theorem bone_init_ok (bw : Nat) (hbw : 8 ≤ bw) :
    bone_init bw = .ok (init_csubs_done csub_table (vm_zero bw)) :=
  init_csubs_loop_ok csub_table (vm_zero bw) hbw csub_table_names

theorem init_csubs_done_blockwords : ∀ (table : List (CSub × String × Nat × Nat)) (st : VM)
    (bw : Nat),
    init_csubs_done table { st with blockwords := bw }
      = { init_csubs_done table st with blockwords := bw } := by
  intro table
  induction table with
  | nil => intro st bw; rfl
  | cons e rest ih =>
    intro st bw
    have h1 : init_csubs_done (e :: rest) { st with blockwords := bw }
        = init_csubs_done rest
            { register_csub_done st e.1 (bytes e.2.1) e.2.2.1 e.2.2.2 with blockwords := bw } := rfl
    have h2 : init_csubs_done (e :: rest) st
        = init_csubs_done rest (register_csub_done st e.1 (bytes e.2.1) e.2.2.1 e.2.2.2) := rfl
    rw [h1, h2, ih]

set_option maxRecDepth 100000 in
/-- What the evaluator finds in the state `bone_init` leaves: the page size, empty
stacks of 256 entries, and `+` bound to a sub of `CSUB_fullplus` that takes only
rest arguments. -/
theorem bone_init_state (bw : Nat) (st : VM) (hbw : 8 ≤ bw) (h : bone_init bw = .ok st) :
    st.blockwords = bw ∧ st.call_stack_sp = 0 ∧ st.call_stack.length = 256 ∧
    st.next_call = 0 ∧ st.upcoming_calls.length = 256 ∧
    get_binding st (.sym [43]) = .cons BINDING_DEFINED (.sub 2) ∧
    st.subs[2]? = some { code := 2, env := [] } ∧
    st.codes[2]? = some { argc := 0, has_rest := 1, localc := 0, name := .sym [43],
                          size_of_env := 0, code := [OP_WRAP, .cptr .fullplus] } := by
  rw [bone_init_ok bw hbw] at h
  injection h with h
  have hz : vm_zero bw = { vm_zero 0 with blockwords := bw } := rfl
  rw [hz, init_csubs_done_blockwords] at h
  subst h
  have h1 : (init_csubs_done csub_table (vm_zero 0)).call_stack_sp = 0 := by decide
  have h2 : (init_csubs_done csub_table (vm_zero 0)).call_stack.length = 256 := by decide
  have h3 : (init_csubs_done csub_table (vm_zero 0)).next_call = 0 := by decide
  have h4 : (init_csubs_done csub_table (vm_zero 0)).upcoming_calls.length = 256 := by decide
  have h5 : (init_csubs_done csub_table (vm_zero 0)).bindings.lookup (.sym [43])
      = some (.cons BINDING_DEFINED (.sub 2)) := by decide
  have h6 : (init_csubs_done csub_table (vm_zero 0)).subs[2]? = some { code := 2, env := [] } := by
    decide
  have h7 : (init_csubs_done csub_table (vm_zero 0)).codes[2]?
      = some { argc := 0, has_rest := 1, localc := 0, name := .sym [43],
               size_of_env := 0, code := [OP_WRAP, .cptr .fullplus] } := by
    decide
  refine ⟨rfl, h1, h2, h3, h4, ?_, h6, h7⟩
  simp only [get_binding, h5]

/-! ### Compiling a quoted value and a call of `+` -/

theorem len_loop_list : ∀ (xs : List Val) (n : Int), 0 ≤ n → n + xs.length < 2147483648 →
    len_loop (Val.list xs) n = n + xs.length := by
  intro xs
  induction xs with
  | nil => intro n _ _; simp [Val.list, NIL, len_loop]
  | cons x xs ih =>
    intro n h0 h1
    simp only [List.length_cons, Nat.cast_add, Nat.cast_one] at h1
    have hw : wrap32 (n + 1) = n + 1 := by unfold wrap32; omega
    rw [Val.list, len_loop, hw, ih (n + 1) (by omega) (by omega)]
    simp only [List.length_cons, Nat.cast_add, Nat.cast_one]
    omega

theorem len_list (xs : List Val) (h : xs.length < 2147483648) :
    len (Val.list xs) = xs.length := by
  rw [len, len_loop_list xs 0 (le_refl _) (by omega)]
  omega

theorem compile2sub_code_ok (st : VM) (e : Val) (raw : List Val)
    (hc : compile2list st e = .ok raw) (hfit : raw.length + 5 < st.blockwords)
    (hbig : raw.length + 4 < 2147483648) :
    compile2sub_code st e = .ok (st.codes.length,
      { st with codes := st.codes ++ [{ argc := 0, has_rest := 0, localc := 0, name := BFALSE,
                                        size_of_env := 0, code := raw }] }) := by
  have hh : (sub_code_header_size : Int) = 4 := by decide
  have hw : wrap32 ((sub_code_header_size : Int) + (raw.length : Int)) = ((raw.length + 4 : Nat) : Int) := by
    rw [hh]; unfold wrap32; push_cast; omega
  have ha : reg_alloc st.blockwords (raw.length + 4) = .ok () := by
    rw [reg_alloc, if_pos (by simp only [reg_alloc_returns, decide_eq_true_eq]; omega)]
  rw [compile2sub_code, hc]
  simp only [make_sub_code, len_list raw (by omega), hw]
  rw [if_neg (by omega)]
  simp only [Int.toNat_ofNat, ha]

theorem compile2sub_code_diverge (st : VM) (e : Val) (raw : List Val)
    (hc : compile2list st e = .ok raw) (hfit : st.blockwords ≤ raw.length + 5)
    (hbig : raw.length + 4 < 2147483648) :
    compile2sub_code st e = .error .diverge := by
  have hh : (sub_code_header_size : Int) = 4 := by decide
  have hw : wrap32 ((sub_code_header_size : Int) + (raw.length : Int)) = ((raw.length + 4 : Nat) : Int) := by
    rw [hh]; unfold wrap32; push_cast; omega
  have ha : reg_alloc st.blockwords (raw.length + 4) = .error .diverge := by
    rw [reg_alloc, if_neg (by simp only [reg_alloc_returns, decide_eq_true_eq]; omega)]
  rw [compile2sub_code, hc]
  simp only [make_sub_code, len_list raw (by omega), hw]
  rw [if_neg (by omega)]
  simp only [Int.toNat_ofNat, ha]

theorem compile2list_quote (st : VM) (L : Val) :
    compile2list st (.cons s_quote L) = .ok [OP_CONST, L, OP_RET] := by
  rw [compile2list, compile_expr, if_pos rfl]
  rfl

theorem compile_args_nums (st : VM) : ∀ ns : List Int,
    compile_args st NIL (Val.list (ns.map Val.num)) = .ok (args_code ns) := by
  intro ns
  induction ns with
  | nil => rfl
  | cons n ns ih =>
    rw [List.map_cons, Val.list, compile_args, compile_expr, ih]
    rfl

theorem compile2list_plus (st : VM) (p : Nat) (ns : List Int)
    (hplus : get_binding st (.sym [43]) = .cons BINDING_DEFINED (.sub p)) :
    compile2list st (Val.list (.sym [43] :: ns.map Val.num))
      = .ok ([OP_CONST, .sub p, OP_PREPARE_CALL] ++ args_code ns ++ [OP_TAILCALL, OP_RET]) := by
  have hs : compile_sym st (.sym [43]) NIL = .ok [OP_CONST, .sub p] := by
    have ha : assoq (.sym [43]) NIL = .ok BFALSE := rfl
    have hi : is BFALSE = false := by decide
    rw [compile_sym, ha]
    simp only [hi, hplus]
    rfl
  rw [compile2list, Val.list, compile_expr, if_neg (by decide), compile_expr, hs,
    compile_args_nums]
  simp

/-! ### Running the compiled code -/

theorem drop_cons_step {α : Type} : ∀ (l : List α) (i : Nat) (a : α) (t : List α),
    l.drop i = a :: t → l[i]? = some a ∧ l.drop (i + 1) = t := by
  intro l
  induction l with
  | nil => intro i a t h; simp at h
  | cons x xs ih =>
    intro i a t h
    cases i with
    | zero =>
      simp only [List.drop_zero, List.cons.injEq] at h
      obtain ⟨rfl, rfl⟩ := h
      exact ⟨by simp, rfl⟩
    | succ i =>
      simp only [List.drop_succ_cons] at h
      obtain ⟨h1, h2⟩ := ih i a t h
      exact ⟨by simpa using h1, by simpa using h2⟩

/-- Running the code `CONST v; RET` of a new sub-code: `call` returns with
`last_value = v`. -/
theorem call_const_ret (st : VM) (ci : Nat) (sc : SubCode) (v : Val)
    (hc : st.codes[ci]? = some sc) (hcode : sc.code = [OP_CONST, v, OP_RET])
    (hsp : st.call_stack_sp + 1 < st.call_stack.length) :
    ∃ st2, (∀ fuel, 3 ≤ fuel → call fuel st { code := ci, env := [] } [] = .ok st2) ∧
      st2.last_value = v := by
  refine ⟨{ st with last_value := v
                    call_stack_sp := st.call_stack_sp + 1
                    call_stack := st.call_stack.set (st.call_stack_sp + 1)
                      { subr := some { code := ci, env := [] }, tail_calls := 0 } },
    fun fuel hfuel => ?_, rfl⟩
  obtain ⟨f, rfl⟩ : ∃ f, fuel = f + 3 := ⟨fuel - 3, by omega⟩
  rw [call_enter _ _ _ _ hsp,
    exec_const (f + 1) _ _ _ _ _ _ sc v hc (by rw [hcode]; rfl) (by rw [hcode]; rfl),
    exec_ret f _ _ _ _ _ _ sc hc (by rw [hcode]; rfl)]

theorem snoc_cell_list : ∀ (done : List Val) (v : Val),
    snoc_cell (Val.list done) v = Val.list (done ++ [v]) := by
  intro done
  induction done with
  | nil => intro v; rfl
  | cons x xs ih => intro v; rw [Val.list, snoc_cell, ih]; rfl

/-- `OP_ADD_ARG` on a call that takes only rest arguments appends `last_value` to
the rest list. -/
theorem add_arg_rest (st : VM) (p : Nat) (done : List Val) (s : SubObj) (sc : SubCode)
    (hf : rest_frame st p done) (hs : st.subs[p]? = some s) (hc : st.codes[s.code]? = some sc)
    (hargc : sc.argc = 0) (hrest : sc.has_rest ≠ 0) :
    ∃ st2, add_arg st = .ok st2 ∧ rest_frame st2 p (done ++ [st.last_value]) ∧
      st2.codes = st.codes ∧ st2.subs = st.subs ∧ st2.call_stack = st.call_stack ∧
      st2.call_stack_sp = st.call_stack_sp ∧ st2.blockwords = st.blockwords := by
  obtain ⟨hnc, frame, hframe, htb, hleft, hargs, hrc⟩ := hf
  have hlen : st.next_call < st.upcoming_calls.length := by
    by_contra hcon
    rw [List.getElem?_eq_none (by omega)] at hframe
    cases hframe
  have hbind : frame.to_be_called.bind (fun p => st.subs[p]?) = some s := by
    rw [htb]; exact hs
  obtain ⟨nf, hnf⟩ : ∃ nf : UpcomingCall, nf =
      { frame with rest_constructor := single st.last_value
                   the_args := [Val.list (done ++ [st.last_value])] } := ⟨_, rfl⟩
  have key : add_arg st
      = .ok { st with upcoming_calls := st.upcoming_calls.set st.next_call nf } := by
    rw [add_arg, if_neg hnc]
    simp only [hframe, hleft, hbind, hc, hargc, hargs]
    rw [if_neg (by simp), if_neg hrest, if_pos (by simp)]
    by_cases hd : done = []
    · subst hd
      rw [if_pos (hrc.2 rfl), hnf]
      simp only [hleft, List.nil_append, List.set_cons_zero, Val.list, single]
    · rw [if_neg (fun h => hd (hrc.1 h)), hnf]
      simp only [hleft, List.getD_cons_zero, snoc_cell_list, List.set_cons_zero]
  refine ⟨_, key, ⟨hnc, nf, ?_, ?_, ?_, ?_, ?_⟩, rfl, rfl, rfl, rfl, rfl⟩
  · show (st.upcoming_calls.set st.next_call nf)[st.next_call]? = some nf
    simp [hlen]
  · rw [hnf]; exact htb
  · rw [hnf]; exact hleft
  · rw [hnf]
  · rw [hnf]
    constructor
    · intro h; cases h
    · intro h; simp at h

theorem fullplus_loop_nums : ∀ (ns : List Int) (a : Int),
    fullplus_loop (Val.list (ns.map Val.num)) a
      = .ok (ns.foldl (fun (a n : Int) => wrap32 (a + n)) a) := by
  intro ns
  induction ns with
  | nil => intro a; rfl
  | cons n ns ih =>
    intro a
    rw [List.map_cons, Val.list, fullplus_loop, any2int]
    simp only [ih]
    rfl

theorem wrap32_idem (a : Int) : wrap32 (wrap32 a) = wrap32 a := by
  unfold wrap32; omega

theorem wrap32_add (a n : Int) : wrap32 (wrap32 a + n) = wrap32 (a + n) := by
  unfold wrap32; omega

theorem foldl_wrap_sum : ∀ (ns : List Int) (a : Int),
    wrap32 (ns.foldl (fun (a n : Int) => wrap32 (a + n)) a) = wrap32 (a + ns.sum) := by
  intro ns
  induction ns with
  | nil => intro a; simp
  | cons n ns ih =>
    intro a
    rw [List.foldl_cons, ih, List.sum_cons, wrap32_add, add_assoc]

theorem fullplus_sum_eq (ns : List Int) : wrap32 (fullplus_sum ns) = wrap32 ns.sum := by
  rw [fullplus_sum, foldl_wrap_sum, zero_add]

theorem simple_csub_fullplus (bw : Nat) (ns : List Int) :
    simple_csub bw .fullplus [Val.list (ns.map Val.num)] = .ok (.num (wrap32 ns.sum), []) := by
  have h1 := fullplus_sum_eq ns
  rw [fullplus_sum] at h1
  rw [simple_csub]
  change (fullplus_loop (Val.list (ns.map Val.num)) 0 >>= fun r => pure (int2any r, [])) = _
  rw [fullplus_loop_nums]
  change Except.ok (Val.num (wrap32 _), []) = _
  rw [h1]

/-- The primitive `CSUB_fullplus` on the rest list of the numbers `ns`. -/
theorem run_csub_fullplus (fuel : Nat) (st : VM) (ns : List Int) :
    run_csub (fuel + 1) st .fullplus [Val.list (ns.map Val.num)]
      = .ok { st with last_value := .num (wrap32 ns.sum) } := by
  rw [run_csub]
  · simp only [simple_csub_fullplus, List.append_nil]
  · intro h; cases h
  · intro h; cases h

theorem rest_frame_last_value (st : VM) (p : Nat) (done : List Val) (v : Val)
    (h : rest_frame st p done) : rest_frame { st with last_value := v } p done := h

/-- The instructions `CONST n; ADD_ARG` for each argument of a call that takes only
rest arguments: the numbers are appended to the rest list, in order. -/
theorem exec_args_code (subr : SubObj) (scm : SubCode) (p : Nat) (s : SubObj) (sc : SubCode)
    (tail : List Val) (hargc : sc.argc = 0) (hrest : sc.has_rest ≠ 0) :
    ∀ (rest : List Int) (done : List Val) (st : VM) (ip : Nat),
      st.codes[subr.code]? = some scm → scm.code.drop ip = args_code rest ++ tail →
      rest_frame st p done → st.subs[p]? = some s → st.codes[s.code]? = some sc →
      ∃ st2, rest_frame st2 p (done ++ rest.map Val.num) ∧ st2.codes = st.codes ∧
        st2.subs = st.subs ∧ st2.call_stack = st.call_stack ∧
        st2.call_stack_sp = st.call_stack_sp ∧ st2.blockwords = st.blockwords ∧
        scm.code.drop (ip + 3 * rest.length) = tail ∧
        ∀ (fuel : Nat) (args : List Val) (lam : Option Nat) (envp : Nat),
          exec (fuel + 2 * rest.length) st subr args lam envp ip
            = exec fuel st2 subr args lam envp (ip + 3 * rest.length) := by
  intro rest
  induction rest with
  | nil =>
    intro done st ip hc hdrop hf hs hsc
    refine ⟨st, by simpa using hf, rfl, rfl, rfl, rfl, rfl, by simpa [args_code] using hdrop,
      fun fuel args lam envp => rfl⟩
  | cons n rest ih =>
    intro done st ip hc hdrop hf hs hsc
    have hcode : args_code (n :: rest) ++ tail
        = OP_CONST :: .num n :: OP_ADD_ARG :: (args_code rest ++ tail) := by
      simp [args_code]
    rw [hcode] at hdrop
    obtain ⟨h0, hd1⟩ := drop_cons_step _ _ _ _ hdrop
    obtain ⟨h1, hd2⟩ := drop_cons_step _ _ _ _ hd1
    obtain ⟨h2, hd3⟩ := drop_cons_step _ _ _ _ hd2
    obtain ⟨st1, hadd, hf1, e1, e2, e3, e4, e5⟩ :=
      add_arg_rest { st with last_value := .num n } p done s sc
        (rest_frame_last_value st p done _ hf) hs hsc hargc hrest
    obtain ⟨st2, hf2, g1, g2, g3, g4, g5, hd4, hrun⟩ :=
      ih (done ++ [.num n]) st1 (ip + 1 + 1 + 1) (by rw [e1]; exact hc) hd3 hf1
        (by rw [e2]; exact hs) (by rw [e1]; exact hsc)
    refine ⟨st2, ?_, by rw [g1, e1], by rw [g2, e2], by rw [g3, e3], by rw [g4, e4],
      by rw [g5, e5], ?_, fun fuel args lam envp => ?_⟩
    · simpa using hf2
    · have : ip + 3 * (n :: rest).length = ip + 1 + 1 + 1 + 3 * rest.length := by
        simp only [List.length_cons]; omega
      rw [this]; exact hd4
    · have hfuel : fuel + 2 * (n :: rest).length = (fuel + 2 * rest.length + 1) + 1 := by
        simp only [List.length_cons]; omega
      have hip : ip + 3 * (n :: rest).length = ip + 1 + 1 + 1 + 3 * rest.length := by
        simp only [List.length_cons]; omega
      rw [hfuel, hip, exec_const _ st subr args lam envp ip scm (.num n) hc h0 h1,
        exec_add_arg _ { st with last_value := .num n } st1 subr args lam envp (ip + 2) scm
          hc h2 hadd]
      exact hrun fuel args lam envp

/-- `OP_PREPARE_CALL` on a sub that takes only rest arguments pushes a call with
an empty rest list. -/
theorem prepare_call_rest (st : VM) (p : Nat) (s : SubObj) (sc : SubCode)
    (hv : st.last_value = .sub p) (hs : st.subs[p]? = some s)
    (hsc : st.codes[s.code]? = some sc)
    (hargc : sc.argc = 0) (hrest : sc.has_rest = 1) (hloc : sc.localc = 0)
    (hnc : st.next_call + 1 < st.upcoming_calls.length) (hbw : 3 ≤ st.blockwords) :
    ∃ st2, prepare_call st = .ok st2 ∧ rest_frame st2 p [] ∧ st2.codes = st.codes ∧
      st2.subs = st.subs ∧ st2.call_stack = st.call_stack ∧
      st2.call_stack_sp = st.call_stack_sp ∧ st2.blockwords = st.blockwords := by
  obtain ⟨old, hold⟩ : ∃ old, st.upcoming_calls[st.next_call + 1]? = some old :=
    ⟨_, List.getElem?_eq_getElem hnc⟩
  have ha : reg_alloc st.blockwords (0 + 1 + 0) = .ok () := by
    rw [reg_alloc, if_pos (by simp only [reg_alloc_returns, decide_eq_true_eq]; omega)]
  obtain ⟨nf, hnf⟩ : ∃ nf : UpcomingCall, nf =
      { to_be_called := some p, nonrest_args_left := 0, rest_constructor := NIL,
        the_args := [NIL], next_arg := 0 } := ⟨_, rfl⟩
  have key : prepare_call st
      = .ok { st with next_call := st.next_call + 1
                      upcoming_calls := st.upcoming_calls.set (st.next_call + 1) nf } := by
    rw [prepare_call, hv]
    simp only [hs, hsc, hold, hargc, hrest, hloc, ha]
    rw [hnf]
    rfl
  refine ⟨_, key, ⟨Nat.succ_ne_zero _, nf, ?_, ?_, ?_, ?_, ?_⟩, rfl, rfl, rfl, rfl, rfl⟩
  · show (st.upcoming_calls.set (st.next_call + 1) nf)[st.next_call + 1]? = some nf
    simp [hnc]
  · rw [hnf]
  · rw [hnf]
  · rw [hnf]; rfl
  · rw [hnf]; simp

theorem pop_call_rest (st : VM) (p : Nat) (done : List Val) (s : SubObj)
    (hf : rest_frame st p done) (hs : st.subs[p]? = some s) :
    pop_call st = .ok (s, [Val.list done], { st with next_call := st.next_call - 1 }) := by
  obtain ⟨hnc, frame, hframe, htb, hleft, hargs, -⟩ := hf
  have hbind : frame.to_be_called.bind (fun p => st.subs[p]?) = some s := by
    rw [htb]; exact hs
  rw [pop_call, if_neg hnc]
  simp only [hframe, hleft, hbind, hargs]
  rfl

theorem count_tail_call_ok (st : VM) (h : st.call_stack_sp < st.call_stack.length) :
    ∃ st2, count_tail_call st = .ok st2 ∧ st2.codes = st.codes := by
  obtain ⟨entry, hentry⟩ : ∃ e, st.call_stack[st.call_stack_sp]? = some e :=
    ⟨_, List.getElem?_eq_getElem h⟩
  obtain ⟨ne, hne⟩ : ∃ ne : CallEntry,
      ne = { entry with tail_calls := wrap32 (entry.tail_calls + 1) } := ⟨_, rfl⟩
  refine ⟨{ st with call_stack := st.call_stack.set st.call_stack_sp ne }, ?_, rfl⟩
  rw [count_tail_call]
  simp only [hentry, hne]

/-- The code of `(+ n1 ... nk)` from its first instruction: the sub bound to `+` is
called in tail position with the rest list of the numbers, and `CSUB_fullplus`
leaves their sum. -/
theorem exec_plus (st : VM) (subr : SubObj) (p : Nat) (scm : SubCode) (s : SubObj)
    (sc : SubCode) (ns : List Int)
    (hc : st.codes[subr.code]? = some scm)
    (hcode : scm.code = [OP_CONST, .sub p, OP_PREPARE_CALL] ++ args_code ns
      ++ [OP_TAILCALL, OP_RET])
    (hs : st.subs[p]? = some s) (hsc : st.codes[s.code]? = some sc)
    (hargc : sc.argc = 0) (hrest : sc.has_rest = 1) (hloc : sc.localc = 0)
    (hwrap : sc.code = [OP_WRAP, .cptr .fullplus])
    (hsp : st.call_stack_sp < st.call_stack.length)
    (hnc : st.next_call + 1 < st.upcoming_calls.length) (hbw : 3 ≤ st.blockwords) :
    ∃ st2, (∀ fuel, 2 * ns.length + 5 ≤ fuel →
        exec fuel st subr [] none 0 0 = .ok st2) ∧
      st2.last_value = .num (wrap32 ns.sum) := by
  obtain ⟨sb, hprep, hfb, b1, b2, b3, b4, b5⟩ :=
    prepare_call_rest { st with last_value := .sub p } p s sc rfl hs hsc hargc hrest hloc hnc hbw
  have hdrop : scm.code.drop (0 + 1 + 1 + 1) = args_code ns ++ [OP_TAILCALL, OP_RET] := by
    rw [hcode]; rfl
  obtain ⟨sd, hfd, d1, d2, d3, d4, d5, hdrop2, hrun⟩ :=
    exec_args_code subr scm p s sc [OP_TAILCALL, OP_RET] hargc
      (by rw [hrest]; decide) ns [] sb (0 + 1 + 1 + 1)
      (by rw [b1]; exact hc) hdrop hfb (by rw [b2]; exact hs) (by rw [b1]; exact hsc)
  obtain ⟨htc, -⟩ := drop_cons_step _ _ _ _ hdrop2
  have hpop := pop_call_rest sd p _ s hfd (by rw [d2, b2]; exact hs)
  have hsplen : sd.call_stack_sp < sd.call_stack.length := by
    rw [d4, d3, b4, b3]; exact hsp
  obtain ⟨se, hse⟩ := count_tail_call_ok { sd with next_call := sd.next_call - 1 } hsplen
  refine ⟨{ se with last_value := .num (wrap32 ns.sum) }, fun fuel hfuel => ?_, rfl⟩
  obtain ⟨f, rfl⟩ : ∃ f, fuel = (((f + 1 + 1 + 1) + 2 * ns.length) + 1) + 1 :=
    ⟨fuel - (2 * ns.length + 5), by omega⟩
  rw [exec_const _ st subr [] none 0 0 scm (.sub p) hc (by rw [hcode]; rfl) (by rw [hcode]; rfl),
    exec_prepare_call _ { st with last_value := .sub p } sb subr [] none 0 (0 + 2) scm hc
      (by rw [hcode]; simp) hprep,
    hrun,
    exec_tailcall _ sd _ se subr s [] _ none 0 _ scm (by rw [d1, b1]; exact hc) htc hpop hse.1,
    exec_wrap _ se s _ none 0 0 sc .fullplus
      (by rw [hse.2, d1, b1]; exact hsc) (by rw [hwrap]; rfl) (by rw [hwrap]; rfl)]
  simp only [List.nil_append]
  rw [run_csub_fullplus]

/-- Running the code of `(+ n1 ... nk)` with `call`. -/
theorem call_plus (st : VM) (ci p : Nat) (scm : SubCode) (s : SubObj) (sc : SubCode)
    (ns : List Int)
    (hc : st.codes[ci]? = some scm)
    (hcode : scm.code = [OP_CONST, .sub p, OP_PREPARE_CALL] ++ args_code ns
      ++ [OP_TAILCALL, OP_RET])
    (hs : st.subs[p]? = some s) (hsc : st.codes[s.code]? = some sc)
    (hargc : sc.argc = 0) (hrest : sc.has_rest = 1) (hloc : sc.localc = 0)
    (hwrap : sc.code = [OP_WRAP, .cptr .fullplus])
    (hsp : st.call_stack_sp + 1 < st.call_stack.length)
    (hnc : st.next_call + 1 < st.upcoming_calls.length) (hbw : 3 ≤ st.blockwords) :
    ∃ st2, (∀ fuel, 2 * ns.length + 6 ≤ fuel →
        call fuel st { code := ci, env := [] } [] = .ok st2) ∧
      st2.last_value = .num (wrap32 ns.sum) := by
  obtain ⟨st2, hrun, hval⟩ := exec_plus
    { st with call_stack_sp := st.call_stack_sp + 1
              call_stack := st.call_stack.set (st.call_stack_sp + 1)
                { subr := some { code := ci, env := [] }, tail_calls := 0 } }
    { code := ci, env := [] } p scm s sc ns hc hcode hs hsc hargc hrest hloc hwrap
    (by simp only [List.length_set]; exact hsp) hnc hbw
  refine ⟨st2, fun fuel hfuel => ?_, hval⟩
  obtain ⟨f, rfl⟩ : ∃ f, fuel = f + 1 := ⟨fuel - 1, by omega⟩
  rw [call_enter _ _ _ _ hsp]
  exact hrun f (by omega)

/-! ### Lists of numbers and symbols -/

theorem list_item_facts (bw : Nat) (x : Val) (h : list_item_ok bw x = true) :
    atom_ok bw x = true ∧ is_cons x = false ∧ print x = .ok (item_text x) := by
  cases x with
  | num n => exact ⟨h, rfl, by rw [print]; rfl; intro a d hd; cases hd⟩
  | sym name => exact ⟨h, rfl, by rw [print]; rfl; intro a d hd; cases hd⟩
  | _ => simp [list_item_ok] at h

theorem tail_items (bw : Nat) : ∀ items : List Val,
    (∀ x ∈ items, list_item_ok bw x = true) →
    tail_ok bw (Val.list items) = true ∧
      print_tail (Val.list items)
        = .ok (((items.map item_text).flatMap fun (u : List Nat) => 32 :: u) ++ [41]) := by
  intro items
  induction items with
  | nil => intro _; exact ⟨rfl, rfl⟩
  | cons x xs ih =>
    intro h
    obtain ⟨ha, hc, hp⟩ := list_item_facts bw x (h x (List.mem_cons_self _ _))
    obtain ⟨ht, hpt⟩ := ih (fun y hy => h y (List.mem_cons_of_mem _ hy))
    constructor
    · rw [Val.list, tail_ok, readable_not_cons bw x hc, ha, ht]
      simp
    · rw [Val.list, print_tail, hp, hpt]
      simp [print_seq]

/-- A list of numbers and symbols does not have the shape of a lambda form: its
third element is not a pair. -/
theorem items_not_lambda (bw : Nat) (a : Val) (rest : List Val)
    (h : ∀ x ∈ rest, list_item_ok bw x = true) :
    (is_sym a && (a == s_lambda && is_cons (Val.list rest) && is_single (fdr (Val.list rest))
      && is_cons (far (fdr (Val.list rest))))) = false := by
  cases rest with
  | nil => simp [Val.list, NIL, is_cons]
  | cons x xs =>
    cases xs with
    | nil => simp [Val.list, NIL, is_cons, fdr, is_single]
    | cons y ys =>
      have hy := (list_item_facts bw y (h y (by simp))).2.1
      simp [Val.list, fdr, far, hy]

/-- A list of numbers and symbols that does not start with a symbol of the quote
family is readable, and prints as the texts of its elements between parentheses,
separated by single spaces. -/
theorem items_readable (bw : Nat) (items : List Val)
    (hitems : ∀ x ∈ items, list_item_ok bw x = true)
    (hfirst : ∀ a, items.head? = some a → quote_family a = false) :
    readable bw (Val.list items) = true ∧
      print (Val.list items) = .ok (list_text (items.map item_text)) := by
  cases items with
  | nil => exact ⟨rfl, rfl⟩
  | cons a rest =>
    obtain ⟨ha, hc, hp⟩ := list_item_facts bw a (hitems a (List.mem_cons_self _ _))
    have hrest : ∀ x ∈ rest, list_item_ok bw x = true :=
      fun y hy => hitems y (List.mem_cons_of_mem _ hy)
    obtain ⟨ht, hpt⟩ := tail_items bw rest hrest
    have hq := hfirst a rfl
    simp only [quote_family, Bool.or_eq_false_iff, beq_eq_false_iff_ne, ne_eq] at hq
    obtain ⟨⟨⟨h1, h2⟩, h3⟩, h4⟩ := hq
    have hl := items_not_lambda bw a rest hrest
    have hqf : ¬ ((is_sym a && (a == s_quote || a == s_quasiquote || a == s_unquote
        || a == s_unquote_splicing)) = true) := by
      simp [h1, h2, h3, h4]
    constructor
    · rw [Val.list, readable, if_neg hqf, hl, if_neg (by decide),
        readable_not_cons bw a hc, ha, ht]
      simp
    · rw [Val.list, print_list a _ ⟨h1, h2, h3, h4⟩ hl, hp, hpt]
      simp [print_seq, list_text]

/-! ### Reading, compiling and running a quoted list and a sum -/

theorem quote_compile_run (bw : Nat) (st : VM) (L : Val) (hinit : bone_init bw = .ok st)
    (hbw : 9 ≤ bw) :
    ∃ ci st1 st2, compile2sub_code st (.cons s_quote L) = .ok (ci, st1) ∧
      (∀ fuel, 3 ≤ fuel → call fuel st1 { code := ci, env := [] } [] = .ok st2) ∧
      st2.last_value = L := by
  obtain ⟨h1, h2, h3, -, -, -, -, -⟩ := bone_init_state bw st (by omega) hinit
  have hcomp := compile2sub_code_ok st (.cons s_quote L) _ (compile2list_quote st L)
    (by rw [h1]; simp only [List.length_cons, List.length_nil]; omega)
    (by simp only [List.length_cons, List.length_nil]; omega)
  obtain ⟨st2, hrun, hval⟩ := call_const_ret
    { st with codes := st.codes ++ [{ argc := 0, has_rest := 0, localc := 0, name := BFALSE,
                                      size_of_env := 0, code := [OP_CONST, L, OP_RET] }] }
    st.codes.length
    { argc := 0, has_rest := 0, localc := 0, name := BFALSE, size_of_env := 0,
      code := [OP_CONST, L, OP_RET] }
    L (by simp) rfl (by simp only [h2, h3]; omega)
  exact ⟨_, _, st2, hcomp, hrun, hval⟩

theorem quote_list_read (bw : Nat) (hbw : 4 ≤ bw) (items : List Val)
    (hitems : ∀ x ∈ items, list_item_ok bw x = true)
    (hfirst : quote_family (items.headD NIL) = false) :
    bone_read bw (39 :: list_text (items.map item_text))
        = .ok (.cons s_quote (Val.list items), []) ∧
      bone_read bw (list_text (items.map item_text)) = .ok (Val.list items, []) ∧
      print (Val.list items) = .ok (list_text (items.map item_text)) := by
  have hf : ∀ a, items.head? = some a → quote_family a = false := by
    intro a ha
    cases items with
    | nil => cases ha
    | cons x xs =>
      simp only [List.head?_cons, Option.some.injEq] at ha
      subst ha
      exact hfirst
  obtain ⟨hr, hp⟩ := items_readable bw items hitems hf
  have hrq : readable bw (.cons s_quote (Val.list items)) = true := by
    rw [readable, if_pos (by decide)]; exact hr
  obtain ⟨t1, hp1, hb1, -⟩ := bone_read_print bw hbw _ hrq [] delim_nil
  obtain ⟨t2, hp2, hb2, -⟩ := bone_read_print bw hbw _ hr [] delim_nil
  rw [print_quote, hp] at hp1
  rw [hp] at hp2
  injection hp1 with hp1
  injection hp2 with hp2
  subst hp1
  subst hp2
  rw [List.append_nil] at hb1 hb2
  exact ⟨hb1, hb2, hp⟩

theorem args_code_length (ns : List Int) : (args_code ns).length = 3 * ns.length := by
  induction ns with
  | nil => rfl
  | cons n ns ih =>
    have : args_code (n :: ns) = OP_CONST :: .num n :: OP_ADD_ARG :: args_code ns := by
      simp [args_code]
    rw [this]
    simp only [List.length_cons, ih]
    omega

theorem plus_list_read (bw : Nat) (hbw : 4 ≤ bw) (ns : List Int) (hns : ∀ n ∈ ns, isInt32 n) :
    bone_read bw (list_text ([43] :: ns.map printf_d))
      = .ok (Val.list (.sym [43] :: ns.map Val.num), []) := by
  have hplus : list_item_ok bw (.sym [43]) = true := by
    have hfit : reg_alloc_returns bw (bytes2words (([43] : List Nat).length + 1)) = true := by
      have : bytes2words (([43] : List Nat).length + 1) = 1 := by decide
      rw [this]
      simp only [reg_alloc_returns, decide_eq_true_eq]
      omega
    have h1 : (!([43] : List Nat).isEmpty && ([43] : List Nat).all symchar_ok
        && decide (chars2num (chars [43]) = .ok BFALSE) && decide (([43] : List Nat) ≠ [46]))
        = true := by decide
    rw [list_item_ok, sym_text_ok, h1, hfit]
    rfl
  have hitems : ∀ x ∈ (Val.sym [43] :: ns.map Val.num), list_item_ok bw x = true := by
    intro x hx
    rcases List.mem_cons.1 hx with rfl | hx
    · exact hplus
    · obtain ⟨n, hn, rfl⟩ := List.mem_map.1 hx
      simpa [list_item_ok] using hns n hn
  have htext : (Val.sym [43] :: ns.map Val.num).map item_text = [43] :: ns.map printf_d := by
    rw [List.map_cons, List.map_map]
    rfl
  have hq : quote_family ((Val.sym [43] :: ns.map Val.num).headD NIL) = false := by
    rw [List.headD_cons]; decide
  have := (quote_list_read bw hbw _ hitems hq).2.1
  rw [htext] at this
  exact this

/-- The code of `(+ n1 ... nk)` and its length. -/
theorem plus_list_code (st : VM) (ns : List Int)
    (hplus : get_binding st (.sym [43]) = .cons BINDING_DEFINED (.sub 2)) :
    ∃ raw, compile2list st (Val.list (.sym [43] :: ns.map Val.num)) = .ok raw ∧
      raw = [OP_CONST, .sub 2, OP_PREPARE_CALL] ++ args_code ns ++ [OP_TAILCALL, OP_RET] ∧
      raw.length = 3 * ns.length + 5 := by
  refine ⟨_, compile2list_plus st 2 ns hplus, rfl, ?_⟩
  simp only [List.length_append, List.length_cons, List.length_nil, args_code_length]
  omega

/-- Claim C2 (amended): in the state `bone_init` leaves, for every list of 32-bit
integers `n1..nk` whose code fits in a block (`3k + 10 < blockwords`), `bone_read`
on the text `(+ n1 ... nk)` returns the list, `compile2sub_code` returns a
sub-code for it, and `call` on that sub-code, with any fuel from `2k + 6` on,
returns with `last_value` the number `n1 + ... + nk` wrapped to 32 bits, which
`print` writes in decimal. -/
theorem plus_list_run (bw : Nat) (st : VM) (ns : List Int)
    (hinit : bone_init bw = .ok st) (hns : ∀ n ∈ ns, isInt32 n)
    (hfit : 3 * ns.length + 10 < bw) (hbig : bw ≤ 2147483648) :
    ∃ ci st1 st2,
      bone_read bw (list_text ([43] :: ns.map printf_d))
        = .ok (Val.list (.sym [43] :: ns.map Val.num), []) ∧
      compile2sub_code st (Val.list (.sym [43] :: ns.map Val.num)) = .ok (ci, st1) ∧
      (∀ fuel, 2 * ns.length + 6 ≤ fuel →
        call fuel st1 { code := ci, env := [] } [] = .ok st2) ∧
      st2.last_value = .num (wrap32 ns.sum) ∧
      print st2.last_value = .ok (printf_d (wrap32 ns.sum)) := by
  obtain ⟨h1, h2, h3, h4, h5, h6, h7, h8⟩ := bone_init_state bw st (by omega) hinit
  obtain ⟨raw, hraw, hcode, hlen⟩ := plus_list_code st ns h6
  have hcomp := compile2sub_code_ok st _ raw hraw (by rw [h1, hlen]; omega) (by rw [hlen]; omega)
  have hlt : 2 < st.codes.length := by
    by_contra hcon
    rw [List.getElem?_eq_none (by omega)] at h8
    cases h8
  obtain ⟨st2, hrun, hval⟩ := call_plus
    { st with codes := st.codes ++ [{ argc := 0, has_rest := 0, localc := 0, name := BFALSE,
                                      size_of_env := 0, code := raw }] }
    st.codes.length 2
    { argc := 0, has_rest := 0, localc := 0, name := BFALSE, size_of_env := 0, code := raw }
    { code := 2, env := [] }
    { argc := 0, has_rest := 1, localc := 0, name := .sym [43], size_of_env := 0,
      code := [OP_WRAP, .cptr .fullplus] }
    ns (by simp) hcode h7
    (by
      show (st.codes ++ _)[2]? = _
      rw [List.getElem?_append_left hlt]
      exact h8)
    rfl rfl rfl rfl
    (by simp only [h2, h3]; omega) (by simp only [h4, h5]; omega) (by simp only [h1]; omega)
  refine ⟨_, _, st2, plus_list_read bw (by omega) ns hns, hcomp, hrun, hval, ?_⟩
  rw [hval, print]
  · rfl
  · intro a d hd; cases hd

set_option maxRecDepth 100000 in
/-- Witness for C2: `(+ 1 2 3)` on a host with pages of 512 words; the output is
`6`. -/
theorem plus_list_run_witness :
    ∃ st, bone_init 512 = .ok st ∧ (∀ n ∈ [(1 : Int), 2, 3], isInt32 n) ∧
      3 * [(1 : Int), 2, 3].length + 10 < 512 ∧ 512 ≤ 2147483648 ∧
      list_text ([43] :: [(1 : Int), 2, 3].map printf_d) = [40, 43, 32, 49, 32, 50, 32, 51, 41] ∧
      printf_d (wrap32 [(1 : Int), 2, 3].sum) = [54] ∧
      ∃ ci st1 st2,
        bone_read 512 (list_text ([43] :: [(1 : Int), 2, 3].map printf_d))
          = .ok (Val.list (.sym [43] :: [(1 : Int), 2, 3].map Val.num), []) ∧
        compile2sub_code st (Val.list (.sym [43] :: [(1 : Int), 2, 3].map Val.num))
          = .ok (ci, st1) ∧
        (∀ fuel, 2 * [(1 : Int), 2, 3].length + 6 ≤ fuel →
          call fuel st1 { code := ci, env := [] } [] = .ok st2) ∧
        st2.last_value = .num (wrap32 [(1 : Int), 2, 3].sum) ∧
        print st2.last_value = .ok (printf_d (wrap32 [(1 : Int), 2, 3].sum)) :=
  ⟨_, bone_init_ok 512 (by decide), by decide, by decide, by decide, by decide, by decide,
    plus_list_run 512 _ [1, 2, 3] (bone_init_ok 512 (by decide)) (by decide) (by decide)
      (by decide)⟩

/-- Counterexample for C2 as stated: with pages of 512 words (4096 bytes) the text
`(+ 0 ... 0)` with 168 arguments is read, but its code of 509 words and the
header of 4 words do not fit in a block, so `compile2sub_code` never returns. -/
theorem plus_code_too_long :
    ∃ st, bone_init 512 = .ok st ∧ (∀ n ∈ List.replicate 168 (0 : Int), isInt32 n) ∧
      bone_read 512 (list_text ([43] :: (List.replicate 168 (0 : Int)).map printf_d))
        = .ok (Val.list (.sym [43] :: (List.replicate 168 (0 : Int)).map Val.num), []) ∧
      compile2sub_code st (Val.list (.sym [43] :: (List.replicate 168 (0 : Int)).map Val.num))
        = .error .diverge := by
  have hns : ∀ n ∈ List.replicate 168 (0 : Int), isInt32 n := by
    intro n hn
    rw [List.eq_of_mem_replicate hn]
    decide
  have hinit := bone_init_ok 512 (by decide)
  obtain ⟨h1, -, -, -, -, h6, -, -⟩ := bone_init_state 512 _ (by decide) hinit
  obtain ⟨raw, hraw, -, hlen⟩ := plus_list_code _ (List.replicate 168 (0 : Int)) h6
  rw [List.length_replicate] at hlen
  exact ⟨_, hinit, hns, plus_list_read 512 (by decide) _ hns,
    compile2sub_code_diverge _ _ raw hraw (by rw [h1, hlen]; decide) (by rw [hlen]; decide)⟩

/-- Claim C3 (amended): in the state `bone_init` leaves, for every proper list `L`
of 32-bit numbers and readable symbols whose first element is not `quote`,
`quasiquote`, `unquote` or `unquote-splicing`, `bone_read` on the text of `L`
preceded by a quote character returns `(quote . L)`, `compile2sub_code` returns a
sub-code for it, `call` on it returns with `last_value` equal to `L`, and `print`
writes it as `(`, the elements separated by single spaces, `)`. -/
theorem quote_list_run (bw : Nat) (st : VM) (items : List Val)
    (hinit : bone_init bw = .ok st) (hbw : 9 ≤ bw)
    (hitems : ∀ x ∈ items, list_item_ok bw x = true)
    (hfirst : quote_family (items.headD NIL) = false) :
    ∃ ci st1 st2,
      bone_read bw (39 :: list_text (items.map item_text))
        = .ok (.cons s_quote (Val.list items), []) ∧
      compile2sub_code st (.cons s_quote (Val.list items)) = .ok (ci, st1) ∧
      (∀ fuel, 3 ≤ fuel → call fuel st1 { code := ci, env := [] } [] = .ok st2) ∧
      st2.last_value = Val.list items ∧
      print st2.last_value = .ok (list_text (items.map item_text)) := by
  obtain ⟨ci, st1, st2, hcomp, hrun, hval⟩ := quote_compile_run bw st (Val.list items) hinit hbw
  obtain ⟨hread, -, hprint⟩ := quote_list_read bw (by omega) items hitems hfirst
  exact ⟨ci, st1, st2, hread, hcomp, hrun, hval, by rw [hval]; exact hprint⟩

set_option maxRecDepth 100000 in
/-- Witness for C3: `'(a b c)` on a host with pages of 512 words; the output is
`(a b c)`. -/
theorem quote_list_run_witness :
    ∃ st, bone_init 512 = .ok st ∧ 9 ≤ 512 ∧
      (∀ x ∈ [Val.sym [97], .sym [98], .sym [99]], list_item_ok 512 x = true) ∧
      quote_family ([Val.sym [97], .sym [98], .sym [99]].headD NIL) = false ∧
      39 :: list_text ([Val.sym [97], .sym [98], .sym [99]].map item_text)
        = [39, 40, 97, 32, 98, 32, 99, 41] ∧
      ∃ ci st1 st2,
        bone_read 512 (39 :: list_text ([Val.sym [97], .sym [98], .sym [99]].map item_text))
          = .ok (.cons s_quote (Val.list [.sym [97], .sym [98], .sym [99]]), []) ∧
        compile2sub_code st (.cons s_quote (Val.list [.sym [97], .sym [98], .sym [99]]))
          = .ok (ci, st1) ∧
        (∀ fuel, 3 ≤ fuel → call fuel st1 { code := ci, env := [] } [] = .ok st2) ∧
        st2.last_value = Val.list [.sym [97], .sym [98], .sym [99]] ∧
        print st2.last_value
          = .ok (list_text ([Val.sym [97], .sym [98], .sym [99]].map item_text)) :=
  ⟨_, bone_init_ok 512 (by decide), by decide, by decide, by decide, by decide,
    quote_list_run 512 _ [.sym [97], .sym [98], .sym [99]] (bone_init_ok 512 (by decide))
      (by decide) (by decide) (by decide)⟩

set_option maxRecDepth 100000 in
/-- Counterexample for C3 as stated: the list `(quote a)` of two symbols.  The text
`'(quote a)` is read, compiled and run, and `last_value` is the list, but `print`
writes it as `'(a)`, not as `(quote a)`. -/
theorem quote_list_prints_short :
    ∃ st ci st1 st2, bone_init 512 = .ok st ∧
      (∀ x ∈ [s_quote, Val.sym [97]], list_item_ok 512 x = true) ∧
      bone_read 512 [39, 40, 113, 117, 111, 116, 101, 32, 97, 41]
        = .ok (.cons s_quote (Val.list [s_quote, .sym [97]]), []) ∧
      compile2sub_code st (.cons s_quote (Val.list [s_quote, .sym [97]])) = .ok (ci, st1) ∧
      call 3 st1 { code := ci, env := [] } [] = .ok st2 ∧
      st2.last_value = Val.list [s_quote, .sym [97]] ∧
      print st2.last_value = .ok [39, 40, 97, 41] ∧
      list_text ([s_quote, Val.sym [97]].map item_text)
        = [40, 113, 117, 111, 116, 101, 32, 97, 41] := by
  have hinit := bone_init_ok 512 (by decide)
  obtain ⟨ci, st1, st2, hcomp, hrun, hval⟩ :=
    quote_compile_run 512 _ (Val.list [s_quote, .sym [97]]) hinit (by decide)
  exact ⟨_, ci, st1, st2, hinit, by decide, by decide, hcomp, hrun 3 (le_refl _), hval,
    by rw [hval]; decide, by decide⟩

/-! ## Tagging and `copy` -/

namespace Word

theorem tag_untag (V : Nat) : tag (untag V) (tag_of V) = V % 18446744073709551616 := by
  unfold untag tag tag_of
  apply Nat.eq_of_testBit_eq
  intro i
  have h8 : (18446744073709551615 - 7 : Nat) = (2 ^ 61 - 1) <<< 3 := by
    simp [Nat.shiftLeft_eq]
  have h7 : (7 : Nat) = 2 ^ 3 - 1 := by norm_num
  have h64 : (18446744073709551616 : Nat) = 2 ^ 64 := by norm_num
  rw [h8, h64, Nat.testBit_mod_two_pow, h7]
  simp only [Nat.testBit_and, Nat.testBit_or, Nat.testBit_shiftLeft,
    Nat.testBit_two_pow_sub_one]
  by_cases hi : i < 3
  · have : i < 64 := by omega
    simp [hi, this]
  · by_cases hi2 : i < 64
    · simp [hi, hi2]
      intro _
      omega
    · simp [hi, hi2]
      intro _ _
      omega

/-- Claim C18: for every 64-bit word `V`, `tag(untag(V), tag_of(V)) == V`; for
every 8-byte-aligned address `a` and every type tag `t`, `tag_of(tag(a, t)) == t`
and `untag(tag(a, t)) == a`. -/
theorem tag_untag_roundtrip (V a t : Nat) (hV : V < 18446744073709551616)
    (ha : a % 8 = 0) (ha64 : a < 18446744073709551616) (ht : t < 8) :
    tag (untag V) (tag_of V) = V ∧ tag_of (tag a t) = t ∧ untag (tag a t) = a :=
  ⟨by rw [tag_untag, Nat.mod_eq_of_lt hV], tag_of_tag a t ha ht, untag_tag a t ha ha64 ht⟩

/-- Witness for C18: the word of the number -1 and a sub pointer. -/
theorem tag_untag_roundtrip_witness :
    int2any (-1) < 18446744073709551616 ∧ 4096 % 8 = 0 ∧ 4096 < 18446744073709551616 ∧
      t_sub < 8 ∧
      (tag (untag (int2any (-1))) (tag_of (int2any (-1))) = int2any (-1) ∧
        tag_of (tag 4096 t_sub) = t_sub ∧ untag (tag 4096 t_sub) = 4096) :=
  ⟨by decide, by decide, by decide, by decide,
    tag_untag_roundtrip (int2any (-1)) 4096 t_sub (by decide) (by decide) (by decide)
      (by decide)⟩

end Word

theorem copy_of_plain : ∀ V : Val, plain V = true → copy V = .ok V := by
  intro V
  induction V with
  | cons a d iha ihd =>
    intro h
    simp only [plain, Bool.and_eq_true] at h
    rw [copy, iha h.1, ihd h.2]
  | str chrs ih =>
    intro h
    simp only [plain] at h
    rw [copy, ih h]
  | sym name => intro _; rfl
  | num n => intro _; rfl
  | uniq n => intro _; rfl
  | reg r => intro h; simp [plain] at h
  | sub p => intro h; simp [plain] at h
  | raw w => intro h; simp [plain] at h
  | cptr f => intro h; simp [plain] at h

/-- Claim C11: for every value `V` built from pairs, strings, symbols, numbers and
sentinels, `copy(V)` returns and is structurally equal to `V` (a symbol, a number
or a sentinel is returned as it is), so `copy(copy(V))` is structurally equal to
`copy(V)`. -/
theorem copy_structural (V : Val) (hV : plain V = true) :
    copy V = .ok V ∧ (copy V).bind copy = copy V := by
  have h := copy_of_plain V hV
  refine ⟨h, ?_⟩
  rw [h]
  exact h

/-- Witness for C11: the value of `(a "b" (1 . #t))`. -/
theorem copy_structural_witness :
    plain (Val.list [.sym [97], .str (chars [98]), .cons (.num 1) BTRUE]) = true ∧
      (copy (Val.list [.sym [97], .str (chars [98]), .cons (.num 1) BTRUE])
          = .ok (Val.list [.sym [97], .str (chars [98]), .cons (.num 1) BTRUE]) ∧
        (copy (Val.list [.sym [97], .str (chars [98]), .cons (.num 1) BTRUE])).bind copy
          = copy (Val.list [.sym [97], .str (chars [98]), .cons (.num 1) BTRUE])) :=
  ⟨by decide, copy_structural _ (by decide)⟩

/-! ## The code of an application -/

theorem compile_args_list (st : VM) (env : Val) : ∀ (as : List Val) (cs : List (List Val)),
    List.Forall₂ (fun (a : Val) (c : List Val) => compile_expr st env a false = .ok c) as cs →
    compile_args st env (Val.list as) = .ok (add_arg_code cs) := by
  intro as cs h
  induction h with
  | nil => rfl
  | cons h1 _ ih =>
    rw [Val.list, compile_args, h1, ih]
    simp [add_arg_code]

theorem compile_expr_call (st : VM) (env f rest : Val) (tail_context : Bool)
    (cf c2 : List Val) (hq : f ≠ s_quote)
    (hf : compile_expr st env f false = .ok cf) (h2 : compile_args st env rest = .ok c2) :
    compile_expr st env (.cons f rest) tail_context
      = .ok (cf ++ [OP_PREPARE_CALL] ++ c2 ++ [if tail_context then OP_TAILCALL else OP_CALL]) := by
  rw [compile_expr, if_neg hq, hf, h2]

/-- Claim C20: for every application `(f a1 ... an)` (a list whose head is not the
symbol `quote`) whose sub-expressions compile, the code emitted is the code of `f`
compiled non-tail, `OP_PREPARE_CALL`, then for each `ai` in source order its code
compiled non-tail followed by `OP_ADD_ARG`, then `OP_TAILCALL` in tail position and
`OP_CALL` otherwise; `compile2list` compiles in tail position and ends the list
with one `OP_RET`. -/
theorem compile_application (st : VM) (env f : Val) (as : List Val) (cf : List Val)
    (cs : List (List Val)) (hq : f ≠ s_quote)
    (hf : compile_expr st env f false = .ok cf)
    (has : List.Forall₂
      (fun (a : Val) (c : List Val) => compile_expr st env a false = .ok c) as cs) :
    compile_expr st env (.cons f (Val.list as)) true
        = .ok (cf ++ [OP_PREPARE_CALL] ++ add_arg_code cs ++ [OP_TAILCALL]) ∧
      compile_expr st env (.cons f (Val.list as)) false
        = .ok (cf ++ [OP_PREPARE_CALL] ++ add_arg_code cs ++ [OP_CALL]) ∧
      (env = NIL → compile2list st (.cons f (Val.list as))
        = .ok (cf ++ [OP_PREPARE_CALL] ++ add_arg_code cs ++ [OP_TAILCALL, OP_RET])) := by
  have h2 := compile_args_list st env as cs has
  refine ⟨?_, ?_, ?_⟩
  · rw [compile_expr_call st env f _ true cf _ hq hf h2]; rfl
  · rw [compile_expr_call st env f _ false cf _ hq hf h2]; rfl
  · intro he
    subst he
    rw [compile2list, compile_expr_call st NIL f _ true cf _ hq hf h2]
    simp

/-- Witness for C20: `(cons 1 (cons 2 ()))` with `cons` bound to a sub. -/
theorem compile_application_witness :
    Val.sym [99, 111, 110, 115] ≠ s_quote ∧
      compile_expr (bind (vm_zero 512) (.sym [99, 111, 110, 115]) (.sub 3)) NIL
        (.sym [99, 111, 110, 115]) false = .ok [OP_CONST, .sub 3] ∧
      compile2list (bind (vm_zero 512) (.sym [99, 111, 110, 115]) (.sub 3))
          (Val.list [.sym [99, 111, 110, 115], .num 1,
            Val.list [.sym [99, 111, 110, 115], .num 2, NIL]])
        = .ok [OP_CONST, .sub 3, OP_PREPARE_CALL, OP_CONST, .num 1, OP_ADD_ARG,
            OP_CONST, .sub 3, OP_PREPARE_CALL, OP_CONST, .num 2, OP_ADD_ARG,
            OP_CONST, NIL, OP_ADD_ARG, OP_CALL, OP_ADD_ARG, OP_TAILCALL, OP_RET] :=
  ⟨by decide, by decide,
    (compile_application (bind (vm_zero 512) (.sym [99, 111, 110, 115]) (.sub 3)) NIL
      (.sym [99, 111, 110, 115])
      [.num 1, Val.list [.sym [99, 111, 110, 115], .num 2, NIL]]
      [OP_CONST, .sub 3]
      [[OP_CONST, .num 1],
       [OP_CONST, .sub 3, OP_PREPARE_CALL, OP_CONST, .num 2, OP_ADD_ARG,
        OP_CONST, NIL, OP_ADD_ARG, OP_CALL]]
      (by decide) (by decide)
      (List.Forall₂.cons (by decide) (List.Forall₂.cons (by decide) List.Forall₂.nil))).2.2 rfl⟩

/-! ## The quote family -/

section

attribute [local irreducible] is_symchar chars_to_num_or_sym

/-- More fuel does not change what the reader returns. -/
theorem reader_fuel_succ (bw : Nat) : ∀ fuel : Nat,
    (∀ inp r, reader bw fuel inp = .ok r → reader bw (fuel + 1) inp = .ok r) ∧
    (∀ inp r, read_list bw fuel inp = .ok r → read_list bw (fuel + 1) inp = .ok r) ∧
    (∀ inp r, lambda_parse bw fuel inp = .ok r → lambda_parse bw (fuel + 1) inp = .ok r) ∧
    (∀ inp r, read_lambda_short_form bw fuel inp = .ok r →
      read_lambda_short_form bw (fuel + 1) inp = .ok r) ∧
    (∀ inp r, read_unquote bw fuel inp = .ok r → read_unquote bw (fuel + 1) inp = .ok r) := by
  intro fuel
  induction fuel with
  | zero =>
    refine ⟨?_, ?_, ?_, ?_, ?_⟩ <;> intro inp r h
    · rw [reader] at h; cases h
    · rw [read_list] at h; cases h
    · rw [lambda_parse] at h; cases h
    · rw [read_lambda_short_form] at h; cases h
    · rw [read_unquote] at h; cases h
  | succ f ih =>
    obtain ⟨ih1, ih2, ih3, ih4, ih5⟩ := ih
    refine ⟨?_, ?_, ?_, ?_, ?_⟩
    · intro inp r h
      rw [reader] at h ⊢
      generalize find_token inp = p at h ⊢
      obtain ⟨c, rest⟩ := p
      simp only at h ⊢
      by_cases h1 : c = 41
      · rw [if_pos h1] at h ⊢; exact h
      rw [if_neg h1] at h ⊢
      by_cases h2 : c = 40
      · rw [if_pos h2] at h ⊢; exact ih2 _ _ h
      rw [if_neg h2] at h ⊢
      by_cases h3 : c = 124
      · rw [if_pos h3] at h ⊢; exact ih4 _ _ h
      rw [if_neg h3] at h ⊢
      by_cases h4 : c = 39
      · rw [if_pos h4] at h ⊢
        cases hr : reader bw f rest with
        | error e => rw [hr] at h; cases h
        | ok v => rw [hr] at h; rw [ih1 _ _ hr]; exact h
      rw [if_neg h4] at h ⊢
      by_cases h5 : c = 96
      · rw [if_pos h5] at h ⊢
        cases hr : reader bw f rest with
        | error e => rw [hr] at h; cases h
        | ok v => rw [hr] at h; rw [ih1 _ _ hr]; exact h
      rw [if_neg h5] at h ⊢
      by_cases h6 : c = 44
      · rw [if_pos h6] at h ⊢; exact ih5 _ _ h
      rw [if_neg h6] at h ⊢
      by_cases h7 : c = 34
      · rw [if_pos h7] at h ⊢; exact h
      rw [if_neg h7] at h ⊢
      by_cases h8 : c = 35
      · rw [if_pos h8] at h ⊢
        generalize nextc rest = q at h ⊢
        obtain ⟨c2, rest2⟩ := q
        simp only at h ⊢
        by_cases g1 : c2 = 102
        · rw [if_pos g1] at h ⊢; exact h
        rw [if_neg g1] at h ⊢
        by_cases g2 : c2 = 116
        · rw [if_pos g2] at h ⊢; exact h
        rw [if_neg g2] at h ⊢
        by_cases g3 : c2 = 33
        · rw [if_pos g3] at h ⊢; exact ih1 _ _ h
        rw [if_neg g3] at h ⊢
        exact h
      rw [if_neg h8] at h ⊢
      exact h
    · intro inp r h
      rw [read_list] at h ⊢
      cases hr : reader bw f inp with
      | error e => rw [hr] at h; cases h
      | ok v =>
        obtain ⟨x, rest⟩ := v
        rw [hr] at h
        rw [ih1 _ _ hr]
        simp only at h ⊢
        by_cases h1 : x = READER_LIST_END
        · rw [if_pos h1] at h ⊢; exact h
        rw [if_neg h1] at h ⊢
        by_cases h2 : x = ENDOFFILE
        · rw [if_pos h2] at h ⊢; exact h
        rw [if_neg h2] at h ⊢
        by_cases h3 : x = s_dot
        · rw [if_pos h3] at h ⊢
          cases hr2 : reader bw f rest with
          | error e => rw [hr2] at h; cases h
          | ok v2 =>
            obtain ⟨x2, rest2⟩ := v2
            rw [hr2] at h
            rw [ih1 _ _ hr2]
            simp only at h ⊢
            cases hr3 : reader bw f rest2 with
            | error e => rw [hr3] at h; cases h
            | ok v3 =>
              rw [hr3] at h
              rw [ih1 _ _ hr3]
              exact h
        rw [if_neg h3] at h ⊢
        cases hr2 : read_list bw f rest with
        | error e => rw [hr2] at h; cases h
        | ok v2 =>
          rw [hr2] at h
          rw [ih2 _ _ hr2]
          exact h
    · intro inp r h
      rw [lambda_parse] at h ⊢
      cases hr : reader bw f inp with
      | error e => rw [hr] at h; cases h
      | ok v =>
        obtain ⟨x, rest⟩ := v
        rw [hr] at h
        rw [ih1 _ _ hr]
        simp only at h ⊢
        by_cases h1 : is_cons x = true
        · rw [if_pos h1] at h ⊢; exact h
        rw [if_neg h1] at h ⊢
        by_cases h3 : x = s_dot
        · rw [if_pos h3] at h ⊢
          cases hr2 : reader bw f rest with
          | error e => rw [hr2] at h; cases h
          | ok v2 =>
            obtain ⟨x2, rest2⟩ := v2
            rw [hr2] at h
            rw [ih1 _ _ hr2]
            simp only at h ⊢
            cases hr3 : reader bw f rest2 with
            | error e => rw [hr3] at h; cases h
            | ok v3 =>
              rw [hr3] at h
              rw [ih1 _ _ hr3]
              exact h
        rw [if_neg h3] at h ⊢
        by_cases h4 : is_nil x = true
        · rw [if_pos h4] at h ⊢; exact h
        rw [if_neg h4] at h ⊢
        cases hr2 : lambda_parse bw f rest with
        | error e => rw [hr2] at h; cases h
        | ok v2 =>
          rw [hr2] at h
          rw [ih3 _ _ hr2]
          exact h
    · intro inp r h
      rw [read_lambda_short_form] at h ⊢
      cases hr : lambda_parse bw f inp with
      | error e => rw [hr] at h; cases h
      | ok v =>
        rw [hr] at h
        rw [ih3 _ _ hr]
        exact h
    · intro inp r h
      rw [read_unquote] at h ⊢
      by_cases h1 : look inp = 64
      · rw [if_pos h1] at h ⊢
        cases hr : reader bw f (nextc inp).2 with
        | error e => rw [hr] at h; cases h
        | ok v => rw [hr] at h; rw [ih1 _ _ hr]; exact h
      rw [if_neg h1] at h ⊢
      cases hr : reader bw f inp with
      | error e => rw [hr] at h; cases h
      | ok v => rw [hr] at h; rw [ih1 _ _ hr]; exact h

end

/-- The result of the reader with some fuel is its result with any larger fuel. -/
theorem reader_fuel_le (bw : Nat) (inp : List Nat) (r : Val × List Nat) :
    ∀ (k fuel : Nat), reader bw fuel inp = .ok r → reader bw (fuel + k) inp = .ok r := by
  intro k
  induction k with
  | zero => intro fuel h; exact h
  | succ k ih =>
    intro fuel h
    exact (reader_fuel_succ bw (fuel + k)).1 inp r (ih fuel h)

theorem bone_read_reader (bw : Nat) (inp rest : List Nat) (x : Val)
    (h : bone_read bw inp = .ok (x, rest)) :
    reader bw (3 * inp.length + 3) inp = .ok (x, rest) ∧ x ≠ READER_LIST_END := by
  unfold bone_read at h
  cases hr : reader bw (3 * inp.length + 3) inp with
  | error e => rw [hr] at h; cases h
  | ok v =>
    obtain ⟨y, r⟩ := v
    rw [hr] at h
    simp only at h
    by_cases hy : y = READER_LIST_END
    · rw [if_pos hy] at h; cases h
    · rw [if_neg hy] at h
      cases h
      exact ⟨rfl, hy⟩

theorem bone_read_of_reader (bw : Nat) (inp rest : List Nat) (x : Val)
    (h : reader bw (3 * inp.length + 3) inp = .ok (x, rest)) (hx : x ≠ READER_LIST_END) :
    bone_read bw inp = .ok (x, rest) := by
  unfold bone_read
  rw [h]
  simp only
  rw [if_neg hx]

theorem reader_unquote_look (bw fuel : Nat) (inp : List Nat) (x : Val) (r : List Nat)
    (hc : look inp ≠ 64) (h : reader bw fuel inp = .ok (x, r)) :
    reader bw (fuel + 2) (44 :: inp) = .ok (.cons s_unquote x, r) := by
  rw [reader_comma, read_unquote, if_neg hc, h]

theorem print_seq_ok (p t : List Nat) (a : Except Err (List Nat)) (h : a = .ok t) :
    print_seq (.ok p) a = .ok (p ++ t) := by
  rw [h]
  rfl

/-- Claim C15, amended: for a text `inp` that `bone_read` reads as the value `x`, the
prefix `'`, the backquote or `,@` followed by `inp` is read as the pair of
`quote`, `quasiquote` or `unquote-splicing` and `x`; so is `,` followed by `inp` with
`unquote`, unless `inp` starts with `@`.  `print` writes each of the four pairs as
its prefix followed by the text it writes for `x`. -/
theorem quote_family_read_print (bw : Nat) (inp rest : List Nat) (x : Val)
    (h : bone_read bw inp = .ok (x, rest)) :
    (bone_read bw (39 :: inp) = .ok (.cons s_quote x, rest) ∧
      ∀ t, print x = .ok t → print (.cons s_quote x) = .ok (39 :: t)) ∧
    (bone_read bw (96 :: inp) = .ok (.cons s_quasiquote x, rest) ∧
      ∀ t, print x = .ok t → print (.cons s_quasiquote x) = .ok (96 :: t)) ∧
    ((look inp ≠ 64 → bone_read bw (44 :: inp) = .ok (.cons s_unquote x, rest)) ∧
      ∀ t, print x = .ok t → print (.cons s_unquote x) = .ok (44 :: t)) ∧
    (bone_read bw (44 :: 64 :: inp) = .ok (.cons s_unquote_splicing x, rest) ∧
      ∀ t, print x = .ok t → print (.cons s_unquote_splicing x) = .ok (44 :: 64 :: t)) := by
  obtain ⟨hr, -⟩ := bone_read_reader bw inp rest x h
  have h2 := reader_fuel_le bw inp (x, rest) 2 _ hr
  have h4 := reader_fuel_le bw inp (x, rest) 4 _ hr
  refine ⟨⟨?_, ?_⟩, ⟨?_, ?_⟩, ⟨?_, ?_⟩, ⟨?_, ?_⟩⟩
  · apply bone_read_of_reader
    · exact reader_quote bw _ inp x rest h2
    · intro hc; cases hc
  · intro t ht
    rw [print_quote, print_seq_ok _ t _ ht]
    rfl
  · apply bone_read_of_reader
    · exact reader_quasiquote bw _ inp x rest h2
    · intro hc; cases hc
  · intro t ht
    rw [print_quasiquote, print_seq_ok _ t _ ht]
    rfl
  · intro hl
    apply bone_read_of_reader
    · exact reader_unquote_look bw _ inp x rest hl
        (reader_fuel_le bw inp (x, rest) 1 _ hr)
    · intro hc; cases hc
  · intro t ht
    rw [print_unquote, print_seq_ok _ t _ ht]
    rfl
  · apply bone_read_of_reader
    · exact reader_unquote_splicing bw _ inp x rest h4
    · intro hc; cases hc
  · intro t ht
    rw [print_unquote_splicing, print_seq_ok _ t _ ht]
    rfl

set_option maxRecDepth 100000 in
/-- Witness for C15: the text `x`; in particular the text `,@x` is read as
`(unquote-splicing . x)`, which is printed as `,@x`. -/
theorem quote_family_read_print_witness :
    bone_read 512 [120] = .ok (.sym [120], []) ∧
      bone_read 512 [44, 64, 120] = .ok (.cons s_unquote_splicing (.sym [120]), []) ∧
      print (.cons s_unquote_splicing (.sym [120])) = .ok [44, 64, 120] :=
  ⟨by decide,
    (quote_family_read_print 512 [120] [] (.sym [120]) (by decide)).2.2.2.1,
    (quote_family_read_print 512 [120] [] (.sym [120]) (by decide)).2.2.2.2 [120]
      (by decide)⟩

set_option maxRecDepth 100000 in
/-- Counterexample for C15 as stated: the text `@x` is read as the symbol `@x`, but
`,` followed by that text is read as `(unquote-splicing . x)`, not as the pair of
`unquote` and the symbol `@x`. -/
theorem comma_before_at_sign :
    bone_read 512 [64, 120] = .ok (.sym [64, 120], []) ∧
      bone_read 512 (44 :: [64, 120]) = .ok (.cons s_unquote_splicing (.sym [120]), []) ∧
      bone_read 512 (44 :: [64, 120]) ≠ .ok (.cons s_unquote (.sym [64, 120]), []) := by
  refine ⟨?_, ?_, ?_⟩ <;> decide

/-! ## An input with a lambda short form -/

theorem sym_text_ok_blockwords (bw : Nat) (name : List Nat) (h : sym_text_ok 8 name = true)
    (hbw : 8 ≤ bw) : sym_text_ok bw name = true := by
  unfold sym_text_ok at h ⊢
  simp only [Bool.and_eq_true, reg_alloc_returns, decide_eq_true_eq] at h ⊢
  exact ⟨h.1, by omega⟩

theorem list_item_ok_blockwords (bw : Nat) (x : Val) (h : list_item_ok 8 x = true)
    (hbw : 8 ≤ bw) : list_item_ok bw x = true := by
  cases x with
  | sym name => exact sym_text_ok_blockwords bw name h hbw
  | num n => exact h
  | _ => simp [list_item_ok] at h

/-- Reading the text of a list of numbers and symbols, with any fuel above its
size. -/
theorem reader_items (bw : Nat) (hbw : 8 ≤ bw) (items : List Val) (text : List Nat)
    (hitems : ∀ x ∈ items, list_item_ok 8 x = true)
    (hfirst : ∀ a, items.head? = some a → quote_family a = false)
    (htext : list_text (items.map item_text) = text) :
    ∀ fuel rest, (Val.list items).size + 2 ≤ fuel → is_symchar (look rest) = .ok false →
      reader bw fuel (text ++ rest) = .ok (Val.list items, rest) := by
  obtain ⟨hr, hp⟩ := items_readable bw items
    (fun x hx => list_item_ok_blockwords bw x (hitems x hx) hbw) hfirst
  obtain ⟨t, hpt, -, hread⟩ := read_print bw (by omega) _ hr
  rw [hp, htext] at hpt
  injection hpt with hpt
  subst hpt
  exact hread

set_option maxRecDepth 100000 in
theorem each_text_read (bw : Nat) (hbw : 8 ≤ bw) (k : Nat) :
    reader bw (k + 20) each_text = .ok (each_form, []) := by
  have r_each : reader bw (k + 18)
      ([101, 97, 99, 104] ++ (32 :: 39 :: ([40, 49, 32, 50, 32, 51, 41] ++
        (32 :: 124 :: ([120] ++ (32 :: ([40, 112, 114, 105, 110, 116, 32, 120, 41] ++ [41])))))))
      = .ok (.sym [101, 97, 99, 104], _) :=
    reader_sym bw (k + 17) _ _ (sym_text_ok_blockwords bw _ (by decide) hbw) (delim_space _)
  have r_nums : reader bw (k + 16) ([40, 49, 32, 50, 32, 51, 41] ++
        (32 :: 124 :: ([120] ++ (32 :: ([40, 112, 114, 105, 110, 116, 32, 120, 41] ++ [41])))))
      = .ok (Val.list [.num 1, .num 2, .num 3], _) :=
    reader_items bw hbw [.num 1, .num 2, .num 3] _ (by decide) (by decide) (by decide)
      (k + 16) _ (by simp only [Val.list, Val.size, NIL]; omega) (delim_space _)
  have r_x : reader bw (k + 13)
      ([120] ++ (32 :: ([40, 112, 114, 105, 110, 116, 32, 120, 41] ++ [41])))
      = .ok (.sym [120], _) :=
    reader_sym bw (k + 12) _ _ (sym_text_ok_blockwords bw _ (by decide) hbw) (delim_space _)
  have r_body : reader bw (k + 12) ([40, 112, 114, 105, 110, 116, 32, 120, 41] ++ [41])
      = .ok (Val.list [.sym [112, 114, 105, 110, 116], .sym [120]], [41]) :=
    reader_items bw hbw [.sym [112, 114, 105, 110, 116], .sym [120]] _ (by decide) (by decide)
      (by decide) (k + 12) _ (by simp only [Val.list, Val.size, NIL]; omega) (delim_close _)
  have l_body : lambda_parse bw (k + 13)
      (32 :: ([40, 112, 114, 105, 110, 116, 32, 120, 41] ++ [41]))
      = .ok ((NIL, Val.list [.sym [112, 114, 105, 110, 116], .sym [120]]), [41]) := by
    rw [lambda_parse_space]
    exact lambda_parse_body bw (k + 12) _ _ _ r_body rfl
  have l_x := lambda_parse_param bw (k + 13) _ _ _ _ _ _ r_x
    ⟨rfl, by decide, by decide⟩ l_body
  have r_bar := reader_bar bw (k + 14) _ _ _ _ l_x
  have rl_end : read_list bw (k + 16) [41] = .ok (NIL, []) :=
    read_list_end bw (k + 15) _ _ (reader_close bw (k + 14) [])
  have rl_bar := read_list_cons bw (k + 16) _ _ _ _ _ r_bar
    ⟨by decide, by decide, by decide⟩ rl_end
  have rl_bar2 := rl_bar
  rw [← read_list_space] at rl_bar2
  have r_quote := reader_quote bw (k + 16) _ _ _ r_nums
  have rl_quote := read_list_cons bw (k + 17) _ _ _ _ _ r_quote
    ⟨by decide, by decide, by decide⟩ rl_bar2
  have rl_quote2 := rl_quote
  rw [← read_list_space] at rl_quote2
  have rl_each := read_list_cons bw (k + 18) _ _ _ _ _ r_each
    ⟨by decide, by decide, by decide⟩ rl_quote2
  have h := reader_open bw (k + 19) ([101, 97, 99, 104] ++ (32 :: 39 ::
    ([40, 49, 32, 50, 32, 51, 41] ++ (32 :: 124 :: ([120] ++ (32 ::
      ([40, 112, 114, 105, 110, 116, 32, 120, 41] ++ [41])))))))
  rw [rl_each] at h
  exact h

theorem each_text_bone_read (bw : Nat) (hbw : 8 ≤ bw) :
    bone_read bw each_text = .ok (each_form, []) := by
  apply bone_read_of_reader
  · exact each_text_read bw hbw 67
  · decide

set_option maxRecDepth 100000 in
/-- In the state `bone_init` leaves, `each` is bound to a sub and `lambda` has no
binding. -/
theorem bone_init_each (bw : Nat) (st : VM) (hbw : 8 ≤ bw) (h : bone_init bw = .ok st) :
    get_binding st (.sym [101, 97, 99, 104]) = .cons BINDING_DEFINED (.sub 42) ∧
      get_binding st s_lambda = BFALSE := by
  rw [bone_init_ok bw hbw] at h
  injection h with h
  have hz : vm_zero bw = { vm_zero 0 with blockwords := bw } := rfl
  rw [hz, init_csubs_done_blockwords] at h
  subst h
  have h1 : (init_csubs_done csub_table (vm_zero 0)).bindings.lookup (.sym [101, 97, 99, 104])
      = some (.cons BINDING_DEFINED (.sub 42)) := by decide
  have h2 : (init_csubs_done csub_table (vm_zero 0)).bindings.lookup s_lambda = none := by
    decide
  constructor
  · simp only [get_binding, h1]
  · simp only [get_binding, h2]

/-- A page of fewer than 8 words is too small for `bone_init`. -/
theorem bone_init_blockwords (bw : Nat) (st : VM) (h : bone_init bw = .ok st) : 8 ≤ bw := by
  by_contra hlt
  have hlt2 : bw < 8 := by omega
  have herr : bone_init bw = .error .diverge := by
    interval_cases bw <;> decide
  rw [herr] at h
  cases h

theorem each_form_compile (st : VM) (p : Nat)
    (he : get_binding st (.sym [101, 97, 99, 104]) = .cons BINDING_DEFINED (.sub p))
    (hl : get_binding st s_lambda = BFALSE) :
    compile2sub_code st each_form = .error .unbound_sym := by
  have ha : ∀ name, assoq (.sym name) NIL = .ok BFALSE := fun _ => rfl
  have hi : is BFALSE = false := by decide
  have h1 : compile_sym st (.sym [101, 97, 99, 104]) NIL = .ok [OP_CONST, .sub p] := by
    rw [compile_sym, ha]
    simp only [hi, he]
    rfl
  have h2 : compile_sym st s_lambda NIL = .error .unbound_sym := by
    rw [s_lambda, compile_sym, ha]
    simp only [hi]
    rw [← s_lambda, hl]
    rfl
  have h3 : ∀ rest, compile_expr st NIL (.cons s_lambda rest) false = .error .unbound_sym := by
    intro rest
    rw [compile_expr, if_neg (by decide)]
    have : compile_expr st NIL s_lambda false = compile_sym st s_lambda NIL := by
      rw [s_lambda, compile_expr]
    rw [this, h2]
  have h4 : ∀ rest tail, compile_args st NIL
      (.cons (.cons s_quote (Val.list [.num 1, .num 2, .num 3])) (.cons (.cons s_lambda rest) tail))
      = .error .unbound_sym := by
    intro rest tail
    rw [compile_args, compile_expr, if_pos rfl]
    simp only
    rw [compile_args, h3]
  have hform : each_form = .cons (.sym [101, 97, 99, 104])
      (.cons (.cons s_quote (Val.list [.num 1, .num 2, .num 3]))
        (.cons (.cons s_lambda (Val.list [Val.list [.sym [120]],
          Val.list [.sym [112, 114, 105, 110, 116], .sym [120]]])) NIL)) := rfl
  rw [compile2sub_code, compile2list, hform, compile_expr, if_neg (by decide), compile_expr, h1]
  simp only
  rw [h4]

/-- Claim C16, amended: the input `(each '(1 2 3) |x (print x))` is read as the list
of the symbol `each`, `(quote 1 2 3)` and `(lambda (x) (print x))`; compiling that
list in the state `bone_init` leaves stops with the error "unbound sym", because
the compiler treats `(lambda ...)` as a call of `lambda` and `lambda` has no
binding.  No code is made, so nothing is run or printed. -/
theorem each_lambda_unbound (bw : Nat) (st : VM) (hinit : bone_init bw = .ok st) :
    bone_read bw each_text = .ok (each_form, []) ∧
      compile2sub_code st each_form = .error .unbound_sym := by
  have hbw := bone_init_blockwords bw st hinit
  obtain ⟨he, hl⟩ := bone_init_each bw st hbw hinit
  exact ⟨each_text_bone_read bw hbw, each_form_compile st 42 he hl⟩

/-- Witness for C16: a page of 512 words. -/
theorem each_lambda_unbound_witness :
    bone_init 512 = .ok (init_csubs_done csub_table (vm_zero 512)) ∧
      bone_read 512 each_text = .ok (each_form, []) ∧
      compile2sub_code (init_csubs_done csub_table (vm_zero 512)) each_form
        = .error .unbound_sym :=
  ⟨bone_init_ok 512 (by decide),
    each_lambda_unbound 512 _ (bone_init_ok 512 (by decide))⟩

/-- Counterexample for C16 as stated: with pages of 512 words the input is read, but
`compile2sub_code` returns no code for it, so no `print` is ever called and
`last_value` is never set. -/
theorem each_lambda_not_run :
    ∃ st, bone_init 512 = .ok st ∧ bone_read 512 each_text = .ok (each_form, []) ∧
      ¬ ∃ ci st1, compile2sub_code st each_form = .ok (ci, st1) := by
  refine ⟨_, bone_init_ok 512 (by decide), each_text_bone_read 512 (by decide), ?_⟩
  obtain ⟨he, hl⟩ := bone_init_each 512 _ (by decide) (bone_init_ok 512 (by decide))
  rintro ⟨ci, st1, h⟩
  rw [each_form_compile _ 42 he hl] at h
  cases h

/-! ## Assembling a call -/

theorem list_set_append_cons {α : Type} (done : List α) (x v : α) (pad : List α) :
    (done ++ x :: pad).set done.length v = (done ++ [v]) ++ pad := by
  induction done with
  | nil => rfl
  | cons a done ih => simp [List.set, ih]

theorem list_get_append_cons {α : Type} (done : List α) (x : α) (pad : List α) :
    (done ++ x :: pad)[done.length]? = some x := by
  induction done with
  | nil => simp
  | cons a done ih => simpa using ih

/-- `OP_ADD_ARG` while a required argument is missing: the value goes to the next
free slot. -/
theorem add_arg_nonrest (st : VM) (p left : Nat) (rc v x : Val) (done pad : List Val)
    (hn : st.next_call ≠ 0)
    (hf : st.upcoming_calls[st.next_call]?
      = some ⟨some p, left + 1, rc, done ++ x :: pad, done.length⟩) :
    add_arg { st with last_value := v }
      = .ok (with_frame { st with last_value := v }
          ⟨some p, left, rc, (done ++ [v]) ++ pad, done.length + 1⟩) := by
  unfold add_arg
  simp only
  rw [if_neg hn, hf]
  simp only
  rw [if_pos (by omega), if_pos (by simp)]
  simp only [Nat.add_sub_cancel, list_set_append_cons]
  rfl

/-- `OP_ADD_ARG` when no required argument is missing and the callee takes no rest
arguments. -/
theorem add_arg_extra (st : VM) (p : Nat) (rc v : Val) (args : List Val) (next : Nat)
    (s : SubObj) (sc : SubCode) (hn : st.next_call ≠ 0)
    (hf : st.upcoming_calls[st.next_call]? = some ⟨some p, 0, rc, args, next⟩)
    (hs : st.subs[p]? = some s) (hsc : st.codes[s.code]? = some sc) (hr : sc.has_rest = 0) :
    add_arg { st with last_value := v } = .error .args_error := by
  unfold add_arg
  simp only
  rw [if_neg hn, hf]
  simp only
  rw [if_neg (by simp)]
  simp only [Option.bind, hs, hsc]
  rw [if_pos hr]

/-- `OP_ADD_ARG` when no required argument is missing and the callee takes rest
arguments: the value is appended to the rest list in slot `argc`. -/
theorem add_arg_more (st : VM) (p : Nat) (rc v : Val) (done restdone locals : List Val)
    (next : Nat) (s : SubObj) (sc : SubCode) (hn : st.next_call ≠ 0)
    (hf : st.upcoming_calls[st.next_call]?
      = some ⟨some p, 0, rc, done ++ Val.list restdone :: locals, next⟩)
    (hrc : rc = NIL ↔ restdone = [])
    (hs : st.subs[p]? = some s) (hsc : st.codes[s.code]? = some sc) (hr : sc.has_rest ≠ 0)
    (hd : done.length = sc.argc) :
    add_arg { st with last_value := v }
      = .ok (with_frame { st with last_value := v }
          ⟨some p, 0, single v, done ++ Val.list (restdone ++ [v]) :: locals, next⟩) := by
  unfold add_arg
  simp only
  rw [if_neg hn, hf]
  simp only
  rw [if_neg (by simp)]
  simp only [Option.bind, hs, hsc]
  rw [if_neg hr, if_pos (by simp [← hd])]
  have hset : ∀ X, (done ++ Val.list restdone :: locals).set sc.argc X = done ++ X :: locals := by
    intro X
    rw [← hd, list_set_append_cons]
    simp
  by_cases hnil : rc = NIL
  · rw [if_pos hnil, hset]
    have : restdone = [] := hrc.mp hnil
    subst this
    rfl
  · rw [if_neg hnil, hset]
    have hg : (done ++ Val.list restdone :: locals).getD sc.argc NIL = Val.list restdone := by
      rw [← hd, List.getD_eq_getElem?_getD, list_get_append_cons]
      rfl
    rw [hg, snoc_cell_list]
    rfl

theorem with_frame_top (st : VM) (f : UpcomingCall) (h : st.next_call < st.upcoming_calls.length) :
    (with_frame st f).upcoming_calls[(with_frame st f).next_call]? = some f := by
  simp [with_frame, h]

/-- The required arguments of a call, added one by one. -/
theorem add_args_nonrest (p : Nat) (rc : Val) : ∀ (vals : List Val) (st : VM)
    (done pad : List Val) (left : Nat),
    st.next_call ≠ 0 → vals.length ≤ left → left ≤ pad.length →
    st.upcoming_calls[st.next_call]? = some ⟨some p, left, rc, done ++ pad, done.length⟩ →
    ∃ st2, add_args st vals = .ok st2 ∧ st2.next_call = st.next_call ∧
      st2.subs = st.subs ∧ st2.codes = st.codes ∧
      st2.upcoming_calls[st2.next_call]?
        = some ⟨some p, left - vals.length, rc, (done ++ vals) ++ pad.drop vals.length,
            done.length + vals.length⟩ := by
  intro vals
  induction vals with
  | nil =>
    intro st done pad left _ _ _ hf
    exact ⟨st, rfl, rfl, rfl, rfl, by simpa using hf⟩
  | cons v vs ih =>
    intro st done pad left hn hlen hpad hf
    obtain ⟨left2, rfl⟩ : ∃ l2, left = l2 + 1 := ⟨left - 1, by simp at hlen; omega⟩
    cases pad with
    | nil => simp at hpad
    | cons x pad2 =>
      have hlt : st.next_call < st.upcoming_calls.length := by
        by_contra hc
        rw [List.getElem?_eq_none (by omega)] at hf
        cases hf
      have h1 := add_arg_nonrest st p left2 rc v x done pad2 hn hf
      have htop := with_frame_top { st with last_value := v }
        ⟨some p, left2, rc, (done ++ [v]) ++ pad2, done.length + 1⟩ hlt
      obtain ⟨st2, h2, h3, h4, h5, h6⟩ := ih
        (with_frame { st with last_value := v }
          ⟨some p, left2, rc, (done ++ [v]) ++ pad2, done.length + 1⟩)
        (done ++ [v]) pad2 left2 hn (by simp at hlen; omega) (by simp at hpad; omega)
        (by rw [htop]; simp)
      refine ⟨st2, ?_, h3, h4, h5, ?_⟩
      · rw [add_args, h1]; exact h2
      · rw [h6]
        simp [Nat.add_sub_add_right, Nat.add_assoc, Nat.add_comm 1]

/-- The rest arguments of a call, added one by one. -/
theorem add_args_rest (p : Nat) (s : SubObj) (sc : SubCode) (done locals : List Val)
    (next : Nat) (hr : sc.has_rest ≠ 0) (hd : done.length = sc.argc) :
    ∀ (vals : List Val) (st : VM) (restdone : List Val) (rc : Val),
    st.next_call ≠ 0 → st.subs[p]? = some s → st.codes[s.code]? = some sc →
    st.upcoming_calls[st.next_call]?
      = some ⟨some p, 0, rc, done ++ Val.list restdone :: locals, next⟩ →
    (rc = NIL ↔ restdone = []) →
    ∃ st2 rc2, add_args st vals = .ok st2 ∧ st2.next_call = st.next_call ∧
      st2.subs = st.subs ∧ st2.codes = st.codes ∧
      st2.upcoming_calls[st2.next_call]?
        = some ⟨some p, 0, rc2, done ++ Val.list (restdone ++ vals) :: locals, next⟩ := by
  intro vals
  induction vals with
  | nil =>
    intro st restdone rc _ _ _ hf _
    exact ⟨st, rc, rfl, rfl, rfl, rfl, by simpa using hf⟩
  | cons v vs ih =>
    intro st restdone rc hn hs hsc hf hrc
    have hlt : st.next_call < st.upcoming_calls.length := by
      by_contra hc
      rw [List.getElem?_eq_none (by omega)] at hf
      cases hf
    have h1 := add_arg_more st p rc v done restdone locals next s sc hn hf hrc hs hsc hr hd
    have htop := with_frame_top { st with last_value := v }
      ⟨some p, 0, single v, done ++ Val.list (restdone ++ [v]) :: locals, next⟩ hlt
    obtain ⟨st2, rc2, h2, h3, h4, h5, h6⟩ := ih
      (with_frame { st with last_value := v }
        ⟨some p, 0, single v, done ++ Val.list (restdone ++ [v]) :: locals, next⟩)
      (restdone ++ [v]) (single v) hn hs hsc htop
      (by simp [single, NIL])
    refine ⟨st2, rc2, ?_, h3, h4, h5, ?_⟩
    · rw [add_args, h1]; exact h2
    · rw [h6]; simp

theorem add_args_append : ∀ (a b : List Val) (st st2 : VM), add_args st a = .ok st2 →
    add_args st (a ++ b) = add_args st2 b := by
  intro a
  induction a with
  | nil => intro b st st2 h; cases h; rfl
  | cons v vs ih =>
    intro b st st2 h
    rw [add_args] at h
    rw [List.cons_append, add_args]
    cases h1 : add_arg { st with last_value := v } with
    | error e => rw [h1] at h; cases h
    | ok st1 =>
      rw [h1] at h
      exact ih b st1 st2 h

/-- The start of `OP_CALL` and `OP_TAILCALL` on a prepared call. -/
theorem pop_call_frame (st : VM) (p left : Nat) (rc : Val) (args : List Val) (next : Nat)
    (s : SubObj) (hn : st.next_call ≠ 0)
    (hf : st.upcoming_calls[st.next_call]? = some ⟨some p, left, rc, args, next⟩)
    (hs : st.subs[p]? = some s) :
    pop_call st = if left ≠ 0 then .error .args_error
      else .ok (s, args, { st with next_call := st.next_call - 1 }) := by
  unfold pop_call
  rw [if_neg hn, hf]
  simp only
  by_cases hl : left = 0
  · rw [if_neg (by simpa using hl), if_neg (by simpa using hl)]
    simp only [Option.bind, hs]
  · rw [if_pos hl, if_pos hl]

theorem fresh_args_rest_slot (k l : Nat) :
    ((fresh_args (k + 1 + l)).set k NIL).drop k = NIL :: fresh_args l := by
  have h : fresh_args (k + 1 + l) = fresh_args k ++ Val.raw 0 :: fresh_args l := by
    simp only [fresh_args]
    rw [Nat.add_assoc, List.replicate_add, Nat.add_comm 1 l, List.replicate_succ]
  have hk : (fresh_args k).length = k := by simp [fresh_args]
  have key : ∀ F : List Val, F.length = k →
      ((F ++ Val.raw 0 :: fresh_args l).set k NIL).drop k = NIL :: fresh_args l := by
    intro F hF
    subst hF
    rw [list_set_append_cons]
    simp
  rw [h]
  exact key _ hk

theorem fresh_args_drop (k l : Nat) : (fresh_args (k + l)).drop k = fresh_args l := by
  simp [fresh_args]

/-- `OP_PREPARE_CALL` with a sub in `last_value`: the new frame. -/
theorem prepare_call_frame (st : VM) (p : Nat) (s : SubObj) (sc : SubCode)
    (hv : st.last_value = .sub p) (hs : st.subs[p]? = some s)
    (hsc : st.codes[s.code]? = some sc)
    (hnc : st.next_call + 1 < st.upcoming_calls.length)
    (hfit : sc.argc + sc.has_rest + sc.localc + 1 < st.blockwords) :
    ∃ st1 rc pad, prepare_call st = .ok st1 ∧ st1.next_call = st.next_call + 1 ∧
      st1.subs = st.subs ∧ st1.codes = st.codes ∧
      st1.upcoming_calls[st1.next_call]? = some ⟨some p, sc.argc, rc, pad, 0⟩ ∧
      pad.length = sc.argc + sc.has_rest + sc.localc ∧
      (sc.has_rest = 1 → rc = NIL ∧ pad.drop sc.argc = NIL :: fresh_args sc.localc) ∧
      (sc.has_rest = 0 → pad.drop sc.argc = fresh_args sc.localc) := by
  obtain ⟨old, hold⟩ : ∃ old, st.upcoming_calls[st.next_call + 1]? = some old :=
    ⟨st.upcoming_calls[st.next_call + 1], List.getElem?_eq_getElem hnc⟩
  have ha : reg_alloc st.blockwords (sc.argc + sc.has_rest + sc.localc) = .ok () := by
    rw [reg_alloc, if_pos (by simp only [reg_alloc_returns, decide_eq_true_eq]; exact hfit)]
  obtain ⟨rc, hrc⟩ : ∃ rc, rc = if sc.has_rest ≠ 0 then NIL else old.rest_constructor :=
    ⟨_, rfl⟩
  obtain ⟨pad, hpad⟩ : ∃ pad, pad = if sc.has_rest ≠ 0 then
      (fresh_args (sc.argc + sc.has_rest + sc.localc)).set sc.argc NIL
      else fresh_args (sc.argc + sc.has_rest + sc.localc) := ⟨_, rfl⟩
  refine ⟨with_frame { st with next_call := st.next_call + 1 } ⟨some p, sc.argc, rc, pad, 0⟩,
    rc, pad, ?_, rfl, rfl, rfl, ?_, ?_, ?_, ?_⟩
  · unfold prepare_call
    rw [hv]
    simp only
    rw [hs]
    simp only
    rw [hsc]
    simp only
    rw [hold]
    simp only
    rw [ha]
    simp only
    rw [← hrc, ← hpad]
    rfl
  · exact with_frame_top { st with next_call := st.next_call + 1 } _ hnc
  · rw [hpad]
    split_ifs <;> simp [fresh_args]
  · intro h1
    rw [hrc, hpad, if_pos (by omega), if_pos (by omega), h1]
    exact ⟨rfl, fresh_args_rest_slot _ _⟩
  · intro h0
    rw [hpad, if_neg (by omega), h0]
    exact fresh_args_drop _ _

/-- A call with at most as many arguments as the callee requires: the error comes at
`OP_CALL` or `OP_TAILCALL` when one is missing. -/
theorem assemble_few (st : VM) (p : Nat) (s : SubObj) (sc : SubCode) (vals : List Val)
    (hv : st.last_value = .sub p) (hs : st.subs[p]? = some s)
    (hsc : st.codes[s.code]? = some sc)
    (hnc : st.next_call + 1 < st.upcoming_calls.length)
    (hfit : sc.argc + sc.has_rest + sc.localc + 1 < st.blockwords)
    (hlen : vals.length ≤ sc.argc) :
    ∃ (st1 st2 : VM) (rc : Val) (pad : List Val), prepare_call st = .ok st1 ∧
      add_args st1 vals = .ok st2 ∧
      st2.next_call ≠ 0 ∧ st2.subs = st.subs ∧ st2.codes = st.codes ∧
      st2.upcoming_calls[st2.next_call]?
        = some ⟨some p, sc.argc - vals.length, rc, vals ++ pad.drop vals.length, vals.length⟩ ∧
      pad.length = sc.argc + sc.has_rest + sc.localc ∧
      (sc.has_rest = 1 → rc = NIL ∧ pad.drop sc.argc = NIL :: fresh_args sc.localc) ∧
      (sc.has_rest = 0 → pad.drop sc.argc = fresh_args sc.localc) := by
  obtain ⟨st1, rc, pad, h1, hn1, hs1, hc1, hf1, hpl, hp1, hp0⟩ :=
    prepare_call_frame st p s sc hv hs hsc hnc hfit
  obtain ⟨st2, h2, hn2, hs2, hc2, hf2⟩ := add_args_nonrest p rc vals st1 [] pad sc.argc
    (by omega) hlen (by omega) (by simpa using hf1)
  refine ⟨st1, st2, rc, pad, h1, h2, by omega, hs2.trans hs1, hc2.trans hc1, ?_, hpl, hp1, hp0⟩
  simpa using hf2

/-- Claim C13: a call assembled with `OP_PREPARE_CALL` for a sub with `argc` required
arguments and rest flag `has_rest` (0 or 1), one `OP_ADD_ARG` for each of the `n`
values `vals`, and `OP_CALL` or `OP_TAILCALL`, where the argument buffer fits in a
block and `upcoming_calls` has a free entry.  The run stops with the error "wrong
number of args" exactly when `n < argc` or `n > argc` without rest flag: in the
first case at `OP_CALL` or `OP_TAILCALL`, in the second at the first `OP_ADD_ARG`
after the required arguments.  Otherwise the sub is entered with the first `argc`
values in the slots `0..argc-1` and, with the rest flag, the list of the remaining
values in slot `argc`. -/
theorem call_assembly (st : VM) (p : Nat) (s : SubObj) (sc : SubCode) (vals : List Val)
    (hv : st.last_value = .sub p) (hs : st.subs[p]? = some s)
    (hsc : st.codes[s.code]? = some sc) (hr : sc.has_rest = 0 ∨ sc.has_rest = 1)
    (hnc : st.next_call + 1 < st.upcoming_calls.length)
    (hfit : sc.argc + sc.has_rest + sc.localc + 1 < st.blockwords) :
    (assemble_call st vals = .error .args_error ↔
      vals.length < sc.argc ∨ (sc.argc < vals.length ∧ sc.has_rest = 0)) ∧
    (vals.length < sc.argc →
      ∃ st1 st2, prepare_call st = .ok st1 ∧ add_args st1 vals = .ok st2 ∧
        pop_call st2 = .error .args_error) ∧
    (sc.argc < vals.length → sc.has_rest = 0 →
      ∃ st1 st2, prepare_call st = .ok st1 ∧ add_args st1 (vals.take sc.argc) = .ok st2 ∧
        add_arg { st2 with last_value := vals.getD sc.argc NIL } = .error .args_error) ∧
    (sc.argc ≤ vals.length → (vals.length = sc.argc ∨ sc.has_rest = 1) →
      ∃ args st3, assemble_call st vals = .ok (s, args, st3) ∧
        args.length = sc.argc + sc.has_rest + sc.localc ∧
        args.take sc.argc = vals.take sc.argc ∧
        (sc.has_rest = 1 → args[sc.argc]? = some (Val.list (vals.drop sc.argc)))) := by
  -- too few arguments
  have few : vals.length < sc.argc →
      ∃ st1 st2, prepare_call st = .ok st1 ∧ add_args st1 vals = .ok st2 ∧
        pop_call st2 = .error .args_error := by
    intro hlt
    obtain ⟨st1, st2, rc, pad, h1, h2, hn2, hs2, hc2, hf2, -, -, -⟩ :=
      assemble_few st p s sc vals hv hs hsc hnc hfit (by omega)
    refine ⟨st1, st2, h1, h2, ?_⟩
    rw [pop_call_frame st2 p _ rc _ _ s hn2 hf2 (by rw [hs2]; exact hs), if_pos (by omega)]
  -- the required arguments of a call that has them all
  have req : sc.argc ≤ vals.length →
      ∃ (st1 st2 : VM) (rc : Val) (pad : List Val), prepare_call st = .ok st1 ∧
        add_args st1 (vals.take sc.argc) = .ok st2 ∧
        st2.next_call ≠ 0 ∧ st2.subs = st.subs ∧ st2.codes = st.codes ∧
        st2.upcoming_calls[st2.next_call]?
          = some ⟨some p, 0, rc, vals.take sc.argc ++ pad.drop sc.argc, sc.argc⟩ ∧
        (sc.has_rest = 1 → rc = NIL ∧ pad.drop sc.argc = NIL :: fresh_args sc.localc) ∧
        (sc.has_rest = 0 → pad.drop sc.argc = fresh_args sc.localc) := by
    intro hge
    have htl : (vals.take sc.argc).length = sc.argc := by simp; omega
    obtain ⟨st1, st2, rc, pad, h1, h2, hn2, hs2, hc2, hf2, -, hp1, hp0⟩ :=
      assemble_few st p s sc (vals.take sc.argc) hv hs hsc hnc hfit (by omega)
    rw [htl, Nat.sub_self] at hf2
    exact ⟨st1, st2, rc, pad, h1, h2, hn2, hs2, hc2, hf2, hp1, hp0⟩
  -- too many arguments
  have many : sc.argc < vals.length → sc.has_rest = 0 →
      ∃ st1 st2, prepare_call st = .ok st1 ∧ add_args st1 (vals.take sc.argc) = .ok st2 ∧
        add_arg { st2 with last_value := vals.getD sc.argc NIL } = .error .args_error := by
    intro hgt h0
    obtain ⟨st1, st2, rc, pad, h1, h2, hn2, hs2, hc2, hf2, -, -⟩ := req (by omega)
    exact ⟨st1, st2, h1, h2, add_arg_extra st2 p rc _ _ _ s sc hn2 hf2 (by rw [hs2]; exact hs)
      (by rw [hc2]; exact hsc) h0⟩
  -- the sub is entered
  have enters : sc.argc ≤ vals.length → (vals.length = sc.argc ∨ sc.has_rest = 1) →
      ∃ args st3, assemble_call st vals = .ok (s, args, st3) ∧
        args.length = sc.argc + sc.has_rest + sc.localc ∧
        args.take sc.argc = vals.take sc.argc ∧
        (sc.has_rest = 1 → args[sc.argc]? = some (Val.list (vals.drop sc.argc))) := by
    intro hge hcase
    have htl : (vals.take sc.argc).length = sc.argc := by simp; omega
    obtain ⟨st1, st2, rc, pad, h1, h2, hn2, hs2, hc2, hf2, hp1, hp0⟩ := req hge
    have hsplit : add_args st1 vals = add_args st2 (vals.drop sc.argc) := by
      have := add_args_append (vals.take sc.argc) (vals.drop sc.argc) st1 st2 h2
      rwa [List.take_append_drop] at this
    rcases hr with h0 | h1r
    · -- no rest flag: exactly `argc` values
      have hn : vals.length = sc.argc := by
        rcases hcase with h | h
        · exact h
        · omega
      have hd : vals.drop sc.argc = [] := by simp [hn]
      refine ⟨vals.take sc.argc ++ fresh_args sc.localc, { st2 with next_call := st2.next_call - 1 },
        ?_, ?_, ?_, ?_⟩
      · rw [assemble_call, h1]
        simp only
        rw [hsplit, hd, add_args]
        simp only
        rw [hp0 h0] at hf2
        rw [pop_call_frame st2 p 0 rc _ _ s hn2 hf2 (by rw [hs2]; exact hs), if_neg (by simp)]
      · simp [fresh_args, h0]; omega
      · rw [List.take_append_of_le_length (by omega), List.take_take]; simp
      · intro h; omega
    · -- rest flag
      obtain ⟨hrc, hpad⟩ := hp1 h1r
      rw [hpad] at hf2
      obtain ⟨st3, rc3, h3, hn3, hs3, hc3, hf3⟩ := add_args_rest p s sc (vals.take sc.argc)
        (fresh_args sc.localc) sc.argc (by omega) htl (vals.drop sc.argc) st2 [] rc hn2
        (by rw [hs2]; exact hs) (by rw [hc2]; exact hsc) hf2 (by simp [hrc])
      refine ⟨vals.take sc.argc ++ Val.list (vals.drop sc.argc) :: fresh_args sc.localc,
        { st3 with next_call := st3.next_call - 1 }, ?_, ?_, ?_, ?_⟩
      · rw [assemble_call, h1]
        simp only
        rw [hsplit, h3]
        simp only
        rw [pop_call_frame st3 p 0 rc3 _ _ s (by rw [hn3]; exact hn2) (by simpa using hf3)
          (by rw [hs3, hs2]; exact hs), if_neg (by simp)]
      · simp [fresh_args, h1r]; omega
      · rw [List.take_append_of_le_length (by omega), List.take_take]; simp
      · intro _
        have := list_get_append_cons (vals.take sc.argc) (Val.list (vals.drop sc.argc))
          (fresh_args sc.localc)
        rwa [htl] at this
  refine ⟨?_, few, many, enters⟩
  constructor
  · intro herr
    by_contra hcon
    have hge : sc.argc ≤ vals.length := Nat.le_of_not_lt (fun h => hcon (Or.inl h))
    have hcase : vals.length = sc.argc ∨ sc.has_rest = 1 := by
      rcases hr with h0 | h1r
      · exact Or.inl (Nat.le_antisymm (Nat.le_of_not_lt (fun h => hcon (Or.inr ⟨h, h0⟩))) hge)
      · exact Or.inr h1r
    obtain ⟨args, st3, h, -⟩ := enters hge hcase
    rw [h] at herr
    cases herr
  · rintro (hlt | ⟨hgt, h0⟩)
    · obtain ⟨st1, st2, h1, h2, h3⟩ := few hlt
      rw [assemble_call, h1]
      simp only
      rw [h2]
      exact h3
    · obtain ⟨st1, st2, h1, h2, h3⟩ := many hgt h0
      have hsplit : add_args st1 vals = add_args st2 (vals.drop sc.argc) := by
        have := add_args_append (vals.take sc.argc) (vals.drop sc.argc) st1 st2 h2
        rwa [List.take_append_drop] at this
      have hd : vals.drop sc.argc = vals.getD sc.argc NIL :: vals.drop (sc.argc + 1) := by
        rw [List.getD_eq_getElem?_getD, List.getElem?_eq_getElem hgt]
        simp
      rw [assemble_call, h1]
      simp only
      rw [hsplit, hd, add_args, h3]

set_option maxRecDepth 100000 in
/-- Witness for C13: in the state after `bone_init`, a call of `-` (one required
argument, rest flag set) with the three arguments 1, 2, 3. -/
theorem call_assembly_witness :
    ({ init_csubs_done csub_table (vm_zero 512) with last_value := .sub 29 } : VM).subs[29]?
        = some { code := 29, env := [] } ∧
      ({ init_csubs_done csub_table (vm_zero 512) with last_value := .sub 29 } : VM).codes[29]?
        = some { argc := 1, has_rest := 1, localc := 0, name := .sym [45], size_of_env := 0,
                 code := [OP_WRAP, .cptr .fullminus] } ∧
      ∃ args st3,
        assemble_call { init_csubs_done csub_table (vm_zero 512) with last_value := .sub 29 }
          [.num 1, .num 2, .num 3] = .ok ({ code := 29, env := [] }, args, st3) ∧
        args.length = 1 + 1 + 0 ∧ args.take 1 = [Val.num 1] ∧
        (1 = 1 → args[1]? = some (Val.list [.num 2, .num 3])) :=
  ⟨by decide, by decide,
    (call_assembly { init_csubs_done csub_table (vm_zero 512) with last_value := .sub 29 } 29
      { code := 29, env := [] }
      { argc := 1, has_rest := 1, localc := 0, name := .sym [45], size_of_env := 0,
        code := [OP_WRAP, .cptr .fullminus] }
      [.num 1, .num 2, .num 3] rfl (by decide) (by decide) (Or.inr rfl) (by decide)
      (by decide)).2.2.2 (by decide) (Or.inr rfl)⟩

/-! ## The arguments of `apply` -/

/-- The loop of `apply` over the first items, while required arguments are
missing. -/
theorem apply_loop_nonrest (sc : SubCode) : ∀ (xs : List Val) (tail : Val)
    (done pad : List Val),
    done.length + xs.length ≤ sc.argc → xs.length ≤ pad.length →
    apply_loop sc (xs.foldr Val.cons tail) done.length (done ++ pad)
      = apply_loop sc tail (done.length + xs.length) ((done ++ xs) ++ pad.drop xs.length) := by
  intro xs
  induction xs with
  | nil => intro tail done pad _ _; simp
  | cons x xs ih =>
    intro tail done pad hlen hpad
    cases pad with
    | nil => simp at hpad
    | cons y pad2 =>
      simp only [List.length_cons] at hlen hpad
      rw [List.foldr_cons, apply_loop, if_pos (by omega), list_set_append_cons]
      have := ih tail (done ++ [x]) pad2 (by simp; omega) (by omega)
      simp only [List.length_append, List.length_singleton] at this
      rw [this]
      simp [Nat.add_assoc, Nat.add_comm 1]

/-- The loop of `apply` over the items after the first rest argument. -/
theorem apply_loop_rest (sc : SubCode) (done locals : List Val) (hd : done.length = sc.argc) :
    ∀ (xs : List Val) (tail : Val) (pos : Nat) (restdone : List Val), sc.argc < pos →
    apply_loop sc (xs.foldr Val.cons tail) pos (done ++ Val.list restdone :: locals)
      = apply_loop sc tail (pos + xs.length) (done ++ Val.list (restdone ++ xs) :: locals) := by
  intro xs
  induction xs with
  | nil => intro tail pos restdone _; simp
  | cons x xs ih =>
    intro tail pos restdone hpos
    have hg : (done ++ Val.list restdone :: locals).getD sc.argc NIL = Val.list restdone := by
      rw [← hd, List.getD_eq_getElem?_getD, list_get_append_cons]
      rfl
    have hset : (done ++ Val.list restdone :: locals).set sc.argc (Val.list (restdone ++ [x]))
        = done ++ Val.list (restdone ++ [x]) :: locals := by
      rw [← hd, list_set_append_cons]
      simp
    rw [List.foldr_cons, apply_loop, if_neg (by omega), if_neg (by omega), hg, snoc_cell_list,
      hset, ih tail (pos + 1) (restdone ++ [x]) (by omega)]
    simp [Nat.add_assoc, Nat.add_comm 1]

theorem list_foldr_cons (xs : List Val) : xs.foldr Val.cons NIL = Val.list xs := by
  induction xs with
  | nil => rfl
  | cons x xs ih => rw [List.foldr_cons, ih]; rfl

theorem apply_loop_end (sc : SubCode) (pos : Nat) (args : List Val) :
    apply_loop sc NIL pos args = .ok (pos, args) := rfl

/-- The argument buffer `apply` fills for a list with at most `argc` items. -/
theorem apply_loop_few (sc : SubCode) (xs : List Val) (h : xs.length ≤ sc.argc) :
    apply_loop sc (Val.list xs) 0 (fresh_args (sc.argc + sc.has_rest + sc.localc))
      = .ok (xs.length, xs ++ fresh_args (sc.argc + sc.has_rest + sc.localc - xs.length)) := by
  have h1 := apply_loop_nonrest sc xs NIL [] (fresh_args (sc.argc + sc.has_rest + sc.localc))
    (by simpa using h) (by simp [fresh_args]; omega)
  rw [list_foldr_cons] at h1
  simp only [List.nil_append, List.length_nil, Nat.zero_add] at h1
  rw [h1, apply_loop_end]
  simp [fresh_args]

/-- The argument buffer `apply` fills for a list with more than `argc` items, for a
sub with the rest flag. -/
theorem apply_loop_many (sc : SubCode) (xs : List Val) (h : sc.argc < xs.length)
    (hr : sc.has_rest = 1) :
    apply_loop sc (Val.list xs) 0 (fresh_args (sc.argc + sc.has_rest + sc.localc))
      = .ok (xs.length,
          xs.take sc.argc ++ Val.list (xs.drop sc.argc) :: fresh_args sc.localc) := by
  have htl : (xs.take sc.argc).length = sc.argc := by simp; omega
  obtain ⟨x, rest, hd⟩ : ∃ x rest, xs.drop sc.argc = x :: rest := by
    cases hdr : xs.drop sc.argc with
    | nil => simp at hdr; omega
    | cons x rest => exact ⟨x, rest, rfl⟩
  have hrl : rest.length + sc.argc + 1 = xs.length := by
    have := congrArg List.length hd
    simp at this
    omega
  have hsplit : Val.list xs = (xs.take sc.argc).foldr Val.cons (.cons x (Val.list rest)) := by
    have h2 : Val.list (x :: rest) = (x :: rest).foldr Val.cons NIL := (list_foldr_cons _).symm
    rw [show Val.cons x (Val.list rest) = Val.list (x :: rest) from rfl, h2, ← hd,
      ← List.foldr_append, List.take_append_drop, list_foldr_cons]
  have h1 := apply_loop_nonrest sc (xs.take sc.argc) (.cons x (Val.list rest)) []
    (fresh_args (sc.argc + sc.has_rest + sc.localc)) (by simp) (by simp [fresh_args]; omega)
  simp only [List.nil_append, List.length_nil, Nat.zero_add, htl] at h1
  have hpad : (fresh_args (sc.argc + sc.has_rest + sc.localc)).drop sc.argc
      = Val.raw 0 :: fresh_args sc.localc := by
    rw [hr]
    simp only [fresh_args, List.drop_replicate]
    rw [show sc.argc + 1 + sc.localc - sc.argc = sc.localc + 1 by omega, List.replicate_succ]
  have hset : (xs.take sc.argc ++ Val.raw 0 :: fresh_args sc.localc).set sc.argc (single x)
      = xs.take sc.argc ++ Val.list [x] :: fresh_args sc.localc := by
    nth_rewrite 2 [← htl]
    rw [list_set_append_cons]
    simp [Val.list, single]
  have h3 := apply_loop_rest sc (xs.take sc.argc) (fresh_args sc.localc) htl rest NIL
    (sc.argc + 1) [x] (by omega)
  rw [list_foldr_cons, apply_loop_end] at h3
  rw [hsplit, h1, hpad, apply_loop, if_neg (by omega), if_pos rfl, if_pos (by omega), hset, h3,
    hd]
  simp only [List.singleton_append]
  rw [show sc.argc + 1 + rest.length = xs.length by omega]

/-- The loop of `apply` on a list with more than `argc` items, for a sub without
the rest flag. -/
theorem apply_loop_extra (sc : SubCode) (xs : List Val) (h : sc.argc < xs.length)
    (hr : sc.has_rest = 0) :
    apply_loop sc (Val.list xs) 0 (fresh_args (sc.argc + sc.has_rest + sc.localc))
      = .error .args_error := by
  have htl : (xs.take sc.argc).length = sc.argc := by simp; omega
  obtain ⟨x, rest, hd⟩ : ∃ x rest, xs.drop sc.argc = x :: rest := by
    cases hdr : xs.drop sc.argc with
    | nil => simp at hdr; omega
    | cons x rest => exact ⟨x, rest, rfl⟩
  have hsplit : Val.list xs = (xs.take sc.argc).foldr Val.cons (.cons x (Val.list rest)) := by
    have h2 : Val.list (x :: rest) = (x :: rest).foldr Val.cons NIL := (list_foldr_cons _).symm
    rw [show Val.cons x (Val.list rest) = Val.list (x :: rest) from rfl, h2, ← hd,
      ← List.foldr_append, List.take_append_drop, list_foldr_cons]
  have h1 := apply_loop_nonrest sc (xs.take sc.argc) (.cons x (Val.list rest)) []
    (fresh_args (sc.argc + sc.has_rest + sc.localc)) (by simp) (by simp [fresh_args]; omega)
  simp only [List.nil_append, List.length_nil, Nat.zero_add, htl] at h1
  rw [hsplit, h1, apply_loop, if_neg (by omega), if_pos rfl, if_neg (by simp [hr])]

/-- The argument buffer of `apply` for a list of exactly `argc` items: the items,
then `NIL` in the next slot if the buffer has one, then untouched slots. -/
theorem apply_args_exact (bw : Nat) (sc : SubCode) (xs : List Val) (h : xs.length = sc.argc)
    (hfit : sc.argc + sc.has_rest + sc.localc + 1 < bw) :
    ∃ args, apply_args bw sc (Val.list xs) = .ok args ∧
      args.length = sc.argc + sc.has_rest + sc.localc ∧ args.take sc.argc = xs ∧
      (0 < sc.has_rest → args[sc.argc]? = some NIL) := by
  have ha : reg_alloc bw (sc.argc + sc.has_rest + sc.localc) = .ok () := by
    rw [reg_alloc, if_pos (by simp only [reg_alloc_returns, decide_eq_true_eq]; exact hfit)]
  have hloop := apply_loop_few sc xs (by omega)
  have hpl : (fresh_args (sc.argc + sc.has_rest + sc.localc - xs.length)).length
      = sc.has_rest + sc.localc := by
    simp only [fresh_args, List.length_replicate]
    omega
  generalize fresh_args (sc.argc + sc.has_rest + sc.localc - xs.length) = pad at hloop hpl
  have hstart : apply_args bw sc (Val.list xs) = .ok ((xs ++ pad).set sc.argc NIL) := by
    rw [apply_args, ha]
    simp only
    rw [hloop]
    simp only
    rw [if_neg (by omega), if_pos h]
  cases pad with
  | nil =>
    refine ⟨xs, ?_, ?_, ?_, ?_⟩
    · rw [hstart, List.append_nil, List.set_eq_of_length_le (by omega)]
    · simp at hpl; omega
    · rw [List.take_of_length_le (by omega)]
    · intro hpos; simp at hpl; omega
  | cons y pad2 =>
    refine ⟨(xs ++ [NIL]) ++ pad2, ?_, ?_, ?_, ?_⟩
    · rw [hstart, ← h, list_set_append_cons]
    · simp at hpl ⊢; omega
    · rw [List.append_assoc, List.take_append_of_le_length (by omega),
        List.take_of_length_le (by omega)]
    · intro _
      have := list_get_append_cons xs NIL pad2
      rw [h] at this
      simpa using this

/-- Claim C19: `apply(subr, xs)` for a sub with `argc` required arguments and rest
flag `has_rest` (0 or 1) whose argument buffer fits in a block, on a proper list of
`n` items.  It stops with the error "wrong number of args" exactly when `n < argc`
or `n > argc` without rest flag; otherwise it calls the sub with a buffer that holds
the first `argc` items in the slots `0..argc-1` and, with the rest flag, the list of
the remaining items in slot `argc`. -/
theorem apply_enters (fuel : Nat) (st : VM) (subr : SubObj) (sc : SubCode) (xs : List Val)
    (hsc : st.codes[subr.code]? = some sc) (hr : sc.has_rest = 0 ∨ sc.has_rest = 1)
    (hfit : sc.argc + sc.has_rest + sc.localc + 1 < st.blockwords) :
    (apply_args st.blockwords sc (Val.list xs) = .error .args_error ↔
      xs.length < sc.argc ∨ (sc.argc < xs.length ∧ sc.has_rest = 0)) ∧
    ((xs.length < sc.argc ∨ (sc.argc < xs.length ∧ sc.has_rest = 0)) →
      apply (fuel + 1) st subr (Val.list xs) = .error .args_error) ∧
    (¬ (xs.length < sc.argc ∨ (sc.argc < xs.length ∧ sc.has_rest = 0)) →
      ∃ args, apply_args st.blockwords sc (Val.list xs) = .ok args ∧
        apply (fuel + 1) st subr (Val.list xs) = call fuel st subr args ∧
        args.length = sc.argc + sc.has_rest + sc.localc ∧
        args.take sc.argc = xs.take sc.argc ∧
        (sc.has_rest = 1 → args[sc.argc]? = some (Val.list (xs.drop sc.argc)))) := by
  have ha : reg_alloc st.blockwords (sc.argc + sc.has_rest + sc.localc) = .ok () := by
    rw [reg_alloc, if_pos (by simp only [reg_alloc_returns, decide_eq_true_eq]; exact hfit)]
  have happly : ∀ r, apply_args st.blockwords sc (Val.list xs) = r →
      apply (fuel + 1) st subr (Val.list xs)
        = match r with
          | .error e => .error e
          | .ok args => call fuel st subr args := by
    intro r hrr
    subst hrr
    rw [apply, hsc]
  have bad : (xs.length < sc.argc ∨ (sc.argc < xs.length ∧ sc.has_rest = 0)) →
      apply_args st.blockwords sc (Val.list xs) = .error .args_error := by
    rintro (hlt | ⟨hgt, h0⟩)
    · rw [apply_args, ha]
      simp only
      rw [apply_loop_few sc xs (by omega)]
      simp only
      rw [if_pos hlt]
    · rw [apply_args, ha]
      simp only
      rw [apply_loop_extra sc xs hgt h0]
  have good : ¬ (xs.length < sc.argc ∨ (sc.argc < xs.length ∧ sc.has_rest = 0)) →
      ∃ args, apply_args st.blockwords sc (Val.list xs) = .ok args ∧
        args.length = sc.argc + sc.has_rest + sc.localc ∧
        args.take sc.argc = xs.take sc.argc ∧
        (sc.has_rest = 1 → args[sc.argc]? = some (Val.list (xs.drop sc.argc))) := by
    intro hcon
    have hge : sc.argc ≤ xs.length := Nat.le_of_not_lt (fun h => hcon (Or.inl h))
    by_cases heq : xs.length = sc.argc
    · obtain ⟨args, h1, h2, h3, h4⟩ := apply_args_exact st.blockwords sc xs heq hfit
      refine ⟨args, h1, h2, ?_, ?_⟩
      · rw [h3, List.take_of_length_le (by omega)]
      · intro h1r
        rw [h4 (by omega), List.drop_of_length_le (by omega)]
        rfl
    · have hgt : sc.argc < xs.length := by omega
      have h1r : sc.has_rest = 1 := by
        rcases hr with h0 | h1
        · exact absurd (Or.inr ⟨hgt, h0⟩) hcon
        · exact h1
      refine ⟨xs.take sc.argc ++ Val.list (xs.drop sc.argc) :: fresh_args sc.localc,
        ?_, ?_, ?_, ?_⟩
      · rw [apply_args, ha]
        simp only
        rw [apply_loop_many sc xs hgt h1r]
        simp only
        rw [if_neg (by omega), if_neg (by omega)]
      · simp [fresh_args, h1r]; omega
      · rw [List.take_append_of_le_length (by simp; omega), List.take_take]; simp
      · intro _
        have := list_get_append_cons (xs.take sc.argc) (Val.list (xs.drop sc.argc))
          (fresh_args sc.localc)
        rwa [show (xs.take sc.argc).length = sc.argc by simp; omega] at this
  refine ⟨⟨?_, bad⟩, ?_, ?_⟩
  · intro herr
    by_contra hcon
    obtain ⟨args, h, -⟩ := good hcon
    rw [h] at herr
    cases herr
  · intro hb
    rw [happly _ (bad hb)]
  · intro hcon
    obtain ⟨args, h1, h2, h3, h4⟩ := good hcon
    exact ⟨args, h1, by rw [happly _ h1], h2, h3, h4⟩

set_option maxRecDepth 100000 in
/-- Witness for C19: `apply` of the sub of `-` (one required argument, rest flag
set) to the list `(1 2 3)` in the state after `bone_init`. -/
theorem apply_enters_witness :
    (init_csubs_done csub_table (vm_zero 512)).codes[29]?
        = some { argc := 1, has_rest := 1, localc := 0, name := .sym [45], size_of_env := 0,
                 code := [OP_WRAP, .cptr .fullminus] } ∧
      ∃ args, apply_args 512 ⟨1, 1, 0, .sym [45], 0, [OP_WRAP, .cptr .fullminus]⟩
          (Val.list [.num 1, .num 2, .num 3]) = .ok args ∧
        apply 1 (init_csubs_done csub_table (vm_zero 512)) { code := 29, env := [] }
            (Val.list [.num 1, .num 2, .num 3])
          = call 0 (init_csubs_done csub_table (vm_zero 512)) { code := 29, env := [] } args ∧
        args.length = 1 + 1 + 0 ∧ args.take 1 = [Val.num 1] ∧
        (1 = 1 → args[1]? = some (Val.list [.num 2, .num 3])) :=
  ⟨by decide,
    (apply_enters 0 (init_csubs_done csub_table (vm_zero 512)) { code := 29, env := [] }
      { argc := 1, has_rest := 1, localc := 0, name := .sym [45], size_of_env := 0,
        code := [OP_WRAP, .cptr .fullminus] }
      [.num 1, .num 2, .num 3] (by decide) (Or.inr rfl) (by decide)).2.2 (by decide)⟩

/-! ## The load of a hash table -/

namespace Word

theorem used_set_le : ∀ (keys : List Nat) (pos k : Nat),
    used_slots (keys.set pos k) ≤ used_slots keys + 1 := by
  intro keys
  induction keys with
  | nil => intro pos k; simp [used_slots]
  | cons a keys ih =>
    intro pos k
    cases pos with
    | zero =>
      simp only [List.set_cons_zero, used_slots, List.countP_cons]
      split_ifs <;> omega
    | succ p =>
      have := ih p k
      simp only [used_slots, List.set_cons_succ, List.countP_cons] at this ⊢
      omega

theorem set_same : ∀ (keys : List Nat) (pos k : Nat), keys[pos]? = some k →
    keys.set pos k = keys := by
  intro keys
  induction keys with
  | nil => intro pos k h; simp at h
  | cons a keys ih =>
    intro pos k h
    cases pos with
    | zero => simp at h; simp [h]
    | succ p => simp at h; simp [ih p k h]

theorem used_set_deleted : ∀ (keys : List Nat) (pos k : Nat), keys[pos]? = some k →
    slot_used k = true →
    used_slots (keys.set pos HASH_SLOT_DELETED) + 1 = used_slots keys := by
  intro keys
  induction keys with
  | nil => intro pos k h; simp at h
  | cons a keys ih =>
    intro pos k h hu
    cases pos with
    | zero =>
      simp at h
      subst h
      have hd : slot_used HASH_SLOT_DELETED = false := by decide
      simp [used_slots, List.countP_cons, hu, hd]
    | succ p =>
      simp at h
      have := ih p k h hu
      simp only [used_slots, List.set_cons_succ, List.countP_cons] at this ⊢
      omega

theorem find_slot_loop_true (h : Hash) (key : Nat) : ∀ (fuel pos : Nat) (fd : Option Nat)
    (p : Nat), find_slot_loop h key fuel pos fd = .ok (true, p) → h.keys[p]? = some key := by
  intro fuel
  induction fuel with
  | zero => intro pos fd p hf; simp [find_slot_loop] at hf
  | succ f ih =>
    intro pos fd p hf
    rw [find_slot_loop] at hf
    cases hk : h.keys[pos]? with
    | none => rw [hk] at hf; cases hf
    | some k =>
      rw [hk] at hf
      simp only at hf
      by_cases h1 : k = key
      · rw [if_pos h1] at hf
        injection hf with hf
        injection hf with _ hp
        rw [← hp, hk, h1]
      · rw [if_neg h1] at hf
        by_cases h2 : k = HASH_SLOT_UNUSED
        · rw [if_pos h2] at hf
          injection hf with hf
          injection hf with hb _
          cases hb
        · rw [if_neg h2] at hf
          exact ih _ _ p hf

theorem find_slot_true (h : Hash) (key p : Nat) (hf : find_slot h key = .ok (true, p)) :
    h.keys[p]? = some key := by
  unfold find_slot at hf
  split_ifs at hf
  exact find_slot_loop_true h key _ _ _ p hf

theorem used_slots_pos (keys : List Nat) (p k : Nat) (h : keys[p]? = some k)
    (hu : slot_used k = true) : 0 < used_slots keys := by
  have := used_set_deleted keys p k h hu
  omega

/-- `hash_rm` keeps the load invariant. -/
theorem hash_rm_load (h h2 : Hash) (key : Nat) (hinv : LoadInv h)
    (hused : slot_used key = true) (hrm : hash_rm h key = .ok h2) :
    LoadInv h2 ∧ h2.taken_slots ≤ h.taken_slots ∧ h2.size = h.size := by
  unfold hash_rm at hrm
  cases hf : find_slot h key with
  | error e => rw [hf] at hrm; cases hrm
  | ok r =>
    obtain ⟨b, pos⟩ := r
    rw [hf] at hrm
    cases b with
    | false =>
      simp only at hrm
      injection hrm with hrm
      subst hrm
      exact ⟨hinv, le_refl _, rfl⟩
    | true =>
      simp only at hrm
      injection hrm with hrm
      subst hrm
      have hk := find_slot_true h key pos hf
      have hpos := used_slots_pos h.keys pos key hk hused
      have hdel := used_set_deleted h.keys pos key hk hused
      have h1 := hinv.used_le
      have h2 := hinv.load
      have h3 := hinv.size_lt
      have hw : wrapU32 (h.taken_slots + 4294967295) = h.taken_slots - 1 := by
        unfold wrapU32
        omega
      refine ⟨⟨hinv.size_pos, hinv.size_lt, ?_, ?_⟩, ?_, rfl⟩
      · show used_slots (h.keys.set pos HASH_SLOT_DELETED) ≤ wrapU32 (h.taken_slots + 4294967295)
        rw [hw]
        omega
      · show wrapU32 (h.taken_slots + 4294967295) * 256 < 176 * h.size
        rw [hw]
        omega
      · show wrapU32 (h.taken_slots + 4294967295) ≤ h.taken_slots
        rw [hw]
        omega

theorem LoadInv_hash_new (n d : Nat) (hn : 0 < n) (h32 : n < 4294967296) :
    LoadInv (hash_new n d) := by
  refine ⟨hn, h32, ?_, ?_⟩
  · have hu : slot_used HASH_SLOT_UNUSED = false := by decide
    simp [hash_new, used_slots, List.countP_replicate, hu]
  · show 0 * 256 < 176 * n
    omega

/-- The number of slots in use among the first slots of a table, as the loop of
`enlarge_table` sees them. -/
theorem used_zip_take (keys : List Nat) (vals : List (Option Nat)) (n : Nat) :
    ((keys.zip vals).take n).countP (fun e => slot_used e.1) ≤ used_slots keys := by
  have h1 : ((keys.zip vals).take n).countP (fun e => slot_used e.1)
      ≤ (keys.zip vals).countP (fun e => slot_used e.1) :=
    List.Sublist.countP_le _ (List.take_sublist _ _)
  have h2 : ∀ (ks : List Nat) (vs : List (Option Nat)),
      (ks.zip vs).countP (fun e => slot_used e.1) ≤ used_slots ks := by
    intro ks
    induction ks with
    | nil => intro vs; simp [used_slots]
    | cons k ks ih =>
      intro vs
      cases vs with
      | nil => simp [used_slots]
      | cons v vs =>
        have := ih vs
        simp only [List.zip_cons_cons, List.countP_cons, used_slots] at this ⊢
        split_ifs <;> omega
  exact le_trans h1 (h2 keys vals)

/-- The loop of `enlarge_table` keeps the load invariant of the new table, given
that the `hash_set` it calls does. -/
theorem enlarge_loop_load (set : Hash → Nat → Nat → Except Err Hash)
    (hset : ∀ n k v n2, LoadInv n → slot_used k = true → n.taken_slots + 1 < 16777216 →
      set n k v = .ok n2 → LoadInv n2 ∧ n2.taken_slots ≤ n.taken_slots + 1 ∧ n.size ≤ n2.size) :
    ∀ (L : List (Nat × Option Nat)) (new new2 : Hash), LoadInv new →
      new.taken_slots + L.countP (fun e => slot_used e.1) < 16777216 →
      enlarge_loop set L new = .ok new2 →
      LoadInv new2 ∧ new2.taken_slots ≤ new.taken_slots + L.countP (fun e => slot_used e.1) ∧
        new.size ≤ new2.size := by
  intro L
  induction L with
  | nil =>
    intro new new2 hinv _ h
    rw [enlarge_loop] at h
    injection h with h
    subst h
    exact ⟨hinv, by simp, le_refl _⟩
  | cons e L ih =>
    intro new new2 hinv hb h
    obtain ⟨k, v⟩ := e
    by_cases hu : slot_used k = true
    · simp only [enlarge_loop, hu, if_true] at h
      simp only [List.countP_cons, hu, if_true] at hb ⊢
      cases v with
      | none => simp only at h; cases h
      | some val =>
        simp only at h
        cases hs : set new k val with
        | error err => rw [hs] at h; cases h
        | ok n2 =>
          rw [hs] at h
          simp only at h
          obtain ⟨i1, i2, i3⟩ := hset new k val n2 hinv hu (by omega) hs
          obtain ⟨j1, j2, j3⟩ := ih n2 new2 i1 (by omega) h
          exact ⟨j1, by omega, by omega⟩
    · simp only [enlarge_loop, hu] at h
      simp only [List.countP_cons, hu] at hb ⊢
      obtain ⟨j1, j2, j3⟩ := ih new new2 hinv (by simpa using hb) h
      exact ⟨j1, by simpa using j2, j3⟩

/-- `hash_set` keeps the load invariant, as long as `taken_slots << 8` does not
overflow. -/
theorem hash_set_load : ∀ (fuel : Nat) (h : Hash) (key val : Nat) (h2 : Hash),
    LoadInv h → slot_used key = true → h.taken_slots + 1 < 16777216 →
    hash_set fuel h key val = .ok h2 →
    LoadInv h2 ∧ h2.taken_slots ≤ h.taken_slots + 1 ∧ h.size ≤ h2.size := by
  intro fuel
  induction fuel with
  | zero => intro h key val h2 _ _ _ hs; rw [hash_set] at hs; cases hs
  | succ f ih =>
    intro h key val h2 hinv hused hb hs
    have hw1 : wrapU32 (h.taken_slots + 1) = h.taken_slots + 1 := by unfold wrapU32; omega
    have hw2 : wrapU32 ((h.taken_slots + 1) * 256) = (h.taken_slots + 1) * 256 := by
      unfold wrapU32; omega
    cases hf : find_slot h key with
    | error e => rw [hash_set, hf] at hs; cases hs
    | ok r =>
      obtain ⟨b, pos⟩ := r
      cases b with
      | true =>
        rw [hash_set_overwrite f h key val pos hf] at hs
        injection hs with hs
        subst hs
        have hk := find_slot_true h key pos hf
        refine ⟨⟨hinv.size_pos, hinv.size_lt, ?_, hinv.load⟩, Nat.le_succ _, le_refl _⟩
        show used_slots (h.keys.set pos key) ≤ h.taken_slots
        rw [set_same h.keys pos key hk]
        exact hinv.used_le
      | false =>
        by_cases hload : wrapU32 (wrapU32 (h.taken_slots + 1) * 256) / h.size > MAXLOAD
        · -- the table is enlarged
          have hge : 176 * h.size ≤ (h.taken_slots + 1) * 256 := by
            rw [hw1, hw2] at hload
            unfold MAXLOAD at hload
            have := (Nat.le_div_iff_mul_le hinv.size_pos).mp (Nat.succ_le_of_lt hload)
            omega
          have hsz : wrapU32 (h.size * 2 + 1) = 2 * h.size + 1 := by unfold wrapU32; omega
          rw [hash_set, hf] at hs
          simp only at hs
          rw [if_pos hload] at hs
          cases he : enlarge_table_with (hash_set f)
              { h with taken_slots := wrapU32 (h.taken_slots + 1) } with
          | error e => rw [he] at hs; cases hs
          | ok hE =>
            rw [he] at hs
            simp only at hs
            unfold enlarge_table_with at he
            simp only at he
            cases hl : enlarge_loop (hash_set f) ((h.keys.zip h.vals).take h.size)
                (hash_new (wrapU32 (h.size * 2 + 1)) NIL) with
            | error e => rw [hl] at he; cases he
            | ok new =>
              rw [hl] at he
              simp only at he
              injection he with he
              have hcnt := used_zip_take h.keys h.vals h.size
              have hul := hinv.used_le
              obtain ⟨j1, j2, j3⟩ := enlarge_loop_load (hash_set f)
                (fun n k v n2 a b c d => ih n k v n2 a b c d) _ _ new
                (LoadInv_hash_new _ NIL (by rw [hsz]; omega) (by rw [hsz]; omega))
                (by show 0 + _ < 16777216; omega) hl
              have j2b : new.taken_slots ≤ h.taken_slots := by
                have : new.taken_slots ≤ 0 + ((h.keys.zip h.vals).take h.size).countP
                    (fun e => slot_used e.1) := j2
                omega
              have j3b : 2 * h.size + 1 ≤ new.size := by
                have : (hash_new (wrapU32 (h.size * 2 + 1)) NIL).size ≤ new.size := j3
                rw [hsz] at this
                exact this
              have hEs : hE.size = new.size := by rw [← he]
              have hEk : hE.keys = new.keys := by rw [← he]
              have hEt : hE.taken_slots = h.taken_slots + 1 := by rw [← he]; exact hw1
              cases hf2 : find_slot hE key with
              | error e => rw [hf2] at hs; cases hs
              | ok r2 =>
                obtain ⟨b2, pos2⟩ := r2
                rw [hf2] at hs
                simp only at hs
                injection hs with hs
                subst hs
                have hu2 := used_set_le hE.keys pos2 key
                have ju := j1.used_le
                have hil := hinv.load
                have hsp := hinv.size_pos
                refine ⟨⟨?_, ?_, ?_, ?_⟩, ?_, ?_⟩
                · show 0 < hE.size
                  rw [hEs]; omega
                · show hE.size < 4294967296
                  rw [hEs]; exact j1.size_lt
                · show used_slots (hE.keys.set pos2 key) ≤ hE.taken_slots
                  rw [hEk] at hu2 ⊢
                  rw [hEt]
                  omega
                · show hE.taken_slots * 256 < 176 * hE.size
                  rw [hEt, hEs]
                  omega
                · show hE.taken_slots ≤ h.taken_slots + 1
                  rw [hEt]
                · show h.size ≤ hE.size
                  rw [hEs]; omega
        · -- the new entry fits
          rw [hash_set_insert f h key val pos hf hload] at hs
          injection hs with hs
          subst hs
          have hlt : (h.taken_slots + 1) * 256 < 176 * h.size := by
            rw [hw1, hw2] at hload
            unfold MAXLOAD at hload
            have h175 : (h.taken_slots + 1) * 256 / h.size < 176 := by omega
            have := (Nat.div_lt_iff_lt_mul hinv.size_pos).mp h175
            omega
          have hu2 := used_set_le h.keys pos key
          have hul := hinv.used_le
          refine ⟨⟨hinv.size_pos, hinv.size_lt, ?_, ?_⟩, ?_, le_refl _⟩
          · show used_slots (h.keys.set pos key) ≤ wrapU32 (h.taken_slots + 1)
            rw [hw1]; omega
          · show wrapU32 (h.taken_slots + 1) * 256 < 176 * h.size
            rw [hw1]; exact hlt
          · show wrapU32 (h.taken_slots + 1) ≤ h.taken_slots + 1
            rw [hw1]

/-- A run of `hash_set` and `hash_rm` keeps the load invariant. -/
theorem hash_run_load (fuel : Nat) : ∀ (ops : List HashOp) (h h2 : Hash), LoadInv h →
    (∀ op ∈ ops, slot_used op.key = true) → h.taken_slots + ops.length < 16777216 →
    hash_run fuel h ops = .ok h2 →
    LoadInv h2 ∧ h2.taken_slots ≤ h.taken_slots + ops.length := by
  intro ops
  induction ops with
  | nil =>
    intro h h2 hinv _ _ hrun
    rw [hash_run] at hrun
    injection hrun with hrun
    subst hrun
    exact ⟨hinv, le_refl _⟩
  | cons op ops ih =>
    intro h h2 hinv hkeys hlen hrun
    simp only [List.length_cons] at hlen
    have hk := hkeys op (List.mem_cons_self _ _)
    have hrest : ∀ o ∈ ops, slot_used o.key = true :=
      fun o ho => hkeys o (List.mem_cons_of_mem _ ho)
    cases op with
    | set k v =>
      rw [hash_run] at hrun
      cases hs : hash_set fuel h k v with
      | error e => rw [hs] at hrun; cases hrun
      | ok h1 =>
        rw [hs] at hrun
        obtain ⟨i1, i2, -⟩ := hash_set_load fuel h k v h1 hinv hk (by omega) hs
        obtain ⟨j1, j2⟩ := ih h1 h2 i1 hrest (by omega) hrun
        exact ⟨j1, by simp only [List.length_cons]; omega⟩
    | rm k =>
      rw [hash_run] at hrun
      cases hs : hash_rm h k with
      | error e => rw [hs] at hrun; cases hrun
      | ok h1 =>
        rw [hs] at hrun
        obtain ⟨i1, i2, -⟩ := hash_rm_load h h1 k hinv hk hs
        obtain ⟨j1, j2⟩ := ih h1 h2 i1 hrest (by omega) hrun
        exact ⟨j1, by simp only [List.length_cons]; omega⟩

/-- Claim C14, amended: on a table created by `hash_new` with a capacity from 1 to
`2^32 - 1` and then changed by fewer than `2^24` calls of `hash_set` and `hash_rm`
that return, with keys other than the two slot sentinels, the quotient
`(taken_slots << 8) / size` that `hash_set` tests is at most `MAXLOAD` = 175 after
each call; in exact terms `256 * taken_slots < 176 * size`. -/
theorem hash_load_bound (fuel initsize default_val : Nat) (ops : List HashOp) (h : Hash)
    (hsize : 1 ≤ initsize) (h32 : initsize < 4294967296)
    (hkeys : ∀ op ∈ ops, slot_used op.key = true) (hlen : ops.length < 16777216)
    (hrun : hash_run fuel (hash_new initsize default_val) ops = .ok h) :
    wrapU32 (h.taken_slots * 256) / h.size ≤ MAXLOAD ∧
      256 * h.taken_slots < 176 * h.size := by
  obtain ⟨hinv, htk⟩ := hash_run_load fuel ops (hash_new initsize default_val) h
    (LoadInv_hash_new initsize default_val hsize h32) hkeys
    (by show 0 + ops.length < 16777216; omega) hrun
  have htk2 : h.taken_slots ≤ 0 + ops.length := htk
  have h1 := hinv.load
  have h2 := hinv.size_lt
  have h3 := hinv.size_pos
  have hw : wrapU32 (h.taken_slots * 256) = h.taken_slots * 256 := by unfold wrapU32; omega
  refine ⟨?_, by omega⟩
  rw [hw]
  unfold MAXLOAD
  have : h.taken_slots * 256 / h.size < 176 := (Nat.div_lt_iff_lt_mul h3).mpr (by omega)
  omega

set_option maxRecDepth 100000 in
/-- Witness for C14: three calls on a table of capacity 3. -/
theorem hash_load_bound_witness :
    hash_run 2 (hash_new 3 0) [.set (int2any 0) 7, .rm (int2any 0), .set (int2any 1) 7]
        = .ok { size := 3, taken_slots := 1,
                keys := [HASH_SLOT_DELETED, int2any 1, HASH_SLOT_UNUSED],
                vals := [some 7, some 7, none], default_value := 0 } ∧
      wrapU32 (1 * 256) / 3 ≤ MAXLOAD ∧ 256 * 1 < 176 * 3 :=
  ⟨by decide,
    hash_load_bound 2 3 0 [.set (int2any 0) 7, .rm (int2any 0), .set (int2any 1) 7]
      { size := 3, taken_slots := 1,
        keys := [HASH_SLOT_DELETED, int2any 1, HASH_SLOT_UNUSED],
        vals := [some 7, some 7, none], default_value := 0 }
      (by decide) (by decide) (by decide) (by decide) (by decide)⟩

set_option maxRecDepth 100000 in
/-- Counterexample for C14 as stated: thirteen keys set in a table of capacity 19
leave it with count 13 and capacity 19, and 13/19 is above 175/256 (the test of
`hash_set` divides with rounding down: `(13 << 8) / 19` is 175).  And `hash_rm` of
the sentinel `HASH_SLOT_UNUSED` on a new table of capacity 1 "finds" the key in
the unused slot and counts down from 0 to `2^32 - 1`. -/
theorem hash_load_above_ratio :
    (hash_run 2 (hash_new 19 0) ((List.range 13).map fun (i : Nat) => HashOp.set (int2any i) 7)
        = .ok { size := 19, taken_slots := 13,
                keys := [HASH_SLOT_UNUSED, HASH_SLOT_UNUSED, int2any 12, int2any 9, int2any 6,
                  int2any 3, int2any 0, HASH_SLOT_UNUSED, HASH_SLOT_UNUSED, int2any 10,
                  int2any 7, int2any 4, int2any 1, HASH_SLOT_UNUSED, HASH_SLOT_UNUSED,
                  int2any 11, int2any 8, int2any 5, int2any 2],
                vals := [none, none, some 7, some 7, some 7, some 7, some 7, none, none,
                  some 7, some 7, some 7, some 7, none, none, some 7, some 7, some 7, some 7],
                default_value := 0 } ∧
      175 * 19 < 256 * 13) ∧
    hash_run 2 (hash_new 1 0) [.rm HASH_SLOT_UNUSED]
      = .ok { size := 1, taken_slots := 4294967295, keys := [HASH_SLOT_DELETED],
              vals := [none], default_value := 0 } := by
  refine ⟨⟨?_, ?_⟩, ?_⟩ <;> decide

end Word

/-! ## Regions and `copy_sub` -/

namespace Region

theorem load_store_same (m m2 : Mem) (a w : Nat) (h : store m a w = .ok m2) :
    load m2 a = .ok w := by
  unfold store at h
  split_ifs at h with ha
  cases hl : m.cells.lookup a with
  | none => rw [hl] at h; cases h
  | some v =>
    rw [hl] at h
    injection h with h
    subst h
    unfold load
    rw [if_neg ha]
    simp [List.lookup]

theorem load_store_other (m m2 : Mem) (a b w : Nat) (h : store m a w = .ok m2) (hab : b ≠ a) :
    load m2 b = load m b := by
  unfold store at h
  split_ifs at h with ha
  cases hl : m.cells.lookup a with
  | none => rw [hl] at h; cases h
  | some v =>
    rw [hl] at h
    injection h with h
    subst h
    unfold load
    have : (b == a) = false := by simpa using hab
    simp [List.lookup, this]

theorem store_fields (m m2 : Mem) (a w : Nat) (h : store m a w = .ok m2) :
    m2.reg_stack = m.reg_stack ∧ m2.reg_sp = m.reg_sp ∧ m2.allocp = m.allocp ∧
      m2.current_block = m.current_block := by
  unfold store at h
  split_ifs at h with ha
  cases hl : m.cells.lookup a with
  | none => rw [hl] at h; cases h
  | some v =>
    rw [hl] at h
    injection h with h
    subst h
    exact ⟨rfl, rfl, rfl, rfl⟩

theorem store_of_load (m : Mem) (a v w : Nat) (h : load m a = .ok v) :
    ∃ m2, store m a w = .ok m2 := by
  unfold load at h
  unfold store
  split_ifs at h with ha
  rw [if_neg ha]
  cases hl : m.cells.lookup a with
  | none => rw [hl] at h; cases h
  | some u => exact ⟨_, rfl⟩

/-- A write of the word that is there already changes no read. -/
theorem load_store_idem (m m2 : Mem) (a w : Nat) (hl : load m a = .ok w)
    (h : store m a w = .ok m2) (b : Nat) : load m2 b = load m b := by
  by_cases hab : b = a
  · subst hab
    rw [load_store_same m m2 b w h, hl]
  · exact load_store_other m m2 a b w h hab

theorem store_reg_spec (m : Mem) (r v1 v2 : Nat) (h1 : load m r = .ok v1)
    (h2 : load m (r + 8) = .ok v2) :
    ∃ m2, store_reg m r = .ok m2 ∧ load m2 (r + 8) = .ok m.allocp ∧
      load m2 r = .ok m.current_block ∧
      (m2.reg_stack = m.reg_stack ∧ m2.reg_sp = m.reg_sp ∧ m2.allocp = m.allocp ∧
        m2.current_block = m.current_block) ∧
      ∀ b v, load m b = .ok v → ∃ v2, load m2 b = .ok v2 := by
  obtain ⟨ma, hma⟩ := store_of_load m (r + 8) v2 m.allocp h2
  have hr : load ma r = .ok v1 := by
    rw [load_store_other m ma (r + 8) r _ hma (by omega)]; exact h1
  obtain ⟨mb, hmb⟩ := store_of_load ma r v1 m.current_block hr
  have fa := store_fields m ma _ _ hma
  have fb := store_fields ma mb _ _ hmb
  refine ⟨mb, ?_, ?_, ?_, ?_, ?_⟩
  · rw [store_reg, hma]; exact hmb
  · rw [load_store_other ma mb r (r + 8) _ hmb (by omega)]
    exact load_store_same m ma _ _ hma
  · exact load_store_same ma mb _ _ hmb
  · exact ⟨fb.1.trans fa.1, fb.2.1.trans fa.2.1, fb.2.2.1.trans fa.2.2.1,
      fb.2.2.2.trans fa.2.2.2⟩
  · intro b v hb
    by_cases hbr : b = r
    · subst hbr; exact ⟨_, load_store_same ma mb _ _ hmb⟩
    · rw [load_store_other ma mb r b _ hmb hbr]
      by_cases hb8 : b = r + 8
      · subst hb8; exact ⟨_, load_store_same m ma _ _ hma⟩
      · rw [load_store_other m ma (r + 8) b _ hma hb8]; exact ⟨v, hb⟩

/-- Storing the cached state into the region it was loaded from changes no read. -/
theorem store_reg_idem (m : Mem) (r : Nat) (h1 : load m r = .ok m.current_block)
    (h2 : load m (r + 8) = .ok m.allocp) :
    ∃ m2, store_reg m r = .ok m2 ∧ (∀ b, load m2 b = load m b) ∧
      m2.reg_stack = m.reg_stack ∧ m2.reg_sp = m.reg_sp := by
  obtain ⟨ma, hma⟩ := store_of_load m (r + 8) _ m.allocp h2
  have ia := load_store_idem m ma _ _ h2 hma
  have hr : load ma r = .ok m.current_block := by rw [ia]; exact h1
  obtain ⟨mb, hmb⟩ := store_of_load ma r _ m.current_block hr
  have ib := load_store_idem ma mb _ _ hr hmb
  have fa := store_fields m ma _ _ hma
  have fb := store_fields ma mb _ _ hmb
  refine ⟨mb, ?_, ?_, fb.1.trans fa.1, fb.2.1.trans fa.2.1⟩
  · rw [store_reg, hma]; exact hmb
  · intro b; rw [ib, ia]

theorem load_reg_spec (m : Mem) (r a b : Nat) (h1 : load m r = .ok b)
    (h2 : load m (r + 8) = .ok a) :
    load_reg m r = .ok { m with allocp := a, current_block := b } := by
  rw [load_reg, h2]
  simp only
  rw [h1]

/-- Claim C17: in a state of the region stack with fewer than 64 entries in use
(`reg_sp` points at the top entry, so `reg_sp + 1` entries are in use) whose top
entry is a region, for a region `r`: `reg_push(r)` returns, `reg_pop()` right after
it returns `r`, and `reg_sp`, `allocp` and `current_block` are then what they were
before the push. -/
theorem reg_push_pop (m : Mem) (r tos : Nat) (hlen : m.reg_stack.length = 64)
    (hsp : m.reg_sp + 1 < 64) (htos : m.reg_stack[m.reg_sp]? = some tos)
    (hreg : is_reg m tos = true) (hr : is_reg m r = true) :
    ∃ m1 m2, reg_push m r = .ok m1 ∧ reg_pop m1 = .ok (r, m2) ∧
      m2.reg_sp = m.reg_sp ∧ m2.allocp = m.allocp ∧
      m2.current_block = m.current_block := by
  -- the two regions are mapped
  obtain ⟨t1, t2, ht1, ht2⟩ : ∃ t1 t2, load m tos = .ok t1 ∧ load m (tos + 8) = .ok t2 := by
    unfold is_reg at hreg
    cases h1 : load m tos with
    | error e => rw [h1] at hreg; simp at hreg
    | ok v1 =>
      cases h2 : load m (tos + 8) with
      | error e => rw [h1, h2] at hreg; simp at hreg
      | ok v2 => exact ⟨v1, v2, rfl, rfl⟩
  obtain ⟨r1, r2, hr1, hr2⟩ : ∃ r1 r2, load m r = .ok r1 ∧ load m (r + 8) = .ok r2 := by
    unfold is_reg at hr
    cases h1 : load m r with
    | error e => rw [h1] at hr; simp at hr
    | ok v1 =>
      cases h2 : load m (r + 8) with
      | error e => rw [h1, h2] at hr; simp at hr
      | ok v2 => exact ⟨v1, v2, rfl, rfl⟩
  -- the push
  obtain ⟨ma, hma, la8, la, ⟨fs, fp, -, -⟩, hmap⟩ := store_reg_spec m tos t1 t2 ht1 ht2
  obtain ⟨b1, hb1⟩ := hmap r r1 hr1
  obtain ⟨a1, ha1⟩ := hmap (r + 8) r2 hr2
  obtain ⟨mc, hmc⟩ : ∃ mc : Mem,
      mc = { ma with reg_sp := ma.reg_sp + 1, reg_stack := ma.reg_stack.set (ma.reg_sp + 1) r } :=
    ⟨_, rfl⟩
  have lc : ∀ x, load mc x = load ma x := by intro x; rw [hmc]; rfl
  obtain ⟨m1, hm1⟩ : ∃ m1 : Mem, m1 = { mc with allocp := a1, current_block := b1 } := ⟨_, rfl⟩
  have l1 : ∀ x, load m1 x = load ma x := by intro x; rw [hm1, ← lc]; rfl
  have hpush : reg_push m r = .ok m1 := by
    rw [reg_push, htos]
    simp only
    rw [hma]
    simp only
    rw [if_pos (by rw [fs, fp, hlen]; exact hsp), ← hmc,
      load_reg_spec mc r a1 b1 (by rw [lc]; exact hb1) (by rw [lc]; exact ha1), hm1]
  -- the pop
  have hsp1 : m1.reg_sp = m.reg_sp + 1 := by rw [hm1, hmc]; simp [fp]
  have hst1 : m1.reg_stack = m.reg_stack.set (m.reg_sp + 1) r := by rw [hm1, hmc]; simp [fs, fp]
  have htop : m1.reg_stack[m1.reg_sp]? = some r := by
    rw [hsp1, hst1]
    simp [hlen, hsp]
  have hcb : m1.current_block = b1 := by rw [hm1]
  have hal : m1.allocp = a1 := by rw [hm1]
  obtain ⟨md, hmd, ld, fds, fdp⟩ := store_reg_idem m1 r
    (by rw [l1, hcb]; exact hb1) (by rw [l1, hal]; exact ha1)
  have hbelow : md.reg_stack[md.reg_sp - 1]? = some tos := by
    rw [fds, fdp, hsp1, hst1]
    simp only [Nat.add_sub_cancel]
    rw [List.getElem?_set_ne (by omega)]
    exact htos
  obtain ⟨me, hme⟩ : ∃ me : Mem, me = { md with reg_sp := md.reg_sp - 1 } := ⟨_, rfl⟩
  have le : ∀ x, load me x = load ma x := by
    intro x
    rw [← l1, ← ld, hme]
    rfl
  refine ⟨m1, { me with allocp := m.allocp, current_block := m.current_block }, hpush, ?_,
    ?_, rfl, rfl⟩
  · rw [reg_pop, htop]
    simp only
    rw [hmd]
    simp only
    rw [if_neg (by rw [fdp, hsp1]; omega), hbelow]
    simp only
    rw [← hme, load_reg_spec me tos m.allocp m.current_block (by rw [le]; exact la)
      (by rw [le]; exact la8)]
  · show me.reg_sp = m.reg_sp
    rw [hme]
    show md.reg_sp - 1 = m.reg_sp
    rw [fdp, hsp1]
    omega

/-- Witness for C17: the permanent region on the stack, another region pushed. -/
theorem reg_push_pop_witness :
    heap_example.reg_stack.length = 64 ∧ heap_example.reg_sp + 1 < 64 ∧
      is_reg heap_example 4104 = true ∧ is_reg heap_example 8200 = true ∧
      ∃ m1 m2, reg_push heap_example 8200 = .ok m1 ∧ reg_pop m1 = .ok (8200, m2) ∧
        m2.reg_sp = heap_example.reg_sp ∧ m2.allocp = heap_example.allocp ∧
        m2.current_block = heap_example.current_block :=
  ⟨by decide, by decide, by decide, by decide,
    reg_push_pop heap_example 8200 4104 (by decide) (by decide) (by decide) (by decide)
      (by decide)⟩

/-- The pointer `copy_sub` returns lies past the object it made: the loop leaves
`p` after the last slot. -/
theorem copy_env_end (bw : Nat) : ∀ (fuel : Nat) (m : Mem) (s p i n p2 : Nat) (m2 : Mem),
    i ≤ n → copy_env bw fuel m s p i n = .ok (p2, m2) → p2 = p + 8 * (n - i) := by
  intro fuel
  induction fuel with
  | zero => intro m s p i n p2 m2 _ h; rw [copy_env] at h; cases h
  | succ f ih =>
    intro m s p i n p2 m2 hin h
    rw [copy_env] at h
    by_cases hi : i = n
    · rw [if_pos hi] at h
      injection h with h
      injection h with h1 h2
      rw [← h1, hi]
      simp
    · rw [if_neg hi] at h
      cases hl : load m (s + 8 + 8 * i) with
      | error e => rw [hl] at h; cases h
      | ok v =>
        rw [hl] at h
        simp only at h
        cases hc : copy bw f m v with
        | error e => rw [hc] at h; cases h
        | ok r =>
          obtain ⟨v2, m1⟩ := r
          rw [hc] at h
          simp only at h
          cases hs : store m1 p v2 with
          | error e => rw [hs] at h; cases h
          | ok ms =>
            rw [hs] at h
            simp only at h
            have := ih ms s (p + 8) (i + 1) n p2 m2 (by omega) h
            omega

/-- The value `copy_sub` returns, whenever it returns: the sub-tagged address of
the word after the new object, which starts at the old `allocp` and has `1 + n`
words for a sub-code with environment size `n`. -/
theorem copy_sub_result (bw fuel : Nat) (m m2 : Mem) (x r : Nat)
    (h : copy_sub bw fuel m x = .ok (r, m2)) :
    ∃ code n, load m (Word.untag x) = .ok code ∧ size_of_env m code = .ok n ∧
      r = Word.tag (m.allocp + 8 * (1 + n)) Word.t_sub := by
  cases fuel with
  | zero => rw [copy_sub] at h; cases h
  | succ f =>
    rw [copy_sub] at h
    cases hc : Word.check x Word.t_sub with
    | error e => rw [hc] at h; cases h
    | ok u =>
      rw [hc] at h
      simp only at h
      cases hl : load m (Word.untag x) with
      | error e => rw [hl] at h; cases h
      | ok code =>
        rw [hl] at h
        simp only at h
        cases hw : size_of_env m code with
        | error e => rw [hw] at h; cases h
        | ok n =>
          rw [hw] at h
          simp only at h
          cases ha : reg_alloc bw m (1 + n) with
          | error e => rw [ha] at h; cases h
          | ok pa =>
            obtain ⟨p, m1⟩ := pa
            rw [ha] at h
            simp only at h
            have hp : p = m.allocp := by
              unfold reg_alloc at ha
              split_ifs at ha
              injection ha with ha
              injection ha with ha1 _
              exact ha1.symm
            cases hs : store m1 p code with
            | error e => rw [hs] at h; cases h
            | ok ms =>
              rw [hs] at h
              simp only at h
              cases he : copy_env bw f ms (Word.untag x) (p + 8) 0 n with
              | error e => rw [he] at h; cases h
              | ok pe =>
                obtain ⟨p2, m3⟩ := pe
                rw [he] at h
                simp only at h
                injection h with h
                injection h with h1 _
                have := copy_env_end bw f ms (Word.untag x) (p + 8) 0 n p2 m3
                  (Nat.zero_le _) he
                refine ⟨code, n, rfl, hw, ?_⟩
                rw [← h1, this, hp]
                congr 1
                omega

set_option maxRecDepth 100000 in
/-- Claim C12 fails on the code: `copy` of the sub at 4168 of `heap_example` (a
primitive, environment size 0) makes the new object at the old `allocp`, 4176,
with the code pointer of the sub, but returns the sub-tagged address 4184, which
is one word past the new object and belongs to no object.  For the sub with two
environment slots in `heap_example_env` the new object is at 4200 with the code
pointer and both slots copied in order, and the value returned is the sub-tagged
address 4224 past it. -/
theorem copy_sub_past_object :
    (∃ m2, copy 512 3 heap_example (Word.tag 4168 Word.t_sub)
        = .ok (Word.tag 4184 Word.t_sub, m2) ∧
      load m2 4176 = .ok 4120 ∧ m2.allocp = 4184 ∧
      load m2 (Word.untag (Word.tag 4184 Word.t_sub)) = .error .undefined) ∧
    (∃ m2, copy 512 5 heap_example_env (Word.tag 4176 Word.t_sub)
        = .ok (Word.tag 4224 Word.t_sub, m2) ∧
      load m2 4200 = .ok 4120 ∧ load m2 4208 = .ok (Word.int2any 1) ∧
      load m2 4216 = .ok (Word.int2any 2) ∧ m2.allocp = 4224 ∧
      load m2 (Word.untag (Word.tag 4224 Word.t_sub)) = .error .undefined) := by
  constructor
  · refine ⟨{ heap_example with
              allocp := 4184
              cells := (4176, 4120) :: (4176, 0) :: heap_example.cells },
      ?_, ?_, ?_, ?_⟩ <;> decide
  · refine ⟨{ heap_example_env with
              allocp := 4224
              cells := (4216, Word.int2any 2) :: (4208, Word.int2any 1) :: (4200, 4120)
                :: (4200, 0) :: (4208, 0) :: (4216, 0) :: heap_example_env.cells },
      ?_, ?_, ?_, ?_, ?_, ?_⟩ <;> decide

end Region

/-! ## A tail call -/

set_option maxRecDepth 100000 in
/-- The state `tailcall_example` is the one the evaluator is in when it comes to the
`OP_TAILCALL` of the form `(id 7)`, read, compiled and run after `bone_init`. -/
theorem tailcall_example_reached :
    ∃ st st1, bone_init 512 = .ok st ∧
      bone_read 512 [40, 105, 100, 32, 55, 41] = .ok (Val.list [.sym [105, 100], .num 7], []) ∧
      compile2sub_code st (Val.list [.sym [105, 100], .num 7]) = .ok (43, st1) ∧
      ∀ fuel, call (fuel + 6) st1 { code := 43, env := [] } []
        = exec (fuel + 1) tailcall_example { code := 43, env := [] } [] none 0 6 := by
  have hinit := bone_init_ok 512 (by decide)
  have hlist : compile2list (init_csubs_done csub_table (vm_zero 512))
      (Val.list [.sym [105, 100], .num 7])
      = .ok [OP_CONST, .sub 6, OP_PREPARE_CALL, OP_CONST, .num 7, OP_ADD_ARG,
             OP_TAILCALL, OP_RET] := by decide
  have hcomp := compile2sub_code_ok (init_csubs_done csub_table (vm_zero 512)) _ _ hlist
    (by decide) (by decide)
  have hlen : (init_csubs_done csub_table (vm_zero 512)).codes.length = 43 := by decide
  rw [hlen] at hcomp
  refine ⟨_, _, hinit, by decide, hcomp, fun fuel => ?_⟩
  rfl

/-- Claim C21: `OP_TAILCALL` on a prepared call whose required arguments are all
filled (`nonrest_args_left` is 0).  One round of the dispatch loop takes the state
`st` to a state `st2` in which `call_stack_sp` is where it was, the entry it points
to has its `tail_calls` raised by one (and nothing else changed in `call_stack`),
`next_call` is one frame down with `upcoming_calls` as it was, and the loop goes on
with the callee `s` (its code and its environment), the prepared buffer
`the_args` and `ip` at the first instruction.  The counter is a C `int` below
`INT_MAX`. -/
theorem tailcall_reuses_frame (fuel : Nat) (st : VM) (subr s : SubObj) (args : List Val)
    (lam : Option Nat) (envp ip : Nat) (sc : SubCode) (f : UpcomingCall) (p : Nat)
    (e : CallEntry)
    (hc : st.codes[subr.code]? = some sc) (hi : sc.code[ip]? = some OP_TAILCALL)
    (hnc : st.next_call ≠ 0) (hf : st.upcoming_calls[st.next_call]? = some f)
    (hleft : f.nonrest_args_left = 0) (hp : f.to_be_called = some p)
    (hs : st.subs[p]? = some s)
    (he : st.call_stack[st.call_stack_sp]? = some e)
    (hint : isInt32 e.tail_calls) (hmax : e.tail_calls ≠ 2147483647) :
    ∃ st2, exec (fuel + 1) st subr args lam envp ip = exec fuel st2 s f.the_args lam envp 0 ∧
      st2.call_stack_sp = st.call_stack_sp ∧
      st2.call_stack[st.call_stack_sp]? = some { e with tail_calls := e.tail_calls + 1 } ∧
      st2.call_stack.length = st.call_stack.length ∧
      (∀ i, i ≠ st.call_stack_sp → st2.call_stack[i]? = st.call_stack[i]?) ∧
      st2.next_call + 1 = st.next_call ∧ st2.upcoming_calls = st.upcoming_calls ∧
      st2.codes = st.codes ∧ st2.subs = st.subs ∧ st2.last_value = st.last_value := by
  obtain ⟨tb, left, rc, the_args, next⟩ := f
  simp only at hleft hp
  subst hleft hp
  have hpop := pop_call_frame st p 0 rc the_args next s hnc hf hs
  rw [if_neg (by simp)] at hpop
  have hw : wrap32 (e.tail_calls + 1) = e.tail_calls + 1 := by
    obtain ⟨h1, h2⟩ := hint
    unfold wrap32
    omega
  have hlt : st.call_stack_sp < st.call_stack.length := (List.getElem?_eq_some.mp he).1
  have hcount : count_tail_call { st with next_call := st.next_call - 1 }
      = .ok { st with next_call := st.next_call - 1
                      call_stack := st.call_stack.set st.call_stack_sp
                        { e with tail_calls := e.tail_calls + 1 } } := by
    rw [count_tail_call]
    simp only [he, hw]
  refine ⟨_, exec_tailcall fuel st _ _ subr s args the_args lam envp ip sc hc hi hpop hcount,
    rfl, ?_, ?_, ?_, ?_, rfl, rfl, rfl, rfl⟩
  · show (st.call_stack.set st.call_stack_sp _)[st.call_stack_sp]? = _
    rw [List.getElem?_set_self hlt]
  · show (st.call_stack.set st.call_stack_sp _).length = _
    rw [List.length_set]
  · intro i hi2
    show (st.call_stack.set st.call_stack_sp _)[i]? = _
    rw [List.getElem?_set_ne (Ne.symm hi2)]
  · show st.next_call - 1 + 1 = st.next_call
    omega

set_option maxRecDepth 100000 in
/-- Witness for C21: the `OP_TAILCALL` of `(id 7)` in the state `tailcall_example`.
The call-stack entry 1 goes from 0 to 1 tail calls, `call_stack_sp` stays 1,
`next_call` goes from 1 to 0, and the loop goes on in the sub of `id` with the
buffer `[7]`. -/
theorem tailcall_reuses_frame_witness :
    tailcall_example.next_call = 1 ∧ tailcall_example.call_stack_sp = 1 ∧
    ∃ st2, exec 3 tailcall_example { code := 43, env := [] } [] none 0 6
        = exec 2 st2 { code := 6, env := [] } [.num 7] none 0 0 ∧
      st2.call_stack_sp = 1 ∧
      st2.call_stack[1]? = some { subr := some { code := 43, env := [] }, tail_calls := 1 } ∧
      st2.call_stack.length = 256 ∧
      st2.next_call + 1 = 1 := by
  obtain ⟨st2, h1, h2, h3, h4, -, h6, -⟩ := tailcall_reuses_frame 2 tailcall_example
    { code := 43, env := [] } { code := 6, env := [] } [] none 0 6 tailcall_code
    ⟨some 6, 0, .raw 0, [.num 7], 1⟩ 6 ⟨some { code := 43, env := [] }, 0⟩
    (by decide) (by decide) (by decide) (by decide) rfl rfl (by decide) (by decide)
    (by decide) (by decide)
  exact ⟨by decide, by decide, st2, h1, h2, h3, h4, h6⟩

/-! ## Rehashing -/

namespace Word

/-- The probe loop answers that the key is new only at an unused slot. -/
theorem find_slot_loop_false (h : Hash) (key : Nat) : ∀ (fuel pos : Nat) (fd : Option Nat)
    (p : Nat), find_slot_loop h key fuel pos fd = .ok (false, p) →
    HASH_SLOT_UNUSED ∈ h.keys := by
  intro fuel
  induction fuel with
  | zero => intro pos fd p hf; simp [find_slot_loop] at hf
  | succ f ih =>
    intro pos fd p hf
    rw [find_slot_loop] at hf
    cases hk : h.keys[pos]? with
    | none => rw [hk] at hf; cases hf
    | some k =>
      rw [hk] at hf
      simp only at hf
      by_cases h1 : k = key
      · rw [if_pos h1] at hf
        injection hf with hf
        injection hf with hb _
        cases hb
      · rw [if_neg h1] at hf
        by_cases h2 : k = HASH_SLOT_UNUSED
        · rw [← h2]
          exact List.mem_iff_getElem?.mpr ⟨pos, hk⟩
        · rw [if_neg h2] at hf
          exact ih _ _ p hf

/-- When `find_slot` reports that the key is new, the table has an unused slot. -/
theorem find_slot_false (h : Hash) (key p : Nat) (hf : find_slot h key = .ok (false, p)) :
    HASH_SLOT_UNUSED ∈ h.keys := by
  unfold find_slot at hf
  split_ifs at hf
  exact find_slot_loop_false h key _ _ _ p hf

/-- Claim C22: `hash_set` of a key that `find_slot` reports as new, on a well-formed
table (what `hash_new` makes and `hash_set` and `hash_rm` keep).  The call returns;
the count is the old count plus one, the default value is unchanged, the new key
maps to `val` and every key stored before maps to the value it had.  If
`(count << 8) / capacity` with the new count exceeds `MAXLOAD`, the table is
rehashed by `enlarge_table`: the capacity becomes `2 * old + 1`, and the rehash
leaves the count and the default value as they are and every stored key with its
value.  If the bound is not exceeded the capacity is unchanged. -/
theorem hash_set_rehash (fuel : Nat) (h : Hash) (hwf : WF h) (key val pos : Nat)
    (hused : slot_used key = true) (hnew : find_slot h key = .ok (false, pos)) :
    ∃ h2, hash_set (fuel + 2) h key val = .ok h2 ∧
      h2.taken_slots = wrapU32 (h.taken_slots + 1) ∧
      h2.default_value = h.default_value ∧
      hash_get h2 key = .ok val ∧
      (∀ k v, slot_used k = true → Has h k v → hash_get h k = .ok v ∧ hash_get h2 k = .ok v) ∧
      (wrapU32 (wrapU32 (h.taken_slots + 1) * 256) / h.size > MAXLOAD →
        h2.size = 2 * h.size + 1 ∧
        ∃ h1, enlarge_table (fuel + 1) { h with taken_slots := wrapU32 (h.taken_slots + 1) }
            = .ok h1 ∧
          h1.size = 2 * h.size + 1 ∧ h1.taken_slots = wrapU32 (h.taken_slots + 1) ∧
          h1.default_value = h.default_value ∧
          ∀ k v, slot_used k = true → Has h k v → hash_get h1 k = .ok v) ∧
      (¬ wrapU32 (wrapU32 (h.taken_slots + 1) * 256) / h.size > MAXLOAD →
        h2.size = h.size) := by
  have hun : HASH_SLOT_UNUSED ∈ h.keys := find_slot_false h key pos hnew
  have habs : Absent h key := by
    rcases hwf.has_or_absent key hused with ⟨w, i, hi, _⟩ | ha
    · have hfs := find_slot_found h hwf key i hi hused
      rw [hfs] at hnew
      cases hnew
    · exact ha
  obtain ⟨p, e0, hfs, he0, hp, hslot, hbef⟩ := find_slot_absent h hwf.size_pos
    hwf.size_lt hwf.keys_len key habs hun
  by_cases hload : wrapU32 (wrapU32 (h.taken_slots + 1) * 256) / h.size > MAXLOAD
  · -- the table is rehashed
    have hsz : h.size < 2147483648 := by
      have h1 : wrapU32 (wrapU32 (h.taken_slots + 1) * 256) < 4294967296 :=
        Nat.mod_lt _ (by decide)
      have h2 : 176 ≤ wrapU32 (wrapU32 (h.taken_slots + 1) * 256) / h.size := hload
      have h3 := (Nat.le_div_iff_mul_le hwf.size_pos).mp h2
      omega
    obtain ⟨h2, hset, hres⟩ := hash_set_spec h hwf hsz key val hused hun fuel
    have hwf1 : WF { h with taken_slots := wrapU32 (h.taken_slots + 1) } :=
      hwf.congr_arrays rfl rfl rfl
    obtain ⟨h1, hen, hwfe, hsize1, -, -, htaken1, hdef1, hcont1⟩ :=
      enlarge_table_spec _ hwf1 hsz fuel
    have hshape : h2.size = 2 * h.size + 1 ∧ h2.taken_slots = wrapU32 (h.taken_slots + 1) := by
      rcases hres.shape with ⟨_, _, _, hna⟩ | ⟨_, _, _, hnl, _⟩ | ⟨_, _, hs, ht, _⟩
      · exact absurd habs hna
      · exact absurd hload hnl
      · exact ⟨hs, ht⟩
    refine ⟨h2, hset, hshape.2, hres.default_eq, hash_get_has hres.wf key val hused hres.has,
      ?_, fun _ => ⟨hshape.1, h1, hen, hsize1, htaken1, hdef1, ?_⟩, fun hn => absurd hload hn⟩
    · intro k v hu hkv
      have hne : k ≠ key := fun hk => by
        obtain ⟨i, hi, _⟩ := hkv
        rw [hk] at hi
        exact habs i hi
      exact ⟨hash_get_has hwf k v hu hkv,
        hash_get_has hres.wf k v hu ((hres.others k v hne hu).mpr hkv)⟩
    · intro k v hu hkv
      refine hash_get_has hwfe k v hu ((hcont1 k v hu).mpr ?_)
      exact (Has.congr_cells rfl rfl k v).mpr hkv
  · -- the key goes into the slot found
    obtain ⟨hwf2, hhas2, hoth2⟩ := hwf.set_at key val (wrapU32 (h.taken_slots + 1)) p e0
      hused habs he0 hp hslot hbef
    refine ⟨_, hash_set_insert (fuel + 1) h key val p hfs hload, rfl, rfl,
      hash_get_has hwf2 key val hused hhas2, ?_, fun hl => absurd hl hload, fun _ => rfl⟩
    intro k v hu hkv
    have hne : k ≠ key := fun hk => by
      obtain ⟨i, hi, _⟩ := hkv
      rw [hk] at hi
      exact habs i hi
    exact ⟨hash_get_has hwf k v hu hkv,
      hash_get_has hwf2 k v hu ((hoth2 k v hne hu).mpr hkv)⟩

set_option maxRecDepth 100000 in
/-- The table `table_example` is what two calls of `hash_set` make of
`hash_new(3, 0)`, and it is well-formed. -/
theorem table_example_wf :
    hash_run 2 (hash_new 3 0) [.set (int2any 0) 7, .set (int2any 1) 8] = .ok table_example ∧
    WF table_example := by
  refine ⟨by decide, ?_⟩
  obtain ⟨a, ha, hra⟩ := hash_set_spec (hash_new 3 0) (WF_hash_new 3 0 (by decide) (by decide))
    (by decide) (int2any 0) 7 (by decide) (by decide) 0
  have ha2 : hash_set 2 (hash_new 3 0) (int2any 0) 7
      = .ok ⟨3, 1, [int2any 0, HASH_SLOT_UNUSED, HASH_SLOT_UNUSED], [some 7, none, none], 0⟩ := by
    decide
  rw [ha2] at ha
  injection ha with ha
  subst ha
  obtain ⟨b, hb, hrb⟩ := hash_set_spec _ hra.wf (by decide) (int2any 1) 8 (by decide)
    (by decide) 0
  have hb2 : hash_set 2
      ⟨3, 1, [int2any 0, HASH_SLOT_UNUSED, HASH_SLOT_UNUSED], [some 7, none, none], 0⟩
      (int2any 1) 8 = .ok table_example := by decide
  rw [hb2] at hb
  injection hb with hb
  subst hb
  exact hrb.wf

set_option maxRecDepth 100000 in
/-- Witness for C22: a third key set in `table_example` (capacity 3, two keys).  The
new count 3 gives `(3 << 8) / 3 = 256`, above 175: the table is rehashed to
capacity 7, the count is 3, and the two keys stored before map to 7 and 8 as
before. -/
theorem hash_set_rehash_witness :
    find_slot table_example (int2any 2) = .ok (false, 2) ∧
    ∃ h2, hash_set 2 table_example (int2any 2) 9 = .ok h2 ∧ h2.size = 2 * 3 + 1 ∧
      h2.taken_slots = 3 ∧ h2.default_value = 0 ∧ hash_get h2 (int2any 2) = .ok 9 ∧
      hash_get h2 (int2any 0) = .ok 7 ∧ hash_get h2 (int2any 1) = .ok 8 := by
  obtain ⟨h2, hset, ht, hd, hg, hk, hload, -⟩ := hash_set_rehash 0 table_example
    table_example_wf.2 (int2any 2) 9 2 (by decide) (by decide)
  exact ⟨by decide, h2, hset, (hload (by decide)).1, ht, hd, hg,
    (hk (int2any 0) 7 (by decide) ⟨0, rfl, rfl⟩).2, (hk (int2any 1) 8 (by decide) ⟨1, rfl, rfl⟩).2⟩

/-- The loop of `enlarge_table` gives the same table with any `set` that returns
what the first one returns. -/
theorem enlarge_loop_mono (set1 set2 : Hash → Nat → Nat → Except Err Hash)
    (hmono : ∀ h k v r, set1 h k v = .ok r → set2 h k v = .ok r) :
    ∀ (l : List (Nat × Option Nat)) (new r : Hash),
      enlarge_loop set1 l new = .ok r → enlarge_loop set2 l new = .ok r := by
  intro l
  induction l with
  | nil => intro new r h; exact h
  | cons e rest ih =>
    intro new r h
    obtain ⟨k, v⟩ := e
    by_cases hu : slot_used k = true
    · simp only [enlarge_loop, hu, if_true] at h ⊢
      cases v with
      | none => cases h
      | some val =>
        simp only at h ⊢
        cases h1 : set1 new k val with
        | error e1 => rw [h1] at h; cases h
        | ok new2 =>
          rw [h1] at h
          rw [hmono new k val new2 h1]
          exact ih new2 r h
    · simp only [enlarge_loop, hu] at h ⊢
      exact ih new r h

/-- More fuel does not change what `hash_set` returns. -/
theorem hash_set_fuel_succ : ∀ (fuel : Nat) (h : Hash) (key val : Nat) (r : Hash),
    hash_set fuel h key val = .ok r → hash_set (fuel + 1) h key val = .ok r := by
  intro fuel
  induction fuel with
  | zero => intro h key val r hr; simp [hash_set] at hr
  | succ f ih =>
    intro h key val r hr
    rw [hash_set] at hr ⊢
    cases hfs : find_slot h key with
    | error e => rw [hfs] at hr; cases hr
    | ok res =>
      obtain ⟨b, pos⟩ := res
      rw [hfs] at hr
      cases b with
      | true => exact hr
      | false =>
        simp only at hr ⊢
        by_cases hload : wrapU32 (wrapU32 (h.taken_slots + 1) * 256) / h.size > MAXLOAD
        · rw [if_pos hload] at hr ⊢
          cases hen : enlarge_table_with (hash_set f)
              { h with taken_slots := wrapU32 (h.taken_slots + 1) } with
          | error e => rw [hen] at hr; cases hr
          | ok h2 =>
            rw [hen] at hr
            have hen2 : enlarge_table_with (hash_set (f + 1))
                { h with taken_slots := wrapU32 (h.taken_slots + 1) } = .ok h2 := by
              unfold enlarge_table_with at hen ⊢
              cases hl : enlarge_loop (hash_set f)
                  (List.take h.size (h.keys.zip h.vals))
                  (hash_new (wrapU32 (h.size * 2 + 1)) NIL) with
              | error e => simp only [hl] at hen; cases hen
              | ok new =>
                simp only [hl] at hen
                have := enlarge_loop_mono (hash_set f) (hash_set (f + 1)) ih _ _ _ hl
                simp only [this]
                exact hen
            rw [hen2]
            exact hr
        · rw [if_neg hload] at hr ⊢
          exact hr

/-- The result of `hash_set` with some fuel is its result with any larger fuel. -/
theorem hash_set_fuel_le (f g : Nat) (hfg : f ≤ g) (h : Hash) (key val : Nat) (r : Hash)
    (hr : hash_set f h key val = .ok r) : hash_set g h key val = .ok r := by
  induction hfg with
  | refl => exact hr
  | step _ ih => exact hash_set_fuel_succ _ h key val r ih


/-- A `hash_set` that returns keeps a table well-formed. -/
theorem hash_set_wf (fuel : Nat) (h h2 : Hash) (key val : Nat) (hwf : WF h)
    (hused : slot_used key = true) (hr : hash_set fuel h key val = .ok h2) : WF h2 := by
  cases fuel with
  | zero => simp [hash_set] at hr
  | succ f =>
    cases hfs : find_slot h key with
    | error e => rw [hash_set, hfs] at hr; cases hr
    | ok res =>
      obtain ⟨b, pos⟩ := res
      cases b with
      | true =>
        have hi := find_slot_true h key pos hfs
        rw [hash_set_overwrite f h key val pos hfs] at hr
        injection hr with hr
        subst hr
        exact (hwf.set_found key val pos hused hi).1
      | false =>
        have hun : HASH_SLOT_UNUSED ∈ h.keys := find_slot_false h key pos hfs
        have habs : Absent h key := by
          rcases hwf.has_or_absent key hused with ⟨w, i, hi, _⟩ | ha
          · have hf2 := find_slot_found h hwf key i hi hused
            rw [hf2] at hfs
            cases hfs
          · exact ha
        by_cases hload : wrapU32 (wrapU32 (h.taken_slots + 1) * 256) / h.size > MAXLOAD
        · have hsz : h.size < 2147483648 := by
            have h1 : wrapU32 (wrapU32 (h.taken_slots + 1) * 256) < 4294967296 :=
              Nat.mod_lt _ (by decide)
            have h2 : 176 ≤ wrapU32 (wrapU32 (h.taken_slots + 1) * 256) / h.size := hload
            have h3 := (Nat.le_div_iff_mul_le hwf.size_pos).mp h2
            omega
          obtain ⟨h3, hset, hres⟩ := hash_set_spec h hwf hsz key val hused hun f
          have := hash_set_fuel_le (f + 1) (f + 2) (Nat.le_succ _) h key val h2 hr
          rw [this] at hset
          injection hset with hset
          subst hset
          exact hres.wf
        · obtain ⟨p, e0, hfs2, he0, hp, hslot, hbef⟩ := find_slot_absent h hwf.size_pos
            hwf.size_lt hwf.keys_len key habs hun
          rw [hash_set_insert f h key val p hfs2 hload] at hr
          injection hr with hr
          subst hr
          exact (hwf.set_at key val (wrapU32 (h.taken_slots + 1)) p e0 hused habs he0 hp
            hslot hbef).1

/-- A `hash_rm` that returns keeps a table well-formed. -/
theorem hash_rm_wf (h h2 : Hash) (key : Nat) (hwf : WF h) (hused : slot_used key = true)
    (hr : hash_rm h key = .ok h2) : WF h2 := by
  have hkU := (slot_used_iff key).mp hused
  cases hfs : find_slot h key with
  | error e => rw [hash_rm, hfs] at hr; cases hr
  | ok res =>
    obtain ⟨b, i⟩ := res
    cases b with
    | false =>
      simp only [hash_rm, hfs] at hr
      injection hr with hr
      subst hr
      exact hwf
    | true =>
      have hi := find_slot_true h key i hfs
      have hik : i < h.keys.length := (List.getElem?_eq_some.mp hi).1
      obtain ⟨t, ht⟩ : ∃ t, t = wrapU32 (h.taken_slots + 4294967295) := ⟨_, rfl⟩
      have hres : hash_rm h key
          = .ok { h with keys := h.keys.set i HASH_SLOT_DELETED, taken_slots := t } := by
        simp only [hash_rm, hfs, ht]
      rw [hres] at hr
      injection hr with hr
      subst hr
      have hget : ∀ j : Nat, (h.keys.set i HASH_SLOT_DELETED)[j]?
          = if i = j then some HASH_SLOT_DELETED else h.keys[j]? := by
        intro j
        rw [List.getElem?_set]
        by_cases hij : i = j
        · rw [if_pos hij, if_pos hij, if_pos hik]
        · rw [if_neg hij, if_neg hij]
      refine ⟨hwf.size_pos, hwf.size_lt, ?_, hwf.vals_len, ?_, ?_⟩
      · show (h.keys.set i HASH_SLOT_DELETED).length = h.size
        rw [List.length_set]; exact hwf.keys_len
      · intro j k hj hk
        have hj2 : (h.keys.set i HASH_SLOT_DELETED)[j]? = some k := hj
        have hkU2 := (slot_used_iff k).mp hk
        rw [hget] at hj2
        by_cases hij : i = j
        · rw [if_pos hij] at hj2
          exact absurd (Option.some.inj hj2).symm hkU2.2
        · rw [if_neg hij] at hj2
          obtain ⟨d, hd, hpd, hb⟩ := hwf.chain j k hj2 hk
          refine ⟨d, hd, hpd, ?_⟩
          intro e he
          show (h.keys.set i HASH_SLOT_DELETED)[probe h k e]? ≠ some k ∧
            (h.keys.set i HASH_SLOT_DELETED)[probe h k e]? ≠ some HASH_SLOT_UNUSED
          rw [hget]
          by_cases hie : i = probe h k e
          · rw [if_pos hie]
            exact ⟨fun hc => hkU2.2 (Option.some.inj hc).symm,
              fun hc => deleted_ne_unused (Option.some.inj hc)⟩
          · rw [if_neg hie]
            exact hb e he
      · intro j k hj hk
        have hj2 : (h.keys.set i HASH_SLOT_DELETED)[j]? = some k := hj
        have hkU2 := (slot_used_iff k).mp hk
        rw [hget] at hj2
        by_cases hij : i = j
        · rw [if_pos hij] at hj2
          exact absurd (Option.some.inj hj2).symm hkU2.2
        · rw [if_neg hij] at hj2
          exact hwf.vals_def j k hj2 hk

/-- A run of calls of `hash_set` and `hash_rm` that return, with keys other than the
two slot sentinels, keeps a table well-formed. -/
theorem hash_run_wf (fuel : Nat) : ∀ (ops : List HashOp) (h h2 : Hash), WF h →
    (∀ op ∈ ops, slot_used op.key = true) → hash_run fuel h ops = .ok h2 → WF h2 := by
  intro ops
  induction ops with
  | nil =>
    intro h h2 hwf _ hr
    simp only [hash_run] at hr
    injection hr with hr
    subst hr
    exact hwf
  | cons op rest ih =>
    intro h h2 hwf hk hr
    have hrest : ∀ o ∈ rest, slot_used o.key = true :=
      fun o ho => hk o (List.mem_cons_of_mem _ ho)
    have hop := hk op (List.mem_cons_self _ _)
    cases op with
    | set k v =>
      rw [hash_run] at hr
      cases h1 : hash_set fuel h k v with
      | error e => rw [h1] at hr; cases hr
      | ok h3 =>
        rw [h1] at hr
        exact ih h3 h2 (hash_set_wf fuel h h3 k v hwf hop h1) hrest hr
    | rm k =>
      rw [hash_run] at hr
      cases h1 : hash_rm h k with
      | error e => rw [h1] at hr; cases hr
      | ok h3 =>
        rw [h1] at hr
        exact ih h3 h2 (hash_rm_wf h h3 k hwf hop h1) hrest hr

/-- Every table the program can reach is well-formed: what `hash_new(n, d)` makes
for `1 <= n < 2^32`, and every table reached from it by calls of `hash_set` and
`hash_rm` that return, with keys other than the two slot sentinels. -/
theorem hash_reachable_wf (fuel n d : Nat) (ops : List HashOp) (h : Hash) (hn : 1 ≤ n)
    (h32 : n < 4294967296) (hk : ∀ op ∈ ops, slot_used op.key = true)
    (hr : hash_run fuel (hash_new n d) ops = .ok h) : WF h :=
  hash_run_wf fuel ops _ h (WF_hash_new n d hn h32) hk hr


end Word

/-! ## The table of symbol characters -/

set_option maxRecDepth 100000 in
/-- On the bytes 0..127 `is_symchar` reads the table, and the table holds what the
specification says. -/
theorem is_symchar_ascii (c : Nat) (h : c < 128) :
    is_symchar (c : Int) = .ok (symchar_spec c) := by
  have hall : ∀ d ∈ List.range 128, is_symchar (d : Int) = .ok (symchar_spec d) := by decide
  exact hall c (List.mem_range.mpr h)

set_option maxRecDepth 100000 in
/-- For the bytes 128..255 `is_symchar` indexes `allowed_chars`, which has 128
entries, past its end. -/
theorem is_symchar_high (c : Nat) (h1 : 128 ≤ c) (h2 : c < 256) :
    is_symchar (c : Int) = .error .undefined := by
  have hlen : allowed_chars.length = 128 := by decide
  have hnone : allowed_chars[c]? = none := by
    rw [List.getElem?_eq_none_iff, hlen]; exact h1
  unfold is_symchar
  rw [if_pos ⟨by omega, by omega⟩, Int.toNat_ofNat, hnone]

set_option maxRecDepth 100000 in
/-- Claim C23 fails on the code for the bytes 128..255.  The table `allowed_chars`
has 128 entries, and on the bytes 0..127 `is_symchar` returns what the claim says;
for each byte from 128 to 255 the test `c < 256` lets the lookup go past the end of
the table.  The reader gets there on the input `a` followed by the byte `0x80`. -/
theorem is_symchar_past_table :
    allowed_chars.length = 128 ∧
    (List.range 128).all
      (fun c => decide (is_symchar (c : Int) = .ok (symchar_spec c))) = true ∧
    (List.range' 128 128).all
      (fun c => decide (is_symchar (c : Int) = .error .undefined)) = true ∧
    bone_read 512 [97, 128] = .error .undefined := by
  refine ⟨by decide, by decide, by decide, by decide⟩

/-! ## A table of tombstones -/

namespace Word

/-- In `tombstone_table` the probe loop for `int2any(3)` leaves from no slot. -/
theorem tombstone_loop : ∀ (fuel pos : Nat) (fd : Option Nat), pos < 3 →
    find_slot_loop tombstone_table (int2any 3) fuel pos fd = .error .diverge := by
  intro fuel
  induction fuel with
  | zero => intro pos fd _; rfl
  | succ fuel ih =>
    intro pos fd hpos
    have hk : tombstone_table.keys[pos]? = some HASH_SLOT_DELETED := by
      interval_cases pos <;> rfl
    have h1 : HASH_SLOT_DELETED ≠ int2any 3 := by decide
    have h2 : HASH_SLOT_DELETED ≠ HASH_SLOT_UNUSED := by decide
    rw [find_slot_loop]
    simp only [hk, if_neg h1, if_neg h2]
    apply ih
    have hs : tombstone_table.size = 3 := rfl
    rw [hs]
    unfold wrapU32
    split_ifs <;> omega

set_option maxRecDepth 100000 in
/-- Claim C24 fails on the code: from `hash_new(1, 0)`, setting and removing three
keys in turn (the first set rehashes to capacity 3; the keys have the home slots 0,
1 and 2) gives a table whose three slots are all tombstones.  No slot is marked
unused, and the probe loop of `find_slot` for the absent key `int2any(3)` does not
leave from any slot, whatever the number of probes allowed. -/
theorem hash_run_all_tombstones :
    hash_run 2 (hash_new 1 0)
      [.set (int2any 0) 7, .rm (int2any 0), .set (int2any 1) 7, .rm (int2any 1),
       .set (int2any 2) 7, .rm (int2any 2)] = .ok tombstone_table ∧
    HASH_SLOT_UNUSED ∉ tombstone_table.keys ∧
    (∀ (fuel pos : Nat) (fd : Option Nat),
      find_slot_loop tombstone_table (int2any 3) fuel (pos % 3) fd = .error .diverge) ∧
    find_slot tombstone_table (int2any 3) = .error .diverge := by
  refine ⟨by decide, by decide, ?_, by decide⟩
  intro fuel pos fd
  exact tombstone_loop fuel (pos % 3) fd (Nat.mod_lt _ (by decide))

end Word

/-! ## The call stack pointer -/

/-! None of the steps of the dispatch loop changes `call_stack_sp`. -/

theorem prepare_call_sp (st st2 : VM) (h : prepare_call st = .ok st2) :
    st2.call_stack_sp = st.call_stack_sp := by
  unfold prepare_call at h
  repeat' split at h
  all_goals (cases h; try rfl)

theorem add_arg_sp (st st2 : VM) (h : add_arg st = .ok st2) :
    st2.call_stack_sp = st.call_stack_sp := by
  unfold add_arg at h
  repeat' split at h
  all_goals (cases h; try rfl)

theorem pop_call_sp (st st2 : VM) (s : SubObj) (a : List Val)
    (h : pop_call st = .ok (s, a, st2)) : st2.call_stack_sp = st.call_stack_sp := by
  unfold pop_call at h
  repeat' split at h
  all_goals (cases h; try rfl)

theorem count_tail_call_sp (st st2 : VM) (h : count_tail_call st = .ok st2) :
    st2.call_stack_sp = st.call_stack_sp := by
  unfold count_tail_call at h
  repeat' split at h
  all_goals (cases h; try rfl)

theorem prepare_sub_sp (st st2 : VM) (v : Val) (l : Nat) (h : prepare_sub st v = .ok (l, st2)) :
    st2.call_stack_sp = st.call_stack_sp := by
  unfold prepare_sub at h
  repeat' split at h
  all_goals (cases h; try rfl)

theorem add_env_sp (st st2 : VM) (lam : Option Nat) (envp : Nat)
    (h : add_env st lam envp = .ok st2) : st2.call_stack_sp = st.call_stack_sp := by
  unfold add_env at h
  repeat' split at h
  all_goals (cases h; try rfl)

/-- One round of the dispatch loop does not lower `call_stack_sp`, given that the
runs with less fuel do not. -/
theorem exec_step_sp (fuel : Nat)
    (hcall : ∀ st subr args st2, call fuel st subr args = .ok st2 →
      st.call_stack_sp + 1 ≤ st2.call_stack_sp)
    (hexec : ∀ st subr args lam envp ip st2, exec fuel st subr args lam envp ip = .ok st2 →
      st.call_stack_sp ≤ st2.call_stack_sp)
    (hcsub : ∀ st f args st2, run_csub fuel st f args = .ok st2 →
      st.call_stack_sp ≤ st2.call_stack_sp) :
    ∀ st subr args lam envp ip st2, exec (fuel + 1) st subr args lam envp ip = .ok st2 →
      st.call_stack_sp ≤ st2.call_stack_sp := by
  intro st subr args lam envp ip st2 h
  cases lam <;> rw [exec] at h
  all_goals
    split at h
    · cases h
    · split at h
      · cases h
      · rename_i instr hi
        generalize hop : opcode_of instr = o at h
        rcases o with _ | w
        · cases h
        · rcases w with _|_|_|_|_|_|_|_|_|_|_|_|_|_|_|_|n
          all_goals (try dsimp only at h)
          all_goals try (cases h; done)
          all_goals try (split at h)
          all_goals try (cases h; done)
          all_goals try (split at h)
          all_goals try (cases h; done)
          all_goals try (split at h)
          all_goals try (cases h; done)
          all_goals try (split at h)
          all_goals try (cases h; done)
          all_goals first
            | (cases h; done)
            | (cases h; exact Nat.le_refl _)
            | (have h1 := hexec _ _ _ _ _ _ _ h; exact h1)
            | (have h1 := hcsub _ _ _ _ h; exact h1)
            | (have h1 := hexec _ _ _ _ _ _ _ h
               have h2 := prepare_call_sp _ _ (by assumption)
               omega)
            | (have h1 := hexec _ _ _ _ _ _ _ h
               have h2 := add_arg_sp _ _ (by assumption)
               omega)
            | (have h1 := hexec _ _ _ _ _ _ _ h
               have h2 := add_env_sp _ _ _ _ (by assumption)
               omega)
            | (have h1 := hexec _ _ _ _ _ _ _ h
               have h2 := prepare_sub_sp _ _ _ _ (by assumption)
               omega)
            | (have h1 := hexec _ _ _ _ _ _ _ h
               have h2 := pop_call_sp _ _ _ _ (by assumption)
               have h3 := count_tail_call_sp _ _ (by assumption)
               omega)
            | (have h1 := hexec _ _ _ _ _ _ _ h
               have h2 := pop_call_sp _ _ _ _ (by assumption)
               have h3 := hcall _ _ _ _ (by assumption)
               omega)

/-- The pointer `call_stack_sp` is never lowered: `call` raises it by one when it
is entered, and nothing in `call`, `apply` or the primitives lowers it again. -/
theorem call_stack_sp_mono : ∀ fuel : Nat,
    (∀ st subr args st2, call fuel st subr args = .ok st2 →
      st.call_stack_sp + 1 ≤ st2.call_stack_sp) ∧
    (∀ st subr args lam envp ip st2, exec fuel st subr args lam envp ip = .ok st2 →
      st.call_stack_sp ≤ st2.call_stack_sp) ∧
    (∀ st subr xs st2, apply fuel st subr xs = .ok st2 →
      st.call_stack_sp + 1 ≤ st2.call_stack_sp) ∧
    (∀ st subr xs st2, each_loop fuel st subr xs = .ok st2 →
      st.call_stack_sp ≤ st2.call_stack_sp) ∧
    (∀ st f args st2, run_csub fuel st f args = .ok st2 →
      st.call_stack_sp ≤ st2.call_stack_sp) := by
  intro fuel
  induction fuel with
  | zero =>
    refine ⟨?_, ?_, ?_, ?_, ?_⟩
    · intro st subr args st2 h; rw [call] at h; cases h
    · intro st subr args lam envp ip st2 h; rw [exec] at h; cases h
    · intro st subr xs st2 h; rw [apply] at h; cases h
    · intro st subr xs st2 h; rw [each_loop] at h; cases h
    · intro st f args st2 h; rw [run_csub] at h; cases h
  | succ fuel ih =>
    obtain ⟨hcall, hexec, happly, heach, hcsub⟩ := ih
    refine ⟨?_, exec_step_sp fuel hcall hexec hcsub, ?_, ?_, ?_⟩
    · intro st subr args st2 h
      rw [call] at h
      split_ifs at h
      have h1 := hexec _ _ _ _ _ _ _ h
      exact h1
    · intro st subr xs st2 h
      rw [apply] at h
      repeat' split at h
      all_goals first | cases h | exact hcall _ _ _ _ h
    · intro st subr xs st2 h
      unfold each_loop at h
      repeat' split at h
      all_goals first
        | (cases h; done)
        | (cases h; exact Nat.le_refl _)
        | (have h2 := happly _ _ _ _ (by assumption)
           have h3 := heach _ _ _ _ h
           omega)
    · intro st f args st2 h
      unfold run_csub at h
      repeat' split at h
      all_goals first
        | (cases h; done)
        | (cases h; exact Nat.le_refl _)
        | (have h1 := happly _ _ _ _ h; omega)
        | (have h1 := heach _ _ _ _ h; exact h1)

/-- With `call_stack_sp` at the last entry of `call_stack`, the `call_stack_sp++` of
the next call leaves the array. -/
theorem call_past_stack (fuel : Nat) (st : VM) (subr : SubObj) (args : List Val)
    (h : st.call_stack.length ≤ st.call_stack_sp + 1) :
    call (fuel + 1) st subr args = .error .undefined := by
  rw [call, if_neg (by omega)]

/-- Every `call` that returns leaves `call_stack_sp` above its value before the call. -/
theorem call_raises_sp (fuel : Nat) (st st2 : VM) (subr : SubObj) (args : List Val)
    (h : call fuel st subr args = .ok st2) : st.call_stack_sp < st2.call_stack_sp :=
  (call_stack_sp_mono fuel).1 st subr args st2 h

/-- The code `OP_CONST v`, `OP_RET` run by `call`: the state in which `call` returns
has `v` in `last_value` and `call_stack_sp` one entry above where it was. -/
theorem call_const_ret_sp (st : VM) (ci : Nat) (sc : SubCode) (v : Val)
    (hc : st.codes[ci]? = some sc) (hcode : sc.code = [OP_CONST, v, OP_RET])
    (hsp : st.call_stack_sp + 1 < st.call_stack.length) :
    ∃ st2, call 3 st { code := ci, env := [] } [] = .ok st2 ∧ st2.last_value = v ∧
      st2.call_stack_sp = st.call_stack_sp + 1 := by
  refine ⟨{ st with last_value := v
                    call_stack_sp := st.call_stack_sp + 1
                    call_stack := st.call_stack.set (st.call_stack_sp + 1)
                      { subr := some { code := ci, env := [] }, tail_calls := 0 } },
    ?_, rfl, rfl⟩
  rw [call_enter _ _ _ _ hsp,
    exec_const 1 _ _ _ _ _ _ sc v hc (by rw [hcode]; rfl) (by rw [hcode]; rfl),
    exec_ret 0 _ _ _ _ _ _ sc hc (by rw [hcode]; rfl)]

set_option maxRecDepth 100000 in
/-- Claim C25 fails on the code: in the state `bone_init` leaves, with `call_stack_sp`
at the bottom of `call_stack`, the form `1` is read, compiled and run as
`bone_repl` does it; `call` returns with `last_value` 1 and with `call_stack_sp`
one entry up, although no call is active any more.  (`call` does
`call_stack_sp++` on entry, and no statement of the program lowers the pointer.) -/
theorem call_leaves_sp_raised :
    ∃ st ci st1 st2, bone_init 512 = .ok st ∧ bone_read 512 [49] = .ok (.num 1, []) ∧
      compile2sub_code st (.num 1) = .ok (ci, st1) ∧
      call 3 st1 { code := ci, env := [] } [] = .ok st2 ∧ st2.last_value = .num 1 ∧
      st1.call_stack_sp = 0 ∧ st2.call_stack_sp = 1 := by
  have hinit := bone_init_ok 512 (by decide)
  obtain ⟨h1, h2, h3, -⟩ := bone_init_state 512 _ (by decide) hinit
  have hcomp := compile2sub_code_ok (init_csubs_done csub_table (vm_zero 512)) (.num 1)
    [OP_CONST, .num 1, OP_RET] rfl (by rw [h1]; decide) (by decide)
  obtain ⟨st2, hrun, hv, hsp⟩ := call_const_ret_sp
    { init_csubs_done csub_table (vm_zero 512) with
      codes := (init_csubs_done csub_table (vm_zero 512)).codes ++
        [{ argc := 0, has_rest := 0, localc := 0, name := BFALSE, size_of_env := 0,
           code := [OP_CONST, .num 1, OP_RET] }] }
    (init_csubs_done csub_table (vm_zero 512)).codes.length
    { argc := 0, has_rest := 0, localc := 0, name := BFALSE, size_of_env := 0,
      code := [OP_CONST, .num 1, OP_RET] }
    (.num 1) (by simp) rfl (by simp only [h2, h3]; decide)
  refine ⟨_, _, _, st2, hinit, by decide, hcomp, hrun, hv, h2, ?_⟩
  rw [hsp]
  show (init_csubs_done csub_table (vm_zero 512)).call_stack_sp + 1 = 1
  rw [h2]

/-! ## The writes of `apply` -/

/-- The loop of `apply_writes` and the loop of `apply_args` count and stop alike. -/
theorem apply_writes_loop_pos (sc : SubCode) : ∀ (xs : Val) (pos : Nat) (ws : List Nat)
    (args : List Val),
    (apply_writes_loop sc xs pos ws).map Prod.fst = (apply_loop sc xs pos args).map Prod.fst := by
  intro xs
  induction xs with
  | cons a d _ ihd =>
    intro pos ws args
    rw [apply_writes_loop, apply_loop]
    split_ifs
    · exact ihd _ _ _
    · exact ihd _ _ _
    · rfl
    · exact ihd _ _ _
  | _ => intro pos ws args; rfl

/-- The function `apply_writes` follows the same run as `apply_args`: one returns
exactly when the other does. -/
theorem apply_writes_ok_iff (bw : Nat) (sc : SubCode) (xs : Val) :
    (∃ ws, apply_writes bw sc xs = .ok ws) ↔ (∃ args, apply_args bw sc xs = .ok args) := by
  have hpos := apply_writes_loop_pos sc xs 0 [] (fresh_args (sc.argc + sc.has_rest + sc.localc))
  unfold apply_writes apply_args
  cases reg_alloc bw (sc.argc + sc.has_rest + sc.localc) with
  | error e => simp
  | ok u =>
    cases h1 : apply_writes_loop sc xs 0 [] with
    | error e1 =>
      cases h2 : apply_loop sc xs 0 (fresh_args (sc.argc + sc.has_rest + sc.localc)) with
      | error e2 => simp
      | ok r2 => rw [h1, h2] at hpos; cases hpos
    | ok r1 =>
      cases h2 : apply_loop sc xs 0 (fresh_args (sc.argc + sc.has_rest + sc.localc)) with
      | error e2 => rw [h1, h2] at hpos; cases hpos
      | ok r2 =>
        rw [h1, h2] at hpos
        have hp : r1.1 = r2.1 := by
          simpa [Except.map] using hpos
        obtain ⟨p1, ws⟩ := r1
        obtain ⟨p2, args⟩ := r2
        simp only at hp
        subst hp
        simp only
        split_ifs <;> simp

/-- What the loop of `apply` keeps true of its writes: every index is at most
`argc`, the index `argc` is written only for a sub with a rest parameter, and
without a rest parameter `pos` does not pass `argc`. -/
theorem apply_writes_loop_inv (sc : SubCode) : ∀ (xs : Val) (pos : Nat) (ws : List Nat)
    (pos2 : Nat) (ws2 : List Nat),
    apply_writes_loop sc xs pos ws = .ok (pos2, ws2) →
    (∀ i ∈ ws, i < sc.argc + sc.has_rest) →
    (sc.has_rest = 0 → pos ≤ sc.argc) →
    (∀ i ∈ ws2, i < sc.argc + sc.has_rest) ∧ (sc.has_rest = 0 → pos2 ≤ sc.argc) := by
  intro xs
  induction xs with
  | cons a d _ ihd =>
    intro pos ws pos2 ws2 h hws hpos
    rw [apply_writes_loop] at h
    split_ifs at h with h1 h2 h3
    · refine ihd _ _ _ _ h ?_ (fun _ => by omega)
      intro i hi
      rcases List.mem_append.mp hi with hi | hi
      · exact hws i hi
      · rw [List.mem_singleton.mp hi]; omega
    · refine ihd _ _ _ _ h ?_ (fun h0 => absurd h0 h3)
      intro i hi
      rcases List.mem_append.mp hi with hi | hi
      · exact hws i hi
      · rw [List.mem_singleton.mp hi]; omega
    · refine ihd _ _ _ _ h hws (fun h0 => ?_)
      have := hpos h0
      omega
  | _ =>
    intro pos ws pos2 ws2 h hws hpos
    simp only [apply_writes_loop, Except.ok.injEq, Prod.mk.injEq] at h
    obtain ⟨rfl, rfl⟩ := h
    exact ⟨hws, hpos⟩

/-- Where `apply` writes, for every sub-code and every value `xs` on which it does
not stop with an error: all writes stay inside the buffer of
`argc + has_rest + localc` words exactly when the sub has a rest parameter or a
local; for a sub with neither, the write `args[argc] = NIL` is always made, one
word past the buffer. -/
theorem apply_writes_inside_iff (bw : Nat) (sc : SubCode) (xs : Val) (ws : List Nat)
    (h : apply_writes bw sc xs = .ok ws) :
    ((∀ i ∈ ws, i < sc.argc + sc.has_rest + sc.localc) ↔ (sc.has_rest ≠ 0 ∨ sc.localc ≠ 0)) ∧
    (sc.has_rest = 0 → sc.argc ∈ ws) := by
  unfold apply_writes at h
  cases hal : reg_alloc bw (sc.argc + sc.has_rest + sc.localc) with
  | error e => rw [hal] at h; cases h
  | ok u =>
    rw [hal] at h
    cases hl : apply_writes_loop sc xs 0 [] with
    | error e => rw [hl] at h; cases h
    | ok r =>
      obtain ⟨pos, w0⟩ := r
      rw [hl] at h
      simp only at h
      obtain ⟨hin, hle⟩ := apply_writes_loop_inv sc xs 0 [] pos w0 hl
        (fun i hi => absurd hi (List.not_mem_nil i)) (fun _ => Nat.zero_le _)
      split_ifs at h with h1 h2
      · -- the loop ended with `pos == argc`
        injection h with h
        subst h
        refine ⟨⟨fun hall => ?_, fun hor i hi => ?_⟩, fun _ => ?_⟩
        · have := hall sc.argc (List.mem_append.mpr (Or.inr (List.mem_singleton.mpr rfl)))
          omega
        · rcases List.mem_append.mp hi with hi | hi
          · have := hin i hi; omega
          · rw [List.mem_singleton.mp hi]
            rcases hor with hor | hor <;> omega
        · exact List.mem_append.mpr (Or.inr (List.mem_singleton.mpr rfl))
      · -- the loop ended with `pos > argc`: the sub has a rest parameter
        injection h with h
        subst h
        have hrest : sc.has_rest ≠ 0 := fun h0 => by
          have := hle h0
          omega
        refine ⟨⟨fun _ => Or.inl hrest, fun _ i hi => ?_⟩, fun h0 => absurd h0 hrest⟩
        have := hin i hi
        omega

set_option maxRecDepth 100000 in
/-- Claim C26 fails on the code: in the state `bone_init` leaves, the sub-code of
`id` has one required argument, no rest parameter and no local, so `apply` gets a
buffer of one word for it.  Applied to the list `(7)`, `apply` neither reports a
wrong number of arguments nor leaves the buffer other than `[7]`, and it writes
`args[0]` and then `args[1]`, the word after the buffer (the write
`args[argc] = NIL`, made without looking at `has_rest`). -/
theorem apply_writes_past_buffer :
    ∃ st sc, bone_init 512 = .ok st ∧
      get_binding st (.sym [105, 100]) = .cons BINDING_DEFINED (.sub 6) ∧
      st.subs[6]? = some { code := 6, env := [] } ∧ st.codes[6]? = some sc ∧
      sc.argc + sc.has_rest + sc.localc = 1 ∧
      apply_args st.blockwords sc (Val.list [.num 7]) = .ok [.num 7] ∧
      apply_writes st.blockwords sc (Val.list [.num 7]) = .ok [0, 1] := by
  refine ⟨_, ⟨1, 0, 0, .sym [105, 100], 0, [OP_WRAP, .cptr .id]⟩,
    bone_init_ok 512 (by decide), ?_, ?_, ?_, ?_, ?_, ?_⟩ <;> decide

/-! ## The list-end marker -/

set_option maxRecDepth 100000 in
/-- Claim C27 fails on the code: for the input `')` the reader returns the pair
`(quote . READER_LIST_END)`, since the form after the quote character is read with
`reader`, which hands out the marker for a `)`; `bone_read` only looks at the value
itself.  Compiled in the state `bone_init` leaves, the pair gives code that loads
the marker into `last_value`, and `print` of the marker aborts.  The same happens
after a dot in a list, in the parameters of the lambda short form and after a
comma. -/
theorem quote_reads_list_end :
    bone_read 512 [39, 41] = .ok (.cons s_quote READER_LIST_END, []) ∧
    has_list_end (.cons s_quote READER_LIST_END) = true ∧
    (∃ st ci st1 st2, bone_init 512 = .ok st ∧
      compile2sub_code st (.cons s_quote READER_LIST_END) = .ok (ci, st1) ∧
      call 3 st1 { code := ci, env := [] } [] = .ok st2 ∧
      st2.last_value = READER_LIST_END) ∧
    print READER_LIST_END = .error .abort ∧
    bone_read 512 [40, 97, 32, 46, 32, 41, 41]
      = .ok (.cons (.sym [97]) READER_LIST_END, []) ∧
    bone_read 512 [124, 32, 41, 32, 40, 102, 41]
      = .ok (.cons s_lambda (.cons (.cons READER_LIST_END NIL)
          (.cons (.cons (.sym [102]) NIL) NIL)), []) ∧
    bone_read 512 [44, 41] = .ok (.cons s_unquote READER_LIST_END, []) := by
  refine ⟨by decide, by decide, ?_, by decide, by decide, by decide, by decide⟩
  obtain ⟨ci, st1, st2, hc, hrun, hv⟩ :=
    quote_compile_run 512 _ READER_LIST_END (bone_init_ok 512 (by decide)) (by decide)
  exact ⟨_, ci, st1, st2, bone_init_ok 512 (by decide), hc, hrun 3 (Nat.le_refl 3), hv⟩

end Bone
